import Mathlib

/-!
# szip: block sort, unsort and container, embedded from `sz_srt.c` and `szip.c`

The C arrays are modelled as total maps from index to machine word (`Mem`),
loops as structural recursion over the iteration count, and the process-wide
pointer-block arena of the n-order sort as one flat slot array per pass
(slot `i` of the C code lives in block `index[i >> 10]` at offset `i & 1023`;
a block is returned to the free list only after its last slot has been read,
so the old and the new index never alias).
-/

set_option autoImplicit false

namespace Szip

/-! ## Machine model -/

/-- A C array: a total map from index to the word stored there. -/
abbrev Mem := Nat → Nat

/-- The assignment `m[i] = v`. -/
def Mem.set (m : Mem) (i v : Nat) : Mem := fun k => if k = i then v else m k

/-- A zero-filled array (`calloc`, `memset(.., 0, ..)`). -/
def Mem.zero : Mem := fun _ => 0

/-- An array holding the bytes of `l` from index 0 on. -/
def Mem.ofList (l : List Nat) : Mem := fun i => l.getD i 0

/-- The first `n` cells of an array. -/
def Mem.toList (m : Mem) (n : Nat) : List Nat := (List.range n).map m

/-- The loop `for (i = start; i < start + n; i++) s = body i s`. -/
def forUp {σ : Type} (body : Nat → σ → σ) : Nat → Nat → σ → σ
  | _, 0, s => s
  | start, n + 1, s => forUp body (start + 1) n (body start s)

/-- The loop `for (i = n; i--; ) s = body i s`. -/
def forDown {σ : Type} (body : Nat → σ → σ) : Nat → σ → σ
  | 0, s => s
  | i + 1, s => forDown body i (body i s)

/-- Subtraction of two `uint4` values, wrapping modulo 2^32. -/
def u32sub (a b : Nat) : Nat := (a + 4294967296 - b % 4294967296) % 4294967296

def ALPHABETSIZE : Nat := 256
def ALPHABETBITS : Nat := 8
def ORDER2SIZE : Nat := ALPHABETSIZE * ALPHABETSIZE
def ORDER2MASK : Nat := ORDER2SIZE - 1
def ORDER16SIZE : Nat := 65536
def ORDER16MASK : Nat := ORDER16SIZE - 1
def INDIRECT : Nat := 0x800000

/-! ## Pointer index of the n-order sort -/

/-- The pointer slots of one sort pass: 16 high bits and 8 low bits per slot. -/
structure PtrIndex where
  msbytes : Mem
  lsbyte : Mem

/-- A freshly cleared index. -/
def PtrIndex.empty : PtrIndex := ⟨Mem.zero, Mem.zero⟩

/-- The function `setptr`: store the 24 low bits of `ptr` in slot `i`. -/
def setptr (p : PtrIndex) (i ptr : Nat) : PtrIndex :=
  { msbytes := p.msbytes.set i ((ptr >>> 8) % 65536)
    lsbyte := p.lsbyte.set i (ptr &&& 0xff) }

/-- The pointer read back from slot `i`: `(msbytes[i] << 8) | lsbyte[i]`. -/
def getptr (p : PtrIndex) (i : Nat) : Nat := (p.msbytes i <<< 8) ||| p.lsbyte i

/-- The loop `sum = length; for (i = n; i--; ) { sum -= a[i]; a[i] = sum; }`. -/
def sumReverse (n length : Nat) (a : Mem) : Mem :=
  (forDown (fun i (s : Nat × Mem) => (u32sub s.1 (s.2 i), s.2.set i (u32sub s.1 (s.2 i))))
    n (length, a)).2

/-! ## `sortorder2` -/

/-- State of the counting loop of `sortorder2`. -/
structure CountState where
  context : Nat
  counts : Mem
  o2counts : Mem

/-- The first loop of `sortorder2`: byte histogram and 2-byte context histogram. -/
def countContexts (inb : Mem) (length : Nat) : CountState :=
  forUp (fun i (s : CountState) =>
      let context := (s.context >>> ALPHABETBITS) ||| (inb i <<< ALPHABETBITS)
      { context := context
        counts := s.counts.set (inb i) (s.counts (inb i) + 1)
        o2counts := s.o2counts.set context (s.o2counts context + 1) })
    0 length ⟨inb (length - 1) <<< ALPHABETBITS, Mem.zero, Mem.zero⟩

/-- State of the two placement loops of `sortorder2`. -/
structure SeedState where
  inb : Mem
  context : Nat
  o2counts : Mem
  p : PtrIndex

/-- Body of `for (i = 0; i < offset; i++)` in `sortorder2`. -/
def seedWrapStep (length offset : Nat) (i : Nat) (s : SeedState) : SeedState :=
  let inb := s.inb.set (i + length) (s.inb i)
  let context := (s.context >>> ALPHABETBITS) ||| (inb (i + length - offset) <<< ALPHABETBITS)
  { inb := inb
    context := context
    o2counts := s.o2counts.set context (s.o2counts context + 1)
    p := setptr s.p (s.o2counts context) (i + length) }

/-- Body of `for (; i < length; i++)` in `sortorder2`. -/
def seedStep (offset : Nat) (i : Nat) (s : SeedState) : SeedState :=
  let context := (s.context >>> ALPHABETBITS) ||| (s.inb (i - offset) <<< ALPHABETBITS)
  { inb := s.inb
    context := context
    o2counts := s.o2counts.set context (s.o2counts context + 1)
    p := setptr s.p (s.o2counts context) i }

/-- Result of `sortorder2`. -/
structure SortState where
  inb : Mem
  p : PtrIndex
  counts : Mem
  indexlast : Nat

/-- The two indices at which `sortorder2` reads the block to set up `context` for
`indexlast`: `length - offset` and `length - offset - 1`, computed in `uint4`. -/
def lastContextIndex (length offset : Nat) : Nat × Nat :=
  (u32sub length offset, u32sub (u32sub length offset) 1)

/-- The function `sortorder2`; `order` is the value passed as `offset`. -/
def sortorder2 (p : PtrIndex) (inb : Mem) (length order : Nat) : SortState :=
  let c := countContexts inb length
  let o2counts := sumReverse ORDER2SIZE length c.o2counts
  let counts := sumReverse ALPHABETSIZE length c.counts
  let context := (inb (lastContextIndex length order).1 <<< ALPHABETBITS) |||
    inb (lastContextIndex length order).2
  let indexlast :=
    if context = ORDER2MASK then length - 1 else u32sub (o2counts (context + 1)) 1
  let offset := order - 1
  let s1 := forUp (seedWrapStep length offset) 0 offset ⟨inb, context, o2counts, p⟩
  let s2 := forUp (seedStep offset) offset (length - offset) s1
  { inb := s2.inb, p := s2.p, counts := counts, indexlast := indexlast }

/-! ## `incsortorder` and `finishsort` -/

/-- State of a re-bucketing loop: new index, cursors `ct`, last byte `ch`. -/
structure PassState where
  p : PtrIndex
  ct : Mem
  ch : Nat

/-- Loop body shared by both loops of `incsortorder`. -/
def incStep (old : PtrIndex) (inb : Mem) (offset : Nat) (i : Nat) (s : PassState) : PassState :=
  let tmp := getptr old i
  let ch := inb (tmp - offset)
  { p := setptr s.p (s.ct ch) tmp, ct := s.ct.set ch (s.ct ch + 1), ch := ch }

/-- The function `incsortorder`. -/
def incsortorder (offset : Nat) (length : Nat) (s : SortState) : SortState :=
  let a := forUp (incStep s.p s.inb offset) 0 (s.indexlast + 1) ⟨PtrIndex.empty, s.counts, 0⟩
  let indexlast := u32sub (a.ct a.ch) 1
  let b := forUp (incStep s.p s.inb offset) (s.indexlast + 1) (length - (s.indexlast + 1)) a
  { inb := s.inb, p := b.p, counts := s.counts, indexlast := indexlast }

/-- Loop body shared by both loops of `finishsort`. -/
def finishStep (old : PtrIndex) (inb : Mem) (i : Nat) (s : PassState) : PassState :=
  let tmp := getptr old i
  let ch := inb (tmp - 1)
  { p := setptr s.p (s.ct ch) (inb tmp), ct := s.ct.set ch (s.ct ch + 1), ch := ch }

/-- The function `finishsort`: the last pass, then the low bytes are copied back. -/
def finishsort (length : Nat) (s : SortState) : SortState :=
  let a := forUp (finishStep s.p s.inb) 0 (s.indexlast + 1) ⟨PtrIndex.empty, s.counts, 0⟩
  let indexlast := u32sub (a.ct a.ch) 1
  let b := forUp (finishStep s.p s.inb) (s.indexlast + 1) (length - (s.indexlast + 1)) a
  { inb := forUp (fun i (m : Mem) => m.set i (b.p.lsbyte i)) 0 length s.inb
    p := b.p, counts := s.counts, indexlast := indexlast }

/-- The function `sz_srt` on a buffer; the passes run for `i = order-2` down to `2`. -/
def sz_srt_mem (inout : Mem) (length order : Nat) : SortState :=
  let s := sortorder2 PtrIndex.empty inout length order
  let s := forDown (fun k s => incsortorder (k + 2) length s) (order - 3) s
  finishsort length s

/-- The function `sz_srt` on a block: the sorted block and `indexlast`. -/
def sz_srt (block : List Nat) (order : Nat) : List Nat × Nat :=
  let s := sz_srt_mem (Mem.ofList block) block.length order
  (s.inb.toList block.length, s.indexlast)

/-! ## `sz_unsrt` -/

/-- The macro `setbit`. -/
def setbit (flags : Mem) (bit : Nat) : Mem :=
  flags.set (bit >>> 3) (flags (bit >>> 3) ||| (1 <<< (bit &&& 7)))

/-- The macro `getbit`. -/
def getbit (flags : Mem) (bit : Nat) : Nat := (flags (bit >>> 3) >>> (bit &&& 7)) &&& 1

/-- State of the outer loop of `makeorder2`. -/
structure O2Flags where
  j : Nat
  ct : Mem
  flags : Mem

/-- The function `makeorder2`. -/
def makeorder2 (flags inb counts : Mem) : Mem :=
  let flags := forUp (fun i f => setbit f (counts i)) 0 ALPHABETSIZE flags
  (forUp (fun i (s : O2Flags) =>
      let k := counts (i + 1)
      let ct := forUp (fun j (ct : Mem) => ct.set (inb j) (ct (inb j) + 1)) s.j (k - s.j) s.ct
      { j := if s.j < k then k else s.j
        ct := ct
        flags := forUp (fun k f => setbit f (ct k)) 0 ALPHABETSIZE s.flags })
    0 (ALPHABETSIZE - 1) ⟨0, counts, flags⟩).flags

/-- State of the loop of `increaseorder`. -/
structure IncState where
  contextstart : Nat
  ct : Mem
  lastseen : Mem
  outflags : Mem

/-- The function `increaseorder`; returns the new `outflags`. -/
def increaseorder (inflags outflags inb counts : Mem) (length : Nat) : Mem :=
  (forUp (fun i (s : IncState) =>
      let contextstart := if getbit inflags i ≠ 0 then i else s.contextstart
      let ch := inb i
      { contextstart := contextstart
        ct := s.ct.set ch (s.ct ch + 1)
        lastseen := if s.lastseen ch ≠ contextstart then s.lastseen.set ch contextstart
                    else s.lastseen
        outflags := if s.lastseen ch ≠ contextstart then setbit s.outflags (s.ct ch)
                    else s.outflags })
    0 length ⟨0, counts, fun _ => 0xffffffff, outflags⟩).outflags

/-- State of the loop of `maketable`. -/
structure TableState where
  contextstart : Nat
  ct : Mem
  firstseen : Mem
  table : Mem

/-- The function `maketable`; returns the new `table`. -/
def maketable (inflags table inb counts : Mem) (length : Nat) : Mem :=
  (forUp (fun i (s : TableState) =>
      let contextstart := if getbit inflags i ≠ 0 then i else s.contextstart
      let ch := inb i
      { contextstart := contextstart
        ct := s.ct.set ch (s.ct ch + 1)
        firstseen := if s.firstseen ch ≤ contextstart then s.firstseen.set ch (i + 1)
                     else s.firstseen
        table := if s.firstseen ch ≤ contextstart then s.table.set i (s.ct ch)
                 else s.table.set i (u32sub (s.firstseen ch) 1 ||| INDIRECT) })
    0 length ⟨0, counts, Mem.zero, table⟩).table

/-- State of the unsorting walk: current slot, table, bytes emitted so far. -/
structure WalkState where
  j : Nat
  table : Mem
  out : List Nat

/-- One step of the walk of `sz_unsrt`. -/
def walkStep (inb : Mem) (s : WalkState) : WalkState :=
  let tmp := s.table s.j
  if tmp &&& INDIRECT ≠ 0 then
    let k := tmp &&& 0xff7fffff
    let j := s.table k
    { j := j, table := s.table.set k (j + 1), out := s.out ++ [inb j] }
  else
    { j := tmp, table := s.table.set s.j (tmp + 1), out := s.out ++ [inb tmp] }

/-- The walk of `sz_unsrt`: `length` steps from `j = indexlast`. -/
def unsrtWalk (table inb : Mem) (length indexlast : Nat) : WalkState :=
  forUp (fun _ s => walkStep inb s) 0 length ⟨indexlast, table, []⟩

/-- The byte histogram computed by `sz_unsrt` when `counts == NULL`. -/
def histogram (inb : Mem) (length : Nat) : Mem :=
  forUp (fun i (c : Mem) => c.set (inb i) (c (inb i) + 1)) 0 length Mem.zero

/-- The flag bitmaps and the table that `sz_unsrt` builds before the walk. -/
def unsrtTable (inb : Mem) (length : Nat) (counts : Mem) (order : Nat) : Mem :=
  let counts := sumReverse ALPHABETSIZE length counts
  let flags1 := makeorder2 Mem.zero inb counts
  let fl := forUp (fun _ (f : Mem × Mem) => (increaseorder f.1 f.2 inb counts length, f.1))
    2 (order - 1 - 2) (flags1, Mem.zero)
  (maketable fl.1 Mem.zero inb counts length).set length INDIRECT

/-- The fatal errors: `sz_error(SZ_NOTCYCLIC)`, `no_szip()`, "input file corrupt",
the version messages of `readglobalheader`, "Error reading input". -/
inductive SzError
  | notCyclic
  | notSzip
  | corrupt
  | badVersion
  | readError
  deriving DecidableEq, Repr

/-- The function `sz_unsrt` on a buffer, with the scratch buffers freshly allocated. -/
def sz_unsrt_mem (inb : Mem) (length indexlast : Nat) (counts : Option Mem) (order : Nat) :
    Except SzError (List Nat) :=
  let counts := match counts with
    | some c => c
    | none => histogram inb length
  let w := unsrtWalk (unsrtTable inb length counts order) inb length indexlast
  if w.j ≠ indexlast then Except.error SzError.notCyclic else Except.ok w.out

/-- The function `sz_unsrt` on a sorted block with the byte counts `counts`. -/
def sz_unsrt (block : List Nat) (indexlast : Nat) (counts : Mem) (order : Nat) :
    Except SzError (List Nat) :=
  sz_unsrt_mem (Mem.ofList block) block.length indexlast (some counts) order

/-- The byte counts of a block: `counts[c]` is the number of occurrences of `c`. -/
def byteCounts (block : List Nat) : Mem := fun c => block.count c

/-! ## `sz_srt_o4` -/

/-- State of the first sort pass of `sz_srt_o4`. -/
structure O4State where
  ctx : Nat
  counters : Mem
  context : Mem
  symbols : Mem

/-- State of the second sort pass of `sz_srt_o4`. -/
structure O4Out where
  counters : Mem
  inout : Mem

/-- Body of the second-pass loops: `inout[--counters[context[i]]] = symbols[i]`. -/
def o4Place (context symbols : Mem) (i : Nat) (s : O4Out) : O4Out :=
  let c := u32sub (s.counters (context i)) 1
  { counters := s.counters.set (context i) c, inout := s.inout.set c (symbols i) }

/-- The function `sz_srt_o4` on a buffer: the buffer and `indexlast` on return. -/
def sz_srt_o4_mem (inout : Mem) (length : Nat) : Mem × Nat :=
  let counters := (forUp (fun p (s : Nat × Mem) =>
      let i := (s.1 >>> 8) ||| (inout p <<< 8)
      (i, s.2.set i (s.2 i + 1))) 0 length (inout (length - 1) <<< 8, Mem.zero)).2
  let counters := sumReverse ORDER16SIZE length counters
  let ctx := (inout (length - 1) <<< 8) ||| inout (length - 2)
  let lastpos := if ctx = ORDER16MASK then length - 1 else u32sub (counters (ctx + 1)) 1
  let ctx := ((((((inout (length - 1) <<< 8) ||| inout (length - 2)) <<< 8) |||
      inout (length - 3)) <<< 8) ||| inout (length - 4)) % 4294967296
  let s := forUp (fun p (s : O4State) =>
      let x := s.counters (s.ctx &&& ORDER16MASK)
      { ctx := (s.ctx >>> 8) ||| (inout p <<< 24)
        counters := s.counters.set (s.ctx &&& ORDER16MASK) (x + 1)
        context := s.context.set x ((s.ctx >>> 16) % 65536)
        symbols := s.symbols.set x (inout p) }) 0 length ⟨ctx, counters, Mem.zero, Mem.zero⟩
  -- for (i = length; i > lastpos; ) { i -= 1; ... }
  let a := forDown (fun k (o : O4Out) => o4Place s.context s.symbols (lastpos + k) o)
    (length - lastpos) ⟨s.counters, inout⟩
  let i := if length > lastpos then lastpos else length
  let indexlast := a.counters (s.context i)
  -- while (i--) ...
  let b := forDown (o4Place s.context s.symbols) i a
  (b.inout, indexlast)

/-- The function `sz_srt_o4` on a block: the sorted block and `indexlast`. -/
def sz_srt_o4 (block : List Nat) : List Nat × Nat :=
  let r := sz_srt_o4_mem (Mem.ofList block) block.length
  (r.1.toList block.length, r.2)

/-! ## `sz_unsrt_BW` -/

/-- State of the transform-vector loops of `sz_unsrt_BW`. -/
structure BWState where
  counts : Mem
  transvec : Mem

/-- The assignment `transvec[i] = counts[in[i]]++`. -/
def bwStep (inb : Mem) (i : Nat) (s : BWState) : BWState :=
  { counts := s.counts.set (inb i) (s.counts (inb i) + 1)
    transvec := s.transvec.set i (s.counts (inb i)) }

/-- The transform vector of `sz_unsrt_BW`. -/
def bwTransvec (inb : Mem) (length indexfirst : Nat) (counts : Mem) : Mem :=
  let s := bwStep inb indexfirst ⟨sumReverse ALPHABETSIZE length counts, Mem.zero⟩
  let s := forUp (bwStep inb) 0 indexfirst s
  (forUp (fun i s => if i ≠ indexfirst then bwStep inb i s else s)
    indexfirst (length - indexfirst) s).transvec

/-- The function `sz_unsrt_BW` with the byte counts supplied. -/
def sz_unsrt_BW (inb : Mem) (length indexfirst : Nat) (counts : Mem) :
    Except SzError (List Nat) :=
  let transvec := bwTransvec inb length indexfirst counts
  let w := forUp (fun _ (s : Nat × List Nat) => (transvec s.1, s.2 ++ [inb s.1]))
    0 length (indexfirst, [])
  if w.1 ≠ indexfirst then Except.error SzError.notCyclic else Except.ok w.2

/-! ## The container of `szip.c`

The compressed stream is a list of items: plain bytes, and the
(symbol, run-length) pairs handed to the statistical coder, which is treated
as a lossless channel for such pairs. -/

/-- One item of the compressed stream. -/
inductive Item
  | byte (b : Nat)
  | run (ch len : Nat)
  deriving DecidableEq, Repr

def vmayor : Nat := 1
def vminor : Nat := 12

/-- The function `writeglobalheader`. -/
def writeglobalheader : List Item :=
  [Item.byte 0x53, Item.byte 0x5a, Item.byte 0x0a, Item.byte 0x04,
   Item.byte vmayor, Item.byte vminor]

/-- The function `writeuint3`. -/
def writeuint3 (x : Nat) : List Item :=
  [Item.byte ((x >>> 16) &&& 0xff), Item.byte ((x >>> 8) &&& 0xff), Item.byte (x &&& 0xff)]

/-- The call `getchar()`: the next byte, or `none` at end of input. -/
def getchar : List Item → Option Nat × List Item
  | Item.byte b :: rest => (some b, rest)
  | inp => (none, inp)

/-- The call `getchar()` converted to `uint4`; `EOF` becomes `0xffffffff`. -/
def getcharU (inp : List Item) : Nat × List Item :=
  match getchar inp with
  | (some b, rest) => (b, rest)
  | (none, rest) => (0xffffffff, rest)

/-- The function `readuint3`. -/
def readuint3 (inp : List Item) : Nat × List Item :=
  let a := getcharU inp
  let b := getcharU a.2
  let c := getcharU b.2
  ((((((a.1 <<< 8) % 4294967296) ||| b.1) <<< 8) % 4294967296) ||| c.1, c.2)

/-- The function `writeblockdir`: the bytes written and the directory size returned. -/
def writeblockdir (buflen : Nat) : List Item × Nat :=
  ([Item.byte 0x42, Item.byte 0x48] ++ writeuint3 buflen ++ [Item.byte 0], 6)

/-- The function `writestorblock`. -/
def writestorblock (dirsize buflen : Nat) (buffer : Mem) : List Item :=
  [Item.byte 0] ++ (buffer.toList buflen).map Item.byte ++
    writeuint3 ((dirsize + 4 + buflen) % 4294967296)

/-- The function `readglobalheader`; returns the remaining input. -/
def readglobalheader (inp : List Item) : Except SzError (List Item) :=
  match getchar inp with
  | (none, rest) => Except.ok rest
  | (some ch, r1) =>
    if ch = 0x42 then Except.ok inp
    else if ch ≠ 0x53 then Except.error SzError.notSzip
    else
      let c2 := getchar r1
      let c3 := getchar c2.2
      let c4 := getchar c3.2
      let vmay := getchar c4.2
      let vmin := getchar vmay.2
      if c2.1 ≠ some 0x5a then Except.error SzError.notSzip
      else if c3.1 ≠ some 0x0a then Except.error SzError.notSzip
      else if c4.1 ≠ some 0x04 then Except.error SzError.notSzip
      else match vmay.1, vmin.1 with
        | some vm, some vn =>
          if vm = 0 then Except.error SzError.notSzip
          else if vm > vmayor ∨ (vm = vmayor ∧ vn > vminor) then
            Except.error SzError.badVersion
          else if vm = 1 ∧ vn = 10 then Except.error SzError.badVersion
          else Except.ok vmin.2
        | _, _ => Except.error SzError.notSzip

/-- The tail of `readblockdir` from the byte `ch` on: magic, length, terminator. -/
def readblockdirTail (ch : Option Nat) (inp : List Item) :
    Except SzError (Nat × Nat × List Item) :=
  if ch ≠ some 0x42 then Except.error SzError.notSzip
  else
    let c2 := getchar inp
    if c2.1 ≠ some 0x48 then Except.error SzError.notSzip
    else
      let len := readuint3 c2.2
      let z := getchar len.2
      if z.1 ≠ some 0 then Except.error SzError.notSzip
      else Except.ok (6, len.1, z.2)

/-- The function `readblockdir`: directory size (0 at end of input), block length, rest. -/
def readblockdir (inp : List Item) : Except SzError (Nat × Nat × List Item) :=
  match getchar inp with
  | (none, rest) => Except.ok (0, 0, rest)
  | (some ch, r1) =>
    if ch = 0x53 then
      match readglobalheader inp with
      | Except.error e => Except.error e
      | Except.ok r2 =>
        match getchar r2 with
        | (none, rest) => Except.ok (0, 0, rest)
        | (some ch2, r3) => readblockdirTail (some ch2) r3
    else readblockdirTail (some ch) r1

/-- The bytes `fread` delivers: up to `n` leading byte items, and the rest. -/
def freadBytes : Nat → List Item → List Nat × List Item
  | n + 1, Item.byte b :: rest => ((freadBytes n rest).1.cons b, (freadBytes n rest).2)
  | _, inp => ([], inp)

/-- The function `readstorblock`: bytes written to the output, buffer, remaining input. -/
def readstorblock (dirsize buflen : Nat) (buffer : Mem) (inp : List Item) :
    Except SzError (List Nat × Mem × List Item) :=
  let r := freadBytes buflen inp
  if r.1.length ≠ buflen then Except.error SzError.readError
  else
    let buffer := forUp (fun i (m : Mem) => m.set i (r.1.getD i 0)) 0 buflen buffer
    let t := readuint3 r.2
    if t.1 ≠ (dirsize + 3 + buflen) % 4294967296 then Except.error SzError.notSzip
    else Except.ok (buffer.toList buflen, buffer, t.2)

/-- The routines of this program that live outside `sz_srt.c` and `szip.c`:
the record reorder of `reorder.h` and the quicksort-based `sz_srt_BW`. -/
structure Collab where
  reorder : List Nat → Nat → List Nat
  unreorder : List Nat → Nat → List Nat
  sz_srt_BW : List Nat → List Nat × Nat

/-- The differencing loop of `writeszipblock`. -/
def diffLoop (buffer : Mem) (buflen : Nat) : Mem :=
  (forUp (fun i (s : Nat × Mem) =>
      (s.2 i, s.2.set i ((0x100 + s.2 i - s.1) &&& 0xff)))
    1 (buflen - 1) (buffer 0, buffer)).2

/-- The prefix-sum loop of `readszipblock`. -/
def undiffLoop (tmp : Mem) (buflen : Nat) : Mem :=
  (forUp (fun i (s : Nat × Mem) =>
      (((s.1 + s.2 i) &&& 0xff), s.2.set i ((s.1 + s.2 i) &&& 0xff)))
    1 (buflen - 1) (tmp 0, tmp)).2

/-- The scan `while (*buffer == ch) buffer++`, at most `fuel` steps from `pos`. -/
def runEnd (buf : Mem) (ch : Nat) : Nat → Nat → Nat
  | 0, pos => pos
  | fuel + 1, pos => if buf pos = ch then runEnd buf ch fuel (pos + 1) else pos

/-- The loop `while (buffer < end)` of `writeszipblock` that encodes one run per turn. -/
def encodeRuns (buf : Mem) (last : Nat) : Nat → Nat → List Item
  | 0, _ => []
  | fuel + 1, pos =>
    if pos < last then
      Item.run (buf pos) (runEnd buf (buf pos) last (pos + 1) - pos) ::
        encodeRuns buf last fuel (runEnd buf (buf pos) last (pos + 1))
    else []

/-- The function `writeszipblock`. -/
def writeszipblock (co : Collab) (order recordsize : Nat) (buflen : Nat) (buffer : Mem) :
    List Item :=
  let buffer := if recordsize &&& 0x7f ≠ 1 then
      forUp (fun i (m : Mem) =>
        m.set i ((co.reorder (buffer.toList buflen) (recordsize &&& 0x7f)).getD i 0))
        0 buflen buffer
    else buffer
  let buffer := if recordsize &&& 0x80 ≠ 0 then diffLoop buffer buflen else buffer
  let sorted : Mem × Nat :=
    if order = 4 then sz_srt_o4_mem buffer buflen
    else if order = 0 then
      ((Mem.ofList (co.sz_srt_BW (buffer.toList buflen)).1),
        (co.sz_srt_BW (buffer.toList buflen)).2)
    else ((sz_srt_mem buffer buflen order).inb, (sz_srt_mem buffer buflen order).indexlast)
  let buf := sorted.1.set buflen ((sorted.1 (buflen - 1)) ^^^ 0xff)
  [Item.byte 1] ++ writeuint3 sorted.2 ++ [Item.byte (order &&& 0xff)] ++
    (Item.run (buf 0) (runEnd buf (buf 0) buflen 1) ::
      encodeRuns buf buflen buflen (runEnd buf (buf 0) buflen 1))

/-- The loop of `compressit`, one block per turn. -/
def compressLoop (co : Collab) (blocksize order recordsize : Nat) :
    Nat → List Nat → List Item
  | 0, _ => []
  | fuel + 1, inp =>
    let block := inp.take blocksize
    let buflen := block.length
    if buflen = 0 then []
    else
      let dir := writeblockdir buflen
      let body := if buflen ≤ order ∨ buflen ≤ 5 then
          writestorblock dir.2 buflen (Mem.ofList block)
        else writeszipblock co order recordsize buflen (Mem.ofList block)
      dir.1 ++ body ++ compressLoop co blocksize order recordsize fuel (inp.drop blocksize)

/-- The function `compressit` on the input bytes `inp`. -/
def compressit (co : Collab) (blocksize order recordsize : Nat) (inp : List Nat) :
    List Item :=
  writeglobalheader ++ compressLoop co blocksize order recordsize (inp.length + 1) inp

/-- State of the run-decoding loops of `readszipblock`. -/
structure DecState where
  tmp : Nat
  bytesleft : Nat
  charcount : Mem
  buffer : Mem
  inp : List Item

/-- One turn of run decoding: `sz_decode`, the overshoot check, the fill loop; the store
`*(tmp++) = ch` into the byte buffer keeps the low 8 bits of `ch`. -/
def decodeRun (s : DecState) : Except SzError DecState :=
  match s.inp with
  | Item.run ch runlength :: rest =>
    if runlength > s.bytesleft then Except.error SzError.corrupt
    else Except.ok
      { tmp := s.tmp + runlength
        bytesleft := s.bytesleft - runlength
        charcount := s.charcount.set ch (s.charcount ch + runlength)
        buffer := forUp (fun i (m : Mem) => m.set i (ch % 256)) s.tmp runlength s.buffer
        inp := rest }
  | _ => Except.error SzError.corrupt

/-- The loop `while (bytesleft)` of `readszipblock`. -/
def decodeLoop : Nat → DecState → Except SzError DecState
  | 0, s => if s.bytesleft = 0 then Except.ok s else Except.error SzError.corrupt
  | fuel + 1, s =>
    if s.bytesleft = 0 then Except.ok s
    else match decodeRun s with
      | Except.error e => Except.error e
      | Except.ok s1 => decodeLoop fuel s1

/-- The function `readszipblock`: bytes written to the output, buffer, remaining input. -/
def readszipblock (co : Collab) (recordsize : Nat) (buflen : Nat) (buffer : Mem)
    (inp : List Item) : Except SzError (List Nat × Mem × List Item) :=
  let il := readuint3 inp
  let o := getcharU il.2
  let order := o.1
  match decodeRun ⟨0, buflen, Mem.zero, buffer, o.2⟩ with
  | Except.error e => Except.error e
  | Except.ok s0 =>
    match decodeLoop s0.inp.length s0 with
    | Except.error e => Except.error e
    | Except.ok s =>
      let unsorted := if order = 0 then sz_unsrt_BW s.buffer buflen il.1 s.charcount
        else sz_unsrt_mem s.buffer buflen il.1 (some s.charcount) order
      match unsorted with
      | Except.error e => Except.error e
      | Except.ok out =>
        if recordsize = 1 then Except.ok (out, s.buffer, s.inp)
        else
          let tmp := Mem.ofList out
          let tmp := if recordsize &&& 0x80 ≠ 0 then undiffLoop tmp buflen else tmp
          let res := co.unreorder (tmp.toList buflen) (recordsize &&& 0x7f)
          let buffer := forUp (fun i (m : Mem) => m.set i (res.getD i 0)) 0 buflen s.buffer
          Except.ok (buffer.toList buflen, buffer, s.inp)

/-- The loop of `decompressit`, one block per turn; `out` collects the bytes written. -/
def decompressLoop (co : Collab) (recordsize : Nat) :
    Nat → Mem → List Item → List Nat → Except SzError (List Nat)
  | 0, _, _, _ => Except.error SzError.readError
  | fuel + 1, inoutbuffer, inp, out =>
    match readblockdir inp with
    | Except.error e => Except.error e
    | Except.ok (dirsize, blocklen, rest) =>
      if dirsize = 0 then Except.ok out
      else
        let ch := getchar rest
        let blk := if ch.1 = some 0 then readstorblock (dirsize + 1) blocklen inoutbuffer ch.2
          else if ch.1 = some 1 then readszipblock co recordsize blocklen inoutbuffer ch.2
          else Except.error SzError.notSzip
        match blk with
        | Except.error e => Except.error e
        | Except.ok (written, buffer, rest2) =>
          decompressLoop co recordsize fuel buffer rest2
            (out ++ written ++ buffer.toList blocklen)

/-- The function `decompressit` on the compressed stream `inp`. -/
def decompressit (co : Collab) (recordsize : Nat) (inp : List Item) :
    Except SzError (List Nat) :=
  match readglobalheader inp with
  | Except.error e => Except.error e
  | Except.ok rest => decompressLoop co recordsize (inp.length + 1) Mem.zero rest []

/-- The number of indices `i < n` with `p i`. -/
def cnt (n : Nat) (p : Nat → Prop) [DecidablePred p] : Nat :=
  ((Finset.range n).filter p).card

/-- The rank of index `i` among `[0, n)` for the key `T`. -/
def rk (T : Nat → Nat) (n i : Nat) : Nat := cnt n (fun j => T j < T i)

/-- The position `j` places before `t` in a block of length `L`, taken cyclically. -/
def wrap (L t j : Nat) : Nat := if j ≤ t then t - j else t + L - j

/-- The position after `t` in a block of length `L`, taken cyclically. -/
def nxt (L t : Nat) : Nat := if t + 1 < L then t + 1 else 0

/-- The `len` bytes `B[t-a], B[t-a-1], ..`, read as a base-256 number whose most
significant digit is `B[t-a]` (positions taken cyclically). -/
def keyR (B : Nat → Nat) (L a : Nat) : Nat → Nat → Nat
  | 0, _ => 0
  | len + 1, t => keyR B L a len t * 256 + B (wrap L t (a + len))

/-- The slot a stable counting sort by key `f` gives to item `i` of `[0, n)`. -/
def srank (f : Nat → Nat) (n i : Nat) : Nat :=
  cnt n (fun j => f j < f i) + cnt i (fun j => f j = f i)

/-- Invariant of the two placement loops of `sortorder2` after `m` items. -/
structure SeedInv (inb : Mem) (L n m : Nat) (base : Mem) (st : SeedState) : Prop where
  ctx : st.context = keyR inb L (n - 1) 2 (wrap L m 1)
  o2 : st.o2counts = fun v => base v + cnt m (fun j => keyR inb L (n - 1) 2 j = v)
  ptr : ∀ i, i < m →
    getptr st.p (srank (keyR inb L (n - 1) 2) L i) = if i < n - 1 then i + L else i
  low : ∀ k, k < L → st.inb k = inb k
  high : ∀ i, i < m → i < n - 1 → st.inb (i + L) = inb i

/-- What `sortorder2` leaves behind: the pointers in stable order of the 2-byte context
`B[i-order+1], B[i-order]`, the wrapped copy of the block start, the start offsets. -/
structure SeedPost (inb : Mem) (L n : Nat) (s : SortState) : Prop where
  ptr : ∀ i, i < L →
    getptr s.p (srank (keyR inb L (n - 1) 2) L i) = if i < n - 1 then i + L else i
  last : s.indexlast = srank (keyR inb L (n - 1) 2) L (L - 1)
  low : ∀ k, k < L → s.inb k = inb k
  high : ∀ i, i < n - 1 → s.inb (i + L) = inb i
  counts : ∀ k, k < 256 → s.counts k = cnt L (fun j => inb j < k)

/-- Invariant of a re-bucketing loop of `incsortorder` after `m` slots. -/
structure IncInv (old : PtrIndex) (ks : Nat → Nat) (counts : Mem) (L m : Nat)
    (st : PassState) : Prop where
  ct : st.ct = fun c => counts c + cnt m (fun s => ks s = c)
  ptr : ∀ s, s < m → getptr st.p (srank ks L s) = getptr old s
  ch : 0 < m → st.ch = ks (m - 1)

/-- Invariant of a loop of `finishsort` after `m` slots. -/
structure FinInv (vs ks : Nat → Nat) (counts : Mem) (L m : Nat)
    (st : PassState) : Prop where
  ct : st.ct = fun c => counts c + cnt m (fun s => ks s = c)
  sym : ∀ s, s < m → st.p.lsbyte (srank ks L s) = vs s
  ch : 0 < m → st.ch = ks (m - 1)

/-- The sort key of position `t` once the bytes `B[t-j], .., B[t-n]` have been sorted on:
those bytes as a base-256 number, ties broken by `t`. -/
def tkey (inb : Mem) (L n j : Nat) (t : Nat) : Nat := keyR inb L j (n + 1 - j) t * L + t

/-- The pointer that `sortorder2` stores for position `i`. -/
def qptr (L n i : Nat) : Nat := if i < n - 1 then i + L else i

/-- State of `sz_srt` once the bytes at distance `j .. n` have been sorted on. -/
structure SortInv (inb : Mem) (L n j : Nat) (st : SortState) : Prop where
  ptr : ∀ i, i < L → getptr st.p (rk (tkey inb L n j) L i) = qptr L n i
  last : st.indexlast = rk (tkey inb L n j) L (L - 1)
  low : ∀ k, k < L → st.inb k = inb k
  high : ∀ i, i < n - 1 → st.inb (i + L) = inb i
  counts : ∀ k, k < 256 → st.counts k = cnt L (fun x => inb x < k)

/-- The context key of position `t`: the bytes `B[t-1], .., B[t-order]` (cyclically) as a
base-256 number, most significant digit `B[t-1]`. -/
def ctxKey (inb : Mem) (L n t : Nat) : Nat := keyR inb L 1 n t

/-- The slot of position `t` in the sorted block: the number of positions that come before
`t` when ordered by context key, ties by position. -/
def slotOf (inb : Mem) (L n t : Nat) : Nat := rk (fun u => ctxKey inb L n u * L + u) L t

/-- Invariant of the first sort pass of `sz_srt_o4` after `m` positions. -/
structure O4Inv (inb : Mem) (L m : Nat) (base : Mem) (st : O4State) : Prop where
  ctx : st.ctx = keyR inb L 0 4 (wrap L m 1)
  counters : st.counters = fun v => base v + cnt m (fun p => keyR inb L 3 2 p = v)
  context : ∀ p, p < m → st.context (srank (keyR inb L 3 2) L p) = keyR inb L 1 2 p
  symbols : ∀ p, p < m → st.symbols (srank (keyR inb L 3 2) L p) = inb p

/-- Invariant of the second sort pass of `sz_srt_o4` when the slots `i ≥ m` are placed. -/
structure O4Down (kk sym : Nat → Nat) (E : Mem) (L m : Nat) (st : O4Out) : Prop where
  counters : st.counters = fun v => E v - cnt L (fun i => m ≤ i ∧ kk i = v)
  placed : ∀ i, m ≤ i → i < L → st.inout (srank kk L i) = sym i

/-- The position whose symbol `sz_srt_o4` reports as `indexlast`: it holds the last slot
of its bucket after the first pass. -/
def o4Tracked (inb : Mem) (L p : Nat) : Prop :=
  srank (keyR inb L 3 2) L p + 1
    = cnt L (fun q => keyR inb L 3 2 q < keyR inb L 0 2 (L - 1) + 1)

/-- Position `a` comes before position `b` in the order `sz_srt` sorts by: the `n` bytes
preceding each position, nearest byte first, compared cyclically; ties in position order. -/
def ctxBefore (B : Nat → Nat) (L n : Nat) (a b : Nat) : Prop :=
  ctxKey B L n a < ctxKey B L n b ∨ (ctxKey B L n a = ctxKey B L n b ∧ a ≤ b)

instance ctxBeforeDecidable (B : Nat → Nat) (L n : Nat) : DecidableRel (ctxBefore B L n) :=
  fun a b => by
    unfold ctxBefore
    infer_instance

/-- Following the spec's words: the `len` bytes that follow position `t` cyclically,
`B[t+1], .., B[t+len]`, as a base-256 number with `B[t+1]` most significant. -/
def fwdKey (B : Nat → Nat) (L : Nat) : Nat → Nat → Nat
  | 0, _ => 0
  | len + 1, t => fwdKey B L len t * 256 + B ((t + len + 1) % L)

/-- Following the spec's words: position `a` comes before `b` when its following `n`
bytes compare smaller; ties in position order. -/
def fwdBefore (B : Nat → Nat) (L n : Nat) (a b : Nat) : Prop :=
  fwdKey B L n a < fwdKey B L n b ∨ (fwdKey B L n a = fwdKey B L n b ∧ a ≤ b)

instance fwdBeforeDecidable (B : Nat → Nat) (L n : Nat) : DecidableRel (fwdBefore B L n) :=
  fun a b => by
    unfold fwdBefore
    infer_instance

/-- Following the spec's words: the block sorted on each position's following `order`
bytes, writing for each rotation its last symbol, the byte that precedes the context. -/
def specForwardSort (block : List Nat) (order : Nat) : List Nat :=
  ((List.range block.length).insertionSort
    (fwdBefore (Mem.ofList block) block.length order)).map (Mem.ofList block)

/-- `S` holds the block `B` of length `L` sorted on the `n` bytes preceding each position. -/
structure SortedBy (B S : Mem) (L n : Nat) : Prop where
  hn : 3 ≤ n
  hnL : n < L
  hB : ∀ i, i < L → B i < 256
  hS : ∀ t, t < L → S (slotOf B L n t) = B t

/-- The position whose symbol the sorted block holds in slot `s`. -/
def posOf (B : Nat → Nat) (L n s : Nat) : Nat :=
  ((List.range L).insertionSort (ctxBefore B L n)).getD s 0

/-- The number of positions whose `k`-byte context key is below `c`: the slot at which the
contexts `≥ c` start. -/
def cut (B : Nat → Nat) (L k c : Nat) : Nat := cnt L (fun u => ctxKey B L k u < c)

/-- The `k`-byte context key of the position held in slot `s`. -/
def skey (B : Nat → Nat) (L n k s : Nat) : Nat := ctxKey B L k (posOf B L n s)

/-- The first slot of the group of slots that share the `k`-byte context of slot `s`. -/
def gstart (B : Nat → Nat) (L n k s : Nat) : Nat := cut B L k (skey B L n k s)

/-- Bit `p` of a flag bitmap is set. -/
def bitSet (flags : Mem) (p : Nat) : Prop := getbit flags p ≠ 0

/-- The flags mark the group starts of order `k`, and only cuts of order `k`. -/
structure FlagsOK (B : Nat → Nat) (L n k : Nat) (flags : Mem) : Prop where
  starts : ∀ s, s < L → bitSet flags (gstart B L n k s)
  cuts : ∀ p, bitSet flags p → ∃ c, p = cut B L k c

/-- Invariant of the outer loop of `makeorder2` after `i` turns. -/
structure O2Inv (S counts : Mem) (i : Nat) (st : O2Flags) : Prop where
  j : st.j = counts i
  ct : st.ct = fun c => counts c + cnt (counts i) (fun s => S s = c)
  flags : ∀ p, bitSet st.flags p ↔
    ∃ c c2, c < 256 ∧ c2 ≤ i ∧ p = counts c + cnt (counts c2) (fun s => S s = c)

/-- Slot `m` is the first slot of its `k`-byte context group that holds its symbol. -/
def firstIn (B S : Mem) (L n k m : Nat) : Prop :=
  ∀ s, gstart B L n k m ≤ s → s < m → S s ≠ S m

/-- The cursor value `counts[S[s]] + #{r < s : S[r] = S[s]}` that the scans reach at slot `s`. -/
def lfv (S counts : Mem) (s : Nat) : Nat := counts (S s) + cnt s (fun r => S r = S s)

/-- Invariant of the loop of `increaseorder` after `m` slots. -/
structure IncOrdInv (B S counts out0 : Mem) (L n k m : Nat) (st : IncState) : Prop where
  cs : st.contextstart = if m = 0 then 0 else gstart B L n k (m - 1)
  ct : st.ct = fun c => counts c + cnt m (fun s => S s = c)
  seenNone : ∀ c, (∀ s, s < m → S s ≠ c) → st.lastseen c = 0xffffffff
  seenLast : ∀ s, s < m → (∀ r, s < r → r < m → S r ≠ S s) →
    st.lastseen (S s) = gstart B L n k s
  flags : ∀ p, bitSet st.outflags p ↔
    (bitSet out0 p ∨ ∃ s, s < m ∧ firstIn B S L n k s ∧ p = lfv S counts s)

/-- Slot `f` is the first slot of the `k`-byte context group of slot `s` holding the symbol
of `s`. -/
def isFirst (B S : Mem) (L n k f s : Nat) : Prop :=
  gstart B L n k s ≤ f ∧ f ≤ s ∧ S f = S s ∧ ∀ r, gstart B L n k s ≤ r → r < f → S r ≠ S s

/-- Invariant of the loop of `maketable` after `m` slots. -/
structure TabInv (B S counts : Mem) (L n k m : Nat) (st : TableState) : Prop where
  cs : st.contextstart = if m = 0 then 0 else gstart B L n k (m - 1)
  ct : st.ct = fun c => counts c + cnt m (fun s => S s = c)
  seenNone : ∀ c, (∀ s, s < m → S s ≠ c) → st.firstseen c = 0
  seenLast : ∀ s, s < m → (∀ r, s < r → r < m → S r ≠ S s) →
    ∃ f, isFirst B S L n k f s ∧ st.firstseen (S s) = f + 1
  table : ∀ s, s < m → ∃ f, isFirst B S L n k f s ∧
    st.table s = if f = s then lfv S counts s else f ||| INDIRECT

/-- The context key of the position that follows the one held in slot `s`. -/
def vkey (B S : Mem) (L n s : Nat) : Nat := S s * 256 ^ (n - 1) + skey B L n (n - 1) s

/-- Invariant of the walk of `sz_unsrt` after `m` steps. -/
structure WalkInv (B S counts : Mem) (L n m : Nat) (st : WalkState) : Prop where
  j : st.j = slotOf B L n (wrap L m 1)
  out : st.out = B.toList m
  table : ∀ s, s < L → ∃ f, isFirst B S L n (n - 1) f s ∧
    st.table s = if f = s
      then lfv S counts s + cnt m (fun w => ctxKey B L n w = vkey B S L n s)
      else f ||| INDIRECT

/-- The buffer and `indexlast` that `writeszipblock` hands to its run encoder: the block
after the record reorder, the differencing and the sort. -/
def szipSorted (co : Collab) (order recordsize : Nat) (buflen : Nat) (buffer : Mem) :
    Mem × Nat :=
  let buffer := if recordsize &&& 0x7f ≠ 1 then
      forUp (fun i (m : Mem) =>
        m.set i ((co.reorder (buffer.toList buflen) (recordsize &&& 0x7f)).getD i 0))
        0 buflen buffer
    else buffer
  let buffer := if recordsize &&& 0x80 ≠ 0 then diffLoop buffer buflen else buffer
  if order = 4 then sz_srt_o4_mem buffer buflen
  else if order = 0 then
    ((Mem.ofList (co.sz_srt_BW (buffer.toList buflen)).1),
      (co.sz_srt_BW (buffer.toList buflen)).2)
  else ((sz_srt_mem buffer buflen order).inb, (sz_srt_mem buffer buflen order).indexlast)

/-- The run encoder of `writeszipblock` on the sorted buffer: the sentinel behind the block,
the first run, and the loop over the remaining runs. -/
def encodeBlock (sorted : Mem) (buflen : Nat) : List Item :=
  let buf := sorted.set buflen ((sorted (buflen - 1)) ^^^ 0xff)
  Item.run (buf 0) (runEnd buf (buf 0) buflen 1) ::
    encodeRuns buf buflen buflen (runEnd buf (buf 0) buflen 1)

/-- The bytes that a list of (symbol, run-length) pairs stands for. -/
def expandRuns (runs : List (Nat × Nat)) : List Nat :=
  (runs.map (fun r => List.replicate r.2 r.1)).flatten

/-- How option parsing stops early: `usage()` was called (it exits with status 1), or the
`int` accumulator of `readnum` left the range of `int`, which C leaves undefined. -/
inductive OptStop
  | usage
  | intOverflow
  deriving DecidableEq, Repr

/-- The library function `isdigit` on a character. -/
def isdigit (c : Char) : Bool := decide (48 ≤ c.toNat ∧ c.toNat ≤ 57)

/-- The loop `while (isdigit(**s)) { j = 10*j + **s - '0'; *s += 1; }` of `readnum`; the end
of the list is the terminating NUL of the C string. -/
def readnumLoop : List Char → Nat → Except OptStop (Nat × List Char)
  | [], j => Except.ok (j, [])
  | c :: s, j =>
    if isdigit c then
      if 10 * j + c.toNat < 2147483648 then readnumLoop s (10 * j + c.toNat - 48)
      else Except.error OptStop.intOverflow
    else Except.ok (j, c :: s)

/-- The function `readnum`: the number read and the rest of the string. -/
def readnum (s : List Char) (min max : Nat) : Except OptStop (Nat × List Char) :=
  match readnumLoop s 0 with
  | Except.error e => Except.error e
  | Except.ok (j, rest) =>
    if j < min ∨ j > max then Except.error OptStop.usage else Except.ok (j, rest)

/-- The parameter values: the globals `blocksize`, `order`, `verbosity`, `compress` and
`recordsize` of `szip.c`. -/
structure Params where
  blocksize : Nat
  order : Nat
  verbosity : Nat
  compress : Nat
  recordsize : Nat
  deriving DecidableEq, Repr

/-- The values the globals are set to at program start. -/
def Params.start : Params := ⟨32768, 6, 0, 1, 1⟩

/-- One turn of the loop `while (*s) switch (*(s++))` of `main`: the option letter `c`, the
text `s` behind it, and the parameters; returns the new parameters and the remaining text. -/
def optionStep (c : Char) (s : List Char) (p : Params) : Except OptStop (Params × List Char) :=
  if c = 'o' then
    match readnum s 0 255 with
    | Except.error e => Except.error e
    | Except.ok (j, rest) =>
      if j = 1 ∨ j = 2 then Except.error OptStop.usage
      else Except.ok ({ p with order := j }, rest)
  else if c = 'r' then
    match readnum s 1 255 with
    | Except.error e => Except.error e
    | Except.ok (j, rest) =>
      Except.ok ({ p with recordsize := ((p.recordsize &&& 0x80) ||| j) % 256 }, rest)
  else if c = 'b' then
    match readnum s 1 41 with
    | Except.error e => Except.error e
    | Except.ok (j, rest) =>
      let custom_size := (j * 100000) % 4294967296
      let custom_size := if custom_size < 32768 then 32768 else custom_size
      Except.ok ({ p with blocksize :=
        ((custom_size + 0x7fff) % 4294967296) &&& 0x7FFF8000 }, rest)
  else if c = 'i' then Except.ok ({ p with recordsize := p.recordsize ||| 0x80 }, s)
  else if c = 'v' then
    match readnum s 0 255 with
    | Except.error e => Except.error e
    | Except.ok (j, rest) => Except.ok ({ p with verbosity := j }, rest)
  else if c = 'd' then Except.ok ({ p with compress := 0 }, s)
  else Except.error OptStop.usage

/-- The loop `while (*s)` of `main` over the text of one argument behind its `-`; every turn
consumes at least the option letter, so `fuel` equal to the length of the text suffices. -/
def parseOptions : Nat → List Char → Params → Except OptStop Params
  | _, [], p => Except.ok p
  | 0, _ :: _, p => Except.ok p
  | fuel + 1, c :: s, p =>
    match optionStep c s p with
    | Except.error e => Except.error e
    | Except.ok (p1, rest) => parseOptions fuel rest p1

/-- The number that a string of decimal digits denotes. -/
def digitsVal (ds : List Char) : Nat := ds.foldl (fun j c => 10 * j + c.toNat - 48) 0

/-- The state of `sz_srt` after `sortorder2` and the first `m` calls of `incsortorder`; the
passes run with `offset = order - 2, order - 3, ..`. -/
def passesDone (inb : Mem) (L n : Nat) : Nat → SortState
  | 0 => sortorder2 PtrIndex.empty inb L n
  | m + 1 => incsortorder (n - 2 - m) L (passesDone inb L n m)

/-- The sizes of the static scratch buffers of `sz_unsrt`: `table` in entries, the flag
bitmaps in bytes; `none` is the `NULL` pointer before the first call. -/
structure UnsrtScratch where
  table : Option Nat
  flags1 : Option Nat
  flags2 : Option Nat
  deriving DecidableEq, Repr

/-- The scratch buffers at program start. -/
def UnsrtScratch.fresh : UnsrtScratch := ⟨none, none, none⟩

/-- The allocation steps of one call of `sz_unsrt`: each buffer is allocated for the current
`length` only while its pointer is `NULL` (otherwise the flags are cleared with `memset` and
the table is reused), and the flag pointers are swapped once per turn of the loop over
`increaseorder`. -/
def unsrtAlloc (length order : Nat) (s : UnsrtScratch) : UnsrtScratch :=
  let flen := (length + 8) >>> 3
  let flags1 := match s.flags1 with
    | none => some flen
    | some c => some c
  let flags2 := match s.flags2 with
    | none => some flen
    | some c => some c
  let fl := forUp (fun _ (f : Option Nat × Option Nat) => (f.2, f.1)) 2 (order - 1 - 2)
    (flags1, flags2)
  let table := match s.table with
    | none => some (length + 1)
    | some c => some c
  { table := table, flags1 := fl.1, flags2 := fl.2 }

/-- The sizes, in entries, of the static arrays `context` and `symbols` of `sz_srt_o4`. -/
structure O4Scratch where
  context : Option Nat
  symbols : Option Nat
  deriving DecidableEq, Repr

/-- The allocation steps of one call of `sz_srt_o4`. -/
def o4Alloc (length : Nat) (s : O4Scratch) : O4Scratch :=
  { context := match s.context with
      | none => some length
      | some c => some c
    symbols := match s.symbols with
      | none => some length
      | some c => some c }

/-- The value that `sz_unsrt_BW` stores in `transvec[i]`: position `indexfirst = f` takes its
slot first, then the other positions follow in increasing order. -/
def bwSlot (B : Nat → Nat) (base : Nat → Nat) (f i : Nat) : Nat :=
  base (B i) + (if i = f then 0
    else cnt i (fun j => B j = B i) + (if i < f ∧ B f = B i then 1 else 0))

/-- Invariant of the loops that fill `transvec` once the positions below `m` and the
position `f` are done. -/
structure BWInv (B base : Nat → Nat) (f m : Nat) (st : BWState) : Prop where
  counts : st.counts = fun c =>
    base c + cnt m (fun j => B j = c) + (if m ≤ f ∧ B f = c then 1 else 0)
  tv : ∀ i, (i < m ∨ i = f) → st.transvec i = bwSlot B base f i

/-- The run-decoding loops of `readszipblock` on a block of length `buflen`: the first run,
then the loop `while (bytesleft)`. -/
def decodeRuns (buflen : Nat) (buffer : Mem) (inp : List Item) : Except SzError DecState :=
  match decodeRun ⟨0, buflen, Mem.zero, buffer, inp⟩ with
  | Except.error e => Except.error e
  | Except.ok s0 => decodeLoop s0.inp.length s0

/-- The symbol that an item of the stream carries. -/
def Item.symbol : Item → Nat
  | Item.byte b => b
  | Item.run ch _ => ch

/-- Invariant of the run-decoding loops: the counts of the bytes written so far. -/
structure CharInv (s : DecState) : Prop where
  count : ∀ c, s.charcount c = cnt s.tmp (fun i => s.buffer i = c)
  bytes : ∀ i, i < s.tmp → s.buffer i < 256
  sym : ∀ ch len, Item.run ch len ∈ s.inp → ch < 256

/-- Following the claim's words: byte number `i` (from 0) of the sort key of position `t`,
`B[t - (i + 1)]` with the index taken mod `L`. -/
def keyByte (B : Nat → Nat) (L t i : Nat) : Nat := B ((t + L - (i + 1)) % L)

/-- Following the claim's words: the key `(B[a-1], .., B[a-order])` is below the key of `b`,
`B[t-1]` most significant: the keys differ first at some byte `j`, where `a` has the smaller
byte. -/
def keyLess (B : Nat → Nat) (L order a b : Nat) : Prop :=
  ∃ j, j < order ∧ (∀ i, i < j → keyByte B L a i = keyByte B L b i) ∧
    keyByte B L a j < keyByte B L b j

/-- Following the claim's words: the keys of `a` and `b` agree in all `order` bytes. -/
def keyEq (B : Nat → Nat) (L order a b : Nat) : Prop :=
  ∀ i, i < order → keyByte B L a i = keyByte B L b i

/-- The inner loop of `encodeRLE`,
`while (i + count < input.size() && input[i + count] == pixel && count < 64) ++count`;
the list is the input from index `i + count` on. -/
def rleCount (pixel : Nat) : List Nat → Nat → Nat
  | [], count => count
  | b :: rest, count =>
    if b = pixel ∧ count < 64 then rleCount pixel rest (count + 1) else count

/-- The bytes that `encodeRLE` pushes for a run of `count` pixels `pixel`. -/
def rleCommand (pixel count : Nat) : List Nat :=
  if pixel &&& 0xC0 = 0x00 then
    if count = 1 then [0x40] else [0x40 ||| ((count - 1) % 256)]
  else
    if count = 1 then [0x80 ||| (pixel &&& 0x3F)]
    else [0x80 ||| ((count - 1) % 256), 0xC0 ||| (pixel &&& 0x3F)]

/-- The outer loop of `encodeRLE`, one run per turn; the list is the input from index `i`
on, and every turn advances `i`, so `fuel` equal to the length of the input suffices. -/
def encodeRLELoop : Nat → List Nat → List Nat
  | 0, _ => []
  | _ + 1, [] => []
  | fuel + 1, pixel :: rest =>
    rleCommand pixel (rleCount pixel rest 1) ++
      encodeRLELoop fuel (rest.drop (rleCount pixel rest 1 - 1))

/-- The function `encodeRLE` of `rlecompress.cpp`. -/
def encodeRLE (input : List Nat) : List Nat := encodeRLELoop input.length input

/-- The function `decodeRLE` of `rledecompress.cpp`; on an invalid command it returns the
output decoded so far. -/
def decodeRLE : List Nat → List Nat
  | [] => []
  | [cmd] =>
    if cmd &&& 0xC0 = 0x40 then
      List.replicate (if cmd &&& 0x3F = 0 then 1 else (cmd &&& 0x3F) + 1) 0x00
    else if cmd &&& 0xC0 = 0x80 then [0xC0 ||| (cmd &&& 0x3F)]
    else []
  | cmd :: literal :: rest =>
    if cmd &&& 0xC0 = 0x40 then
      List.replicate (if cmd &&& 0x3F = 0 then 1 else (cmd &&& 0x3F) + 1) 0x00 ++
        decodeRLE (literal :: rest)
    else if cmd &&& 0xC0 = 0x80 then
      if literal &&& 0xC0 = 0xC0 then
        List.replicate ((cmd &&& 0x3F) + 1) literal ++ decodeRLE rest
      else (0xC0 ||| (cmd &&& 0x3F)) :: decodeRLE (literal :: rest)
    else []

/-- The turn, counted from 0, in which `sz_unsrt_BW` assigns the slot of position `i`:
position `f = indexfirst` comes first, the other positions follow in increasing order. -/
def bwTurn (f i : Nat) : Nat := if i = f then 0 else i + 1

/-- The index of the command byte at which `decodeRLE` takes its `Invalid command type`
return, or `none` when the loop ends with `i = input.size()`. It follows the control flow
of `decodeRLE`: a transparent command and a literal advance `i` by 1, a run by 2. -/
def decodeRLEStop : List Nat → Option Nat
  | [] => none
  | [cmd] =>
    if cmd &&& 0xC0 = 0x40 then none
    else if cmd &&& 0xC0 = 0x80 then none
    else some 0
  | cmd :: literal :: rest =>
    if cmd &&& 0xC0 = 0x40 then (decodeRLEStop (literal :: rest)).map (fun p => p + 1)
    else if cmd &&& 0xC0 = 0x80 then
      if literal &&& 0xC0 = 0xC0 then (decodeRLEStop rest).map (fun p => p + 2)
      else (decodeRLEStop (literal :: rest)).map (fun p => p + 1)
    else some 0

/-- The pixel that comes back for the input pixel `b` after `encodeRLE` and `decodeRLE`:
`0x00` when the top two bits of `b` are `00`, else `0xC0 | (b & 0x3F)`. -/
def rleRoundTripPixel (b : Nat) : Nat := if b &&& 0xC0 = 0 then 0 else 0xC0 ||| (b &&& 0x3F)

/-- The indices at which `sortorder2` reads or writes the block buffer `in`, in program
order: `in[length-1]`; `in[i]` in the counting loop; `in[length - offset]` and
`in[length - offset - 1]` with `offset = order`; then, with `offset = order - 1`, the write
`in[i + length]` and the reads `in[i]`, `in[i + length - offset]` of the first placement
loop and the read `in[i - offset]` of the second. Subtractions are `uint4`. -/
def sortorder2_index (length order : Nat) : List Nat :=
  [u32sub length 1] ++ List.range length ++
  [(lastContextIndex length order).1, (lastContextIndex length order).2] ++
  ((List.range (order - 1)).map
    (fun i => [i + length, i, u32sub (i + length) (order - 1)])).flatten ++
  (List.range (length - (order - 1))).map
    (fun k => u32sub (order - 1 + k) (order - 1))

/-- The values of `i` in the two loops `for (i = 0; i <= *indexlast; i++)` and
`for (; i < length; i++)` of `incsortorder` and `finishsort`. -/
def passSlots (indexlast length : Nat) : List Nat :=
  List.range (indexlast + 1) ++
    (List.range (length - (indexlast + 1))).map (fun k => indexlast + 1 + k)

/-- The indices at which `incsortorder` reads the block buffer: `in[tmp - offset]` for the
pointer `tmp` of each slot of the old index. -/
def incsortorder_index (offset length : Nat) (s : SortState) : List Nat :=
  (passSlots s.indexlast length).map (fun i => u32sub (getptr s.p i) offset)

/-- The indices at which `finishsort` reads the block buffer, `in[tmp - 1]` and `in[tmp]`
for the pointer `tmp` of each slot, and then writes it: the `memcpy` calls fill
`in[0..length)`. -/
def finishsort_index (length : Nat) (s : SortState) : List Nat :=
  ((passSlots s.indexlast length).map
    (fun i => [u32sub (getptr s.p i) 1, getptr s.p i])).flatten ++ List.range length

/-- The indices at which `sz_srt` reads or writes the block buffer: those of `sortorder2`,
of the calls of `incsortorder` with `offset = order - 2, .., 2`, and of `finishsort`. -/
def sz_srt_index (inout : Mem) (length order : Nat) : List Nat :=
  sortorder2_index length order ++
  ((List.range (order - 3)).map (fun m =>
    incsortorder_index (order - 2 - m) length (passesDone inout length order m))).flatten ++
  finishsort_index length (passesDone inout length order (order - 3))

/-- One command of the RLE stream as `decodeRLE` consumes it: a transparent command (one
byte), an opaque run (command byte and literal byte), or an opaque literal pixel held in
the command byte itself. -/
inductive RLECmd
  | transparent (cmd : Nat)
  | run (cmd lit : Nat)
  | literal (cmd : Nat)
  deriving DecidableEq, Repr

/-- The input bytes that `decodeRLE` consumes for a command. -/
def RLECmd.bytes : RLECmd → List Nat
  | RLECmd.transparent cmd => [cmd]
  | RLECmd.run cmd lit => [cmd, lit]
  | RLECmd.literal cmd => [cmd]

/-- The pixels that `decodeRLE` pushes to `output` for a command. -/
def RLECmd.pixels : RLECmd → List Nat
  | RLECmd.transparent cmd =>
    List.replicate (if cmd &&& 0x3F = 0 then 1 else (cmd &&& 0x3F) + 1) 0x00
  | RLECmd.run cmd lit => List.replicate ((cmd &&& 0x3F) + 1) lit
  | RLECmd.literal cmd => [0xC0 ||| (cmd &&& 0x3F)]

/-- The tests under which `decodeRLE` takes the branch of a command: `type == 0x40`; or
`type == 0x80` with the top two bits of the next byte `11`; or `type == 0x80`. -/
def RLECmd.valid : RLECmd → Bool
  | RLECmd.transparent cmd => decide (cmd &&& 0xC0 = 0x40)
  | RLECmd.run cmd lit => decide (cmd &&& 0xC0 = 0x80 ∧ lit &&& 0xC0 = 0xC0)
  | RLECmd.literal cmd => decide (cmd &&& 0xC0 = 0x80)

/-- The command is an opaque literal pixel. -/
def RLECmd.isLiteral : RLECmd → Bool
  | RLECmd.literal _ => true
  | _ => false

/-- The commands `cmds` followed by the bytes `rest` are what `decodeRLE` sees up to its
return: every command passes the test of its branch; a literal pixel is not followed by a
byte with top bits `11` (the look-ahead would make it a run); and `rest` is empty or
starts with a byte whose top two bits are `00` or `11`, an invalid command. -/
def RLEParse (cmds : List RLECmd) (rest : List Nat) : Prop :=
  (∀ c ∈ cmds, RLECmd.valid c = true) ∧
  (∀ c ∈ cmds.getLast?, RLECmd.isLiteral c = true → ∀ b ∈ rest.head?, b &&& 0xC0 ≠ 0xC0) ∧
  (∀ b ∈ rest.head?, b &&& 0xC0 = 0x00 ∨ b &&& 0xC0 = 0xC0)

instance (cmds : List RLECmd) (rest : List Nat) : Decidable (RLEParse cmds rest) := by
  unfold RLEParse
  infer_instance

/-! # Proofs -/

/-! ## Basic facts about arrays and loops -/

theorem Mem.set_apply (m : Mem) (i v k : Nat) :
    (Mem.set m i v) k = if k = i then v else m k := rfl

theorem Mem.set_same (m : Mem) (i v : Nat) : (Mem.set m i v) i = v := by
  simp [Mem.set]

theorem Mem.set_other (m : Mem) (i v k : Nat) (h : k ≠ i) : (Mem.set m i v) k = m k := by
  simp [Mem.set, h]

theorem forUp_zero {σ : Type} (body : Nat → σ → σ) (start : Nat) (s : σ) :
    forUp body start 0 s = s := rfl

theorem forUp_succ {σ : Type} (body : Nat → σ → σ) (start n : Nat) (s : σ) :
    forUp body start (n + 1) s = body (start + n) (forUp body start n s) := by
  induction n generalizing start s with
  | zero => rfl
  | succ n ih =>
    show forUp body (start + 1) (n + 1) (body start s) = _
    rw [ih]
    have h : start + 1 + n = start + (n + 1) := by omega
    rw [h]
    rfl

theorem forUp_add {σ : Type} (body : Nat → σ → σ) (start a b : Nat) (s : σ) :
    forUp body start (a + b) s = forUp body (start + a) b (forUp body start a s) := by
  induction b with
  | zero => rfl
  | succ b ih =>
    rw [← Nat.add_assoc, forUp_succ, ih, forUp_succ, Nat.add_assoc]

theorem forDown_succ {σ : Type} (body : Nat → σ → σ) (n : Nat) (s : σ) :
    forDown body (n + 1) s = forDown body n (body n s) := rfl

theorem and_ff (x : Nat) : x &&& 0xff = x % 256 := by
  have h : (0xff : Nat) = 2 ^ 8 - 1 := by norm_num
  rw [h, Nat.and_pow_two_sub_one_eq_mod]

theorem u32sub_eq (a b : Nat) (hb : b ≤ a) (ha : a < 4294967296) : u32sub a b = a - b := by
  unfold u32sub
  omega

theorem Mem.toList_length (m : Mem) (n : Nat) : (m.toList n).length = n := by
  simp [Mem.toList]

theorem Mem.toList_ofList (l : List Nat) : (Mem.ofList l).toList l.length = l := by
  apply List.ext_getElem
  · simp [Mem.toList]
  · intro i h1 h2
    simp [Mem.toList, Mem.ofList, List.getD, List.getElem?_eq_getElem h2]

theorem Mem.toList_congr (m1 m2 : Mem) (n : Nat) (h : ∀ i, i < n → m1 i = m2 i) :
    m1.toList n = m2.toList n := by
  apply List.ext_getElem
  · simp [Mem.toList]
  · intro i h1 h2
    simp only [Mem.toList, List.getElem_map, List.getElem_range]
    apply h
    simpa [Mem.toList] using h1

/-! ## Incremental differencing -/

theorem diffLoop_inv (buf : Mem) (m : Nat) :
    forUp (fun i (s : Nat × Mem) => (s.2 i, s.2.set i ((0x100 + s.2 i - s.1) &&& 0xff)))
      1 m (buf 0, buf) =
    (buf m, fun k => if 1 ≤ k ∧ k ≤ m then (0x100 + buf k - buf (k - 1)) % 256 else buf k) := by
  induction m with
  | zero =>
    simp only [forUp_zero]
    congr 1
    funext k
    have : ¬ (1 ≤ k ∧ k ≤ 0) := by omega
    rw [if_neg this]
  | succ m ih =>
    rw [forUp_succ, ih]
    have h1 : ¬ (1 + m ≤ m) := by omega
    simp only [h1, and_false, if_false, and_ff]
    congr 1
    · rw [Nat.add_comm]
    · funext k
      simp only [Mem.set_apply]
      by_cases hk : k = 1 + m
      · subst hk
        have h2 : 1 ≤ 1 + m ∧ 1 + m ≤ m + 1 := by omega
        simp [h2]
      · simp only [hk, if_false]
        by_cases hk2 : 1 ≤ k ∧ k ≤ m
        · have h3 : 1 ≤ k ∧ k ≤ m + 1 := by omega
          simp [hk2, h3]
        · have h3 : ¬ (1 ≤ k ∧ k ≤ m + 1) := by omega
          simp [hk2, h3]

theorem undiffLoop_inv (buf d : Mem) (n : Nat) (hb : ∀ k, k ≤ n → buf k < 256)
    (h0 : d 0 = buf 0)
    (hd : ∀ k, 1 ≤ k → k ≤ n → d k = (0x100 + buf k - buf (k - 1)) % 256) (m : Nat)
    (hm : m ≤ n) :
    forUp (fun i (s : Nat × Mem) =>
        (((s.1 + s.2 i) &&& 0xff), s.2.set i ((s.1 + s.2 i) &&& 0xff))) 1 m (d 0, d) =
    (buf m, fun k => if k ≤ m then buf k else d k) := by
  induction m with
  | zero =>
    simp only [forUp_zero, h0]
    congr 1
    funext k
    by_cases hk : k ≤ 0
    · have : k = 0 := by omega
      subst this
      simp [h0]
    · simp [hk]
  | succ m ih =>
    rw [forUp_succ, ih (by omega)]
    have h1 : ¬ (1 + m ≤ m) := by omega
    have hv : (buf m + d (1 + m)) % 256 = buf (m + 1) := by
      rw [hd (1 + m) (by omega) (by omega)]
      have e : 1 + m - 1 = m := by omega
      have e2 : 1 + m = m + 1 := by omega
      rw [e, e2]
      have b1 := hb m (by omega)
      have b2 := hb (m + 1) (by omega)
      omega
    simp only [h1, if_false, and_ff, hv]
    congr 1
    funext k
    simp only [Mem.set_apply]
    by_cases hk : k = 1 + m
    · subst hk
      have h2 : 1 + m ≤ m + 1 := by omega
      simp [h2, Nat.add_comm]
    · simp only [hk, if_false]
      by_cases hk2 : k ≤ m
      · have h3 : k ≤ m + 1 := by omega
        simp [hk2, h3]
      · have h3 : ¬ (k ≤ m + 1) := by omega
        simp [hk2, h3]

/-- C4: on a block of length at least 1, the prefix-sum loop of `readszipblock`
applied to the result of the differencing loop of `writeszipblock` gives back the
original block. -/
theorem undiff_diff_roundtrip (block : List Nat) (hlen : 1 ≤ block.length)
    (hbytes : ∀ b ∈ block, b < 256) :
    (undiffLoop (diffLoop (Mem.ofList block) block.length) block.length).toList block.length
      = block := by
  have hb : ∀ k, k ≤ block.length - 1 → (Mem.ofList block) k < 256 := by
    intro k hk
    have hk2 : k < block.length := by omega
    simp only [Mem.ofList, List.getD_eq_getElem _ _ hk2]
    exact hbytes _ (List.getElem_mem _)
  have hd := diffLoop_inv (Mem.ofList block) (block.length - 1)
  unfold undiffLoop
  unfold diffLoop
  rw [hd]
  simp only
  have hu := undiffLoop_inv (Mem.ofList block)
    (fun k => if 1 ≤ k ∧ k ≤ block.length - 1
      then (0x100 + (Mem.ofList block) k - (Mem.ofList block) (k - 1)) % 256
      else (Mem.ofList block) k) (block.length - 1) hb (by simp)
    (by intro k h1 h2; simp [h1, h2]) (block.length - 1) (Nat.le_refl _)
  simp only [Nat.lt_irrefl, zero_add] at hu
  have e0 : (if 1 ≤ 0 ∧ 0 ≤ block.length - 1
      then (0x100 + (Mem.ofList block) 0 - (Mem.ofList block) (0 - 1)) % 256
      else (Mem.ofList block) 0) = (Mem.ofList block) 0 := by simp
  rw [e0] at hu
  rw [e0, hu]
  simp only
  rw [← Mem.toList_ofList block]
  simp only [Mem.toList_length]
  apply Mem.toList_congr
  intro i hi
  rw [Mem.toList_ofList]
  have : i ≤ block.length - 1 := by omega
  simp [this]

/-- Witness for C4 on a three-byte block. -/
theorem undiff_diff_roundtrip_witness :
    (undiffLoop (diffLoop (Mem.ofList [7, 3, 250]) [7, 3, 250].length)
      [7, 3, 250].length).toList [7, 3, 250].length = [7, 3, 250] :=
  undiff_diff_roundtrip [7, 3, 250] (by decide) (by decide)

theorem shl8_or (a b : Nat) (hb : b < 256) : (a <<< 8) ||| b = a * 256 + b := by
  rw [Nat.shiftLeft_eq]
  have h := Nat.mul_add_lt_is_or (i := 8) (by simpa using hb) a
  have e : (2:Nat) ^ 8 = 256 := by norm_num
  rw [e] at h
  rw [Nat.mul_comm, ← h]

theorem readuint3_writeuint3 (x : Nat) (hx : x < 16777216) (rest : List Item) :
    readuint3 (writeuint3 x ++ rest) = (x, rest) := by
  simp only [readuint3, writeuint3, getcharU, getchar, List.cons_append, List.nil_append,
    and_ff, Nat.shiftRight_eq_div_pow]
  have h1 : x % 256 < 256 := Nat.mod_lt _ (by norm_num)
  have h2 : x / 2 ^ 8 % 256 < 256 := Nat.mod_lt _ (by norm_num)
  have h3 : x / 2 ^ 16 % 256 < 256 := Nat.mod_lt _ (by norm_num)
  have e0 : (x / 2 ^ 16 % 256) <<< 8 = (x / 2 ^ 16 % 256) * 256 := by
    rw [Nat.shiftLeft_eq]
  have e1 : (x / 2 ^ 16 % 256) <<< 8 % 4294967296 = (x / 2 ^ 16 % 256) <<< 8 := by
    rw [e0]; omega
  rw [e1, shl8_or _ _ h2]
  have e2 : ((x / 2 ^ 16 % 256) * 256 + x / 2 ^ 8 % 256) <<< 8
      = ((x / 2 ^ 16 % 256) * 256 + x / 2 ^ 8 % 256) * 256 := by
    rw [Nat.shiftLeft_eq]
  have e3 : ((x / 2 ^ 16 % 256) * 256 + x / 2 ^ 8 % 256) <<< 8 % 4294967296
      = ((x / 2 ^ 16 % 256) * 256 + x / 2 ^ 8 % 256) <<< 8 := by
    rw [e2]; omega
  rw [e3, shl8_or _ _ h1]
  congr 1
  omega

theorem cnt_zero (p : Nat → Prop) [DecidablePred p] : cnt 0 p = 0 := by
  simp [cnt]

theorem cnt_succ (n : Nat) (p : Nat → Prop) [DecidablePred p] :
    cnt (n + 1) p = cnt n p + if p n then 1 else 0 := by
  unfold cnt
  rw [Finset.range_succ, Finset.filter_insert]
  by_cases h : p n
  · simp [h]
  · simp [h]

theorem cnt_le (n : Nat) (p : Nat → Prop) [DecidablePred p] : cnt n p ≤ n := by
  unfold cnt
  calc ((Finset.range n).filter p).card ≤ (Finset.range n).card := Finset.card_filter_le _ _
    _ = n := Finset.card_range n

theorem cnt_congr (n : Nat) (p q : Nat → Prop) [DecidablePred p] [DecidablePred q]
    (h : ∀ i, i < n → (p i ↔ q i)) : cnt n p = cnt n q := by
  unfold cnt
  congr 1
  apply Finset.filter_congr
  intro i hi
  exact h i (Finset.mem_range.mp hi)

theorem cnt_mono (n : Nat) (p q : Nat → Prop) [DecidablePred p] [DecidablePred q]
    (h : ∀ i, i < n → p i → q i) : cnt n p ≤ cnt n q := by
  unfold cnt
  apply Finset.card_le_card
  intro i hi
  rw [Finset.mem_filter] at hi ⊢
  exact ⟨hi.1, h i (Finset.mem_range.mp hi.1) hi.2⟩

theorem cnt_lt (n : Nat) (p q : Nat → Prop) [DecidablePred p] [DecidablePred q]
    (h : ∀ i, i < n → p i → q i) (x : Nat) (hx : x < n) (hq : q x) (hp : ¬ p x) :
    cnt n p < cnt n q := by
  unfold cnt
  apply Finset.card_lt_card
  rw [Finset.ssubset_iff_of_subset]
  · exact ⟨x, by simp [hx, hq], by simp [hp]⟩
  · intro i hi
    rw [Finset.mem_filter] at hi ⊢
    exact ⟨hi.1, h i (Finset.mem_range.mp hi.1) hi.2⟩

theorem cnt_or (n : Nat) (p q : Nat → Prop) [DecidablePred p] [DecidablePred q]
    (h : ∀ i, i < n → p i → q i → False) :
    cnt n (fun i => p i ∨ q i) = cnt n p + cnt n q := by
  unfold cnt
  rw [Finset.filter_or, Finset.card_union_of_disjoint]
  rw [Finset.disjoint_left]
  intro i h1 h2
  rw [Finset.mem_filter] at h1 h2
  exact h i (Finset.mem_range.mp h1.1) h1.2 h2.2

theorem cnt_not (n : Nat) (p : Nat → Prop) [DecidablePred p] :
    cnt n p + cnt n (fun i => ¬ p i) = n := by
  unfold cnt
  rw [Finset.filter_card_add_filter_neg_card_eq_card, Finset.card_range]

theorem cnt_true (n : Nat) (p : Nat → Prop) [DecidablePred p] (h : ∀ i, i < n → p i) :
    cnt n p = n := by
  have h1 := cnt_not n p
  have h2 : cnt n (fun i => ¬ p i) = 0 := by
    unfold cnt
    rw [Finset.card_eq_zero, Finset.filter_eq_empty_iff]
    intro i hi
    simpa using h i (Finset.mem_range.mp hi)
  omega

theorem cnt_false (n : Nat) (p : Nat → Prop) [DecidablePred p] (h : ∀ i, i < n → ¬ p i) :
    cnt n p = 0 := by
  unfold cnt
  rw [Finset.card_eq_zero, Finset.filter_eq_empty_iff]
  intro i hi
  exact h i (Finset.mem_range.mp hi)

theorem cnt_prefix (n m : Nat) (hm : m ≤ n) (p : Nat → Prop) [DecidablePred p] :
    cnt n (fun j => j < m ∧ p j) = cnt m p := by
  unfold cnt
  congr 1
  ext i
  simp only [Finset.mem_filter, Finset.mem_range]
  constructor
  · rintro ⟨_, h2, h3⟩
    exact ⟨h2, h3⟩
  · rintro ⟨h2, h3⟩
    exact ⟨by omega, h2, h3⟩

theorem cnt_prefix_le (n m : Nat) (hm : m ≤ n) (p : Nat → Prop) [DecidablePred p] :
    cnt m p ≤ cnt n p := by
  rw [← cnt_prefix n m hm p]
  exact cnt_mono n _ _ (fun i _ h => h.2)

/-- An injective map of `[0, n)` into itself reaches every index. -/
theorem surj_of_inj (n : Nat) (f : Nat → Nat) (hr : ∀ i, i < n → f i < n)
    (hi : ∀ i j, i < n → j < n → f i = f j → i = j) (s : Nat) (hs : s < n) :
    ∃ i, i < n ∧ f i = s := by
  have himg : (Finset.range n).image f = Finset.range n := by
    apply Finset.eq_of_subset_of_card_le
    · intro x hx
      rw [Finset.mem_image] at hx
      obtain ⟨i, hi1, hi2⟩ := hx
      rw [← hi2]
      exact Finset.mem_range.mpr (hr i (Finset.mem_range.mp hi1))
    · rw [Finset.card_image_of_injOn]
      intro a ha b hb hab
      exact hi a b (Finset.mem_range.mp ha) (Finset.mem_range.mp hb) hab
  have hs2 : s ∈ (Finset.range n).image f := by
    rw [himg]
    exact Finset.mem_range.mpr hs
  rw [Finset.mem_image] at hs2
  obtain ⟨i, hi1, hi2⟩ := hs2
  exact ⟨i, Finset.mem_range.mp hi1, hi2⟩

theorem cnt_bij (n : Nat) (f : Nat → Nat) (hr : ∀ i, i < n → f i < n)
    (hi : ∀ i j, i < n → j < n → f i = f j → i = j)
    (p : Nat → Prop) [DecidablePred p] :
    cnt n (fun i => p (f i)) = cnt n p := by
  unfold cnt
  apply Finset.card_bij (fun a _ => f a)
  · intro a ha
    rw [Finset.mem_filter] at ha ⊢
    exact ⟨Finset.mem_range.mpr (hr a (Finset.mem_range.mp ha.1)), ha.2⟩
  · intro a ha b hb hab
    rw [Finset.mem_filter] at ha hb
    exact hi a b (Finset.mem_range.mp ha.1) (Finset.mem_range.mp hb.1) hab
  · intro b hb
    rw [Finset.mem_filter] at hb
    obtain ⟨a, ha1, ha2⟩ := surj_of_inj n f hr hi b (Finset.mem_range.mp hb.1)
    refine ⟨a, ?_, ha2⟩
    rw [Finset.mem_filter]
    exact ⟨Finset.mem_range.mpr ha1, by rw [ha2]; exact hb.2⟩

theorem rk_lt (T : Nat → Nat) (n i : Nat) (hi : i < n) : rk T n i < n := by
  unfold rk
  have h := cnt_lt n (fun j => T j < T i) (fun _ => True) (fun _ _ _ => trivial) i hi trivial
    (Nat.lt_irrefl _)
  rwa [cnt_true n (fun _ => True) (fun _ _ => trivial)] at h

theorem rk_mono (T : Nat → Nat) (n i j : Nat) (hi : i < n) (h : T i < T j) :
    rk T n i < rk T n j := by
  unfold rk
  exact cnt_lt n _ _ (fun k _ hk => Nat.lt_trans hk h) i hi h (Nat.lt_irrefl _)

theorem rk_lt_iff (T : Nat → Nat) (n i j : Nat) (hi : i < n) (hj : j < n)
    (hT : ∀ a b, a < n → b < n → T a = T b → a = b) :
    rk T n i < rk T n j ↔ T i < T j := by
  constructor
  · intro h
    by_contra hc
    rcases Nat.lt_or_ge (T j) (T i) with h1 | h1
    · have := rk_mono T n j i hj h1
      omega
    · have e : T i = T j := by omega
      have := hT i j hi hj e
      subst this
      omega
  · exact rk_mono T n i j hi

theorem rk_inj (T : Nat → Nat) (n i j : Nat) (hi : i < n) (hj : j < n)
    (hT : ∀ a b, a < n → b < n → T a = T b → a = b) (h : rk T n i = rk T n j) : i = j := by
  apply hT i j hi hj
  rcases Nat.lt_trichotomy (T i) (T j) with h1 | h1 | h1
  · have := rk_mono T n i j hi h1
    omega
  · exact h1
  · have := rk_mono T n j i hj h1
    omega

theorem rk_congr (T U : Nat → Nat) (n i : Nat) (hi : i < n)
    (h : ∀ a b, a < n → b < n → (T a < T b ↔ U a < U b)) : rk T n i = rk U n i := by
  unfold rk
  exact cnt_congr n _ _ (fun j hj => h j i hj hi)

theorem wrap_lt (L t j : Nat) (ht : t < L) (hj : j ≤ L) : wrap L t j < L := by
  unfold wrap
  split_ifs <;> omega

theorem wrap_zero (L t : Nat) : wrap L t 0 = t := by
  simp [wrap]

theorem wrap_wrap (L t i j : Nat) (ht : t < L) (hij : i + j ≤ L) :
    wrap L (wrap L t i) j = wrap L t (i + j) := by
  unfold wrap
  split_ifs <;> omega

theorem wrap_inj (L j a b : Nat) (ha : a < L) (hb : b < L) (hj : j ≤ L)
    (h : wrap L a j = wrap L b j) : a = b := by
  unfold wrap at h
  split_ifs at h <;> omega

theorem wrap_nxt (L t j : Nat) (ht : t < L) (hj : j < L) :
    wrap L (nxt L t) (j + 1) = wrap L t j := by
  unfold wrap nxt
  split_ifs <;> omega

theorem nxt_lt (L t : Nat) (ht : t < L) : nxt L t < L := by
  unfold nxt
  split_ifs <;> omega

theorem nxt_wrap_one (L t : Nat) (ht : t < L) : nxt L (wrap L t 1) = t := by
  unfold wrap nxt
  split_ifs <;> omega

theorem wrap_one_nxt (L t : Nat) (ht : t < L) : wrap L (nxt L t) 1 = t := by
  unfold wrap nxt
  split_ifs <;> omega

theorem cnt_wrap (L j : Nat) (hj : j ≤ L) (p : Nat → Prop) [DecidablePred p] :
    cnt L (fun i => p (wrap L i j)) = cnt L p :=
  cnt_bij L (fun i => wrap L i j) (fun i hi => wrap_lt L i j hi hj)
    (fun a b ha hb h => wrap_inj L j a b ha hb hj h) p

theorem keyR_lt (B : Nat → Nat) (L a len t : Nat) (ht : t < L) (hal : a + len ≤ L + 1)
    (hB : ∀ i, i < L → B i < 256) : keyR B L a len t < 256 ^ len := by
  induction len with
  | zero => simp [keyR]
  | succ len ih =>
    have h1 := ih (by omega)
    have h2 := hB (wrap L t (a + len)) (wrap_lt L t _ ht (by omega))
    simp only [keyR, pow_succ]
    nlinarith

theorem keyR_shift (B : Nat → Nat) (L a d len t : Nat) (ht : t < L) (h : a + d + len ≤ L + 1) :
    keyR B L (a + d) len t = keyR B L a len (wrap L t d) := by
  induction len with
  | zero => simp [keyR]
  | succ len ih =>
    simp only [keyR]
    rw [ih (by omega), wrap_wrap L t d (a + len) ht (by omega)]
    have e : d + (a + len) = a + d + len := by omega
    rw [e]

/-- Prepending a more significant digit. -/
theorem keyR_front (B : Nat → Nat) (L a len t : Nat) :
    keyR B L a (len + 1) t = B (wrap L t a) * 256 ^ len + keyR B L (a + 1) len t := by
  induction len with
  | zero => simp [keyR]
  | succ len ih =>
    have e : keyR B L a (len + 1 + 1) t
        = keyR B L a (len + 1) t * 256 + B (wrap L t (a + (len + 1))) := rfl
    rw [e, ih]
    have e2 : keyR B L (a + 1) (len + 1) t
        = keyR B L (a + 1) len t * 256 + B (wrap L t (a + 1 + len)) := rfl
    rw [e2]
    have e3 : a + 1 + len = a + (len + 1) := by omega
    rw [e3, pow_succ]
    ring

theorem ctx_roll (c b : Nat) (hc : c < 65536) :
    (c >>> 8) ||| (b <<< 8) = b * 256 + c / 256 := by
  rw [Nat.shiftRight_eq_div_pow, Nat.lor_comm, shl8_or _ _ (by omega)]

theorem sumReverse_aux (L : Nat) (f : Nat → Nat) (hL : L < 4294967296) (n : Nat) :
    ∀ (sum : Nat) (a : Mem), sum = cnt L (fun j => f j < n) →
      (∀ k, k < n → a k = cnt L (fun j => f j = k)) →
      ∀ k, (forDown (fun i (s : Nat × Mem) =>
          (u32sub s.1 (s.2 i), s.2.set i (u32sub s.1 (s.2 i)))) n (sum, a)).2 k
        = if k < n then cnt L (fun j => f j < k) else a k := by
  induction n with
  | zero =>
    intro sum a _ _ k
    simp [forDown]
  | succ n ih =>
    intro sum a hsum ha k
    rw [forDown_succ]
    have hsplit : cnt L (fun j => f j < n + 1) = cnt L (fun j => f j < n) + cnt L (fun j => f j = n) := by
      rw [← cnt_or L (fun j => f j < n) (fun j => f j = n) (fun i _ h1 h2 => by omega)]
      exact cnt_congr L _ _ (fun i _ => by constructor <;> intro h <;> omega)
    have han := ha n (by omega)
    have hle := cnt_le L (fun j => f j < n + 1)
    have hsub : u32sub sum (a n) = cnt L (fun j => f j < n) := by
      rw [u32sub_eq _ _ (by omega) (by omega)]
      omega
    simp only [hsub]
    rw [ih (cnt L (fun j => f j < n)) (a.set n (cnt L (fun j => f j < n))) rfl
      (fun k hk => by rw [Mem.set_other _ _ _ _ (by omega)]; exact ha k (by omega))]
    by_cases h1 : k < n
    · have h2 : k < n + 1 := by omega
      simp [h1, h2]
    · by_cases h3 : k = n
      · subst h3
        simp [Mem.set_same]
      · have h4 : ¬ k < n + 1 := by omega
        simp [h1, h4, Mem.set_other _ _ _ _ h3]

/-- Closed form of the reverse summation on a histogram: the start offsets. -/
theorem sumReverse_spec (N L : Nat) (f : Nat → Nat) (a : Mem) (hL : L < 4294967296)
    (hf : ∀ j, j < L → f j < N) (ha : ∀ k, k < N → a k = cnt L (fun j => f j = k)) (k : Nat) :
    (sumReverse N L a) k = if k < N then cnt L (fun j => f j < k) else a k := by
  unfold sumReverse
  exact sumReverse_aux L f hL N L a (cnt_true L _ hf).symm ha k

theorem cnt_le_split (L : Nat) (f : Nat → Nat) (v : Nat) :
    cnt L (fun j => f j < v + 1) = cnt L (fun j => f j < v) + cnt L (fun j => f j = v) := by
  rw [← cnt_or L (fun j => f j < v) (fun j => f j = v) (fun i _ h1 h2 => by omega)]
  exact cnt_congr L _ _ (fun i _ => by constructor <;> intro h <;> omega)

theorem lex_lt_iff (M x y a b : Nat) (ha : a < M) (hb : b < M) :
    x * M + a < y * M + b ↔ x < y ∨ (x = y ∧ a < b) := by
  constructor
  · intro h
    rcases Nat.lt_trichotomy x y with h1 | h1 | h1
    · exact Or.inl h1
    · subst h1
      right
      exact ⟨rfl, by omega⟩
    · exfalso
      have : (y + 1) * M ≤ x * M := Nat.mul_le_mul_right M h1
      have e : (y + 1) * M = y * M + M := by ring
      omega
  · rintro (h | ⟨h1, h2⟩)
    · have : (x + 1) * M ≤ y * M := Nat.mul_le_mul_right M h
      have e : (x + 1) * M = x * M + M := by ring
      omega
    · subst h1
      omega

theorem srank_eq_cnt (f : Nat → Nat) (n i : Nat) (hi : i ≤ n) :
    srank f n i = cnt n (fun j => f j < f i ∨ (j < i ∧ f j = f i)) := by
  unfold srank
  rw [cnt_or n (fun j => f j < f i) (fun j => j < i ∧ f j = f i)
    (fun j _ h1 h2 => by omega), cnt_prefix n i hi]

theorem srank_eq_rk (f : Nat → Nat) (n i : Nat) (hi : i < n) :
    srank f n i = rk (fun j => f j * n + j) n i := by
  rw [srank_eq_cnt f n i (by omega)]
  unfold rk
  apply cnt_congr
  intro j hj
  rw [lex_lt_iff n (f j) (f i) j i hj hi]
  constructor
  · rintro (h | ⟨h1, h2⟩)
    · exact Or.inl h
    · exact Or.inr ⟨h2, h1⟩
  · rintro (h | ⟨h1, h2⟩)
    · exact Or.inl h
    · exact Or.inr ⟨h2, h1⟩

theorem tie_inj (f : Nat → Nat) (n : Nat) (a b : Nat) (ha : a < n) (hb : b < n)
    (h : f a * n + a = f b * n + b) : a = b := by
  rcases Nat.lt_trichotomy a b with h1 | h1 | h1
  · have := (lex_lt_iff n (f a) (f b) a b ha hb).mpr
    rcases Nat.lt_trichotomy (f a) (f b) with h2 | h2 | h2
    · have := this (Or.inl h2); omega
    · have := this (Or.inr ⟨h2, h1⟩); omega
    · have := (lex_lt_iff n (f b) (f a) b a hb ha).mpr (Or.inl h2); omega
  · exact h1
  · rcases Nat.lt_trichotomy (f a) (f b) with h2 | h2 | h2
    · have := (lex_lt_iff n (f a) (f b) a b ha hb).mpr (Or.inl h2); omega
    · have := (lex_lt_iff n (f b) (f a) b a hb ha).mpr (Or.inr ⟨h2.symm, h1⟩); omega
    · have := (lex_lt_iff n (f b) (f a) b a hb ha).mpr (Or.inl h2); omega

theorem srank_lt (f : Nat → Nat) (n i : Nat) (hi : i < n) : srank f n i < n := by
  rw [srank_eq_rk f n i hi]
  exact rk_lt _ n i hi

theorem srank_inj (f : Nat → Nat) (n i j : Nat) (hi : i < n) (hj : j < n)
    (h : srank f n i = srank f n j) : i = j := by
  rw [srank_eq_rk f n i hi, srank_eq_rk f n j hj] at h
  exact rk_inj _ n i j hi hj (tie_inj f n) h

/-- One more radix pass: re-sorting the slots of a ranking by a new key `f` (stably)
ranks the items by the pair (new key, old key). -/
theorem lsd_rank (L M : Nat) (T f ks : Nat → Nat)
    (hT : ∀ a b, a < L → b < L → T a = T b → a = b) (hM : ∀ i, i < L → T i < M)
    (hks : ∀ i, i < L → ks (rk T L i) = f i) (i : Nat) (hi : i < L) :
    srank ks L (rk T L i) = rk (fun j => f j * M + T j) L i := by
  have hpos := rk_lt T L i hi
  rw [srank_eq_cnt ks L _ (by omega)]
  rw [← cnt_bij L (rk T L) (fun a ha => rk_lt T L a ha)
    (fun a b ha hb h => rk_inj T L a b ha hb hT h)]
  unfold rk
  apply cnt_congr
  intro j hj
  show (ks (rk T L j) < ks (rk T L i) ∨ (rk T L j < rk T L i ∧ ks (rk T L j) = ks (rk T L i)))
    ↔ _
  rw [hks j hj, hks i hi, rk_lt_iff T L j i hj hi hT,
    lex_lt_iff M (f j) (f i) (T j) (T i) (hM j hj) (hM i hi)]
  constructor
  · rintro (h | ⟨h1, h2⟩)
    · exact Or.inl h
    · exact Or.inr ⟨h2, h1⟩
  · rintro (h | ⟨h1, h2⟩)
    · exact Or.inl h
    · exact Or.inr ⟨h2, h1⟩

theorem getptr_setptr (p : PtrIndex) (i v k : Nat) (hv : v < 16777216) :
    getptr (setptr p i v) k = if k = i then v else getptr p k := by
  unfold getptr setptr
  simp only [Mem.set_apply]
  by_cases h : k = i
  · simp only [h, if_true, and_ff]
    rw [shl8_or _ _ (Nat.mod_lt _ (by norm_num)), Nat.shiftRight_eq_div_pow]
    omega
  · simp [h]

theorem lsbyte_setptr (p : PtrIndex) (i v k : Nat) :
    (setptr p i v).lsbyte k = if k = i then v % 256 else p.lsbyte k := by
  unfold setptr
  simp only [Mem.set_apply, and_ff]

theorem hist_step (f : Nat → Nat) (m : Nat) (base : Nat → Nat) :
    Mem.set (fun v => base v + cnt m (fun j => f j = v)) (f m)
      (base (f m) + cnt m (fun j => f j = f m) + 1)
    = fun v => base v + cnt (m + 1) (fun j => f j = v) := by
  funext v
  rw [Mem.set_apply, cnt_succ]
  by_cases h : v = f m
  · subst h
    simp
    omega
  · have h2 : ¬ f m = v := fun e => h e.symm
    simp [h, h2]

theorem key2_eq (B : Nat → Nat) (L a t : Nat) :
    keyR B L a 2 t = B (wrap L t a) * 256 + B (wrap L t (a + 1)) := by
  simp [keyR]

theorem key2_lt (B : Nat → Nat) (L a t : Nat) (ht : t < L) (ha : a + 1 ≤ L)
    (hB : ∀ i, i < L → B i < 256) : keyR B L a 2 t < 65536 := by
  have := keyR_lt B L a 2 t ht (by omega) hB
  norm_num at this
  exact this

theorem hist_step0 (f : Nat → Nat) (m : Nat) :
    Mem.set (fun v => cnt m (fun j => f j = v)) (f m) (cnt m (fun j => f j = f m) + 1)
    = fun v => cnt (m + 1) (fun j => f j = v) := by
  have h := hist_step f m (fun _ => 0)
  simpa using h

theorem countContexts_inv (inb : Mem) (L m : Nat) (hm : m ≤ L)
    (hB : ∀ i, i < L → inb i < 256) :
    forUp (fun i (s : CountState) =>
      ({ context := (s.context >>> ALPHABETBITS) ||| (inb i <<< ALPHABETBITS)
         counts := s.counts.set (inb i) (s.counts (inb i) + 1)
         o2counts := s.o2counts.set ((s.context >>> ALPHABETBITS) ||| (inb i <<< ALPHABETBITS))
           (s.o2counts ((s.context >>> ALPHABETBITS) ||| (inb i <<< ALPHABETBITS)) + 1) }
        : CountState))
      0 m ⟨inb (L - 1) <<< ALPHABETBITS, Mem.zero, Mem.zero⟩ =
    ⟨if m = 0 then inb (L - 1) * 256 else keyR inb L 0 2 (m - 1),
      fun v => cnt m (fun j => inb j = v), fun v => cnt m (fun j => keyR inb L 0 2 j = v)⟩ := by
  induction m with
  | zero =>
    simp only [forUp_zero, if_true, ALPHABETBITS, Nat.shiftLeft_eq, cnt_zero]
    rfl
  | succ m ih =>
    rw [forUp_succ, ih (by omega)]
    have hmL : m < L := by omega
    have hctx : ((if m = 0 then inb (L - 1) * 256 else keyR inb L 0 2 (m - 1)) >>> ALPHABETBITS)
        ||| (inb (0 + m) <<< ALPHABETBITS) = keyR inb L 0 2 m := by
      have et : keyR inb L 0 2 m = inb m * 256 + inb (wrap L m 1) := by
        rw [key2_eq, wrap_zero]
      rw [et]
      simp only [ALPHABETBITS, Nat.zero_add]
      by_cases h0 : m = 0
      · have hb := hB (L - 1) (by omega)
        rw [if_pos h0, ctx_roll _ _ (by omega)]
        have e : wrap L m 1 = L - 1 := by unfold wrap; split_ifs <;> omega
        rw [e]
        omega
      · rw [if_neg h0, ctx_roll _ _ (key2_lt inb L 0 (m - 1) (by omega) (by omega) hB), key2_eq,
          wrap_zero]
        have e : wrap L m 1 = m - 1 := by unfold wrap; split_ifs <;> omega
        have hb := hB (wrap L (m - 1) (0 + 1)) (wrap_lt L _ _ (by omega) (by omega))
        rw [e]
        omega
    simp only [hctx]
    have e1 : (m + 1 = 0) = False := by simp
    simp only [e1, if_false, Nat.add_sub_cancel, Nat.zero_add]
    rw [hist_step0 (fun j => inb j) m, hist_step0 (fun j => keyR inb L 0 2 j) m]

theorem getptr_other (p : PtrIndex) (i v k : Nat) (h : k ≠ i) :
    getptr (setptr p i v) k = getptr p k := by
  unfold getptr setptr
  simp [Mem.set_apply, h]

theorem seed_common (inb : Mem) (L n m : Nat) (base : Mem) (st : SeedState)
    (hn : 3 ≤ n) (hnL : n < L) (hB : ∀ i, i < L → inb i < 256) (hm : m < L)
    (inv : SeedInv inb L n m base st) :
    (st.context >>> ALPHABETBITS) ||| (inb (wrap L m (n - 1)) <<< ALPHABETBITS)
      = keyR inb L (n - 1) 2 m := by
  rw [inv.ctx]
  simp only [ALPHABETBITS]
  rw [ctx_roll _ _ (key2_lt inb L (n - 1) _ (wrap_lt L m 1 hm (by omega)) (by omega) hB),
    key2_eq, key2_eq, wrap_wrap L m 1 (n - 1) hm (by omega),
    wrap_wrap L m 1 (n - 1 + 1) hm (by omega)]
  have e : 1 + (n - 1) = n - 1 + 1 := by omega
  have hb := hB (wrap L m (1 + (n - 1 + 1))) (wrap_lt L m _ hm (by omega))
  rw [e]
  omega

theorem seed_post (inb : Mem) (L n m : Nat) (base : Mem) (st : SeedState) (inb2 : Mem) (q : Nat)
    (hn : 3 ≤ n) (hnL : n < L) (hm : m < L)
    (hbase : ∀ i, i < L → base (keyR inb L (n - 1) 2 i)
      = cnt L (fun j => keyR inb L (n - 1) 2 j < keyR inb L (n - 1) 2 i))
    (inv : SeedInv inb L n m base st)
    (hq : q = if m < n - 1 then m + L else m) (hbig : L + n ≤ 16777216)
    (hlow : ∀ k, k < L → inb2 k = inb k)
    (hhigh : ∀ i, i < m + 1 → i < n - 1 → inb2 (i + L) = inb i) :
    SeedInv inb L n (m + 1) base
      { inb := inb2
        context := keyR inb L (n - 1) 2 m
        o2counts := st.o2counts.set (keyR inb L (n - 1) 2 m)
          (st.o2counts (keyR inb L (n - 1) 2 m) + 1)
        p := setptr st.p (st.o2counts (keyR inb L (n - 1) 2 m)) q } := by
  have hslot : st.o2counts (keyR inb L (n - 1) 2 m) = srank (keyR inb L (n - 1) 2) L m := by
    rw [inv.o2]
    simp only [srank]
    rw [hbase m hm]
  constructor
  · show keyR inb L (n - 1) 2 m = keyR inb L (n - 1) 2 (wrap L (m + 1) 1)
    have e : wrap L (m + 1) 1 = m := by unfold wrap; split_ifs <;> omega
    rw [e]
  · show Mem.set _ _ _ = _
    rw [inv.o2]
    exact hist_step (keyR inb L (n - 1) 2) m base
  · intro i hi
    show getptr (setptr _ _ _) _ = _
    rw [hslot]
    by_cases him : i = m
    · subst him
      rw [getptr_setptr _ _ _ _ (by rw [hq]; split_ifs <;> omega), if_pos rfl, hq]
    · have hne : srank (keyR inb L (n - 1) 2) L i ≠ srank (keyR inb L (n - 1) 2) L m :=
        fun h => him (srank_inj _ L i m (by omega) hm h)
      rw [getptr_other _ _ _ _ hne]
      exact inv.ptr i (by omega)
  · exact hlow
  · exact hhigh

theorem seedWrap_step (inb : Mem) (L n m : Nat) (base : Mem) (st : SeedState)
    (hn : 3 ≤ n) (hnL : n < L) (hB : ∀ i, i < L → inb i < 256) (hm : m < n - 1)
    (hbase : ∀ i, i < L → base (keyR inb L (n - 1) 2 i)
      = cnt L (fun j => keyR inb L (n - 1) 2 j < keyR inb L (n - 1) 2 i))
    (hbig : L + n ≤ 16777216)
    (inv : SeedInv inb L n m base st) :
    SeedInv inb L n (m + 1) base (seedWrapStep L (n - 1) m st) := by
  have hmL : m < L := by omega
  have hread : (st.inb.set (m + L) (st.inb m)) (m + L - (n - 1)) = inb (wrap L m (n - 1)) := by
    rw [Mem.set_other _ _ _ _ (by omega), inv.low _ (by omega)]
    congr 1
    unfold wrap
    split_ifs <;> omega
  unfold seedWrapStep
  simp only [hread, seed_common inb L n m base st hn hnL hB hmL inv]
  apply seed_post inb L n m base st _ (m + L) hn hnL hmL hbase inv (by simp [hm]) hbig
  · intro k hk
    rw [Mem.set_other _ _ _ _ (by omega)]
    exact inv.low k hk
  · intro i hi hi2
    by_cases him : i = m
    · subst him
      rw [Mem.set_same]
      exact inv.low i hmL
    · rw [Mem.set_other _ _ _ _ (by omega)]
      exact inv.high i (by omega) hi2

theorem seed_step (inb : Mem) (L n m : Nat) (base : Mem) (st : SeedState)
    (hn : 3 ≤ n) (hnL : n < L) (hB : ∀ i, i < L → inb i < 256) (hm : n - 1 ≤ m) (hmL : m < L)
    (hbase : ∀ i, i < L → base (keyR inb L (n - 1) 2 i)
      = cnt L (fun j => keyR inb L (n - 1) 2 j < keyR inb L (n - 1) 2 i))
    (hbig : L + n ≤ 16777216)
    (inv : SeedInv inb L n m base st) :
    SeedInv inb L n (m + 1) base (seedStep (n - 1) m st) := by
  have hread : st.inb (m - (n - 1)) = inb (wrap L m (n - 1)) := by
    rw [inv.low _ (by omega)]
    congr 1
    unfold wrap
    split_ifs
    omega
  unfold seedStep
  simp only [hread, seed_common inb L n m base st hn hnL hB hmL inv]
  have hq : ¬ m < n - 1 := by omega
  apply seed_post inb L n m base st _ m hn hnL hmL hbase inv (by simp [hq]) hbig
  · exact inv.low
  · intro i hi hi2
    exact inv.high i (by omega) hi2

theorem forUp_inv {σ : Type} (body : Nat → σ → σ) (P : Nat → σ → Prop) (start n : Nat) (s : σ)
    (h0 : P 0 s) (hstep : ∀ m st, m < n → P m st → P (m + 1) (body (start + m) st)) :
    P n (forUp body start n s) := by
  induction n with
  | zero => exact h0
  | succ n ih =>
    rw [forUp_succ]
    exact hstep n _ (by omega) (ih (fun m st hm hp => hstep m st (by omega) hp))

theorem key2_shift_cnt (inb : Mem) (L n : Nat) (hn : 3 ≤ n) (hnL : n < L)
    (p : Nat → Prop) [DecidablePred p] :
    cnt L (fun j => p (keyR inb L (n - 1) 2 j)) = cnt L (fun j => p (keyR inb L 0 2 j)) := by
  rw [← cnt_wrap L (n - 1) (by omega) (fun j => p (keyR inb L 0 2 j))]
  apply cnt_congr
  intro j hj
  have h := keyR_shift inb L 0 (n - 1) 2 j hj (by omega)
  rw [Nat.zero_add] at h
  rw [h]

theorem byte_shift_cnt (inb : Mem) (L d : Nat) (hd : d ≤ L)
    (p : Nat → Prop) [DecidablePred p] :
    cnt L (fun j => p (inb (wrap L j d))) = cnt L (fun j => p (inb j)) :=
  cnt_wrap L d hd (fun j => p (inb j))

theorem sortorder2_spec (inb : Mem) (L n : Nat) (hn : 3 ≤ n) (hnL : n < L)
    (hB : ∀ i, i < L → inb i < 256) (hbig : L + n ≤ 16777216) :
    SeedPost inb L n (sortorder2 PtrIndex.empty inb L n) := by
  have hL32 : L < 4294967296 := by omega
  have hcc : countContexts inb L = ⟨if L = 0 then inb (L - 1) * 256 else keyR inb L 0 2 (L - 1),
      fun v => cnt L (fun j => inb j = v), fun v => cnt L (fun j => keyR inb L 0 2 j = v)⟩ :=
    countContexts_inv inb L L (Nat.le_refl _) hB
  have ho2 : ∀ k, (sumReverse ORDER2SIZE L (countContexts inb L).o2counts) k
      = if k < 65536 then cnt L (fun j => keyR inb L 0 2 j < k)
        else cnt L (fun j => keyR inb L 0 2 j = k) := by
    intro k
    rw [hcc]
    exact sumReverse_spec 65536 L (keyR inb L 0 2) _ hL32
      (fun j hj => key2_lt inb L 0 j hj (by omega) hB) (fun k _ => rfl) k
  have hcts : ∀ k, k < 256 → (sumReverse ALPHABETSIZE L (countContexts inb L).counts) k
      = cnt L (fun j => inb j < k) := by
    intro k hk
    rw [hcc]
    have h := sumReverse_spec 256 L (fun j => inb j) (fun v => cnt L (fun j => inb j = v)) hL32
      hB (fun k _ => rfl) k
    rw [if_pos hk] at h
    exact h
  have hklt : ∀ i, i < L → keyR inb L (n - 1) 2 i < 65536 :=
    fun i hi => key2_lt inb L (n - 1) i hi (by omega) hB
  have hbase : ∀ i, i < L → (sumReverse ORDER2SIZE L (countContexts inb L).o2counts)
      (keyR inb L (n - 1) 2 i)
      = cnt L (fun j => keyR inb L (n - 1) 2 j < keyR inb L (n - 1) 2 i) := by
    intro i hi
    rw [ho2, if_pos (hklt i hi)]
    exact (key2_shift_cnt inb L n hn hnL (fun x => x < keyR inb L (n - 1) 2 i)).symm
  have hc0 : (inb (lastContextIndex L n).1 <<< ALPHABETBITS) ||| inb (lastContextIndex L n).2
      = keyR inb L (n - 1) 2 (L - 1) := by
    have ei : lastContextIndex L n = (L - n, L - n - 1) := by
      unfold lastContextIndex
      rw [u32sub_eq L n (by omega) hL32, u32sub_eq (L - n) 1 (by omega) (by omega)]
    rw [ei]
    simp only [ALPHABETBITS]
    rw [shl8_or _ _ (hB _ (by omega)), key2_eq]
    have e1 : wrap L (L - 1) (n - 1) = L - n := by unfold wrap; split_ifs <;> omega
    have e2 : wrap L (L - 1) (n - 1 + 1) = L - n - 1 := by unfold wrap; split_ifs <;> omega
    rw [e1, e2]
  have hinit : SeedInv inb L n 0 (sumReverse ORDER2SIZE L (countContexts inb L).o2counts)
      ⟨inb, keyR inb L (n - 1) 2 (L - 1),
        sumReverse ORDER2SIZE L (countContexts inb L).o2counts, PtrIndex.empty⟩ := by
    constructor
    · show keyR inb L (n - 1) 2 (L - 1) = keyR inb L (n - 1) 2 (wrap L 0 1)
      have e : wrap L 0 1 = L - 1 := by unfold wrap; split_ifs <;> omega
      rw [e]
    · funext v
      simp [cnt_zero]
    · intro i hi
      omega
    · intro k _
      rfl
    · intro i hi
      omega
  have h1 := forUp_inv (seedWrapStep L (n - 1))
    (fun m st => SeedInv inb L n m (sumReverse ORDER2SIZE L (countContexts inb L).o2counts) st)
    0 (n - 1) _ hinit
    (fun m st hm hp => by
      rw [Nat.zero_add]
      exact seedWrap_step inb L n m _ st hn hnL hB hm hbase hbig hp)
  have h2 := forUp_inv (seedStep (n - 1))
    (fun m st => SeedInv inb L n (n - 1 + m)
      (sumReverse ORDER2SIZE L (countContexts inb L).o2counts) st)
    (n - 1) (L - (n - 1)) _ h1
    (fun m st hm hp => seed_step inb L n (n - 1 + m) _ st hn hnL hB (by omega) (by omega)
      hbase hbig hp)
  have e3 : n - 1 + (L - (n - 1)) = L := by omega
  simp only [e3] at h2
  unfold sortorder2
  simp only [hc0]
  constructor
  · exact h2.ptr
  · show (if keyR inb L (n - 1) 2 (L - 1) = ORDER2MASK then L - 1 else _) = _
    have hs1 := cnt_le_split L (keyR inb L (n - 1) 2) (keyR inb L (n - 1) 2 (L - 1))
    have hs2 := cnt_succ (L - 1) (fun j => keyR inb L (n - 1) 2 j = keyR inb L (n - 1) 2 (L - 1))
    have e4 : L - 1 + 1 = L := by omega
    rw [e4, if_pos rfl] at hs2
    have hle := cnt_le L (fun j => keyR inb L (n - 1) 2 j < keyR inb L (n - 1) 2 (L - 1) + 1)
    unfold srank
    by_cases hmask : keyR inb L (n - 1) 2 (L - 1) = ORDER2MASK
    · rw [if_pos hmask]
      have hall : cnt L (fun j => keyR inb L (n - 1) 2 j < keyR inb L (n - 1) 2 (L - 1) + 1) = L := by
        apply cnt_true
        intro i hi
        have := hklt i hi
        rw [hmask]
        show _ < 256 * 256 - 1 + 1
        omega
      omega
    · rw [if_neg hmask, ho2]
      have hlt := hklt (L - 1) (by omega)
      have hne : keyR inb L (n - 1) 2 (L - 1) ≠ 65535 := hmask
      rw [if_pos (by omega)]
      rw [← key2_shift_cnt inb L n hn hnL (fun x => x < keyR inb L (n - 1) 2 (L - 1) + 1)]
      rw [u32sub_eq _ _ (by omega) (by omega)]
      omega
  · exact h2.low
  · intro i hi
    exact h2.high i (by omega) hi
  · exact hcts

theorem inc_step (old : PtrIndex) (inbuf counts : Mem) (offset L m : Nat) (st : PassState)
    (hq : ∀ s, s < L → getptr old s < 16777216)
    (hc : ∀ s, s < L → counts (inbuf (getptr old s - offset))
      = cnt L (fun r => inbuf (getptr old r - offset) < inbuf (getptr old s - offset)))
    (hm : m < L)
    (inv : IncInv old (fun s => inbuf (getptr old s - offset)) counts L m st) :
    IncInv old (fun s => inbuf (getptr old s - offset)) counts L (m + 1)
      (incStep old inbuf offset m st) := by
  have hslot : st.ct (inbuf (getptr old m - offset))
      = srank (fun s => inbuf (getptr old s - offset)) L m := by
    rw [inv.ct]
    simp only [srank]
    rw [hc m hm]
  unfold incStep
  constructor
  · show Mem.set _ _ _ = _
    rw [inv.ct]
    exact hist_step (fun s => inbuf (getptr old s - offset)) m counts
  · intro s hs
    show getptr (setptr _ _ _) _ = _
    rw [hslot]
    by_cases hsm : s = m
    · subst hsm
      rw [getptr_setptr _ _ _ _ (hq s hm), if_pos rfl]
    · have hne : srank (fun s => inbuf (getptr old s - offset)) L s
          ≠ srank (fun s => inbuf (getptr old s - offset)) L m :=
        fun h => hsm (srank_inj _ L s m (by omega) hm h)
      rw [getptr_other _ _ _ _ hne]
      exact inv.ptr s (by omega)
  · intro _
    rfl

theorem fin_step (old : PtrIndex) (inbuf counts : Mem) (L m : Nat) (st : PassState)
    (hv : ∀ s, s < L → inbuf (getptr old s) < 256)
    (hc : ∀ s, s < L → counts (inbuf (getptr old s - 1))
      = cnt L (fun r => inbuf (getptr old r - 1) < inbuf (getptr old s - 1)))
    (hm : m < L)
    (inv : FinInv (fun s => inbuf (getptr old s)) (fun s => inbuf (getptr old s - 1))
      counts L m st) :
    FinInv (fun s => inbuf (getptr old s)) (fun s => inbuf (getptr old s - 1)) counts L (m + 1)
      (finishStep old inbuf m st) := by
  have hslot : st.ct (inbuf (getptr old m - 1))
      = srank (fun s => inbuf (getptr old s - 1)) L m := by
    rw [inv.ct]
    simp only [srank]
    rw [hc m hm]
  unfold finishStep
  constructor
  · show Mem.set _ _ _ = _
    rw [inv.ct]
    exact hist_step (fun s => inbuf (getptr old s - 1)) m counts
  · intro s hs
    show (setptr _ _ _).lsbyte _ = _
    rw [hslot, lsbyte_setptr]
    by_cases hsm : s = m
    · subst hsm
      rw [if_pos rfl]
      exact Nat.mod_eq_of_lt (hv s hm)
    · have hne : srank (fun s => inbuf (getptr old s - 1)) L s
          ≠ srank (fun s => inbuf (getptr old s - 1)) L m :=
        fun h => hsm (srank_inj _ L s m (by omega) hm h)
      rw [if_neg hne]
      exact inv.sym s (by omega)
  · intro _
    rfl

/-- The slot that the cursor `ct[ch] - 1` names after slot `il` has been placed. -/
theorem cursor_last (ks : Nat → Nat) (counts : Mem) (L il : Nat) (hil : il < L)
    (hL : L < 4294967296)
    (hc : counts (ks il) = cnt L (fun r => ks r < ks il)) :
    u32sub (counts (ks il) + cnt (il + 1) (fun s => ks s = ks il)) 1 = srank ks L il := by
  have h1 := cnt_succ il (fun s => ks s = ks il)
  rw [if_pos rfl] at h1
  have h2 := srank_lt ks L il hil
  unfold srank at h2 ⊢
  rw [hc]
  rw [u32sub_eq _ _ (by omega) (by omega)]
  omega

/-- The loops of `incsortorder`: each old slot moves to its stable rank by the new byte. -/
theorem incsortorder_loops (inbuf : Mem) (offset L : Nat) (s : SortState)
    (hL : L < 4294967296)
    (hq : ∀ r, r < L → getptr s.p r < 16777216)
    (hc : ∀ r, r < L → s.counts (inbuf (getptr s.p r - offset))
      = cnt L (fun x => inbuf (getptr s.p x - offset) < inbuf (getptr s.p r - offset)))
    (hil : s.indexlast < L) (hinb : s.inb = inbuf) :
    (∀ r, r < L → getptr (incsortorder offset L s).p
        (srank (fun x => inbuf (getptr s.p x - offset)) L r) = getptr s.p r) ∧
    (incsortorder offset L s).indexlast
      = srank (fun x => inbuf (getptr s.p x - offset)) L s.indexlast ∧
    (incsortorder offset L s).inb = inbuf ∧ (incsortorder offset L s).counts = s.counts := by
  subst hinb
  have hinit : IncInv s.p (fun x => s.inb (getptr s.p x - offset)) s.counts L 0
      ⟨PtrIndex.empty, s.counts, 0⟩ := by
    constructor
    · funext c
      simp [cnt_zero]
    · intro r hr
      omega
    · intro h
      omega
  have ha := forUp_inv (incStep s.p s.inb offset)
    (fun m st => IncInv s.p (fun x => s.inb (getptr s.p x - offset)) s.counts L m st)
    0 (s.indexlast + 1) _ hinit
    (fun m st hm hp => by
      rw [Nat.zero_add]
      exact inc_step s.p s.inb s.counts offset L m st hq hc (by omega) hp)
  have hb := forUp_inv (incStep s.p s.inb offset)
    (fun m st => IncInv s.p (fun x => s.inb (getptr s.p x - offset)) s.counts L
      (s.indexlast + 1 + m) st)
    (s.indexlast + 1) (L - (s.indexlast + 1)) _ ha
    (fun m st hm hp => inc_step s.p s.inb s.counts offset L (s.indexlast + 1 + m) st hq hc
      (by omega) hp)
  have e : s.indexlast + 1 + (L - (s.indexlast + 1)) = L := by omega
  simp only [e] at hb
  unfold incsortorder
  refine ⟨hb.ptr, ?_, rfl, rfl⟩
  show u32sub _ 1 = _
  rw [ha.ct, ha.ch (by omega)]
  simp only [Nat.add_sub_cancel]
  exact cursor_last (fun x => s.inb (getptr s.p x - offset)) s.counts L s.indexlast hil hL
    (hc s.indexlast hil)

theorem copy_loop (src dst : Mem) (n : Nat) :
    ∀ k, (forUp (fun i (m : Mem) => m.set i (src i)) 0 n dst) k
      = if k < n then src k else dst k := by
  induction n with
  | zero => intro k; simp [forUp_zero]
  | succ n ih =>
    intro k
    rw [forUp_succ, Mem.set_apply, ih, Nat.zero_add]
    by_cases h : k = n
    · subst h
      simp
    · by_cases h2 : k < n
      · have : k < n + 1 := by omega
        simp [h, h2, this]
      · have : ¬ k < n + 1 := by omega
        simp [h, h2, this]

/-- The loops of `finishsort`: the symbol of each old slot lands at its stable rank. -/
theorem finishsort_loops (inbuf : Mem) (L : Nat) (s : SortState)
    (hL : L < 4294967296)
    (hv : ∀ r, r < L → inbuf (getptr s.p r) < 256)
    (hc : ∀ r, r < L → s.counts (inbuf (getptr s.p r - 1))
      = cnt L (fun x => inbuf (getptr s.p x - 1) < inbuf (getptr s.p r - 1)))
    (hil : s.indexlast < L) (hinb : s.inb = inbuf) :
    (∀ r, r < L → (finishsort L s).inb
        (srank (fun x => inbuf (getptr s.p x - 1)) L r) = inbuf (getptr s.p r)) ∧
    (finishsort L s).indexlast
      = srank (fun x => inbuf (getptr s.p x - 1)) L s.indexlast := by
  subst hinb
  have hinit : FinInv (fun x => s.inb (getptr s.p x)) (fun x => s.inb (getptr s.p x - 1))
      s.counts L 0 ⟨PtrIndex.empty, s.counts, 0⟩ := by
    constructor
    · funext c
      simp [cnt_zero]
    · intro r hr
      omega
    · intro h
      omega
  have ha := forUp_inv (finishStep s.p s.inb)
    (fun m st => FinInv (fun x => s.inb (getptr s.p x)) (fun x => s.inb (getptr s.p x - 1))
      s.counts L m st)
    0 (s.indexlast + 1) _ hinit
    (fun m st hm hp => by
      rw [Nat.zero_add]
      exact fin_step s.p s.inb s.counts L m st hv hc (by omega) hp)
  have hb := forUp_inv (finishStep s.p s.inb)
    (fun m st => FinInv (fun x => s.inb (getptr s.p x)) (fun x => s.inb (getptr s.p x - 1))
      s.counts L (s.indexlast + 1 + m) st)
    (s.indexlast + 1) (L - (s.indexlast + 1)) _ ha
    (fun m st hm hp => fin_step s.p s.inb s.counts L (s.indexlast + 1 + m) st hv hc
      (by omega) hp)
  have e : s.indexlast + 1 + (L - (s.indexlast + 1)) = L := by omega
  simp only [e] at hb
  unfold finishsort
  constructor
  · intro r hr
    show (forUp _ 0 L s.inb) _ = _
    rw [copy_loop, if_pos (srank_lt _ L r hr)]
    exact hb.sym r hr
  · show u32sub _ 1 = _
    rw [ha.ct, ha.ch (by omega)]
    simp only [Nat.add_sub_cancel]
    exact cursor_last (fun x => s.inb (getptr s.p x - 1)) s.counts L s.indexlast hil hL
      (hc s.indexlast hil)

theorem tkey_inj (inb : Mem) (L n j : Nat) (a b : Nat) (ha : a < L) (hb : b < L)
    (h : tkey inb L n j a = tkey inb L n j b) : a = b :=
  tie_inj (fun t => keyR inb L j (n + 1 - j) t) L a b ha hb h

theorem tkey_lt (inb : Mem) (L n j t : Nat) (hjn : j ≤ n + 1) (hnL : n ≤ L)
    (ht : t < L) (hB : ∀ i, i < L → inb i < 256) :
    tkey inb L n j t < 256 ^ (n + 1 - j) * L := by
  have h := keyR_lt inb L j (n + 1 - j) t ht (by omega) hB
  unfold tkey
  have h2 : (keyR inb L j (n + 1 - j) t + 1) * L ≤ 256 ^ (n + 1 - j) * L :=
    Nat.mul_le_mul_right L h
  have e : (keyR inb L j (n + 1 - j) t + 1) * L = keyR inb L j (n + 1 - j) t * L + L := by ring
  omega

theorem tkey_step (inb : Mem) (L n j t : Nat) (hjn : j ≤ n) :
    tkey inb L n j t = inb (wrap L t j) * (256 ^ (n + 1 - (j + 1)) * L) + tkey inb L n (j + 1) t := by
  unfold tkey
  have e : n + 1 - j = (n + 1 - (j + 1)) + 1 := by omega
  rw [e, keyR_front]
  ring

theorem rk_surj (T : Nat → Nat) (L : Nat)
    (hT : ∀ a b, a < L → b < L → T a = T b → a = b) (r : Nat) (hr : r < L) :
    ∃ i, i < L ∧ rk T L i = r :=
  surj_of_inj L (rk T L) (fun i hi => rk_lt T L i hi)
    (fun a b ha hb h => rk_inj T L a b ha hb hT h) r hr

theorem inbuf_read (inb : Mem) (L n j : Nat) (st : SortState) (hn : 3 ≤ n) (hnL : n < L)
    (inv : SortInv inb L n j st) (i d : Nat) (hi : i < L) (hd : d ≤ n - 2) :
    st.inb (qptr L n i - d) = inb (wrap L i d) := by
  unfold qptr wrap
  by_cases h1 : i < n - 1
  · rw [if_pos h1]
    by_cases h2 : d ≤ i
    · rw [if_pos h2]
      have e : i + L - d = (i - d) + L := by omega
      rw [e]
      exact inv.high (i - d) (by omega)
    · rw [if_neg h2]
      exact inv.low _ (by omega)
  · rw [if_neg h1, if_pos (by omega)]
    exact inv.low _ (by omega)

theorem qptr_lt (L n i : Nat) (hi : i < L) (hn : 3 ≤ n) (hbig : L + n ≤ 16777216) :
    qptr L n i < 16777216 := by
  unfold qptr
  split_ifs <;> omega

theorem slot_key (inb : Mem) (L n j : Nat) (st : SortState) (hn : 3 ≤ n) (hnL : n < L)
    (inv : SortInv inb L n j st) (d : Nat) (hd : d ≤ n - 2) (i : Nat) (hi : i < L) :
    st.inb (getptr st.p (rk (tkey inb L n j) L i) - d) = inb (wrap L i d) := by
  rw [inv.ptr i hi]
  exact inbuf_read inb L n j st hn hnL inv i d hi hd

theorem slot_counts (inb : Mem) (L n j : Nat) (st : SortState) (hn : 3 ≤ n) (hnL : n < L)
    (hB : ∀ i, i < L → inb i < 256)
    (inv : SortInv inb L n j st) (d : Nat) (hd : d ≤ n - 2) (r : Nat) (hr : r < L) :
    st.counts (st.inb (getptr st.p r - d))
      = cnt L (fun x => st.inb (getptr st.p x - d) < st.inb (getptr st.p r - d)) := by
  obtain ⟨i, hi, hir⟩ := rk_surj (tkey inb L n j) L (tkey_inj inb L n j) r hr
  rw [← hir, slot_key inb L n j st hn hnL inv d hd i hi]
  rw [inv.counts _ (hB _ (wrap_lt L i d hi (by omega)))]
  rw [← cnt_bij L (rk (tkey inb L n j) L) (fun a ha => rk_lt _ L a ha)
    (fun a b ha hb h => rk_inj _ L a b ha hb (tkey_inj inb L n j) h)
    (fun x => st.inb (getptr st.p x - d) < inb (wrap L i d))]
  rw [← byte_shift_cnt inb L d (by omega) (fun v => v < inb (wrap L i d))]
  apply cnt_congr
  intro x hx
  rw [slot_key inb L n j st hn hnL inv d hd x hx]

theorem seed_sortinv (inb : Mem) (L n : Nat) (hn : 3 ≤ n) (hnL : n < L)
    (hB : ∀ i, i < L → inb i < 256) (hbig : L + n ≤ 16777216) :
    SortInv inb L n (n - 1) (sortorder2 PtrIndex.empty inb L n) := by
  have h := sortorder2_spec inb L n hn hnL hB hbig
  have e : n + 1 - (n - 1) = 2 := by omega
  have hT : tkey inb L n (n - 1) = fun t => keyR inb L (n - 1) 2 t * L + t := by
    funext t
    unfold tkey
    rw [e]
  constructor
  · intro i hi
    rw [hT, ← srank_eq_rk _ L i hi]
    exact h.ptr i hi
  · rw [hT, ← srank_eq_rk _ L (L - 1) (by omega)]
    exact h.last
  · exact h.low
  · exact h.high
  · exact h.counts

theorem pass_rank (inb : Mem) (L n j : Nat) (st : SortState) (hn : 3 ≤ n) (hnL : n < L)
    (hB : ∀ i, i < L → inb i < 256) (hjn : j ≤ n - 2)
    (inv : SortInv inb L n (j + 1) st) (i : Nat) (hi : i < L) :
    srank (fun x => st.inb (getptr st.p x - j)) L (rk (tkey inb L n (j + 1)) L i)
      = rk (tkey inb L n j) L i := by
  rw [lsd_rank L (256 ^ (n + 1 - (j + 1)) * L) (tkey inb L n (j + 1))
    (fun t => inb (wrap L t j)) (fun x => st.inb (getptr st.p x - j))
    (tkey_inj inb L n (j + 1))
    (fun t ht => tkey_lt inb L n (j + 1) t (by omega) (by omega) ht hB)
    (fun t ht => slot_key inb L n (j + 1) st hn hnL inv j hjn t ht) i hi]
  congr 1
  funext t
  rw [tkey_step inb L n j t (by omega)]

theorem incsortorder_spec (inb : Mem) (L n j : Nat) (st : SortState) (hn : 3 ≤ n) (hnL : n < L)
    (hB : ∀ i, i < L → inb i < 256) (hbig : L + n ≤ 16777216) (hjn : j ≤ n - 2)
    (inv : SortInv inb L n (j + 1) st) :
    SortInv inb L n j (incsortorder j L st) := by
  have hq : ∀ r, r < L → getptr st.p r < 16777216 := by
    intro r hr
    obtain ⟨i, hi, hir⟩ := rk_surj (tkey inb L n (j + 1)) L (tkey_inj inb L n (j + 1)) r hr
    rw [← hir, inv.ptr i hi]
    exact qptr_lt L n i hi hn hbig
  have hil : st.indexlast < L := by
    rw [inv.last]
    exact rk_lt _ L (L - 1) (by omega)
  obtain ⟨h1, h2, h3, h4⟩ := incsortorder_loops st.inb j L st (by omega) hq
    (slot_counts inb L n (j + 1) st hn hnL hB inv j hjn) hil rfl
  constructor
  · intro i hi
    rw [← pass_rank inb L n j st hn hnL hB hjn inv i hi,
      h1 _ (rk_lt _ L i hi)]
    exact inv.ptr i hi
  · rw [h2, inv.last]
    exact pass_rank inb L n j st hn hnL hB hjn inv (L - 1) (by omega)
  · intro k hk
    rw [h3]
    exact inv.low k hk
  · intro i hi
    rw [h3]
    exact inv.high i hi
  · intro k hk
    rw [h4]
    exact inv.counts k hk

theorem passes_spec (inb : Mem) (L n : Nat) (hn : 3 ≤ n) (hnL : n < L)
    (hB : ∀ i, i < L → inb i < 256) (hbig : L + n ≤ 16777216) (c : Nat) :
    ∀ st, c + 2 ≤ n - 1 → SortInv inb L n (c + 2) st →
      SortInv inb L n 2 (forDown (fun k s => incsortorder (k + 2) L s) c st) := by
  induction c with
  | zero =>
    intro st _ inv
    exact inv
  | succ c ih =>
    intro st hc inv
    rw [forDown_succ]
    apply ih _ (by omega)
    exact incsortorder_spec inb L n (c + 2) st hn hnL hB hbig (by omega) inv

theorem tkey_one (inb : Mem) (L n : Nat) :
    tkey inb L n 1 = fun u => ctxKey inb L n u * L + u := by
  funext t
  unfold tkey ctxKey
  rw [Nat.add_sub_cancel]

/-- Closed form of `sz_srt`: position `i` of the block lands in slot `slotOf i`, and
`indexlast` is the slot of the last position. -/
theorem sz_srt_mem_spec (inb : Mem) (L n : Nat) (hn : 3 ≤ n) (hnL : n < L)
    (hB : ∀ i, i < L → inb i < 256) (hbig : L + n ≤ 16777216) :
    (∀ i, i < L → (sz_srt_mem inb L n).inb (slotOf inb L n i) = inb i) ∧
    (sz_srt_mem inb L n).indexlast = slotOf inb L n (L - 1) := by
  have h0 := seed_sortinv inb L n hn hnL hB hbig
  have e : n - 1 = (n - 3) + 2 := by omega
  rw [e] at h0
  have inv := passes_spec inb L n hn hnL hB hbig (n - 3) _ (by omega) h0
  have hil : (forDown (fun k s => incsortorder (k + 2) L s) (n - 3)
      (sortorder2 PtrIndex.empty inb L n)).indexlast < L := by
    rw [inv.last]
    exact rk_lt _ L (L - 1) (by omega)
  obtain ⟨h1, h2⟩ := finishsort_loops _ L _ (by omega)
    (fun r hr => by
      obtain ⟨i, hi, hir⟩ := rk_surj (tkey inb L n 2) L (tkey_inj inb L n 2) r hr
      rw [← hir]
      have := slot_key inb L n 2 _ hn hnL inv 0 (by omega) i hi
      rw [Nat.sub_zero, wrap_zero] at this
      rw [this]
      exact hB i hi)
    (slot_counts inb L n 2 _ hn hnL hB inv 1 (by omega)) hil rfl
  have hrank : ∀ i, i < L → srank (fun x =>
      (forDown (fun k s => incsortorder (k + 2) L s) (n - 3)
        (sortorder2 PtrIndex.empty inb L n)).inb
      (getptr (forDown (fun k s => incsortorder (k + 2) L s) (n - 3)
        (sortorder2 PtrIndex.empty inb L n)).p x - 1)) L (rk (tkey inb L n 2) L i)
      = slotOf inb L n i := by
    intro i hi
    have := pass_rank inb L n 1 _ hn hnL hB (by omega) inv i hi
    rw [this, tkey_one]
    rfl
  unfold sz_srt_mem
  constructor
  · intro i hi
    rw [← hrank i hi, h1 _ (rk_lt _ L i hi)]
    have := slot_key inb L n 2 _ hn hnL inv 0 (by omega) i hi
    rw [Nat.sub_zero, wrap_zero] at this
    exact this
  · rw [h2, inv.last]
    exact hrank (L - 1) (by omega)

theorem shl_or (a b k : Nat) (hb : b < 2 ^ k) : (a <<< k) ||| b = a * 2 ^ k + b := by
  rw [Nat.shiftLeft_eq]
  have h := Nat.mul_add_lt_is_or hb a
  rw [Nat.mul_comm, ← h]

theorem forDown_inv {σ : Type} (body : Nat → σ → σ) (P : Nat → σ → Prop) (n : Nat) :
    ∀ s, P n s → (∀ m st, m < n → P (m + 1) st → P m (body m st)) →
      P 0 (forDown body n s) := by
  induction n with
  | zero =>
    intro s h _
    exact h
  | succ n ih =>
    intro s h hstep
    rw [forDown_succ]
    exact ih _ (hstep n s (by omega) h) (fun m st hm hp => hstep m st (by omega) hp)

theorem key4_split (B : Nat → Nat) (L t : Nat) :
    keyR B L 0 4 t = keyR B L 0 2 t * 65536 + keyR B L 2 2 t := by
  simp only [keyR]
  ring

theorem key4_roll (B : Nat → Nat) (L t : Nat) :
    keyR B L 0 4 t / 256 = keyR B L 0 3 t ∨ 256 ≤ B (wrap L t 3) := by
  by_cases h : B (wrap L t 3) < 256
  · left
    simp only [keyR, Nat.zero_add, Nat.zero_mul] at *
    omega
  · right
    omega

theorem o4_step (inb : Mem) (L m : Nat) (base : Mem) (st : O4State)
    (hL : 4 ≤ L) (hB : ∀ i, i < L → inb i < 256) (hm : m < L)
    (hbase : ∀ p, p < L → base (keyR inb L 3 2 p)
      = cnt L (fun q => keyR inb L 3 2 q < keyR inb L 3 2 p))
    (inv : O4Inv inb L m base st) :
    O4Inv inb L (m + 1) base
      { ctx := (st.ctx >>> 8) ||| (inb m <<< 24)
        counters := st.counters.set (st.ctx &&& ORDER16MASK)
          (st.counters (st.ctx &&& ORDER16MASK) + 1)
        context := st.context.set (st.counters (st.ctx &&& ORDER16MASK))
          ((st.ctx >>> 16) % 65536)
        symbols := st.symbols.set (st.counters (st.ctx &&& ORDER16MASK)) (inb m) } := by
  have hw : wrap L m 1 < L := wrap_lt L m 1 hm (by omega)
  have hlow : keyR inb L 2 2 (wrap L m 1) < 65536 := key2_lt inb L 2 _ hw (by omega) hB
  have hhigh : keyR inb L 0 2 (wrap L m 1) < 65536 := key2_lt inb L 0 _ hw (by omega) hB
  have hbucket : st.ctx &&& ORDER16MASK = keyR inb L 3 2 m := by
    have e : ORDER16MASK = 2 ^ 16 - 1 := by norm_num [ORDER16MASK, ORDER16SIZE]
    rw [e, Nat.and_pow_two_sub_one_eq_mod, inv.ctx, key4_split]
    have h := keyR_shift inb L 2 1 2 m hm (by omega)
    rw [h]
    omega
  have hctx : (st.ctx >>> 16) % 65536 = keyR inb L 1 2 m := by
    rw [Nat.shiftRight_eq_div_pow, inv.ctx, key4_split]
    have h := keyR_shift inb L 0 1 2 m hm (by omega)
    rw [Nat.zero_add] at h
    rw [h]
    omega
  have hslot : st.counters (keyR inb L 3 2 m) = srank (keyR inb L 3 2) L m := by
    rw [inv.counters]
    simp only [srank]
    rw [hbase m hm]
  rw [hbucket, hctx, hslot]
  constructor
  · show (st.ctx >>> 8) ||| (inb m <<< 24) = keyR inb L 0 4 (wrap L (m + 1) 1)
    have e : wrap L (m + 1) 1 = m := by unfold wrap; split_ifs <;> omega
    rw [e, Nat.lor_comm, inv.ctx, Nat.shiftRight_eq_div_pow]
    have h4 := keyR_lt inb L 0 4 (wrap L m 1) hw (by omega) hB
    rw [shl_or _ _ 24 (by norm_num at h4 ⊢; omega)]
    rcases key4_roll inb L (wrap L m 1) with h | h
    · have e8 : (2 : Nat) ^ 8 = 256 := by norm_num
      rw [e8, h, keyR_front inb L 0 3 m, wrap_zero]
      have h2 := keyR_shift inb L 0 1 3 m hm (by omega)
      rw [Nat.zero_add] at h2
      rw [← h2]
      norm_num
    · have := hB (wrap L (wrap L m 1) 3) (wrap_lt L _ 3 hw (by omega))
      omega
  · show Mem.set _ _ _ = _
    rw [← hslot, inv.counters]
    exact hist_step (keyR inb L 3 2) m base
  · intro p hp
    show Mem.set _ _ _ _ = _
    by_cases hpm : p = m
    · subst hpm
      rw [Mem.set_same]
    · have hne : srank (keyR inb L 3 2) L p ≠ srank (keyR inb L 3 2) L m :=
        fun h => hpm (srank_inj _ L p m (by omega) hm h)
      rw [Mem.set_other _ _ _ _ hne]
      exact inv.context p (by omega)
  · intro p hp
    show Mem.set _ _ _ _ = _
    by_cases hpm : p = m
    · subst hpm
      rw [Mem.set_same]
    · have hne : srank (keyR inb L 3 2) L p ≠ srank (keyR inb L 3 2) L m :=
        fun h => hpm (srank_inj _ L p m (by omega) hm h)
      rw [Mem.set_other _ _ _ _ hne]
      exact inv.symbols p (by omega)

theorem cnt_from_step (L m : Nat) (hm : m < L) (p : Nat → Prop) [DecidablePred p] :
    cnt L (fun i => m ≤ i ∧ p i)
      = cnt L (fun i => m + 1 ≤ i ∧ p i) + if p m then 1 else 0 := by
  by_cases h : p m
  · rw [if_pos h]
    have e := cnt_or L (fun i => m + 1 ≤ i ∧ p i) (fun i => i = m) (fun i _ h1 h2 => by omega)
    have e2 : cnt L (fun i => i = m) = 1 := by
      unfold cnt
      rw [Finset.filter_eq', if_pos (Finset.mem_range.mpr hm)]
      rfl
    rw [e2] at e
    rw [← e]
    apply cnt_congr
    intro i _
    constructor
    · rintro ⟨h1, h2⟩
      by_cases h3 : i = m
      · exact Or.inr h3
      · exact Or.inl ⟨by omega, h2⟩
    · rintro (⟨h1, h2⟩ | h3)
      · exact ⟨by omega, h2⟩
      · subst h3
        exact ⟨Nat.le_refl _, h⟩
  · rw [if_neg h, Nat.add_zero]
    apply cnt_congr
    intro i _
    constructor
    · rintro ⟨h1, h2⟩
      have : i ≠ m := fun e => h (e ▸ h2)
      exact ⟨by omega, h2⟩
    · rintro ⟨h1, h2⟩
      exact ⟨by omega, h2⟩

theorem cnt_from_add (L m : Nat) (hm : m ≤ L) (p : Nat → Prop) [DecidablePred p] :
    cnt m p + cnt L (fun i => m ≤ i ∧ p i) = cnt L p := by
  rw [← cnt_prefix L m hm p, ← cnt_or L _ _ (fun i _ h1 h2 => by omega)]
  apply cnt_congr
  intro i _
  constructor
  · rintro (h | h)
    · exact h.2
    · exact h.2
  · intro h
    by_cases h2 : i < m
    · exact Or.inl ⟨h2, h⟩
    · exact Or.inr ⟨by omega, h⟩

theorem o4_down_step (kk sym : Nat → Nat) (E : Mem) (L m : Nat) (st : O4Out)
    (hm : m < L) (hL : L < 4294967296)
    (hE : ∀ i, i < L → E (kk i) = cnt L (fun r => kk r < kk i + 1))
    (inv : O4Down kk sym E L (m + 1) st) :
    O4Down kk sym E L m (o4Place kk sym m st) ∧
      (o4Place kk sym m st).counters (kk m) = srank kk L m := by
  have h1 := cnt_from_step L m hm (fun i => kk i = kk m)
  rw [if_pos rfl] at h1
  have h2 := cnt_from_add L m (by omega) (fun i => kk i = kk m)
  have h3 := cnt_le_split L kk (kk m)
  have h4 := cnt_le L (fun r => kk r < kk m + 1)
  have hslot : u32sub (st.counters (kk m)) 1 = srank kk L m := by
    rw [inv.counters]
    simp only []
    rw [hE m hm, u32sub_eq _ _ (by omega) (by omega)]
    unfold srank
    omega
  unfold o4Place
  rw [hslot]
  refine ⟨⟨?_, ?_⟩, ?_⟩
  · show Mem.set _ _ _ = _
    funext v
    rw [Mem.set_apply, inv.counters]
    by_cases hv : v = kk m
    · subst hv
      rw [if_pos rfl, hE m hm]
      unfold srank
      omega
    · rw [if_neg hv]
      have h5 := cnt_from_step L m hm (fun i => kk i = v)
      have hv2 : ¬ kk m = v := fun e => hv e.symm
      rw [if_neg hv2, Nat.add_zero] at h5
      simp only []
      rw [h5]
  · intro i hi hiL
    show Mem.set _ _ _ _ = _
    by_cases him : i = m
    · subst him
      rw [Mem.set_same]
    · have hne : srank kk L i ≠ srank kk L m :=
        fun h => him (srank_inj _ L i m hiL hm h)
      rw [Mem.set_other _ _ _ _ hne]
      exact inv.placed i (by omega) hiL
  · show Mem.set _ _ _ _ = _
    rw [Mem.set_same]

theorem key4_split_at (B : Nat → Nat) (L a t : Nat) :
    keyR B L a 4 t = keyR B L a 2 t * 65536 + keyR B L (a + 2) 2 t := by
  simp only [keyR, Nat.add_assoc]
  ring

theorem srank_surj (f : Nat → Nat) (L r : Nat) (hr : r < L) :
    ∃ i, i < L ∧ srank f L i = r :=
  surj_of_inj L (srank f L) (fun i hi => srank_lt f L i hi)
    (fun a b ha hb h => srank_inj f L a b ha hb h) r hr

theorem o4_count_inv (inb : Mem) (L m : Nat) (hm : m ≤ L)
    (hB : ∀ i, i < L → inb i < 256) :
    forUp (fun p (s : Nat × Mem) =>
      (((s.1 >>> 8) ||| (inb p <<< 8)),
        s.2.set ((s.1 >>> 8) ||| (inb p <<< 8)) (s.2 ((s.1 >>> 8) ||| (inb p <<< 8)) + 1)))
      0 m (inb (L - 1) <<< 8, Mem.zero) =
    (if m = 0 then inb (L - 1) * 256 else keyR inb L 0 2 (m - 1),
      fun v => cnt m (fun j => keyR inb L 0 2 j = v)) := by
  induction m with
  | zero =>
    simp only [forUp_zero, if_true, Nat.shiftLeft_eq, cnt_zero]
    rfl
  | succ m ih =>
    rw [forUp_succ, ih (by omega)]
    have hmL : m < L := by omega
    have hctx : ((if m = 0 then inb (L - 1) * 256 else keyR inb L 0 2 (m - 1)) >>> 8)
        ||| (inb (0 + m) <<< 8) = keyR inb L 0 2 m := by
      have et : keyR inb L 0 2 m = inb m * 256 + inb (wrap L m 1) := by
        rw [key2_eq, wrap_zero]
      rw [et]
      simp only [Nat.zero_add]
      by_cases h0 : m = 0
      · have hb := hB (L - 1) (by omega)
        rw [if_pos h0, ctx_roll _ _ (by omega)]
        have e : wrap L m 1 = L - 1 := by unfold wrap; split_ifs <;> omega
        rw [e]
        omega
      · rw [if_neg h0, ctx_roll _ _ (key2_lt inb L 0 (m - 1) (by omega) (by omega) hB), key2_eq,
          wrap_zero]
        have e : wrap L m 1 = m - 1 := by unfold wrap; split_ifs <;> omega
        have hb := hB (wrap L (m - 1) (0 + 1)) (wrap_lt L _ _ (by omega) (by omega))
        rw [e]
        omega
    simp only [hctx]
    have e1 : (m + 1 = 0) = False := by simp
    simp only [e1, if_false, Nat.add_sub_cancel]
    rw [hist_step0 (fun j => keyR inb L 0 2 j) m]

theorem key2_shift_cnt_at (inb : Mem) (L d : Nat) (hd : d + 1 ≤ L)
    (p : Nat → Prop) [DecidablePred p] :
    cnt L (fun j => p (keyR inb L d 2 j)) = cnt L (fun j => p (keyR inb L 0 2 j)) := by
  rw [← cnt_wrap L d (by omega) (fun j => p (keyR inb L 0 2 j))]
  apply cnt_congr
  intro j hj
  have h := keyR_shift inb L 0 d 2 j hj (by omega)
  rw [Nat.zero_add] at h
  rw [h]

/-- Closed form of `sz_srt_o4`: position `p` lands in the slot the order-4 context sort
gives it; `indexlast` is the final slot of the tracked position. -/
theorem sz_srt_o4_mem_spec (inb : Mem) (L : Nat) (hL : 4 ≤ L) (hL32 : L < 4294967296)
    (hB : ∀ i, i < L → inb i < 256) :
    (∀ p, p < L → (sz_srt_o4_mem inb L).1 (slotOf inb L 4 p) = inb p) ∧
    (sz_srt_o4_mem inb L).2 < L ∧
    (∀ p, p < L → o4Tracked inb L p → (sz_srt_o4_mem inb L).2 = slotOf inb L 4 p) := by
  -- the counters after counting and reverse summation
  have hcount := o4_count_inv inb L L (Nat.le_refl _) hB
  have hbase0 : ∀ k, (sumReverse ORDER16SIZE L (fun v => cnt L (fun j => keyR inb L 0 2 j = v))) k
      = if k < 65536 then cnt L (fun j => keyR inb L 0 2 j < k)
        else cnt L (fun j => keyR inb L 0 2 j = k) := fun k =>
    sumReverse_spec 65536 L (keyR inb L 0 2) _ hL32
      (fun j hj => key2_lt inb L 0 j hj (by omega) hB) (fun k _ => rfl) k
  have hk1lt : ∀ p, p < L → keyR inb L 3 2 p < 65536 :=
    fun p hp => key2_lt inb L 3 p hp (by omega) hB
  have hk2lt : ∀ p, p < L → keyR inb L 1 2 p < 65536 :=
    fun p hp => key2_lt inb L 1 p hp (by omega) hB
  have hbase : ∀ p, p < L →
      (sumReverse ORDER16SIZE L (fun v => cnt L (fun j => keyR inb L 0 2 j = v)))
        (keyR inb L 3 2 p)
      = cnt L (fun q => keyR inb L 3 2 q < keyR inb L 3 2 p) := by
    intro p hp
    rw [hbase0, if_pos (hk1lt p hp)]
    exact (key2_shift_cnt_at inb L 3 (by omega) (fun x => x < keyR inb L 3 2 p)).symm
  -- first pass
  have hinit : O4Inv inb L 0
      (sumReverse ORDER16SIZE L (fun v => cnt L (fun j => keyR inb L 0 2 j = v)))
      ⟨keyR inb L 0 4 (L - 1),
        sumReverse ORDER16SIZE L (fun v => cnt L (fun j => keyR inb L 0 2 j = v)),
        Mem.zero, Mem.zero⟩ := by
    constructor
    · have e : wrap L 0 1 = L - 1 := by unfold wrap; split_ifs <;> omega
      rw [e]
    · funext v
      simp [cnt_zero]
    · intro p hp
      omega
    · intro p hp
      omega
  have h1 := forUp_inv (fun p (s : O4State) =>
      ({ ctx := (s.ctx >>> 8) ||| (inb p <<< 24)
         counters := s.counters.set (s.ctx &&& ORDER16MASK)
           (s.counters (s.ctx &&& ORDER16MASK) + 1)
         context := s.context.set (s.counters (s.ctx &&& ORDER16MASK))
           ((s.ctx >>> 16) % 65536)
         symbols := s.symbols.set (s.counters (s.ctx &&& ORDER16MASK)) (inb p) } : O4State))
    (fun m st => O4Inv inb L m
      (sumReverse ORDER16SIZE L (fun v => cnt L (fun j => keyR inb L 0 2 j = v))) st)
    0 L _ hinit
    (fun m st hm hp => by
      rw [Nat.zero_add]
      exact o4_step inb L m _ st hL hB hm hbase hp)
  have hc0 : (inb (L - 1) <<< 8) ||| inb (L - 2) = keyR inb L 0 2 (L - 1) := by
    rw [shl8_or _ _ (hB _ (by omega)), key2_eq, wrap_zero]
    have e : wrap L (L - 1) (0 + 1) = L - 2 := by unfold wrap; split_ifs <;> omega
    rw [e]
  have hctx0 : ((((((inb (L - 1) <<< 8) ||| inb (L - 2)) <<< 8) ||| inb (L - 3)) <<< 8)
      ||| inb (L - 4)) % 4294967296 = keyR inb L 0 4 (L - 1) := by
    have b1 := hB (L - 1) (by omega)
    have b2 := hB (L - 2) (by omega)
    have b3 := hB (L - 3) (by omega)
    have b4 := hB (L - 4) (by omega)
    rw [shl8_or _ _ b2, shl8_or _ _ b3, shl8_or _ _ b4]
    simp only [keyR, Nat.zero_add, Nat.zero_mul, wrap_zero]
    have e1 : wrap L (L - 1) 1 = L - 2 := by unfold wrap; split_ifs <;> omega
    have e2 : wrap L (L - 1) 2 = L - 3 := by unfold wrap; split_ifs <;> omega
    have e3 : wrap L (L - 1) 3 = L - 4 := by unfold wrap; split_ifs <;> omega
    rw [e1, e2, e3]
    omega
  -- the last slot of the bucket of the closing context
  have hlastpos : (if keyR inb L 0 2 (L - 1) = ORDER16MASK then L - 1
      else u32sub ((sumReverse ORDER16SIZE L
        (fun v => cnt L (fun j => keyR inb L 0 2 j = v))) (keyR inb L 0 2 (L - 1) + 1)) 1)
      = cnt L (fun q => keyR inb L 0 2 q < keyR inb L 0 2 (L - 1) + 1) - 1 := by
    have hlt := key2_lt inb L 0 (L - 1) (by omega) (by omega) hB
    by_cases hmask : keyR inb L 0 2 (L - 1) = ORDER16MASK
    · rw [if_pos hmask]
      have hall : cnt L (fun q => keyR inb L 0 2 q < keyR inb L 0 2 (L - 1) + 1) = L := by
        apply cnt_true
        intro i hi
        have := key2_lt inb L 0 i hi (by omega) hB
        rw [hmask]
        show _ < 65536 - 1 + 1
        omega
      omega
    · rw [if_neg hmask, hbase0]
      have hne : keyR inb L 0 2 (L - 1) ≠ 65535 := hmask
      have hle := cnt_le L (fun q => keyR inb L 0 2 q < keyR inb L 0 2 (L - 1) + 1)
      rw [if_pos (by omega)]
      by_cases hz : cnt L (fun q => keyR inb L 0 2 q < keyR inb L 0 2 (L - 1) + 1) = 0
      · exfalso
        have := cnt_lt L (fun _ => False)
          (fun q => keyR inb L 0 2 q < keyR inb L 0 2 (L - 1) + 1)
          (fun _ _ h => h.elim) (L - 1) (by omega) (by omega) (fun h => h)
        omega
      · rw [u32sub_eq _ _ (by omega) (by omega)]
  have hpos1 : 1 ≤ cnt L (fun q => keyR inb L 0 2 q < keyR inb L 0 2 (L - 1) + 1) := by
    have := cnt_lt L (fun _ => False)
      (fun q => keyR inb L 0 2 q < keyR inb L 0 2 (L - 1) + 1)
      (fun _ _ h => h.elim) (L - 1) (by omega) (by omega) (fun h => h)
    omega
  have hposL := cnt_le L (fun q => keyR inb L 0 2 q < keyR inb L 0 2 (L - 1) + 1)
  unfold sz_srt_o4_mem
  simp only [hctx0]
  simp only [hc0, hcount]
  simp only [hlastpos]
  generalize hlp : cnt L (fun q => keyR inb L 0 2 q < keyR inb L 0 2 (L - 1) + 1) - 1 = lastpos
  have hlpL : lastpos < L := by omega
  generalize hst : forUp (fun p (s : O4State) =>
      ({ ctx := (s.ctx >>> 8) ||| (inb p <<< 24)
         counters := s.counters.set (s.ctx &&& ORDER16MASK)
           (s.counters (s.ctx &&& ORDER16MASK) + 1)
         context := s.context.set (s.counters (s.ctx &&& ORDER16MASK))
           ((s.ctx >>> 16) % 65536)
         symbols := s.symbols.set (s.counters (s.ctx &&& ORDER16MASK)) (inb p) } : O4State))
    0 L ⟨keyR inb L 0 4 (L - 1),
        sumReverse ORDER16SIZE L (fun v => cnt L (fun j => keyR inb L 0 2 j = v)),
        Mem.zero, Mem.zero⟩ = st at h1
  -- second pass
  have hkk : ∀ p, p < L → st.context (srank (keyR inb L 3 2) L p) = keyR inb L 1 2 p :=
    h1.context
  have hE : ∀ i, i < L → st.counters (st.context i)
      = cnt L (fun r => st.context r < st.context i + 1) := by
    intro i hi
    obtain ⟨p, hp, hpi⟩ := srank_surj (keyR inb L 3 2) L i hi
    rw [← hpi, hkk p hp, h1.counters]
    simp only []
    rw [hbase0, if_pos (hk2lt p hp)]
    rw [← cnt_bij L (srank (keyR inb L 3 2) L) (fun a ha => srank_lt _ L a ha)
      (fun a b ha hb h => srank_inj _ L a b ha hb h)
      (fun r => st.context r < keyR inb L 1 2 p + 1)]
    have e1 : cnt L (fun q => st.context (srank (keyR inb L 3 2) L q) < keyR inb L 1 2 p + 1)
        = cnt L (fun q => keyR inb L 1 2 q < keyR inb L 1 2 p + 1) :=
      cnt_congr L _ _ (fun q hq => by rw [hkk q hq])
    rw [e1, key2_shift_cnt_at inb L 1 (by omega) (fun x => x < keyR inb L 1 2 p + 1),
      cnt_le_split L (keyR inb L 0 2) (keyR inb L 1 2 p),
      key2_shift_cnt_at inb L 3 (by omega) (fun x => x = keyR inb L 1 2 p)]
  have hdown0 : O4Down st.context st.symbols st.counters L (lastpos + (L - lastpos))
      ⟨st.counters, inb⟩ ∧ (L - lastpos < L - lastpos →
        st.counters (st.context (lastpos + (L - lastpos)))
          = srank st.context L (lastpos + (L - lastpos))) := by
    refine ⟨⟨?_, ?_⟩, fun h => absurd h (Nat.lt_irrefl _)⟩
    · funext v
      simp only []
      rw [cnt_false L _ (fun i hi h => by omega)]
      rfl
    · intro i h1 h2
      omega
  have ha := forDown_inv (fun k (o : O4Out) => o4Place st.context st.symbols (lastpos + k) o)
    (fun k o => O4Down st.context st.symbols st.counters L (lastpos + k) o ∧
      (k < L - lastpos → o.counters (st.context (lastpos + k))
        = srank st.context L (lastpos + k)))
    (L - lastpos) _ hdown0
    (fun m o hm hp => by
      have := o4_down_step st.context st.symbols st.counters L (lastpos + m) o (by omega) hL32
        hE hp.1
      exact ⟨this.1, fun _ => this.2⟩)
  simp only [Nat.add_zero] at ha
  have hb := forDown_inv (o4Place st.context st.symbols)
    (fun k o => O4Down st.context st.symbols st.counters L k o)
    lastpos _ ha.1
    (fun m o hm hp =>
      (o4_down_step st.context st.symbols st.counters L m o (by omega) hL32 hE hp).1)
  have hslot : ∀ p, p < L → srank st.context L (srank (keyR inb L 3 2) L p)
      = slotOf inb L 4 p := by
    intro p hp
    have hT : srank (keyR inb L 3 2) L = fun i => srank (keyR inb L 3 2) L i := rfl
    have h := lsd_rank L (65536 * L) (fun j => keyR inb L 3 2 j * L + j) (keyR inb L 1 2)
      st.context (tie_inj (keyR inb L 3 2) L)
      (fun i hi => by
        have := hk1lt i hi
        have h2 : (keyR inb L 3 2 i + 1) * L ≤ 65536 * L := Nat.mul_le_mul_right L this
        have e : (keyR inb L 3 2 i + 1) * L = keyR inb L 3 2 i * L + L := by ring
        show keyR inb L 3 2 i * L + i < 65536 * L
        omega)
      (fun i hi => by
        rw [← srank_eq_rk _ L i hi]
        exact hkk i hi) p hp
    rw [← srank_eq_rk _ L p hp] at h
    rw [h]
    have e : (fun j => keyR inb L 1 2 j * (65536 * L) + (keyR inb L 3 2 j * L + j))
        = fun u => keyR inb L 1 4 u * L + u := by
      funext u
      rw [key4_split_at]
      ring
    rw [e]
    rfl
  have hlt : (if L > lastpos then lastpos else L) = lastpos := by
    rw [if_pos hlpL]
  rw [hlt]
  refine ⟨?_, ?_, ?_⟩
  · intro p hp
    show O4Out.inout (forDown _ lastpos _) _ = _
    rw [← hslot p hp, hb.placed _ (Nat.zero_le _) (srank_lt _ L p hp)]
    exact h1.symbols p hp
  · show O4Out.counters (forDown _ (L - lastpos) _) _ < L
    rw [ha.2 (by omega)]
    exact srank_lt _ L lastpos hlpL
  · intro p hp htr
    show O4Out.counters (forDown _ (L - lastpos) _) _ = _
    rw [ha.2 (by omega), ← hslot p hp]
    congr 1
    unfold o4Tracked at htr
    rw [key2_shift_cnt_at inb L 3 (by omega)
      (fun x => x < keyR inb L 0 2 (L - 1) + 1)] at htr
    omega

theorem ofList_lt (block : List Nat) (hbytes : ∀ b ∈ block, b < 256) (i : Nat)
    (hi : i < block.length) : (Mem.ofList block) i < 256 := by
  simp only [Mem.ofList, List.getD_eq_getElem _ _ hi]
  exact hbytes _ (List.getElem_mem _)

theorem slotOf_lt (inb : Mem) (L n t : Nat) (ht : t < L) : slotOf inb L n t < L :=
  rk_lt _ L t ht

theorem slotOf_inj (inb : Mem) (L n a b : Nat) (ha : a < L) (hb : b < L)
    (h : slotOf inb L n a = slotOf inb L n b) : a = b :=
  rk_inj _ L a b ha hb (tie_inj (ctxKey inb L n) L) h

theorem range_map_perm (L : Nat) (f : Nat → Nat) (hr : ∀ i, i < L → f i < L)
    (hi : ∀ a b, a < L → b < L → f a = f b → a = b) :
    ((List.range L).map f).Perm (List.range L) := by
  apply (List.perm_ext_iff_of_nodup ?_ (List.nodup_range L)).mpr
  · intro s
    simp only [List.mem_map, List.mem_range]
    constructor
    · rintro ⟨i, h1, h2⟩
      rw [← h2]
      exact hr i h1
    · intro hs
      exact surj_of_inj L f hr hi s hs
  · apply List.Nodup.map_on _ (List.nodup_range L)
    intro a ha b hb hab
    exact hi a b (List.mem_range.mp ha) (List.mem_range.mp hb) hab

/-- A buffer that holds the bytes of `B` rearranged by a bijection of the slots is a
permutation of `B`. -/
theorem toList_perm (S B : Mem) (L : Nat) (f : Nat → Nat) (hr : ∀ i, i < L → f i < L)
    (hi : ∀ a b, a < L → b < L → f a = f b → a = b) (hS : ∀ i, i < L → S (f i) = B i) :
    (S.toList L).Perm (B.toList L) := by
  have h1 : B.toList L = ((List.range L).map f).map S := by
    unfold Mem.toList
    rw [List.map_map]
    apply List.map_congr_left
    intro i hi2
    exact (hS i (List.mem_range.mp hi2)).symm
  rw [h1]
  exact ((range_map_perm L f hr hi).map S).symm

theorem sz_srt_perm (block : List Nat) (order : Nat) (hbytes : ∀ b ∈ block, b < 256)
    (h3 : 3 ≤ order) (hlt : order < block.length)
    (hbig : block.length + order ≤ 16777216) : (sz_srt block order).1.Perm block := by
  have h := sz_srt_mem_spec (Mem.ofList block) block.length order h3 hlt
    (ofList_lt block hbytes) hbig
  have hp := toList_perm (sz_srt_mem (Mem.ofList block) block.length order).inb
    (Mem.ofList block) block.length (slotOf (Mem.ofList block) block.length order)
    (fun i hi => slotOf_lt _ _ _ i hi) (fun a b ha hb => slotOf_inj _ _ _ a b ha hb) h.1
  rw [Mem.toList_ofList] at hp
  exact hp

theorem sz_srt_o4_perm (block : List Nat) (hbytes : ∀ b ∈ block, b < 256)
    (h4 : 4 ≤ block.length) (hbig : block.length < 4294967296) :
    (sz_srt_o4 block).1.Perm block := by
  have h := sz_srt_o4_mem_spec (Mem.ofList block) block.length h4 hbig (ofList_lt block hbytes)
  have hp := toList_perm (sz_srt_o4_mem (Mem.ofList block) block.length).1
    (Mem.ofList block) block.length (slotOf (Mem.ofList block) block.length 4)
    (fun i hi => slotOf_lt _ _ _ i hi) (fun a b ha hb => slotOf_inj _ _ _ a b ha hb) h.1
  rw [Mem.toList_ofList] at hp
  exact hp

/-- C5: the first `L` bytes of the buffer after `sz_srt` (order at least 3 and below `L`)
are a permutation of the block, and so are they after `sz_srt_o4` when `L > 5`. Blocks are
those the program can hold: bytes, with every pointer `L + order - 2` of the sort within
the 24 bits of a pointer slot. -/
theorem sorted_block_is_permutation (block : List Nat) (order : Nat)
    (hbytes : ∀ b ∈ block, b < 256) (h3 : 3 ≤ order) (hlt : order < block.length)
    (hbig : block.length + order ≤ 16777216) :
    (sz_srt block order).1.Perm block ∧
    (5 < block.length → (sz_srt_o4 block).1.Perm block) :=
  ⟨sz_srt_perm block order hbytes h3 hlt hbig,
    fun h5 => sz_srt_o4_perm block hbytes (by omega) (by omega)⟩

/-- Witness for C5 on a six-byte block. -/
theorem sorted_block_is_permutation_witness :
    (sz_srt [3, 1, 4, 1, 5, 9] 3).1.Perm [3, 1, 4, 1, 5, 9] ∧
    (sz_srt_o4 [3, 1, 4, 1, 5, 9]).1.Perm [3, 1, 4, 1, 5, 9] :=
  ⟨(sorted_block_is_permutation [3, 1, 4, 1, 5, 9] 3 (by decide) (by decide) (by decide)
      (by decide)).1,
    (sorted_block_is_permutation [3, 1, 4, 1, 5, 9] 3 (by decide) (by decide) (by decide)
      (by decide)).2 (by decide)⟩

/-- C6: the `indexlast` returned by `sz_srt` (order at least 3 and below `L`) is below `L`,
and so is the one returned by `sz_srt_o4` when `L > 5`. -/
theorem indexlast_in_range (block : List Nat) (order : Nat)
    (hbytes : ∀ b ∈ block, b < 256) (h3 : 3 ≤ order) (hlt : order < block.length)
    (hbig : block.length + order ≤ 16777216) :
    (sz_srt block order).2 < block.length ∧
    (5 < block.length → (sz_srt_o4 block).2 < block.length) := by
  constructor
  · have h := sz_srt_mem_spec (Mem.ofList block) block.length order h3 hlt
      (ofList_lt block hbytes) hbig
    show (sz_srt_mem (Mem.ofList block) block.length order).indexlast < block.length
    rw [h.2]
    exact slotOf_lt _ _ _ _ (by omega)
  · intro h5
    exact (sz_srt_o4_mem_spec (Mem.ofList block) block.length (by omega) (by omega)
      (ofList_lt block hbytes)).2.1

/-- Witness for C6 on a six-byte block. -/
theorem indexlast_in_range_witness :
    (sz_srt [3, 1, 4, 1, 5, 9] 3).2 < [3, 1, 4, 1, 5, 9].length ∧
    (sz_srt_o4 [3, 1, 4, 1, 5, 9]).2 < [3, 1, 4, 1, 5, 9].length :=
  ⟨(indexlast_in_range [3, 1, 4, 1, 5, 9] 3 (by decide) (by decide) (by decide)
      (by decide)).1,
    (indexlast_in_range [3, 1, 4, 1, 5, 9] 3 (by decide) (by decide) (by decide)
      (by decide)).2 (by decide)⟩

theorem toList_getElem? (m : Mem) (n i : Nat) (hi : i < n) : (m.toList n)[i]? = some (m i) := by
  simp [Mem.toList, hi]

theorem sz_srt_getElem? (block : List Nat) (order : Nat)
    (hbytes : ∀ b ∈ block, b < 256) (h3 : 3 ≤ order) (hlt : order < block.length)
    (hbig : block.length + order ≤ 16777216) (i : Nat) (hi : i < block.length) :
    (sz_srt block order).1[slotOf (Mem.ofList block) block.length order i]? = block[i]? := by
  have h := sz_srt_mem_spec (Mem.ofList block) block.length order h3 hlt
    (ofList_lt block hbytes) hbig
  show ((sz_srt_mem (Mem.ofList block) block.length order).inb.toList block.length)[_]? = _
  rw [toList_getElem? _ _ _ (slotOf_lt _ _ _ i hi), h.1 i hi]
  simp [Mem.ofList, List.getD, List.getElem?_eq_getElem hi]

/-- C7: the byte at index `indexlast` of the block sorted by `sz_srt` is the original last
symbol `B[L-1]`; `indexlast` is the slot the sort gives to the last position. -/
theorem indexlast_holds_last_symbol (block : List Nat) (order : Nat)
    (hbytes : ∀ b ∈ block, b < 256) (h3 : 3 ≤ order) (hlt : order < block.length)
    (hbig : block.length + order ≤ 16777216) :
    (sz_srt block order).1[(sz_srt block order).2]? = block[block.length - 1]? ∧
    (sz_srt block order).2
      = slotOf (Mem.ofList block) block.length order (block.length - 1) := by
  have h := sz_srt_mem_spec (Mem.ofList block) block.length order h3 hlt
    (ofList_lt block hbytes) hbig
  have e : (sz_srt block order).2
      = slotOf (Mem.ofList block) block.length order (block.length - 1) := h.2
  refine ⟨?_, e⟩
  rw [e]
  exact sz_srt_getElem? block order hbytes h3 hlt hbig _ (by omega)

/-- Witness for C7 on a six-byte block with order 3. -/
theorem indexlast_holds_last_symbol_witness :
    (sz_srt [3, 1, 4, 1, 5, 9] 3).1[(sz_srt [3, 1, 4, 1, 5, 9] 3).2]?
      = [3, 1, 4, 1, 5, 9][[3, 1, 4, 1, 5, 9].length - 1]? ∧
    (sz_srt [3, 1, 4, 1, 5, 9] 3).2
      = slotOf (Mem.ofList [3, 1, 4, 1, 5, 9]) [3, 1, 4, 1, 5, 9].length 3
        ([3, 1, 4, 1, 5, 9].length - 1) :=
  indexlast_holds_last_symbol [3, 1, 4, 1, 5, 9] 3 (by decide) (by decide) (by decide)
    (by decide)

theorem strictMono_id (L : Nat) (g : Nat → Nat) (hr : ∀ s, s < L → g s < L)
    (hm : ∀ s, s + 1 < L → g s < g (s + 1)) : ∀ s, s < L → g s = s := by
  have lower : ∀ s, s < L → s ≤ g s := by
    intro s
    induction s with
    | zero => intro _; omega
    | succ s ih =>
      intro h
      have := ih (by omega)
      have := hm s h
      omega
  have upper : ∀ k, k < L → g (L - 1 - k) ≤ L - 1 - k := by
    intro k
    induction k with
    | zero =>
      intro h
      have := hr (L - 1) (by omega)
      simp only [Nat.sub_zero]
      omega
    | succ k ih =>
      intro h
      have h1 := ih (by omega)
      have h2 := hm (L - 1 - (k + 1)) (by omega)
      have e : L - 1 - (k + 1) + 1 = L - 1 - k := by omega
      rw [e] at h2
      omega
  intro s hs
  have h1 := lower s hs
  have h2 := upper (L - 1 - s) (by omega)
  have e : L - 1 - (L - 1 - s) = s := by omega
  rw [e] at h2
  omega

theorem ctxBefore_lt (B : Nat → Nat) (L n a b : Nat) (ha : a < L) (hb : b < L)
    (h : ctxBefore B L n a b) (hne : a ≠ b) :
    ctxKey B L n a * L + a < ctxKey B L n b * L + b := by
  rw [lex_lt_iff L _ _ a b ha hb]
  rcases h with h | ⟨h1, h2⟩
  · exact Or.inl h
  · exact Or.inr ⟨h1, by omega⟩

theorem ctxBefore_total (B : Nat → Nat) (L n : Nat) : IsTotal Nat (ctxBefore B L n) :=
  ⟨fun a b => by
    unfold ctxBefore
    omega⟩

theorem ctxBefore_trans (B : Nat → Nat) (L n : Nat) : IsTrans Nat (ctxBefore B L n) :=
  ⟨fun a b c => by
    unfold ctxBefore
    omega⟩

/-- The sorted list of positions has position `i` at index `slotOf i`. -/
theorem sorted_positions_slot (B : Nat → Nat) (L n s : Nat) (hs : s < L) :
    slotOf B L n (((List.range L).insertionSort (ctxBefore B L n)).getD s 0) = s := by
  haveI := ctxBefore_total B L n
  haveI := ctxBefore_trans B L n
  have hperm := List.perm_insertionSort (ctxBefore B L n) (List.range L)
  have hsorted := List.sorted_insertionSort (ctxBefore B L n) (List.range L)
  have hlen : ((List.range L).insertionSort (ctxBefore B L n)).length = L := by
    rw [hperm.length_eq, List.length_range]
  have hnodup : ((List.range L).insertionSort (ctxBefore B L n)).Nodup :=
    hperm.nodup_iff.mpr (List.nodup_range L)
  have hmem : ∀ k, k < L → ((List.range L).insertionSort (ctxBefore B L n)).getD k 0 < L := by
    intro k hk
    rw [List.getD_eq_getElem _ _ (by omega)]
    exact List.mem_range.mp (hperm.mem_iff.mp (List.getElem_mem _))
  apply strictMono_id L
    (fun k => slotOf B L n (((List.range L).insertionSort (ctxBefore B L n)).getD k 0))
    (fun k hk => slotOf_lt B L n _ (hmem k hk)) _ s hs
  intro k hk
  apply rk_mono _ L _ _ (hmem k (by omega))
  apply ctxBefore_lt B L n _ _ (hmem k (by omega)) (hmem (k + 1) hk)
  · rw [List.getD_eq_getElem _ _ (by omega), List.getD_eq_getElem _ _ (by omega)]
    exact List.pairwise_iff_getElem.mp hsorted k (k + 1) (by omega) (by omega) (by omega)
  · rw [List.getD_eq_getElem _ _ (by omega), List.getD_eq_getElem _ _ (by omega)]
    intro h
    have := (List.Nodup.getElem_inj_iff hnodup).mp h
    omega

theorem sorted_positions_length (B : Nat → Nat) (L n : Nat) :
    ((List.range L).insertionSort (ctxBefore B L n)).length = L := by
  rw [(List.perm_insertionSort (ctxBefore B L n) (List.range L)).length_eq, List.length_range]

theorem sorted_positions_lt (B : Nat → Nat) (L n k : Nat) (hk : k < L) :
    ((List.range L).insertionSort (ctxBefore B L n)).getD k 0 < L := by
  rw [List.getD_eq_getElem _ _ (by rw [sorted_positions_length]; exact hk)]
  exact List.mem_range.mp
    ((List.perm_insertionSort (ctxBefore B L n) (List.range L)).mem_iff.mp
      (List.getElem_mem _))

/-- A buffer filled slot by slot from `B` reads as the sorted positions mapped by `B`. -/
theorem toList_eq_sorted (S B : Mem) (L n : Nat)
    (hS : ∀ i, i < L → S (slotOf B L n i) = B i) :
    S.toList L = ((List.range L).insertionSort (ctxBefore B L n)).map B := by
  apply List.ext_getElem
  · rw [Mem.toList_length, List.length_map, sorted_positions_length]
  · intro s h1 h2
    rw [Mem.toList_length] at h1
    simp only [Mem.toList, List.getElem_map, List.getElem_range]
    have h3 := sorted_positions_slot B L n s h1
    have h4 := hS _ (sorted_positions_lt B L n s h1)
    rw [h3] at h4
    rw [h4, List.getD_eq_getElem _ _ (by rw [sorted_positions_length]; exact h1)]

/-- C8 (amended): `sz_srt` permutes `block[0..L)` into the order induced by comparing each
position's PRECEDING `order` bytes taken cyclically, nearest byte first (ties kept in
position order), and writes back, in that order, the symbol AT each position, the byte
that cyclically follows the compared context. -/
theorem sz_srt_sorts_on_preceding_context (block : List Nat) (order : Nat)
    (hbytes : ∀ b ∈ block, b < 256) (h3 : 3 ≤ order) (hlt : order < block.length)
    (hbig : block.length + order ≤ 16777216) :
    (sz_srt block order).1 =
      ((List.range block.length).insertionSort
        (ctxBefore (Mem.ofList block) block.length order)).map (Mem.ofList block) := by
  have h := sz_srt_mem_spec (Mem.ofList block) block.length order h3 hlt
    (ofList_lt block hbytes) hbig
  exact toList_eq_sorted _ _ _ _ h.1

/-- Witness for C8 (amended) on the block 0..5 with order 3. -/
theorem sz_srt_sorts_on_preceding_context_witness :
    (sz_srt [0, 1, 2, 3, 4, 5] 3).1 =
      ((List.range [0, 1, 2, 3, 4, 5].length).insertionSort
        (ctxBefore (Mem.ofList [0, 1, 2, 3, 4, 5]) [0, 1, 2, 3, 4, 5].length 3)).map
        (Mem.ofList [0, 1, 2, 3, 4, 5]) :=
  sz_srt_sorts_on_preceding_context [0, 1, 2, 3, 4, 5] 3 (by decide) (by decide) (by decide)
    (by decide)

theorem sz_srt_fst (block : List Nat) (order : Nat) : (sz_srt block order).1
    = (sz_srt_mem (Mem.ofList block) block.length order).inb.toList block.length := rfl

theorem sz_srt_example : (sz_srt [0, 1, 2, 3, 4, 5] 3).1 = [1, 2, 3, 4, 5, 0] := by
  have h := sz_srt_mem_spec (Mem.ofList [0, 1, 2, 3, 4, 5]) [0, 1, 2, 3, 4, 5].length 3
    (by decide) (by decide) (ofList_lt [0, 1, 2, 3, 4, 5] (by decide)) (by decide)
  rw [sz_srt_fst, toList_eq_sorted _ _ _ _ h.1]
  decide

/-- C8 as stated fails: on the block 0..5 with order 3 the code writes 1,2,3,4,5,0, while
sorting on the following bytes and writing the preceding byte gives 5,0,1,2,3,4. -/
theorem sz_srt_not_forward_context_sort :
    (sz_srt [0, 1, 2, 3, 4, 5] 3).1 = [1, 2, 3, 4, 5, 0] ∧
    specForwardSort [0, 1, 2, 3, 4, 5] 3 = [5, 0, 1, 2, 3, 4] ∧
    (sz_srt [0, 1, 2, 3, 4, 5] 3).1 ≠ specForwardSort [0, 1, 2, 3, 4, 5] 3 := by
  have h1 := sz_srt_example
  have h2 : specForwardSort [0, 1, 2, 3, 4, 5] 3 = [5, 0, 1, 2, 3, 4] := by decide
  refine ⟨h1, h2, ?_⟩
  rw [h1, h2]
  decide

theorem ofList_append_left (l : List Nat) (a j : Nat) (hj : j < l.length) :
    (Mem.ofList (l ++ [a])) j = (Mem.ofList l) j := by
  simp only [Mem.ofList]
  rw [List.getD_eq_getElem _ _ (by simp; omega), List.getD_eq_getElem _ _ hj,
    List.getElem_append_left]

theorem ofList_append_last (l : List Nat) (a : Nat) :
    (Mem.ofList (l ++ [a])) l.length = a := by
  simp [Mem.ofList, List.getD]

/-- Counting over the indices of a list is counting over its elements. -/
theorem cnt_ofList (block : List Nat) (p : Nat → Prop) [DecidablePred p] :
    cnt block.length (fun j => p ((Mem.ofList block) j)) = block.countP (fun x => decide (p x)) := by
  induction block using List.reverseRecOn with
  | nil => simp [cnt_zero]
  | append_singleton l a ih =>
    rw [List.length_append, List.length_singleton, cnt_succ, ofList_append_last,
      List.countP_append, ← ih]
    congr 1
    · exact cnt_congr _ _ _ (fun j hj => by rw [ofList_append_left l a j hj])
    · by_cases h : p a <;> simp [h]

theorem byteCounts_eq (block : List Nat) (k : Nat) :
    byteCounts block k = cnt block.length (fun j => (Mem.ofList block) j = k) := by
  rw [cnt_ofList block (fun x => x = k)]
  unfold byteCounts List.count
  congr 1

/-- The start offsets that the reverse summation leaves for the byte counts of a block. -/
theorem sumReverse_byteCounts (block : List Nat) (hbytes : ∀ b ∈ block, b < 256)
    (hlen : block.length < 4294967296) (k : Nat) (hk : k < 256) :
    (sumReverse ALPHABETSIZE block.length (byteCounts block)) k
      = cnt block.length (fun j => (Mem.ofList block) j < k) := by
  have h := sumReverse_spec 256 block.length (Mem.ofList block) (byteCounts block) hlen
    (ofList_lt block hbytes) (fun k _ => byteCounts_eq block k) k
  rw [if_pos hk] at h
  exact h

/-- C9: on the byte histogram of a block of length `L` the reverse summation of `sz_unsrt`
(the same loop runs in `sortorder2` and `sz_unsrt_BW`) yields the start-offset table:
`counts[i]` is the number of block bytes below `i`; so `counts[0] = 0`, `counts` is
non-decreasing and `counts[A-1] + freq[A-1] = L`. -/
theorem reverse_sum_gives_start_offsets (block : List Nat) (hbytes : ∀ b ∈ block, b < 256)
    (hlen : block.length < 4294967296) :
    (∀ i, i < ALPHABETSIZE → (sumReverse ALPHABETSIZE block.length (byteCounts block)) i
      = block.countP (fun b => decide (b < i))) ∧
    (sumReverse ALPHABETSIZE block.length (byteCounts block)) 0 = 0 ∧
    (∀ i j, i ≤ j → j < ALPHABETSIZE →
      (sumReverse ALPHABETSIZE block.length (byteCounts block)) i
        ≤ (sumReverse ALPHABETSIZE block.length (byteCounts block)) j) ∧
    (sumReverse ALPHABETSIZE block.length (byteCounts block)) (ALPHABETSIZE - 1)
      + byteCounts block (ALPHABETSIZE - 1) = block.length := by
  have hs := sumReverse_byteCounts block hbytes hlen
  refine ⟨?_, ?_, ?_, ?_⟩
  · intro i hi
    rw [hs i hi, cnt_ofList block (fun x => x < i)]
  · rw [hs 0 (by norm_num)]
    exact cnt_false _ _ (fun i _ h => by omega)
  · intro i j hij hj
    have hj2 : j < 256 := hj
    rw [hs i (by omega), hs j hj2]
    exact cnt_mono _ _ _ (fun x _ h => by omega)
  · have e : ALPHABETSIZE - 1 = 255 := rfl
    rw [e, hs 255 (by norm_num), byteCounts_eq, ← cnt_le_split]
    exact cnt_true _ _ (fun i hi => ofList_lt block hbytes i hi)

/-- Witness for C9 on a four-byte block. -/
theorem reverse_sum_gives_start_offsets_witness :
    (∀ i, i < ALPHABETSIZE →
      (sumReverse ALPHABETSIZE [2, 0, 255, 2].length (byteCounts [2, 0, 255, 2])) i
        = [2, 0, 255, 2].countP (fun b => decide (b < i))) ∧
    (sumReverse ALPHABETSIZE [2, 0, 255, 2].length (byteCounts [2, 0, 255, 2])) 0 = 0 ∧
    (∀ i j, i ≤ j → j < ALPHABETSIZE →
      (sumReverse ALPHABETSIZE [2, 0, 255, 2].length (byteCounts [2, 0, 255, 2])) i
        ≤ (sumReverse ALPHABETSIZE [2, 0, 255, 2].length (byteCounts [2, 0, 255, 2])) j) ∧
    (sumReverse ALPHABETSIZE [2, 0, 255, 2].length (byteCounts [2, 0, 255, 2]))
        (ALPHABETSIZE - 1)
      + byteCounts [2, 0, 255, 2] (ALPHABETSIZE - 1) = [2, 0, 255, 2].length :=
  reverse_sum_gives_start_offsets [2, 0, 255, 2] (by decide) (by decide)

theorem drop_stored_tail (dirsize buflen : Nat) (buffer : Mem) :
    (writestorblock dirsize buflen buffer).drop (1 + buflen)
      = writeuint3 ((dirsize + 4 + buflen) % 4294967296) := by
  unfold writestorblock
  rw [List.append_assoc, List.drop_append_eq_append_drop]
  simp [Mem.toList_length, List.drop_append_eq_append_drop]

/-- C10 (amended): the 3-byte big-endian value that `writestorblock` appends after the raw
bytes of a stored block of length `L` is `dirsize + 4 + L`, where `dirsize` is the 6
returned by `writeblockdir`: the value is `10 + L`. -/
theorem stored_tail_is_dirsize_plus_4_plus_len (L : Nat) (buffer : Mem)
    (hL : L + 10 < 16777216) :
    (writeblockdir L).2 = 6 ∧
    readuint3 ((writestorblock (writeblockdir L).2 L buffer).drop (1 + L))
      = ((writeblockdir L).2 + 4 + L, []) ∧
    (writeblockdir L).2 + 4 + L = 10 + L := by
  refine ⟨rfl, ?_, ?_⟩
  · rw [drop_stored_tail]
    have e : ((writeblockdir L).2 + 4 + L) % 4294967296 = (writeblockdir L).2 + 4 + L := by
      apply Nat.mod_eq_of_lt
      show 6 + 4 + L < 4294967296
      omega
    rw [e]
    have h := readuint3_writeuint3 ((writeblockdir L).2 + 4 + L)
      (by show 6 + 4 + L < 16777216; omega) []
    rw [List.append_nil] at h
    exact h
  · show 6 + 4 + L = 10 + L
    omega

/-- Witness for C10 (amended) on a one-byte stored block. -/
theorem stored_tail_is_dirsize_plus_4_plus_len_witness :
    (writeblockdir 1).2 = 6 ∧
    readuint3 ((writestorblock (writeblockdir 1).2 1 (Mem.ofList [0x41])).drop (1 + 1))
      = ((writeblockdir 1).2 + 4 + 1, []) ∧
    (writeblockdir 1).2 + 4 + 1 = 10 + 1 :=
  stored_tail_is_dirsize_plus_4_plus_len 1 (Mem.ofList [0x41]) (by decide)

/-- C10 as stated fails: for the one-byte block `0x41` the value after the raw byte is 11,
not `dirsize + 3 + L = 10`. -/
theorem stored_tail_is_not_dirsize_plus_3_plus_len :
    (readuint3 ((writestorblock (writeblockdir 1).2 1 (Mem.ofList [0x41])).drop (1 + 1))).1
      = 11 ∧
    (readuint3 ((writestorblock (writeblockdir 1).2 1 (Mem.ofList [0x41])).drop (1 + 1))).1
      ≠ (writeblockdir 1).2 + 3 + 1 := by
  constructor
  · rfl
  · decide

/-- C1 at the failing input: compressing the single byte `0x41` with the default settings
(block size 32768, order 6, record size 1) and decompressing the result writes the byte
twice: `readstorblock` writes the block and `decompressit` writes the buffer again. -/
theorem decompress_writes_stored_block_twice (co : Collab) :
    compressit co 32768 6 1 [0x41] =
      [Item.byte 0x53, Item.byte 0x5a, Item.byte 0x0a, Item.byte 0x04, Item.byte 1,
       Item.byte 12, Item.byte 0x42, Item.byte 0x48, Item.byte 0, Item.byte 0, Item.byte 1,
       Item.byte 0, Item.byte 0, Item.byte 0x41, Item.byte 0, Item.byte 0, Item.byte 11] ∧
    decompressit co 1 (compressit co 32768 6 1 [0x41]) = Except.ok [0x41, 0x41] := by
  have h : compressit co 32768 6 1 [0x41] =
      [Item.byte 0x53, Item.byte 0x5a, Item.byte 0x0a, Item.byte 0x04, Item.byte 1,
       Item.byte 12, Item.byte 0x42, Item.byte 0x48, Item.byte 0, Item.byte 0, Item.byte 1,
       Item.byte 0, Item.byte 0, Item.byte 0x41, Item.byte 0, Item.byte 0, Item.byte 11] := rfl
  refine ⟨h, ?_⟩
  rw [h]
  rfl

theorem posOf_lt (B : Nat → Nat) (L n s : Nat) (hs : s < L) : posOf B L n s < L :=
  sorted_positions_lt B L n s hs

theorem slotOf_posOf (B : Nat → Nat) (L n s : Nat) (hs : s < L) :
    slotOf B L n (posOf B L n s) = s :=
  sorted_positions_slot B L n s hs

theorem posOf_slotOf (B : Nat → Nat) (L n t : Nat) (ht : t < L) :
    posOf B L n (slotOf B L n t) = t :=
  slotOf_inj B L n _ _ (posOf_lt B L n _ (slotOf_lt B L n t ht)) ht
    (slotOf_posOf B L n _ (slotOf_lt B L n t ht))

theorem sorted_slot (B S : Mem) (L n : Nat) (h : SortedBy B S L n) (s : Nat) (hs : s < L) :
    S s = B (posOf B L n s) := by
  have := h.hS (posOf B L n s) (posOf_lt B L n s hs)
  rw [slotOf_posOf B L n s hs] at this
  exact this

theorem keyR_split (B : Nat → Nat) (L a k m t : Nat) :
    keyR B L a (k + m) t = keyR B L a k t * 256 ^ m + keyR B L (a + k) m t := by
  induction m with
  | zero => simp [keyR]
  | succ m ih =>
    have e : keyR B L a (k + (m + 1)) t
        = keyR B L a (k + m) t * 256 + B (wrap L t (a + (k + m))) := rfl
    have e2 : keyR B L (a + k) (m + 1) t
        = keyR B L (a + k) m t * 256 + B (wrap L t (a + k + m)) := rfl
    rw [e, e2, ih, pow_succ, Nat.add_assoc]
    ring

theorem ctxKey_lt (B : Nat → Nat) (L k t : Nat) (ht : t < L) (hk : k ≤ L)
    (hB : ∀ i, i < L → B i < 256) : ctxKey B L k t < 256 ^ k :=
  keyR_lt B L 1 k t ht (by omega) hB

/-- The context of the next position: its nearest byte is the symbol at `t`. -/
theorem ctxKey_nxt (B : Nat → Nat) (L k t : Nat) (ht : t < L) (hk : k + 1 ≤ L) :
    ctxKey B L (k + 1) (nxt L t) = B t * 256 ^ k + ctxKey B L k t := by
  unfold ctxKey
  rw [keyR_front, wrap_one_nxt L t ht, keyR_shift B L 1 1 k (nxt L t) (nxt_lt L t ht) (by omega),
    wrap_one_nxt L t ht]

theorem ctxKey_wrap (B : Nat → Nat) (L k w : Nat) (hw : w < L) (hk : k + 1 ≤ L) :
    ctxKey B L (k + 1) w = B (wrap L w 1) * 256 ^ k + ctxKey B L k (wrap L w 1) := by
  have h := ctxKey_nxt B L k (wrap L w 1) (wrap_lt L w 1 hw (by omega)) hk
  rw [nxt_wrap_one L w hw] at h
  exact h

/-- A shorter context is a prefix of a longer one: the orders agree. -/
theorem ctxKey_prefix (B : Nat → Nat) (L n k u t : Nat) (hu : u < L) (ht : t < L)
    (hk : k ≤ n) (hn : n ≤ L) (hB : ∀ i, i < L → B i < 256)
    (h : ctxKey B L k u < ctxKey B L k t) : ctxKey B L n u < ctxKey B L n t := by
  unfold ctxKey at *
  have e : n = k + (n - k) := by omega
  rw [e, keyR_split, keyR_split]
  rw [lex_lt_iff (256 ^ (n - k)) _ _ _ _
    (keyR_lt B L (1 + k) (n - k) u hu (by omega) hB)
    (keyR_lt B L (1 + k) (n - k) t ht (by omega) hB)]
  exact Or.inl h

theorem tiekey_lt_of_ctx_lt (B : Nat → Nat) (L n u t : Nat) (hu : u < L) (ht : t < L)
    (h : ctxKey B L n u < ctxKey B L n t) :
    ctxKey B L n u * L + u < ctxKey B L n t * L + t := by
  rw [lex_lt_iff L _ _ u t hu ht]
  exact Or.inl h

theorem ctx_le_of_tiekey_lt (B : Nat → Nat) (L n u t : Nat) (hu : u < L) (ht : t < L)
    (h : ctxKey B L n u * L + u < ctxKey B L n t * L + t) :
    ctxKey B L n u ≤ ctxKey B L n t := by
  rw [lex_lt_iff L _ _ u t hu ht] at h
  omega

/-- Slots below the cut at `c` are exactly the slots whose `k`-byte context is below `c`. -/
theorem slot_lt_cut (B : Nat → Nat) (L n k c u : Nat) (hu : u < L) (hk : k ≤ n) (hn : n ≤ L)
    (hB : ∀ i, i < L → B i < 256) :
    slotOf B L n u < cut B L k c ↔ ctxKey B L k u < c := by
  constructor
  · intro h
    by_contra hc
    have hle : cut B L k c ≤ slotOf B L n u := by
      unfold cut slotOf rk
      apply cnt_mono
      intro v hv hvc
      apply tiekey_lt_of_ctx_lt B L n v u hv hu
      exact ctxKey_prefix B L n k v u hv hu hk hn hB (by omega)
    omega
  · intro h
    unfold cut slotOf rk
    refine cnt_lt L (fun j => ctxKey B L n j * L + j < ctxKey B L n u * L + u)
      (fun v => ctxKey B L k v < c) ?_ u hu h (Nat.lt_irrefl _)
    intro v hv hvu
    have h1 := ctx_le_of_tiekey_lt B L n v u hv hu hvu
    by_contra hc
    have h2 : ctxKey B L k u < ctxKey B L k v := by omega
    have := ctxKey_prefix B L n k u v hu hv hk hn hB h2
    omega

theorem cut_le (B : Nat → Nat) (L k c : Nat) : cut B L k c ≤ L := cnt_le L _

theorem cut_mono (B : Nat → Nat) (L k c d : Nat) (h : c ≤ d) : cut B L k c ≤ cut B L k d :=
  cnt_mono L _ _ (fun _ _ hu => by omega)

/-- A cut of order `k` is also a cut of order `k + 1`. -/
theorem cut_refine (B : Nat → Nat) (L k c : Nat) (hk : k + 1 ≤ L)
    (hB : ∀ i, i < L → B i < 256) : cut B L k c = cut B L (k + 1) (c * 256) := by
  unfold cut
  apply cnt_congr
  intro u hu
  have e : ctxKey B L (k + 1) u = ctxKey B L k u * 256 + B (wrap L u (1 + k)) := rfl
  have hb := hB (wrap L u (1 + k)) (wrap_lt L u _ hu (by omega))
  rw [e]
  constructor <;> intro h <;> omega

theorem skey_slotOf (B : Nat → Nat) (L n k t : Nat) (ht : t < L) :
    skey B L n k (slotOf B L n t) = ctxKey B L k t := by
  unfold skey
  rw [posOf_slotOf B L n t ht]

/-- Slot order follows the order of the `k`-byte contexts. -/
theorem skey_mono (B : Nat → Nat) (L n k s r : Nat) (hs : s < L) (hr : r < L) (hk : k ≤ n)
    (hn : n ≤ L) (hB : ∀ i, i < L → B i < 256) (h : s ≤ r) :
    skey B L n k s ≤ skey B L n k r := by
  by_contra hc
  have h1 : ctxKey B L k (posOf B L n r) < ctxKey B L k (posOf B L n s) := by
    unfold skey at hc
    omega
  have h2 := ctxKey_prefix B L n k _ _ (posOf_lt B L n r hr) (posOf_lt B L n s hs) hk hn hB h1
  have h3 := rk_mono (fun u => ctxKey B L n u * L + u) L _ _ (posOf_lt B L n r hr)
    (tiekey_lt_of_ctx_lt B L n _ _ (posOf_lt B L n r hr) (posOf_lt B L n s hs) h2)
  have e1 := slotOf_posOf B L n r hr
  have e2 := slotOf_posOf B L n s hs
  unfold slotOf at e1 e2
  omega

theorem slot_lt_cut_iff (B : Nat → Nat) (L n k c s : Nat) (hs : s < L) (hk : k ≤ n)
    (hn : n ≤ L) (hB : ∀ i, i < L → B i < 256) :
    s < cut B L k c ↔ skey B L n k s < c := by
  have h := slot_lt_cut B L n k c (posOf B L n s) (posOf_lt B L n s hs) hk hn hB
  rw [slotOf_posOf B L n s hs] at h
  exact h

theorem gstart_le (B : Nat → Nat) (L n k s : Nat) (hs : s < L) (hk : k ≤ n) (hn : n ≤ L)
    (hB : ∀ i, i < L → B i < 256) : gstart B L n k s ≤ s := by
  by_contra hc
  have := (slot_lt_cut_iff B L n k (skey B L n k s) s hs hk hn hB).mp (by unfold gstart at hc; omega)
  omega

/-- Slots between the start of a group and one of its members belong to the group. -/
theorem skey_between (B : Nat → Nat) (L n k s r : Nat) (hr : r < L) (hk : k ≤ n) (hn : n ≤ L)
    (hB : ∀ i, i < L → B i < 256) (h1 : gstart B L n k r ≤ s) (h2 : s ≤ r) :
    skey B L n k s = skey B L n k r := by
  have hs : s < L := by omega
  have hle := skey_mono B L n k s r hs hr hk hn hB h2
  have hge : ¬ skey B L n k s < skey B L n k r := by
    intro hlt
    have := (slot_lt_cut_iff B L n k (skey B L n k r) s hs hk hn hB).mpr hlt
    unfold gstart at h1
    omega
  omega

theorem gstart_eq_of_skey_eq (B : Nat → Nat) (L n k s r : Nat)
    (h : skey B L n k s = skey B L n k r) : gstart B L n k s = gstart B L n k r := by
  unfold gstart
  rw [h]

theorem skey_eq_of_gstart_eq (B : Nat → Nat) (L n k s r : Nat) (hs : s < L) (hr : r < L)
    (hk : k ≤ n) (hn : n ≤ L) (hB : ∀ i, i < L → B i < 256)
    (h : gstart B L n k s = gstart B L n k r) : skey B L n k s = skey B L n k r := by
  rcases Nat.lt_trichotomy (skey B L n k s) (skey B L n k r) with h1 | h1 | h1
  · exfalso
    have h2 := (slot_lt_cut_iff B L n k (skey B L n k r) s hs hk hn hB).mpr h1
    have h3 := gstart_le B L n k s hs hk hn hB
    have h4 : ¬ s < cut B L k (skey B L n k s) := by
      rw [slot_lt_cut_iff B L n k _ s hs hk hn hB]
      omega
    have h5 : gstart B L n k s ≤ s := h3
    unfold gstart at h h5
    -- the slot `gstart r` would lie in the group of `s`
    have h6 : cut B L k (skey B L n k r) ≤ s := by omega
    omega
  · exact h1
  · exfalso
    have h2 := (slot_lt_cut_iff B L n k (skey B L n k s) r hr hk hn hB).mpr h1
    have h3 := gstart_le B L n k r hr hk hn hB
    unfold gstart at h h3
    omega

theorem getbit_ne_zero_iff (f : Mem) (p : Nat) :
    getbit f p ≠ 0 ↔ (f (p >>> 3)).testBit (p &&& 7) = true := by
  unfold getbit Nat.testBit
  rw [Nat.land_comm]
  simp

theorem bitSet_zero (p : Nat) : ¬ bitSet Mem.zero p := by
  unfold bitSet getbit Mem.zero
  simp

theorem bitSet_setbit (f : Mem) (b p : Nat) : bitSet (setbit f b) p ↔ (p = b ∨ bitSet f p) := by
  unfold bitSet
  rw [getbit_ne_zero_iff, getbit_ne_zero_iff]
  unfold setbit
  have hp : p = 8 * (p >>> 3) + (p &&& 7) := by
    have e : (7 : Nat) = 2 ^ 3 - 1 := by norm_num
    rw [e, Nat.and_pow_two_sub_one_eq_mod, Nat.shiftRight_eq_div_pow]
    omega
  have hb : b = 8 * (b >>> 3) + (b &&& 7) := by
    have e : (7 : Nat) = 2 ^ 3 - 1 := by norm_num
    rw [e, Nat.and_pow_two_sub_one_eq_mod, Nat.shiftRight_eq_div_pow]
    omega
  by_cases h : p >>> 3 = b >>> 3
  · rw [h, Mem.set_same, Nat.testBit_or, Nat.one_shiftLeft, Nat.testBit_two_pow]
    constructor
    · intro h2
      rcases Bool.or_eq_true _ _ ▸ h2 with h3 | h3
      · exact Or.inr h3
      · left
        have : b &&& 7 = p &&& 7 := by simpa using h3
        omega
    · rintro (h2 | h2)
      · subst h2
        simp
      · simp [h2]
  · rw [Mem.set_other _ _ _ _ h]
    constructor
    · intro h2
      exact Or.inr h2
    · rintro (h2 | h2)
      · subst h2
        exact absurd rfl h
      · exact h2

theorem setbits_loop (g : Nat → Nat) (A : Nat) (f0 : Mem) (p : Nat) :
    bitSet (forUp (fun k f => setbit f (g k)) 0 A f0) p
      ↔ (bitSet f0 p ∨ ∃ k, k < A ∧ p = g k) := by
  induction A with
  | zero =>
    rw [forUp_zero]
    constructor
    · intro h
      exact Or.inl h
    · rintro (h | ⟨k, hk, _⟩)
      · exact h
      · omega
  | succ A ih =>
    rw [forUp_succ, bitSet_setbit, ih, Nat.zero_add]
    constructor
    · rintro (h | h | ⟨k, hk, h⟩)
      · exact Or.inr ⟨A, by omega, h⟩
      · exact Or.inl h
      · exact Or.inr ⟨k, by omega, h⟩
    · rintro (h | ⟨k, hk, h⟩)
      · exact Or.inr (Or.inl h)
      · by_cases hkA : k = A
        · subst hkA
          exact Or.inl h
        · exact Or.inr (Or.inr ⟨k, by omega, h⟩)

/-- Counting a property of the symbols over the slots is counting it over the positions. -/
theorem sorted_cnt (B S : Mem) (L n : Nat) (h : SortedBy B S L n)
    (p : Nat → Prop) [DecidablePred p] :
    cnt L (fun s => p (S s)) = cnt L (fun u => p (B u)) := by
  rw [← cnt_bij L (slotOf B L n) (fun i hi => slotOf_lt B L n i hi)
    (fun a b ha hb => slotOf_inj B L n a b ha hb) (fun s => p (S s))]
  exact cnt_congr L _ _ (fun u hu => by rw [h.hS u hu])

/-- The number of symbols `c` in the slots below a cut of order `k`, offset by the start of
the bucket of `c`, is a cut of order `k + 1`. -/
theorem lf_cut (B S : Mem) (L n : Nat) (h : SortedBy B S L n) (k c thr : Nat)
    (hk : k + 1 ≤ n) (hthr : thr < 256 ^ k) :
    cnt L (fun s => S s < c) + cnt (cut B L k thr) (fun s => S s = c)
      = cut B L (k + 1) (c * 256 ^ k + thr) := by
  have hn := h.hn
  have hnL := h.hnL
  have e1 : cnt L (fun s => S s < c) = cnt L (fun w => B (wrap L w 1) < c) := by
    rw [sorted_cnt B S L n h (fun x => x < c)]
    exact (byte_shift_cnt B L 1 (by omega) (fun x => x < c)).symm
  have e2 : cnt (cut B L k thr) (fun s => S s = c)
      = cnt L (fun w => ctxKey B L k (wrap L w 1) < thr ∧ B (wrap L w 1) = c) := by
    rw [← cnt_prefix L (cut B L k thr) (cut_le B L k thr)]
    rw [← cnt_bij L (slotOf B L n) (fun i hi => slotOf_lt B L n i hi)
      (fun a b ha hb => slotOf_inj B L n a b ha hb)
      (fun s => s < cut B L k thr ∧ S s = c)]
    rw [← cnt_wrap L 1 (by omega) (fun u => slotOf B L n u < cut B L k thr ∧ S (slotOf B L n u) = c)]
    apply cnt_congr
    intro w hw
    have hw1 := wrap_lt L w 1 hw (by omega)
    rw [slot_lt_cut B L n k thr _ hw1 (by omega) (by omega) h.hB, h.hS _ hw1]
  rw [e1, e2, ← cnt_or L _ _ (fun i _ h1 h2 => by omega)]
  unfold cut
  apply cnt_congr
  intro w hw
  rw [ctxKey_wrap B L k w hw (by omega)]
  rw [lex_lt_iff (256 ^ k) _ _ _ _
    (ctxKey_lt B L k _ (wrap_lt L w 1 hw (by omega)) (by omega) h.hB) hthr]
  constructor
  · rintro (h1 | ⟨h1, h2⟩)
    · exact Or.inl h1
    · exact Or.inr ⟨h2, h1⟩
  · rintro (h1 | ⟨h1, h2⟩)
    · exact Or.inl h1
    · exact Or.inr ⟨h2, h1⟩

/-- The scan of the flags keeps `contextstart` at the start of the current group. -/
theorem cs_step (B : Nat → Nat) (L n k : Nat) (flags : Mem) (m : Nat) (hm : m < L)
    (hk : k ≤ n) (hn : n ≤ L) (hB : ∀ i, i < L → B i < 256) (hf : FlagsOK B L n k flags) :
    (if getbit flags m ≠ 0 then m else (if m = 0 then 0 else gstart B L n k (m - 1)))
      = gstart B L n k m := by
  have hle := gstart_le B L n k m hm hk hn hB
  by_cases hb : getbit flags m ≠ 0
  · rw [if_pos hb]
    obtain ⟨c, hc⟩ := hf.cuts m hb
    by_contra hne
    have hlt : gstart B L n k m < m := by omega
    have h1 := skey_between B L n k (gstart B L n k m) m hm hk hn hB (Nat.le_refl _) hle
    have h2 : gstart B L n k m < cut B L k c := by omega
    rw [slot_lt_cut_iff B L n k c _ (by omega) hk hn hB, h1] at h2
    have h3 : ¬ m < cut B L k c := by omega
    rw [slot_lt_cut_iff B L n k c m hm hk hn hB] at h3
    exact h3 h2
  · rw [if_neg hb]
    have hne : gstart B L n k m ≠ m := by
      intro e
      have := hf.starts m hm
      rw [e] at this
      exact hb this
    have hm0 : m ≠ 0 := by omega
    rw [if_neg hm0]
    apply gstart_eq_of_skey_eq
    exact skey_between B L n k (m - 1) m hm hk hn hB (by omega) (by omega)

theorem advance_loop (S base : Mem) (j0 d : Nat) :
    forUp (fun j (ct : Mem) => ct.set (S j) (ct (S j) + 1)) j0 d
      (fun c => base c + cnt j0 (fun s => S s = c))
    = fun c => base c + cnt (j0 + d) (fun s => S s = c) := by
  induction d with
  | zero => rfl
  | succ d ih =>
    rw [forUp_succ, ih]
    exact hist_step S (j0 + d) base

theorem o2_step (S counts : Mem) (L i : Nat) (st : O2Flags)
    (hc : ∀ c, c < 256 → counts c = cnt L (fun s => S s < c)) (hi : i < 255)
    (inv : O2Inv S counts i st) :
    O2Inv S counts (i + 1)
      { j := if st.j < counts (i + 1) then counts (i + 1) else st.j
        ct := forUp (fun j (ct : Mem) => ct.set (S j) (ct (S j) + 1)) st.j
          (counts (i + 1) - st.j) st.ct
        flags := forUp (fun k f => setbit f
          ((forUp (fun j (ct : Mem) => ct.set (S j) (ct (S j) + 1)) st.j
            (counts (i + 1) - st.j) st.ct) k)) 0 ALPHABETSIZE st.flags } := by
  have hmono : counts i ≤ counts (i + 1) := by
    rw [hc i (by omega), hc (i + 1) (by omega)]
    exact cnt_mono L _ _ (fun _ _ h => by omega)
  have hct : forUp (fun j (ct : Mem) => ct.set (S j) (ct (S j) + 1)) st.j
      (counts (i + 1) - st.j) st.ct
      = fun c => counts c + cnt (counts (i + 1)) (fun s => S s = c) := by
    rw [inv.ct, inv.j, advance_loop S counts (counts i) (counts (i + 1) - counts i)]
    have e : counts i + (counts (i + 1) - counts i) = counts (i + 1) := by omega
    rw [e]
  rw [hct]
  constructor
  · show (if st.j < counts (i + 1) then counts (i + 1) else st.j) = counts (i + 1)
    rw [inv.j]
    split_ifs <;> omega
  · rfl
  · intro p
    dsimp only
    rw [setbits_loop, inv.flags]
    constructor
    · rintro (⟨c, c2, h1, h2, h3⟩ | ⟨c, h1, h2⟩)
      · exact ⟨c, c2, h1, by omega, h3⟩
      · exact ⟨c, i + 1, h1, Nat.le_refl _, h2⟩
    · rintro ⟨c, c2, h1, h2, h3⟩
      by_cases h4 : c2 = i + 1
      · subst h4
        exact Or.inr ⟨c, h1, h3⟩
      · exact Or.inl ⟨c, c2, h1, by omega, h3⟩

theorem cut_one (B : Mem) (L c : Nat) (hL : 1 ≤ L) :
    cut B L 1 c = cnt L (fun u => B u < c) := by
  unfold cut
  rw [← byte_shift_cnt B L 1 hL (fun x => x < c)]
  apply cnt_congr
  intro u _
  have e : ctxKey B L 1 u = 0 * 256 + B (wrap L u (1 + 0)) := rfl
  rw [e]
  simp

theorem ctxKey_two (B : Mem) (L t : Nat) :
    ctxKey B L 2 t = B (wrap L t 1) * 256 + B (wrap L t 2) := by
  unfold ctxKey
  rw [key2_eq]

/-- The flags that `makeorder2` sets: the group starts of the 2-byte contexts. -/
theorem makeorder2_spec (B S counts : Mem) (L n : Nat) (h : SortedBy B S L n)
    (hc : ∀ c, c < 256 → counts c = cnt L (fun s => S s < c)) :
    FlagsOK B L n 2 (makeorder2 Mem.zero S counts) := by
  have hn := h.hn
  have hnL := h.hnL
  have hc0 : counts 0 = 0 := by
    rw [hc 0 (by norm_num)]
    exact cnt_false L _ (fun _ _ hh => by omega)
  have hinit : O2Inv S counts 0
      ⟨0, counts, forUp (fun i f => setbit f (counts i)) 0 ALPHABETSIZE Mem.zero⟩ := by
    constructor
    · exact hc0.symm
    · funext c
      rw [hc0, cnt_zero]
      rfl
    · intro p
      dsimp only
      rw [setbits_loop]
      constructor
      · rintro (hh | ⟨c, h1, h2⟩)
        · exact absurd hh (bitSet_zero p)
        · refine ⟨c, 0, h1, Nat.le_refl _, ?_⟩
          rw [hc0, cnt_zero]
          exact h2
      · rintro ⟨c, c2, h1, h2, h3⟩
        right
        have e : c2 = 0 := by omega
        subst e
        rw [hc0, cnt_zero] at h3
        exact ⟨c, h1, h3⟩
  have hfin := forUp_inv (fun i (s : O2Flags) =>
      ({ j := if s.j < counts (i + 1) then counts (i + 1) else s.j
         ct := forUp (fun j (ct : Mem) => ct.set (S j) (ct (S j) + 1)) s.j
           (counts (i + 1) - s.j) s.ct
         flags := forUp (fun k f => setbit f
           ((forUp (fun j (ct : Mem) => ct.set (S j) (ct (S j) + 1)) s.j
             (counts (i + 1) - s.j) s.ct) k)) 0 ALPHABETSIZE s.flags } : O2Flags))
    (fun i st => O2Inv S counts i st) 0 (ALPHABETSIZE - 1) _ hinit
    (fun m st hm hp => by
      rw [Nat.zero_add]
      exact o2_step S counts L m st hc hm hp)
  have hval : ∀ c c2, c < 256 → c2 ≤ 255 →
      counts c + cnt (counts c2) (fun s => S s = c) = cut B L 2 (c * 256 + c2) := by
    intro c c2 h1 h2
    have hl := lf_cut B S L n h 1 c c2 (by omega) (by norm_num; omega)
    rw [pow_one, cut_one B L c2 (by omega), ← sorted_cnt B S L n h (fun x => x < c2)] at hl
    rw [hc c h1, hc c2 (by omega)]
    exact hl
  have hbits : ∀ p, bitSet (makeorder2 Mem.zero S counts) p ↔
      ∃ c c2, c < 256 ∧ c2 ≤ 255 ∧ p = cut B L 2 (c * 256 + c2) := by
    intro p
    unfold makeorder2
    rw [hfin.flags p]
    constructor
    · rintro ⟨c, c2, h1, h2, h3⟩
      have h2' : c2 ≤ 255 := h2
      exact ⟨c, c2, h1, h2', by rw [h3, hval c c2 h1 h2']⟩
    · rintro ⟨c, c2, h1, h2, h3⟩
      exact ⟨c, c2, h1, h2, by rw [h3, hval c c2 h1 h2]⟩
  constructor
  · intro s hs
    rw [hbits]
    have ht := posOf_lt B L n s hs
    refine ⟨B (wrap L (posOf B L n s) 1), B (wrap L (posOf B L n s) 2),
      h.hB _ (wrap_lt L _ 1 ht (by omega)), ?_, ?_⟩
    · have := h.hB _ (wrap_lt L (posOf B L n s) 2 ht (by omega))
      omega
    · unfold gstart skey
      rw [ctxKey_two]
  · intro p hp
    obtain ⟨c, c2, _, _, h3⟩ := (hbits p).mp hp
    exact ⟨_, h3⟩

theorem last_occ (p : Nat → Prop) (m : Nat) (h : ∃ s, s < m ∧ p s) :
    ∃ s, s < m ∧ p s ∧ ∀ r, s < r → r < m → ¬ p r := by
  induction m with
  | zero =>
    obtain ⟨s, hs, _⟩ := h
    omega
  | succ m ih =>
    by_cases hm : p m
    · exact ⟨m, by omega, hm, fun r h1 h2 => by omega⟩
    · obtain ⟨s, hs, hps⟩ := h
      have hsm : s ≠ m := fun e => hm (e ▸ hps)
      obtain ⟨s2, h1, h2, h3⟩ := ih ⟨s, by omega, hps⟩
      refine ⟨s2, by omega, h2, ?_⟩
      intro r hr1 hr2
      by_cases hrm : r = m
      · rw [hrm]
        exact hm
      · exact h3 r hr1 (by omega)

theorem first_occ (p : Nat → Prop) (g i : Nat) (hg : g ≤ i) (hp : p i) :
    ∃ f, g ≤ f ∧ f ≤ i ∧ p f ∧ ∀ s, g ≤ s → s < f → ¬ p s := by
  induction i using Nat.strong_induction_on with
  | _ i ih =>
    by_cases h : ∃ s, g ≤ s ∧ s < i ∧ p s
    · obtain ⟨s, h1, h2, h3⟩ := h
      obtain ⟨f, hf1, hf2, hf3, hf4⟩ := ih s h2 h1 h3
      exact ⟨f, hf1, by omega, hf3, hf4⟩
    · refine ⟨i, hg, Nat.le_refl _, hp, ?_⟩
      intro s h1 h2 h3
      exact h ⟨s, h1, h2, h3⟩

theorem cnt_skip (g f : Nat) (hgf : g ≤ f) (p : Nat → Prop) [DecidablePred p]
    (h : ∀ s, g ≤ s → s < f → ¬ p s) : cnt f p = cnt g p := by
  rw [← cnt_prefix f g hgf p]
  apply cnt_congr
  intro s hs
  constructor
  · intro hp
    refine ⟨?_, hp⟩
    by_contra hc
    exact h s (by omega) hs hp
  · intro hp
    exact hp.2

/-- At the first slot of a group holding a symbol, the cursor is a cut of the next order. -/
theorem lf_first (B S counts : Mem) (L n k f : Nat) (h : SortedBy B S L n)
    (hc : ∀ c, c < 256 → counts c = cnt L (fun s => S s < c))
    (hk : k + 1 ≤ n) (hf : f < L) (hfirst : firstIn B S L n k f) :
    lfv S counts f = cut B L (k + 1) (S f * 256 ^ k + skey B L n k f) := by
  have hn := h.hn
  have hnL := h.hnL
  have hSf : S f < 256 := by
    rw [sorted_slot B S L n h f hf]
    exact h.hB _ (posOf_lt B L n f hf)
  unfold lfv
  rw [cnt_skip (gstart B L n k f) f (gstart_le B L n k f hf (by omega) (by omega) h.hB)
    (fun r => S r = S f) hfirst, hc _ hSf]
  exact lf_cut B S L n h k (S f) (skey B L n k f) hk
    (ctxKey_lt B L k _ (posOf_lt B L n f hf) (by omega) h.hB)

theorem gstart_ge_iff (B : Nat → Nat) (L n k s m : Nat) (hs : s < L) (hm : m < L)
    (hsm : s ≤ m) (hk : k ≤ n) (hn : n ≤ L) (hB : ∀ i, i < L → B i < 256) :
    gstart B L n k s = gstart B L n k m ↔ gstart B L n k m ≤ s := by
  constructor
  · intro h
    rw [← h]
    exact gstart_le B L n k s hs hk hn hB
  · intro h
    exact gstart_eq_of_skey_eq B L n k s m (skey_between B L n k s m hm hk hn hB h hsm)

theorem incord_step (B S counts inflags out0 : Mem) (L n k m : Nat) (st : IncState)
    (h : SortedBy B S L n) (hk : k ≤ n) (hm : m < L) (hL : L < 4294967295)
    (hf : FlagsOK B L n k inflags)
    (inv : IncOrdInv B S counts out0 L n k m st) :
    IncOrdInv B S counts out0 L n k (m + 1)
      { contextstart := if getbit inflags m ≠ 0 then m else st.contextstart
        ct := st.ct.set (S m) (st.ct (S m) + 1)
        lastseen := if st.lastseen (S m) ≠ (if getbit inflags m ≠ 0 then m else st.contextstart)
          then st.lastseen.set (S m) (if getbit inflags m ≠ 0 then m else st.contextstart)
          else st.lastseen
        outflags := if st.lastseen (S m) ≠ (if getbit inflags m ≠ 0 then m else st.contextstart)
          then setbit st.outflags (st.ct (S m)) else st.outflags } := by
  have hn := h.hn
  have hnL := h.hnL
  have hcs : (if getbit inflags m ≠ 0 then m else st.contextstart) = gstart B L n k m := by
    rw [inv.cs]
    exact cs_step B L n k inflags m hm hk (by omega) h.hB hf
  have hgle := gstart_le B L n k m hm hk (by omega) h.hB
  have hiff : st.lastseen (S m) ≠ gstart B L n k m ↔ firstIn B S L n k m := by
    by_cases hex : ∃ s, s < m ∧ S s = S m
    · obtain ⟨s, hs1, hs2, hs3⟩ := last_occ (fun s => S s = S m) m hex
      have hls := inv.seenLast s hs1 (fun r h1 h2 => by rw [hs2]; exact hs3 r h1 h2)
      rw [hs2] at hls
      rw [hls]
      have hge := gstart_ge_iff B L n k s m (by omega) hm (by omega) hk (by omega) h.hB
      constructor
      · intro hne r hr1 hr2 hr3
        have hrs : r ≤ s := by
          by_contra hc
          exact hs3 r (by omega) hr2 hr3
        exact hne (hge.mpr (by omega))
      · intro hfirst heq
        exact hfirst s (hge.mp heq) hs1 hs2
    · have hnone := inv.seenNone (S m) (fun s hs e => hex ⟨s, hs, e⟩)
      rw [hnone]
      constructor
      · intro _ r _ hr2 hr3
        exact hex ⟨r, hr2, hr3⟩
      · intro _
        omega
  have hlfv : st.ct (S m) = lfv S counts m := by
    rw [inv.ct]
    rfl
  rw [hcs]
  constructor
  · show gstart B L n k m = if m + 1 = 0 then 0 else gstart B L n k (m + 1 - 1)
    rw [if_neg (by omega), Nat.add_sub_cancel]
  · show Mem.set _ _ _ = _
    rw [inv.ct]
    exact hist_step S m counts
  · intro c hc
    have hcm : S m ≠ c := hc m (by omega)
    have hold := inv.seenNone c (fun s hs => hc s (by omega))
    dsimp only
    split_ifs
    · rw [Mem.set_other _ _ _ _ (fun e => hcm e.symm)]
      exact hold
    · exact hold
  · intro s hs hlast
    dsimp only
    by_cases hsm : s = m
    · subst hsm
      by_cases hfirst : firstIn B S L n k s
      · rw [if_pos (hiff.mpr hfirst), Mem.set_same]
      · have : ¬ st.lastseen (S s) ≠ gstart B L n k s := fun hh => hfirst (hiff.mp hh)
        rw [if_neg this]
        by_contra hc
        exact this hc
    · have hne : S m ≠ S s := hlast m (by omega) (by omega)
      have hold := inv.seenLast s (by omega) (fun r h1 h2 => hlast r h1 (by omega))
      split_ifs
      · rw [Mem.set_other _ _ _ _ (fun e => hne e.symm)]
        exact hold
      · exact hold
  · intro p
    dsimp only
    by_cases hfirst : firstIn B S L n k m
    · rw [if_pos (hiff.mpr hfirst), bitSet_setbit, inv.flags, hlfv]
      constructor
      · rintro (h1 | h1 | ⟨s, h1, h2, h3⟩)
        · exact Or.inr ⟨m, by omega, hfirst, h1⟩
        · exact Or.inl h1
        · exact Or.inr ⟨s, by omega, h2, h3⟩
      · rintro (h1 | ⟨s, h1, h2, h3⟩)
        · exact Or.inr (Or.inl h1)
        · by_cases hsm : s = m
          · subst hsm
            exact Or.inl h3
          · exact Or.inr (Or.inr ⟨s, by omega, h2, h3⟩)
    · have : ¬ st.lastseen (S m) ≠ gstart B L n k m := fun hh => hfirst (hiff.mp hh)
      rw [if_neg this, inv.flags]
      constructor
      · rintro (h1 | ⟨s, h1, h2, h3⟩)
        · exact Or.inl h1
        · exact Or.inr ⟨s, by omega, h2, h3⟩
      · rintro (h1 | ⟨s, h1, h2, h3⟩)
        · exact Or.inl h1
        · by_cases hsm : s = m
          · subst hsm
            exact absurd h2 hfirst
          · exact Or.inr ⟨s, by omega, h2, h3⟩

/-- The flags that `increaseorder` produces from the flags of order `k`: the group starts
of order `k + 1`. -/
theorem increaseorder_spec (B S counts inflags out0 : Mem) (L n k : Nat)
    (h : SortedBy B S L n)
    (hc : ∀ c, c < 256 → counts c = cnt L (fun s => S s < c))
    (hk : k + 1 ≤ n) (hL : L < 4294967295)
    (hf : FlagsOK B L n k inflags)
    (hout : ∀ p, bitSet out0 p → ∃ c, p = cut B L (k + 1) c) :
    FlagsOK B L n (k + 1) (increaseorder inflags out0 S counts L) := by
  have hn := h.hn
  have hnL := h.hnL
  have hinit : IncOrdInv B S counts out0 L n k 0 ⟨0, counts, fun _ => 0xffffffff, out0⟩ := by
    constructor
    · rfl
    · funext c
      rw [cnt_zero]
      rfl
    · intro c _
      rfl
    · intro s hs
      omega
    · intro p
      constructor
      · intro hp
        exact Or.inl hp
      · rintro (hp | ⟨s, hs, _⟩)
        · exact hp
        · omega
  have hfin := forUp_inv (fun i (s : IncState) =>
      ({ contextstart := if getbit inflags i ≠ 0 then i else s.contextstart
         ct := s.ct.set (S i) (s.ct (S i) + 1)
         lastseen := if s.lastseen (S i) ≠ (if getbit inflags i ≠ 0 then i else s.contextstart)
           then s.lastseen.set (S i) (if getbit inflags i ≠ 0 then i else s.contextstart)
           else s.lastseen
         outflags := if s.lastseen (S i) ≠ (if getbit inflags i ≠ 0 then i else s.contextstart)
           then setbit s.outflags (s.ct (S i)) else s.outflags } : IncState))
    (fun m st => IncOrdInv B S counts out0 L n k m st) 0 L _ hinit
    (fun m st hm hp => by
      rw [Nat.zero_add]
      exact incord_step B S counts inflags out0 L n k m st h (by omega) hm hL hf hp)
  have hbits : ∀ p, bitSet (increaseorder inflags out0 S counts L) p ↔
      (bitSet out0 p ∨ ∃ s, s < L ∧ firstIn B S L n k s ∧ p = lfv S counts s) := hfin.flags
  constructor
  · intro v hv
    rw [hbits]
    right
    -- the slot `v` follows the slot `i` of the previous position
    have hw := posOf_lt B L n v hv
    have hu := wrap_lt L (posOf B L n v) 1 hw (by omega)
    have hi := slotOf_lt B L n _ hu
    obtain ⟨f, hf1, hf2, hf3, hf4⟩ := first_occ
      (fun s => S s = S (slotOf B L n (wrap L (posOf B L n v) 1)))
      (gstart B L n k (slotOf B L n (wrap L (posOf B L n v) 1)))
      (slotOf B L n (wrap L (posOf B L n v) 1))
      (gstart_le B L n k _ hi (by omega) (by omega) h.hB) rfl
    have hfL : f < L := by omega
    have hsk : skey B L n k f = skey B L n k (slotOf B L n (wrap L (posOf B L n v) 1)) :=
      skey_between B L n k f _ hi (by omega) (by omega) h.hB hf1 hf2
    have hfirst : firstIn B S L n k f := by
      intro s hs1 hs2
      rw [hf3]
      apply hf4 s _ hs2
      rw [← gstart_eq_of_skey_eq B L n k f _ hsk]
      exact hs1
    refine ⟨f, hfL, hfirst, ?_⟩
    rw [lf_first B S counts L n k f h hc hk hfL hfirst, hsk, hf3, h.hS _ hu,
      skey_slotOf B L n k _ hu, ← ctxKey_wrap B L k _ hw (by omega)]
    rfl
  · intro p hp
    rcases (hbits p).mp hp with h1 | ⟨s, hs, hfirst, h3⟩
    · exact hout p h1
    · exact ⟨_, by rw [h3, lf_first B S counts L n k s h hc hk hs hfirst]⟩

theorem isFirst_self (B S : Mem) (L n k s : Nat) (hs : s < L) (hk : k ≤ n) (hn : n ≤ L)
    (hB : ∀ i, i < L → B i < 256) (h : firstIn B S L n k s) : isFirst B S L n k s s :=
  ⟨gstart_le B L n k s hs hk hn hB, Nat.le_refl _, rfl, h⟩

theorem isFirst_gstart (B S : Mem) (L n k f s : Nat) (hs : s < L) (hk : k ≤ n) (hn : n ≤ L)
    (hB : ∀ i, i < L → B i < 256) (h : isFirst B S L n k f s) :
    gstart B L n k f = gstart B L n k s :=
  gstart_eq_of_skey_eq B L n k f s (skey_between B L n k f s hs hk hn hB h.1 h.2.1)

theorem isFirst_first (B S : Mem) (L n k f s : Nat) (hs : s < L) (hk : k ≤ n) (hn : n ≤ L)
    (hB : ∀ i, i < L → B i < 256) (h : isFirst B S L n k f s) : isFirst B S L n k f f := by
  have hg := isFirst_gstart B S L n k f s hs hk hn hB h
  refine ⟨by rw [hg]; exact h.1, Nat.le_refl _, rfl, ?_⟩
  intro r h1 h2
  rw [h.2.2.1]
  rw [hg] at h1
  exact h.2.2.2 r h1 h2

theorem isFirst_unique (B S : Mem) (L n k f g s : Nat)
    (h1 : isFirst B S L n k f s) (h2 : isFirst B S L n k g s) : f = g := by
  rcases Nat.lt_trichotomy f g with h | h | h
  · exact absurd h1.2.2.1 (h2.2.2.2 f h1.1 h)
  · exact h
  · exact absurd h2.2.2.1 (h1.2.2.2 g h2.1 h)

theorem tab_step (B S counts inflags : Mem) (L n k m : Nat) (st : TableState)
    (h : SortedBy B S L n) (hk : k ≤ n) (hm : m < L) (hL : L < 4294967295)
    (hf : FlagsOK B L n k inflags)
    (inv : TabInv B S counts L n k m st) :
    TabInv B S counts L n k (m + 1)
      { contextstart := if getbit inflags m ≠ 0 then m else st.contextstart
        ct := st.ct.set (S m) (st.ct (S m) + 1)
        firstseen := if st.firstseen (S m) ≤ (if getbit inflags m ≠ 0 then m else st.contextstart)
          then st.firstseen.set (S m) (m + 1) else st.firstseen
        table := if st.firstseen (S m) ≤ (if getbit inflags m ≠ 0 then m else st.contextstart)
          then st.table.set m (st.ct (S m))
          else st.table.set m (u32sub (st.firstseen (S m)) 1 ||| INDIRECT) } := by
  have hn := h.hn
  have hnL := h.hnL
  have hcs : (if getbit inflags m ≠ 0 then m else st.contextstart) = gstart B L n k m := by
    rw [inv.cs]
    exact cs_step B L n k inflags m hm hk (by omega) h.hB hf
  have hgle := gstart_le B L n k m hm hk (by omega) h.hB
  -- the entry for slot `m`: either `m` is first, or the recorded first slot serves `m`
  have hcase : (st.firstseen (S m) ≤ gstart B L n k m ∧ firstIn B S L n k m) ∨
      (¬ st.firstseen (S m) ≤ gstart B L n k m ∧
        ∃ f, f < m ∧ isFirst B S L n k f m ∧ st.firstseen (S m) = f + 1) := by
    by_cases hex : ∃ s, s < m ∧ S s = S m
    · obtain ⟨s, hs1, hs2, hs3⟩ := last_occ (fun s => S s = S m) m hex
      obtain ⟨f, hf1, hf2⟩ := inv.seenLast s hs1 (fun r h1 h2 => by rw [hs2]; exact hs3 r h1 h2)
      rw [hs2] at hf2
      have hge := gstart_ge_iff B L n k s m (by omega) hm (by omega) hk (by omega) h.hB
      by_cases hlt : f < gstart B L n k m
      · left
        refine ⟨by omega, ?_⟩
        intro r hr1 hr2 hr3
        have hrs : r ≤ s := by
          by_contra hc
          exact hs3 r (by omega) hr2 hr3
        have hgs := hge.mpr (by omega)
        have := hf1.1
        omega
      · right
        have hfs := hf1.2.1
        have hsg : gstart B L n k s = gstart B L n k m := by
          apply gstart_eq_of_skey_eq
          have e1 := skey_between B L n k f m hm hk (by omega) h.hB (by omega) (by omega)
          have e2 := skey_between B L n k f s (by omega) hk (by omega) h.hB hf1.1 hf1.2.1
          rw [← e2, e1]
        refine ⟨by omega, f, by omega, ⟨by omega, by omega, by rw [hf1.2.2.1, hs2], ?_⟩, hf2⟩
        intro r hr1 hr2
        rw [← hs2]
        exact hf1.2.2.2 r (by omega) hr2
    · left
      have hnone := inv.seenNone (S m) (fun s hs e => hex ⟨s, hs, e⟩)
      refine ⟨by omega, ?_⟩
      intro r _ hr2 hr3
      exact hex ⟨r, hr2, hr3⟩
  have hlfv : st.ct (S m) = lfv S counts m := by
    rw [inv.ct]
    rfl
  rw [hcs]
  constructor
  · show gstart B L n k m = if m + 1 = 0 then 0 else gstart B L n k (m + 1 - 1)
    rw [if_neg (by omega), Nat.add_sub_cancel]
  · show Mem.set _ _ _ = _
    rw [inv.ct]
    exact hist_step S m counts
  · intro c hc
    have hcm : S m ≠ c := hc m (by omega)
    have hold := inv.seenNone c (fun s hs => hc s (by omega))
    dsimp only
    split_ifs
    · rw [Mem.set_other _ _ _ _ (fun e => hcm e.symm)]
      exact hold
    · exact hold
  · intro s hs hlast
    dsimp only
    by_cases hsm : s = m
    · subst hsm
      rcases hcase with ⟨h1, h2⟩ | ⟨h1, f, h2, h3, h4⟩
      · rw [if_pos h1, Mem.set_same]
        exact ⟨s, isFirst_self B S L n k s hm hk (by omega) h.hB h2, rfl⟩
      · rw [if_neg h1]
        exact ⟨f, h3, h4⟩
    · have hne : S m ≠ S s := hlast m (by omega) (by omega)
      obtain ⟨f, hf1, hf2⟩ := inv.seenLast s (by omega) (fun r h1 h2 => hlast r h1 (by omega))
      refine ⟨f, hf1, ?_⟩
      split_ifs
      · rw [Mem.set_other _ _ _ _ (fun e => hne e.symm)]
        exact hf2
      · exact hf2
  · intro s hs
    dsimp only
    by_cases hsm : s = m
    · subst hsm
      rcases hcase with ⟨h1, h2⟩ | ⟨h1, f, h2, h3, h4⟩
      · rw [if_pos h1, Mem.set_same, hlfv]
        exact ⟨s, isFirst_self B S L n k s hm hk (by omega) h.hB h2, by rw [if_pos rfl]⟩
      · rw [if_neg h1, Mem.set_same, h4]
        refine ⟨f, h3, ?_⟩
        rw [if_neg (by omega), u32sub_eq _ _ (by omega) (by omega), Nat.add_sub_cancel]
    · obtain ⟨f, hf1, hf2⟩ := inv.table s (by omega)
      refine ⟨f, hf1, ?_⟩
      rw [← hf2]
      by_cases hcond : st.firstseen (S m) ≤ gstart B L n k m
      · rw [if_pos hcond, Mem.set_other _ _ _ _ hsm]
      · rw [if_neg hcond, Mem.set_other _ _ _ _ hsm]

/-- The table that `maketable` builds from the flags of order `k`. -/
theorem maketable_spec (B S counts inflags table0 : Mem) (L n k : Nat)
    (h : SortedBy B S L n) (hk : k ≤ n) (hL : L < 4294967295)
    (hf : FlagsOK B L n k inflags) (s : Nat) (hs : s < L) :
    ∃ f, isFirst B S L n k f s ∧
      (maketable inflags table0 S counts L) s
        = if f = s then lfv S counts s else f ||| INDIRECT := by
  have hinit : TabInv B S counts L n k 0 ⟨0, counts, Mem.zero, table0⟩ := by
    constructor
    · rfl
    · funext c
      rw [cnt_zero]
      rfl
    · intro c _
      rfl
    · intro s hs
      omega
    · intro s hs
      omega
  have hfin := forUp_inv (fun i (s : TableState) =>
      ({ contextstart := if getbit inflags i ≠ 0 then i else s.contextstart
         ct := s.ct.set (S i) (s.ct (S i) + 1)
         firstseen := if s.firstseen (S i) ≤ (if getbit inflags i ≠ 0 then i else s.contextstart)
           then s.firstseen.set (S i) (i + 1) else s.firstseen
         table := if s.firstseen (S i) ≤ (if getbit inflags i ≠ 0 then i else s.contextstart)
           then s.table.set i (s.ct (S i))
           else s.table.set i (u32sub (s.firstseen (S i)) 1 ||| INDIRECT) } : TableState))
    (fun m st => TabInv B S counts L n k m st) 0 L _ hinit
    (fun m st hm hp => by
      rw [Nat.zero_add]
      exact tab_step B S counts inflags L n k m st h hk hm hL hf hp)
  exact hfin.table s hs

theorem direct_test (v : Nat) (hv : v < 8388608) : v &&& INDIRECT = 0 := by
  apply Nat.eq_of_testBit_eq
  intro i
  have e : INDIRECT = 2 ^ 23 := by norm_num [INDIRECT]
  rw [e, Nat.testBit_and, Nat.testBit_two_pow, Nat.zero_testBit]
  by_cases h : 23 = i
  · subst h
    rw [Nat.testBit_lt_two_pow (by norm_num; exact hv)]
    rfl
  · simp [h]

theorem indirect_test (f : Nat) (hf : f < 8388608) : (f ||| INDIRECT) &&& INDIRECT ≠ 0 := by
  rw [Nat.and_distrib_right, direct_test f hf, Nat.and_self, Nat.zero_or]
  norm_num [INDIRECT]

theorem indirect_clear (f : Nat) (hf : f < 8388608) : (f ||| INDIRECT) &&& 0xff7fffff = f := by
  apply Nat.eq_of_testBit_eq
  intro i
  have e : INDIRECT = 2 ^ 23 := by norm_num [INDIRECT]
  have ec : (0xff7fffff : Nat) = (2 ^ 23 - 1) ||| (255 <<< 24) := by decide
  rw [e, ec, Nat.testBit_and, Nat.testBit_or, Nat.testBit_or, Nat.testBit_two_pow,
    Nat.testBit_two_pow_sub_one, Nat.testBit_shiftLeft]
  by_cases h1 : i < 23
  · have h2 : ¬ 23 = i := by omega
    simp [h1, h2]
  · have hfalse : f.testBit i = false := by
      apply Nat.testBit_lt_two_pow
      calc f < 2 ^ 23 := by norm_num; exact hf
        _ ≤ 2 ^ i := Nat.pow_le_pow_right (by norm_num) (by omega)
    rw [hfalse]
    by_cases h2 : 23 = i
    · subst h2
      simp
    · simp [h1, h2]

theorem vkey_slotOf (B S : Mem) (L n t : Nat) (h : SortedBy B S L n) (ht : t < L) :
    vkey B S L n (slotOf B L n t) = ctxKey B L n (nxt L t) := by
  have hn := h.hn
  have hnL := h.hnL
  unfold vkey
  rw [h.hS t ht, skey_slotOf B L n (n - 1) t ht]
  have e := ctxKey_nxt B L (n - 1) t ht (by omega)
  have e2 : n - 1 + 1 = n := by omega
  rw [e2] at e
  exact e.symm

theorem vkey_isFirst (B S : Mem) (L n f s : Nat) (h : SortedBy B S L n) (hs : s < L)
    (hf : isFirst B S L n (n - 1) f s) : vkey B S L n f = vkey B S L n s := by
  have hn := h.hn
  have hnL := h.hnL
  unfold vkey
  rw [hf.2.2.1, skey_between B L n (n - 1) f s hs (by omega) (by omega) h.hB hf.1 hf.2.1]

theorem vkey_inj (B S : Mem) (L n s r : Nat) (h : SortedBy B S L n) (hs : s < L) (hr : r < L)
    (h1 : firstIn B S L n (n - 1) s) (h2 : firstIn B S L n (n - 1) r)
    (hv : vkey B S L n s = vkey B S L n r) : s = r := by
  have hn := h.hn
  have hnL := h.hnL
  have hk1 : skey B L n (n - 1) s < 256 ^ (n - 1) :=
    ctxKey_lt B L (n - 1) _ (posOf_lt B L n s hs) (by omega) h.hB
  have hk2 : skey B L n (n - 1) r < 256 ^ (n - 1) :=
    ctxKey_lt B L (n - 1) _ (posOf_lt B L n r hr) (by omega) h.hB
  unfold vkey at hv
  have hS : S s = S r ∧ skey B L n (n - 1) s = skey B L n (n - 1) r := by
    rcases Nat.lt_trichotomy (S s) (S r) with h3 | h3 | h3
    · have := (lex_lt_iff (256 ^ (n - 1)) (S s) (S r) _ _ hk1 hk2).mpr (Or.inl h3)
      omega
    · rw [h3] at hv
      exact ⟨h3, by omega⟩
    · have := (lex_lt_iff (256 ^ (n - 1)) (S r) (S s) _ _ hk2 hk1).mpr (Or.inl h3)
      omega
  have hg := gstart_eq_of_skey_eq B L n (n - 1) s r hS.2
  have hgs := gstart_le B L n (n - 1) s hs (by omega) (by omega) h.hB
  have hgr := gstart_le B L n (n - 1) r hr (by omega) (by omega) h.hB
  rcases Nat.lt_trichotomy s r with h3 | h3 | h3
  · exact absurd hS.1 (h2 s (by omega) h3)
  · exact h3
  · exact absurd hS.1.symm (h1 r (by omega) h3)

theorem slotOf_eq_srank (B : Mem) (L n m : Nat) (hm : m < L) :
    slotOf B L n m = cut B L n (ctxKey B L n m)
      + cnt m (fun w => ctxKey B L n w = ctxKey B L n m) := by
  unfold slotOf
  rw [← srank_eq_rk (ctxKey B L n) L m hm]
  rfl

theorem toList_succ (B : Mem) (m : Nat) : B.toList (m + 1) = B.toList m ++ [B m] := by
  unfold Mem.toList
  rw [List.range_succ, List.map_append]
  rfl

theorem walk_step (B S counts : Mem) (L n m : Nat) (st : WalkState)
    (h : SortedBy B S L n) (hm : m < L) (hL : L < 8388608)
    (hc : ∀ c, c < 256 → counts c = cnt L (fun s => S s < c))
    (inv : WalkInv B S counts L n m st) :
    WalkInv B S counts L n (m + 1) (walkStep S st) := by
  have hn := h.hn
  have hnL := h.hnL
  have ht := wrap_lt L m 1 hm (by omega)
  have hsj := slotOf_lt B L n _ ht
  have hnx : nxt L (wrap L m 1) = m := nxt_wrap_one L m hm
  obtain ⟨f, hf, htab⟩ := inv.table _ hsj
  have hfL : f < L := by have := hf.2.1; omega
  have hff := isFirst_first B S L n (n - 1) f _ hsj (by omega) (by omega) h.hB hf
  have hfirst : firstIn B S L n (n - 1) f := hff.2.2.2
  have hvf : vkey B S L n f = ctxKey B L n m := by
    rw [vkey_isFirst B S L n f _ h hsj hf, vkey_slotOf B S L n _ h ht, hnx]
  have hlf : lfv S counts f = cut B L n (ctxKey B L n m) := by
    have e := lf_first B S counts L n (n - 1) f h hc (by omega) hfL hfirst
    have e2 : n - 1 + 1 = n := by omega
    rw [e2] at e
    rw [e, ← hvf]
    rfl
  have htf : st.table f = slotOf B L n m := by
    obtain ⟨f2, hf2, htab2⟩ := inv.table f hfL
    have e := isFirst_unique B S L n (n - 1) f2 f f hf2 hff
    rw [e, if_pos rfl, hvf, hlf] at htab2
    rw [htab2, slotOf_eq_srank B L n m hm]
  have hslot := slotOf_lt B L n m hm
  have hstep : walkStep S st = ⟨slotOf B L n m, st.table.set f (slotOf B L n m + 1),
      st.out ++ [S (slotOf B L n m)]⟩ := by
    unfold walkStep
    rw [inv.j]
    by_cases hfs : f = slotOf B L n (wrap L m 1)
    · have e : st.table (slotOf B L n (wrap L m 1)) = slotOf B L n m := by
        rw [← hfs]
        exact htf
      rw [e]
      simp only [direct_test _ (by omega : slotOf B L n m < 8388608)]
      rw [← hfs]
      simp
    · rw [htab, if_neg hfs]
      have e1 := indirect_test f (by omega)
      have e2 := indirect_clear f (by omega)
      dsimp only
      rw [if_pos e1, e2, htf]
  rw [hstep]
  constructor
  · show slotOf B L n m = slotOf B L n (wrap L (m + 1) 1)
    have e : wrap L (m + 1) 1 = m := by unfold wrap; split_ifs <;> omega
    rw [e]
  · show st.out ++ [S (slotOf B L n m)] = B.toList (m + 1)
    rw [inv.out, h.hS m hm, toList_succ]
  · intro s hs
    obtain ⟨g, hg, hgt⟩ := inv.table s hs
    refine ⟨g, hg, ?_⟩
    show (st.table.set f (slotOf B L n m + 1)) s = _
    by_cases hsf : s = f
    · subst hsf
      have e := isFirst_unique B S L n (n - 1) g s s hg hff
      rw [Mem.set_same, e, if_pos rfl, cnt_succ, hvf, if_pos rfl, hlf,
        slotOf_eq_srank B L n m hm]
      omega
    · rw [Mem.set_other _ _ _ _ hsf, hgt]
      by_cases hgs : g = s
      · rw [if_pos hgs, if_pos hgs, cnt_succ]
        have hne : ¬ ctxKey B L n m = vkey B S L n s := by
          intro e
          apply hsf
          rw [hgs] at hg
          exact vkey_inj B S L n s f h hs hfL hg.2.2.2 hfirst (by rw [hvf, e])
        rw [if_neg hne]
        rfl
      · rw [if_neg hgs, if_neg hgs]

/-- The flags that `sz_unsrt` hands to `maketable` mark the group starts of order `n - 1`. -/
theorem flags_pipeline (B S counts : Mem) (L n : Nat) (h : SortedBy B S L n)
    (hc : ∀ c, c < 256 → counts c = cnt L (fun s => S s < c)) (hL : L < 4294967295) :
    FlagsOK B L n (n - 1)
      (forUp (fun _ (f : Mem × Mem) => (increaseorder f.1 f.2 S counts L, f.1))
        2 (n - 1 - 2) (makeorder2 Mem.zero S counts, Mem.zero)).1 := by
  have hn := h.hn
  have hnL := h.hnL
  have hlift : ∀ m, 2 + m + 1 ≤ L → ∀ p, (∃ c, p = cut B L (2 + m) c) →
      ∃ c, p = cut B L (2 + m + 1) c := by
    intro m hm p ⟨c, hp⟩
    exact ⟨c * 256, by rw [hp, cut_refine B L (2 + m) c hm h.hB]⟩
  have h0 := makeorder2_spec B S counts L n h hc
  generalize makeorder2 Mem.zero S counts = flags1 at h0 ⊢
  have key : (fun j (f : Mem × Mem) => FlagsOK B L n (2 + j) f.1 ∧
      ∀ p, bitSet f.2 p → ∃ c, p = cut B L (2 + j) c) (n - 1 - 2)
      (forUp (fun _ (f : Mem × Mem) => (increaseorder f.1 f.2 S counts L, f.1))
        2 (n - 1 - 2) (flags1, Mem.zero)) := by
    refine forUp_inv (fun _ (f : Mem × Mem) => (increaseorder f.1 f.2 S counts L, f.1))
      (fun j (f : Mem × Mem) => FlagsOK B L n (2 + j) f.1 ∧
        ∀ p, bitSet f.2 p → ∃ c, p = cut B L (2 + j) c) 2 (n - 1 - 2) (flags1, Mem.zero) ?_ ?_
    · exact ⟨h0, fun p hp => absurd hp (bitSet_zero p)⟩
    · intro m st hm hst
      obtain ⟨h1, h2⟩ := hst
      constructor
      · exact increaseorder_spec B S counts st.1 st.2 L n (2 + m) h hc (by omega) hL h1
          (fun p hp => hlift m (by omega) p (h2 p hp))
      · intro p hp
        exact hlift m (by omega) p (h1.cuts p hp)
  dsimp only at key
  have e : 2 + (n - 1 - 2) = n - 1 := by omega
  rw [e] at key
  exact key.1

/-- The table that `sz_unsrt` walks: a first slot of a context group holds the start of the
run of its successor context, any other slot points to that first slot. -/
theorem unsrtTable_spec (B S counts : Mem) (L n : Nat) (h : SortedBy B S L n)
    (hc : ∀ c, c < 256 → counts c = cnt L (fun j => B j = c)) (hL : L < 4294967295)
    (s : Nat) (hs : s < L) :
    ∃ f, isFirst B S L n (n - 1) f s ∧
      (unsrtTable S L counts n) s
        = if f = s then lfv S (sumReverse ALPHABETSIZE L counts) s else f ||| INDIRECT := by
  have hc2 : ∀ c, c < 256 → (sumReverse ALPHABETSIZE L counts) c = cnt L (fun s => S s < c) := by
    intro c hcl
    have e := sumReverse_spec 256 L B counts (by omega) h.hB hc c
    rw [if_pos hcl] at e
    have e2 : (sumReverse ALPHABETSIZE L counts) c = cnt L (fun j => B j < c) := e
    rw [e2]
    exact (sorted_cnt B S L n h (fun x => x < c)).symm
  have hfl := flags_pipeline B S (sumReverse ALPHABETSIZE L counts) L n h hc2 hL
  have hn := h.hn
  obtain ⟨f, hf1, hf2⟩ := maketable_spec B S (sumReverse ALPHABETSIZE L counts) _ Mem.zero L n
    (n - 1) h (by omega) hL hfl s hs
  refine ⟨f, hf1, ?_⟩
  rw [← hf2]
  unfold unsrtTable
  exact Mem.set_other _ _ _ _ (by omega)

theorem unsrtWalk_spec (B S counts : Mem) (L n : Nat) (h : SortedBy B S L n)
    (hc : ∀ c, c < 256 → counts c = cnt L (fun j => B j = c)) (hL : L < 8388608) :
    WalkInv B S (sumReverse ALPHABETSIZE L counts) L n L
      (unsrtWalk (unsrtTable S L counts n) S L (slotOf B L n (L - 1))) := by
  have hn := h.hn
  have hnL := h.hnL
  have hc2 : ∀ c, c < 256 → (sumReverse ALPHABETSIZE L counts) c = cnt L (fun s => S s < c) := by
    intro c hcl
    have e := sumReverse_spec 256 L B counts (by omega) h.hB hc c
    rw [if_pos hcl] at e
    have e2 : (sumReverse ALPHABETSIZE L counts) c = cnt L (fun j => B j < c) := e
    rw [e2]
    exact (sorted_cnt B S L n h (fun x => x < c)).symm
  unfold unsrtWalk
  apply forUp_inv (fun _ s => walkStep S s)
    (fun m st => WalkInv B S (sumReverse ALPHABETSIZE L counts) L n m st)
  · constructor
    · show slotOf B L n (L - 1) = slotOf B L n (wrap L 0 1)
      have e : wrap L 0 1 = L - 1 := by unfold wrap; split_ifs <;> omega
      rw [e]
    · rfl
    · intro s hs
      obtain ⟨f, hf1, hf2⟩ := unsrtTable_spec B S counts L n h hc (by omega) s hs
      refine ⟨f, hf1, ?_⟩
      show (unsrtTable S L counts n) s = _
      rw [hf2, cnt_zero]
      rfl
  · intro m st hm inv
    exact walk_step B S _ L n m st h hm hL hc2 inv

/-- On a block sorted by context, with the slot of the last position, `sz_unsrt` returns the
original block and its cyclic check passes. -/
theorem sz_unsrt_mem_spec (B S counts : Mem) (L n : Nat) (h : SortedBy B S L n)
    (hc : ∀ c, c < 256 → counts c = cnt L (fun j => B j = c)) (hL : L < 8388608) :
    sz_unsrt_mem S L (slotOf B L n (L - 1)) (some counts) n = Except.ok (B.toList L) := by
  have inv := unsrtWalk_spec B S counts L n h hc hL
  have hnL := h.hnL
  have hn := h.hn
  unfold sz_unsrt_mem
  dsimp only
  have e : wrap L L 1 = L - 1 := by unfold wrap; split_ifs <;> omega
  have hj := inv.j
  rw [e] at hj
  rw [if_neg (by rw [hj]; exact fun hh => hh rfl), inv.out]

theorem ofList_eq (l : List Nat) (i : Nat) : (Mem.ofList l) i = l[i]?.getD 0 := by
  simp [Mem.ofList, List.getD]

theorem sz_srt_length (block : List Nat) (order : Nat) :
    (sz_srt block order).1.length = block.length := by
  simp [sz_srt, Mem.toList]

theorem sz_srt_sortedBy (block : List Nat) (order : Nat)
    (hbytes : ∀ b ∈ block, b < 256) (h3 : 3 ≤ order) (hlt : order < block.length)
    (hbig : block.length + order ≤ 16777216) :
    SortedBy (Mem.ofList block) (Mem.ofList (sz_srt block order).1) block.length order := by
  refine ⟨h3, hlt, ofList_lt block hbytes, ?_⟩
  intro t ht
  have e := sz_srt_getElem? block order hbytes h3 hlt hbig t ht
  rw [ofList_eq, e, ← ofList_eq]

/-- C2: for a block `B` of bytes of length `L` and an order with `3 ≤ order < L`, `sz_unsrt`
applied to the block and `indexlast` produced by `sz_srt`, with the byte counts of `B` and the
same order, finishes without the non-cyclic error and outputs exactly `B`. Blocks are those
the program can hold: `L + order` within the 23 bits below the `INDIRECT` flag. -/
theorem sz_unsrt_inverts_sz_srt (block : List Nat) (order : Nat)
    (hbytes : ∀ b ∈ block, b < 256) (h3 : 3 ≤ order) (hlt : order < block.length)
    (hbig : block.length + order ≤ 8388608) :
    sz_unsrt (sz_srt block order).1 (sz_srt block order).2 (byteCounts block) order
      = Except.ok block := by
  have hs := sz_srt_sortedBy block order hbytes h3 hlt (by omega)
  have hil : (sz_srt block order).2
      = slotOf (Mem.ofList block) block.length order (block.length - 1) :=
    (sz_srt_mem_spec (Mem.ofList block) block.length order h3 hlt
      (ofList_lt block hbytes) (by omega)).2
  have key := sz_unsrt_mem_spec (Mem.ofList block) (Mem.ofList (sz_srt block order).1)
    (byteCounts block) block.length order hs (fun c _ => byteCounts_eq block c) (by omega)
  unfold sz_unsrt
  rw [sz_srt_length, hil, key, Mem.toList_ofList]

/-- Witness for C2 on a six-byte block with order 3. -/
theorem sz_unsrt_inverts_sz_srt_witness :
    sz_unsrt (sz_srt [3, 1, 4, 1, 5, 9] 3).1 (sz_srt [3, 1, 4, 1, 5, 9] 3).2
      (byteCounts [3, 1, 4, 1, 5, 9]) 3 = Except.ok [3, 1, 4, 1, 5, 9] :=
  sz_unsrt_inverts_sz_srt [3, 1, 4, 1, 5, 9] 3 (by decide) (by decide) (by decide) (by decide)

theorem sz_srt_o4_fst (block : List Nat) : (sz_srt_o4 block).1
    = (sz_srt_o4_mem (Mem.ofList block) block.length).1.toList block.length := rfl

theorem sz_srt_o4_snd (block : List Nat) : (sz_srt_o4 block).2
    = (sz_srt_o4_mem (Mem.ofList block) block.length).2 := rfl

theorem sz_srt_o4_example : sz_srt_o4 [0, 1, 2, 3, 4, 5] = ([1, 2, 3, 4, 5, 0], 1) := by
  have h := sz_srt_o4_mem_spec (Mem.ofList [0, 1, 2, 3, 4, 5]) [0, 1, 2, 3, 4, 5].length
    (by decide) (by decide) (ofList_lt [0, 1, 2, 3, 4, 5] (by decide))
  have h1 : (sz_srt_o4 [0, 1, 2, 3, 4, 5]).1 = [1, 2, 3, 4, 5, 0] := by
    rw [sz_srt_o4_fst, toList_eq_sorted _ _ _ _ h.1]
    decide
  have h2 : (sz_srt_o4 [0, 1, 2, 3, 4, 5]).2 = 1 := by
    have ht : o4Tracked (Mem.ofList [0, 1, 2, 3, 4, 5]) [0, 1, 2, 3, 4, 5].length 2 := by
      unfold o4Tracked
      decide
    rw [sz_srt_o4_snd, h.2.2 2 (by decide) ht]
    decide
  exact Prod.ext h1 h2

/-- C3 fails on the block 0..5: `sz_srt_o4` writes 1,2,3,4,5,0 and reports `indexlast` 1,
the slot of position 2 and not of the last position; `sz_unsrt` with order 4 on these, with
the byte counts of the block, passes its cyclic check and outputs 3,4,5,0,1,2. -/
theorem sz_unsrt_after_sz_srt_o4_rotates :
    sz_srt_o4 [0, 1, 2, 3, 4, 5] = ([1, 2, 3, 4, 5, 0], 1) ∧
    sz_unsrt (sz_srt_o4 [0, 1, 2, 3, 4, 5]).1 (sz_srt_o4 [0, 1, 2, 3, 4, 5]).2
      (byteCounts [0, 1, 2, 3, 4, 5]) 4 = Except.ok [3, 4, 5, 0, 1, 2] ∧
    sz_unsrt (sz_srt_o4 [0, 1, 2, 3, 4, 5]).1 (sz_srt_o4 [0, 1, 2, 3, 4, 5]).2
      (byteCounts [0, 1, 2, 3, 4, 5]) 4 ≠ Except.ok [0, 1, 2, 3, 4, 5] := by
  have e := sz_srt_o4_example
  have hs : SortedBy (Mem.ofList [3, 4, 5, 0, 1, 2]) (Mem.ofList [1, 2, 3, 4, 5, 0]) 6 4 :=
    ⟨by decide, by decide, ofList_lt [3, 4, 5, 0, 1, 2] (by decide), by decide⟩
  have hc : ∀ c, c < 256 → byteCounts [0, 1, 2, 3, 4, 5] c
      = cnt 6 (fun j => (Mem.ofList [3, 4, 5, 0, 1, 2]) j = c) := by
    intro c _
    have hb := byteCounts_eq [3, 4, 5, 0, 1, 2] c
    have hp : byteCounts [0, 1, 2, 3, 4, 5] c = byteCounts [3, 4, 5, 0, 1, 2] c :=
      List.Perm.count_eq (by decide) c
    rw [hp]
    exact hb
  have key := sz_unsrt_mem_spec (Mem.ofList [3, 4, 5, 0, 1, 2]) (Mem.ofList [1, 2, 3, 4, 5, 0])
    (byteCounts [0, 1, 2, 3, 4, 5]) 6 4 hs hc (by decide)
  have hslot : slotOf (Mem.ofList [3, 4, 5, 0, 1, 2]) 6 4 (6 - 1) = 1 := by decide
  rw [hslot] at key
  have hres : sz_unsrt (sz_srt_o4 [0, 1, 2, 3, 4, 5]).1 (sz_srt_o4 [0, 1, 2, 3, 4, 5]).2
      (byteCounts [0, 1, 2, 3, 4, 5]) 4 = Except.ok [3, 4, 5, 0, 1, 2] := by
    rw [e]
    unfold sz_unsrt
    exact key
  refine ⟨e, hres, ?_⟩
  rw [hres]
  intro hh
  injection hh with hh
  exact absurd hh (by decide)

theorem freadBytes_bytes (data : List Nat) (tail : List Item) :
    freadBytes data.length (data.map Item.byte ++ tail) = (data, tail) := by
  induction data with
  | nil => cases tail <;> rfl
  | cons b data ih =>
    show ((freadBytes data.length (data.map Item.byte ++ tail)).1.cons b,
      (freadBytes data.length (data.map Item.byte ++ tail)).2) = _
    rw [ih]

theorem fill_loop (l : List Nat) (buffer : Mem) :
    (forUp (fun i (m : Mem) => m.set i (l.getD i 0)) 0 l.length buffer).toList l.length = l := by
  have h := copy_loop (Mem.ofList l) buffer l.length
  have e : (fun i (m : Mem) => m.set i (l.getD i 0))
      = (fun i (m : Mem) => m.set i ((Mem.ofList l) i)) := rfl
  rw [e]
  refine Eq.trans (Mem.toList_congr _ (Mem.ofList l) l.length ?_) (Mem.toList_ofList l)
  intro i hi
  rw [h i, if_pos hi]

theorem readblockdirTail_dirsize (ch : Option Nat) (inp : List Item) (d l : Nat)
    (r : List Item) (h : readblockdirTail ch inp = Except.ok (d, l, r)) : d = 6 := by
  unfold readblockdirTail at h
  dsimp only at h
  split_ifs at h
  injection h with h
  injection h with h1 _
  exact h1.symm

/-- The directory size that `readblockdir` returns is 0 (end of input) or 6. -/
theorem readblockdir_dirsize (inp : List Item) (d l : Nat) (r : List Item)
    (h : readblockdir inp = Except.ok (d, l, r)) (hd : d ≠ 0) : d = 6 := by
  unfold readblockdir at h
  split at h
  · injection h with h
    injection h with h1 _
    exact absurd h1.symm hd
  · split_ifs at h
    · split at h
      · exact absurd h (by simp)
      · split at h
        · injection h with h
          injection h with h1 _
          exact absurd h1.symm hd
        · exact readblockdirTail_dirsize _ _ d l r h
    · exact readblockdirTail_dirsize _ _ d l r h

theorem readstorblock_on_tail (dirsize : Nat) (data : List Nat) (buffer : Mem) (v : Nat)
    (rest : List Item) (hv : v < 16777216) :
    readstorblock dirsize data.length buffer (data.map Item.byte ++ writeuint3 v ++ rest)
      = if v ≠ (dirsize + 3 + data.length) % 4294967296 then Except.error SzError.notSzip
        else Except.ok (data,
          forUp (fun i (m : Mem) => m.set i (data.getD i 0)) 0 data.length buffer, rest) := by
  unfold readstorblock
  rw [List.append_assoc, freadBytes_bytes]
  dsimp only
  rw [if_neg (by simp), readuint3_writeuint3 v hv rest, fill_loop]

/-- C11: for a stored block of length `L ≤ 4128768`, `writestorblock` as called by
`compressit` (directory size 6 from `writeblockdir`) appends the 24-bit value `6 + 4 + L`
after the raw bytes, and `readstorblock` as called by `decompressit` (with the non-zero
directory size of `readblockdir`, always 6, plus 1) accepts a 24-bit tail value `v` exactly
when `v` is that value; on any other value it ends with the not-szip error. -/
theorem readstorblock_accepts_exactly_written_tail (data : List Nat) (buffer : Mem) (v : Nat)
    (rest : List Item) (hL : data.length ≤ 4128768) (hv : v < 16777216) :
    (writestorblock (writeblockdir data.length).2 data.length (Mem.ofList data)
      = [Item.byte 0] ++ data.map Item.byte
        ++ writeuint3 ((writeblockdir data.length).2 + 4 + data.length)) ∧
    (writeblockdir data.length).2 + 4 + data.length < 16777216 ∧
    (∀ inp d l r, readblockdir inp = Except.ok (d, l, r) → d ≠ 0 → d = 6) ∧
    (v = (writeblockdir data.length).2 + 4 + data.length →
      ∃ buf, readstorblock (6 + 1) data.length buffer
        (data.map Item.byte ++ writeuint3 v ++ rest) = Except.ok (data, buf, rest)) ∧
    (v ≠ (writeblockdir data.length).2 + 4 + data.length →
      readstorblock (6 + 1) data.length buffer
        (data.map Item.byte ++ writeuint3 v ++ rest) = Except.error SzError.notSzip) := by
  have hw : (writeblockdir data.length).2 = 6 := rfl
  have e1 : (6 + 1 + 3 + data.length) % 4294967296 = 6 + 4 + data.length := by omega
  have key := readstorblock_on_tail (6 + 1) data buffer v rest hv
  rw [e1] at key
  refine ⟨?_, ?_, readblockdir_dirsize, ?_, ?_⟩
  · unfold writestorblock
    rw [Mem.toList_ofList, hw, Nat.mod_eq_of_lt (by omega)]
  · rw [hw]
    omega
  · intro h
    rw [hw] at h
    rw [key, if_neg (by simpa using h)]
    exact ⟨_, rfl⟩
  · intro h
    rw [hw] at h
    rw [key, if_pos h]

/-- Witness for C11 on the one-byte stored block `0x41` with the tail value 11. -/
theorem readstorblock_accepts_exactly_written_tail_witness :
    (writestorblock (writeblockdir [0x41].length).2 [0x41].length (Mem.ofList [0x41])
      = [Item.byte 0] ++ [0x41].map Item.byte
        ++ writeuint3 ((writeblockdir [0x41].length).2 + 4 + [0x41].length)) ∧
    (writeblockdir [0x41].length).2 + 4 + [0x41].length < 16777216 ∧
    (∀ inp d l r, readblockdir inp = Except.ok (d, l, r) → d ≠ 0 → d = 6) ∧
    (11 = (writeblockdir [0x41].length).2 + 4 + [0x41].length →
      ∃ buf, readstorblock (6 + 1) [0x41].length Mem.zero
        ([0x41].map Item.byte ++ writeuint3 11 ++ []) = Except.ok ([0x41], buf, [])) ∧
    (11 ≠ (writeblockdir [0x41].length).2 + 4 + [0x41].length →
      readstorblock (6 + 1) [0x41].length Mem.zero
        ([0x41].map Item.byte ++ writeuint3 11 ++ []) = Except.error SzError.notSzip) :=
  readstorblock_accepts_exactly_written_tail [0x41] Mem.zero 11 [] (by decide) (by decide)

/-- C14: on empty input `compressit` emits exactly the six bytes `53 5A 0A 04 vmayor vminor`,
and `decompressit` on that stream writes no byte and ends without error. -/
theorem empty_input_gives_header_only (co : Collab) (blocksize order recordsize : Nat) :
    compressit co blocksize order recordsize [] =
      [Item.byte 0x53, Item.byte 0x5a, Item.byte 0x0a, Item.byte 0x04,
       Item.byte vmayor, Item.byte vminor] ∧
    decompressit co recordsize (compressit co blocksize order recordsize []) = Except.ok [] := by
  have h : compressit co blocksize order recordsize [] =
      [Item.byte 0x53, Item.byte 0x5a, Item.byte 0x0a, Item.byte 0x04,
       Item.byte vmayor, Item.byte vminor] := by
    unfold compressit
    simp only [List.length_nil, Nat.zero_add, compressLoop, List.take_nil, if_true,
      List.append_nil]
    rfl
  refine ⟨h, ?_⟩
  rw [h]
  rfl

theorem writeuint3_bytes (x : Nat) (hx : x < 16777216) :
    writeuint3 x = [Item.byte (x / 65536), Item.byte (x / 256 % 256), Item.byte (x % 256)] := by
  unfold writeuint3
  simp only [and_ff, Nat.shiftRight_eq_div_pow]
  have e : x / 2 ^ 16 % 256 = x / 65536 := by
    norm_num
    omega
  rw [e]

theorem readblockdir_writeblockdir (L : Nat) (rest : List Item) (hL : L < 16777216) :
    readblockdir ((writeblockdir L).1 ++ rest) = Except.ok (6, L, rest) := by
  have e : (writeblockdir L).1 ++ rest
      = Item.byte 0x42 :: Item.byte 0x48 :: (writeuint3 L ++ (Item.byte 0 :: rest)) := by
    simp [writeblockdir]
  rw [e]
  simp only [readblockdir, readblockdirTail, getchar]
  rw [readuint3_writeuint3 L hL]
  simp [getchar]

/-- C15: for `L < 2^24`, `writeblockdir L` emits exactly the six bytes `42 48`, `L` as three
big-endian bytes, `00` and returns 6; `readblockdir` on those bytes returns directory size 6
with block length `L`; `readuint3` inverts `writeuint3`. -/
theorem blockdir_write_read (L : Nat) (rest : List Item) (hL : L < 16777216) :
    (writeblockdir L).1 = [Item.byte 0x42, Item.byte 0x48, Item.byte (L / 65536),
      Item.byte (L / 256 % 256), Item.byte (L % 256), Item.byte 0] ∧
    (writeblockdir L).2 = 6 ∧
    readblockdir ((writeblockdir L).1 ++ rest) = Except.ok (6, L, rest) ∧
    readuint3 (writeuint3 L ++ rest) = (L, rest) := by
  refine ⟨?_, rfl, readblockdir_writeblockdir L rest hL, readuint3_writeuint3 L hL rest⟩
  unfold writeblockdir
  rw [writeuint3_bytes L hL]
  rfl

/-- Witness for C15 at the block length 32768. -/
theorem blockdir_write_read_witness :
    (writeblockdir 32768).1 = [Item.byte 0x42, Item.byte 0x48, Item.byte (32768 / 65536),
      Item.byte (32768 / 256 % 256), Item.byte (32768 % 256), Item.byte 0] ∧
    (writeblockdir 32768).2 = 6 ∧
    readblockdir ((writeblockdir 32768).1 ++ []) = Except.ok (6, 32768, []) ∧
    readuint3 (writeuint3 32768 ++ []) = (32768, []) :=
  blockdir_write_read 32768 [] (by decide)

/-- C16: `readblockdir` behaves by the first byte. At end of input it returns directory size
0. A first byte `42` starts the directory parse (`48`, length, `00`). A first byte `53` makes
`readglobalheader` validate and consume a global header, after which end of input returns 0
and any other byte goes to the directory parse; a valid header followed by the directory of
`writeblockdir L` yields size 6 and length `L`, and a wrong second magic byte is the not-szip
error. Any other first byte `b` is the not-szip error. -/
theorem readblockdir_by_first_byte (b L : Nat) (rest : List Item) (hL : L < 16777216) :
    readblockdir [] = Except.ok (0, 0, []) ∧
    readblockdir (Item.byte 0x42 :: rest) = readblockdirTail (some 0x42) rest ∧
    readblockdir (Item.byte 0x53 :: rest) =
      (match readglobalheader (Item.byte 0x53 :: rest) with
       | Except.error e => Except.error e
       | Except.ok r2 =>
         match getchar r2 with
         | (none, r) => Except.ok (0, 0, r)
         | (some ch2, r3) => readblockdirTail (some ch2) r3) ∧
    readblockdir writeglobalheader = Except.ok (0, 0, []) ∧
    readblockdir (writeglobalheader ++ (writeblockdir L).1 ++ rest) = Except.ok (6, L, rest) ∧
    (b ≠ 0x5a → readblockdir (Item.byte 0x53 :: Item.byte b :: rest)
      = Except.error SzError.notSzip) ∧
    (b ≠ 0x42 → b ≠ 0x53 → readblockdir (Item.byte b :: rest)
      = Except.error SzError.notSzip) := by
  refine ⟨rfl, rfl, rfl, rfl, ?_, ?_, ?_⟩
  · have h := readblockdir_writeblockdir L rest hL
    have e : (writeblockdir L).1 ++ rest
        = Item.byte 0x42 :: Item.byte 0x48 :: (writeuint3 L ++ (Item.byte 0 :: rest)) := by
      simp [writeblockdir]
    rw [e] at h
    rw [List.append_assoc, e, ← h]
    simp [readblockdir, readglobalheader, writeglobalheader, getchar, vmayor, vminor]
  · intro hb
    simp [readblockdir, readglobalheader, getchar, hb]
  · intro h1 h2
    simp [readblockdir, readblockdirTail, getchar, h1, h2]

/-- Witness for C16: the first byte `41` and the second magic byte `41`. -/
theorem readblockdir_by_first_byte_witness :
    readblockdir (Item.byte 0x53 :: Item.byte 0x41 :: []) = Except.error SzError.notSzip ∧
    readblockdir (Item.byte 0x41 :: []) = Except.error SzError.notSzip ∧
    readblockdir (writeglobalheader ++ (writeblockdir 7).1 ++ []) = Except.ok (6, 7, []) :=
  ⟨(readblockdir_by_first_byte 0x41 7 [] (by decide)).2.2.2.2.2.1 (by decide),
   (readblockdir_by_first_byte 0x41 7 [] (by decide)).2.2.2.2.2.2 (by decide) (by decide),
   (readblockdir_by_first_byte 0x41 7 [] (by decide)).2.2.2.2.1⟩

theorem compressLoop_step (co : Collab) (blocksize order recordsize fuel : Nat)
    (inp : List Nat) (hne : (inp.take blocksize).length ≠ 0) :
    compressLoop co blocksize order recordsize (fuel + 1) inp =
      (writeblockdir (inp.take blocksize).length).1 ++
      (if (inp.take blocksize).length ≤ max order 5 then
        writestorblock 6 (inp.take blocksize).length (Mem.ofList (inp.take blocksize))
       else writeszipblock co order recordsize (inp.take blocksize).length
        (Mem.ofList (inp.take blocksize))) ++
      compressLoop co blocksize order recordsize fuel (inp.drop blocksize) := by
  rw [compressLoop]
  simp only [if_neg hne]
  have e : ((inp.take blocksize).length ≤ order ∨ (inp.take blocksize).length ≤ 5)
      ↔ (inp.take blocksize).length ≤ max order 5 := by
    rw [le_max_iff]
  simp only [e]
  rfl

/-- C12: in every turn of the loop of `compressit` with a non-empty block of length `L`, the
block is written after its directory as a stored block (kind byte 0) if `L ≤ max(order, 5)`
and as a szip block (kind byte 1) otherwise; so `writeszipblock`, which alone calls the
sorts, runs only with `L > order` and `L > 5`. -/
theorem block_kind_by_length (co : Collab) (blocksize order recordsize fuel : Nat)
    (inp : List Nat) (hne : (inp.take blocksize).length ≠ 0) :
    compressLoop co blocksize order recordsize (fuel + 1) inp =
      (writeblockdir (inp.take blocksize).length).1 ++
      (if (inp.take blocksize).length ≤ max order 5 then
        writestorblock 6 (inp.take blocksize).length (Mem.ofList (inp.take blocksize))
       else writeszipblock co order recordsize (inp.take blocksize).length
        (Mem.ofList (inp.take blocksize))) ++
      compressLoop co blocksize order recordsize fuel (inp.drop blocksize) ∧
    ((compressLoop co blocksize order recordsize (fuel + 1) inp)[6]? = some (Item.byte 0)
      ↔ (inp.take blocksize).length ≤ max order 5) ∧
    ((compressLoop co blocksize order recordsize (fuel + 1) inp)[6]? = some (Item.byte 1)
      ↔ ¬ (inp.take blocksize).length ≤ max order 5) ∧
    (¬ (inp.take blocksize).length ≤ max order 5 →
      order < (inp.take blocksize).length ∧ 5 < (inp.take blocksize).length) := by
  have h := compressLoop_step co blocksize order recordsize fuel inp hne
  have hk : (compressLoop co blocksize order recordsize (fuel + 1) inp)[6]?
      = some (Item.byte (if (inp.take blocksize).length ≤ max order 5 then 0 else 1)) := by
    rw [h]
    by_cases hc : (inp.take blocksize).length ≤ max order 5
    · rw [if_pos hc, if_pos hc]
      simp [writeblockdir, writeuint3, writestorblock]
    · rw [if_neg hc, if_neg hc]
      simp [writeblockdir, writeuint3, writeszipblock]
  have h01 : Item.byte 1 ≠ Item.byte 0 := by decide
  refine ⟨h, ?_, ?_, ?_⟩
  · rw [hk]
    by_cases hc : (inp.take blocksize).length ≤ max order 5
    · rw [if_pos hc]
      exact ⟨fun _ => hc, fun _ => rfl⟩
    · rw [if_neg hc]
      exact ⟨fun hh => absurd (Option.some.inj hh) h01, fun hh => absurd hh hc⟩
  · rw [hk]
    by_cases hc : (inp.take blocksize).length ≤ max order 5
    · rw [if_pos hc]
      exact ⟨fun hh => absurd (Option.some.inj hh).symm h01, fun hh => absurd hc hh⟩
    · rw [if_neg hc]
      exact ⟨fun _ => hc, fun _ => rfl⟩
  · intro hc
    rw [le_max_iff] at hc
    omega

/-- Witness for C12: the 16-byte block of zeros at order 6 with block size 32768. -/
theorem block_kind_by_length_witness :
    ((compressLoop ⟨fun l _ => l, fun l _ => l, fun l => (l, 0)⟩ 32768 6 1 (0 + 1)
        (List.replicate 16 0))[6]? = some (Item.byte 1)
      ↔ ¬ ((List.replicate 16 0).take 32768).length ≤ max 6 5) :=
  (block_kind_by_length ⟨fun l _ => l, fun l _ => l, fun l => (l, 0)⟩ 32768 6 1 0
    (List.replicate 16 0) (by decide)).2.2.1

theorem writeszipblock_eq (co : Collab) (order recordsize buflen : Nat) (buffer : Mem) :
    writeszipblock co order recordsize buflen buffer =
      [Item.byte 1] ++ writeuint3 (szipSorted co order recordsize buflen buffer).2 ++
        [Item.byte (order &&& 0xff)] ++
        encodeBlock (szipSorted co order recordsize buflen buffer).1 buflen := rfl

theorem runEnd_spec (buf : Mem) (ch : Nat) : ∀ fuel pos stop, pos ≤ stop → stop < pos + fuel →
    buf stop ≠ ch →
    pos ≤ runEnd buf ch fuel pos ∧ runEnd buf ch fuel pos ≤ stop ∧
    buf (runEnd buf ch fuel pos) ≠ ch ∧
    ∀ i, pos ≤ i → i < runEnd buf ch fuel pos → buf i = ch := by
  intro fuel
  induction fuel with
  | zero => intro pos stop h1 h2 _; omega
  | succ fuel ih =>
    intro pos stop h1 h2 h3
    rw [runEnd]
    by_cases hc : buf pos = ch
    · rw [if_pos hc]
      have hne : pos ≠ stop := fun e => h3 (e ▸ hc)
      obtain ⟨a, b, c, d⟩ := ih (pos + 1) stop (by omega) (by omega) h3
      refine ⟨by omega, b, c, ?_⟩
      intro i hi1 hi2
      by_cases hip : i = pos
      · rw [hip]; exact hc
      · exact d i (by omega) hi2
    · rw [if_neg hc]
      exact ⟨Nat.le_refl _, h1, hc, fun i hi1 hi2 => by omega⟩

theorem xor_ff_ne (x : Nat) : x ^^^ 0xff ≠ x := by
  intro h
  have h2 : x ^^^ (x ^^^ 0xff) = x ^^^ x := by rw [h]
  rw [← Nat.xor_assoc, Nat.xor_self, Nat.zero_xor] at h2
  exact absurd h2 (by decide)

/-- The end of the run that starts at `pos`, in a buffer with a sentinel behind the block. -/
theorem run_end (buf : Mem) (L pos : Nat) (hs : buf L ≠ buf (L - 1)) (hp : pos < L) :
    pos < runEnd buf (buf pos) L (pos + 1) ∧ runEnd buf (buf pos) L (pos + 1) ≤ L ∧
    buf (runEnd buf (buf pos) L (pos + 1)) ≠ buf pos ∧
    ∀ i, pos ≤ i → i < runEnd buf (buf pos) L (pos + 1) → buf i = buf pos := by
  have hstop : ∃ stop, pos + 1 ≤ stop ∧ stop ≤ L ∧ buf stop ≠ buf pos := by
    by_cases h : ∀ i, pos ≤ i → i < L → buf i = buf pos
    · refine ⟨L, by omega, Nat.le_refl _, ?_⟩
      rw [← h (L - 1) (by omega) (by omega)]
      exact hs
    · push_neg at h
      obtain ⟨i, h1, h2, h3⟩ := h
      have : i ≠ pos := fun e => h3 (by rw [e])
      exact ⟨i, by omega, by omega, h3⟩
  obtain ⟨stop, h1, h2, h3⟩ := hstop
  obtain ⟨a, b, c, d⟩ := runEnd_spec buf (buf pos) L (pos + 1) stop h1 (by omega) h3
  refine ⟨by omega, by omega, c, ?_⟩
  intro i hi1 hi2
  by_cases hip : i = pos
  · rw [hip]
  · exact d i (by omega) hi2

theorem drop_run (buf : Mem) (L pos e c : Nat) (h1 : pos ≤ e) (h2 : e ≤ L)
    (h : ∀ i, pos ≤ i → i < e → buf i = c) :
    (buf.toList L).drop pos = List.replicate (e - pos) c ++ (buf.toList L).drop e := by
  apply List.ext_getElem?
  intro i
  rw [List.getElem?_drop]
  by_cases hi : i < e - pos
  · rw [List.getElem?_append_left (by simpa using hi), toList_getElem? _ _ _ (by omega),
      List.getElem?_replicate, if_pos hi, h (pos + i) (by omega) (by omega)]
  · rw [List.getElem?_append_right (by simpa using hi), List.getElem?_drop,
      List.length_replicate]
    have e2 : e + (i - (e - pos)) = pos + i := by omega
    rw [e2]

theorem encodeRuns_spec (buf : Mem) (L : Nat) (hs : buf L ≠ buf (L - 1)) :
    ∀ fuel pos, pos ≤ L → L - pos ≤ fuel →
    ∃ runs : List (Nat × Nat),
      encodeRuns buf L fuel pos = runs.map (fun r => Item.run r.1 r.2) ∧
      (∀ r ∈ runs, 1 ≤ r.2) ∧
      List.Chain' (fun a b : Nat × Nat => a.1 ≠ b.1) runs ∧
      (∀ r ∈ runs.head?, r.1 = buf pos) ∧
      (runs.map Prod.snd).sum = L - pos ∧
      expandRuns runs = (buf.toList L).drop pos := by
  intro fuel
  induction fuel with
  | zero =>
    intro pos h1 h2
    have e : pos = L := by omega
    refine ⟨[], rfl, by simp, List.chain'_nil, by simp, by simp [e], ?_⟩
    rw [e, List.drop_of_length_le (by simp [Mem.toList])]
    rfl
  | succ fuel ih =>
    intro pos h1 h2
    by_cases hp : pos < L
    · obtain ⟨a, b, c, d⟩ := run_end buf L pos hs hp
      obtain ⟨runs, r1, r2, r3, r4, r5, r6⟩ :=
        ih (runEnd buf (buf pos) L (pos + 1)) b (by omega)
      refine ⟨(buf pos, runEnd buf (buf pos) L (pos + 1) - pos) :: runs, ?_, ?_, ?_, ?_,
        ?_, ?_⟩
      · rw [encodeRuns, if_pos hp, r1]
        rfl
      · intro r hr
        rcases List.mem_cons.mp hr with h | h
        · rw [h]
          show 1 ≤ runEnd buf (buf pos) L (pos + 1) - pos
          omega
        · exact r2 r h
      · rw [List.chain'_cons']
        refine ⟨?_, r3⟩
        intro y hy
        rw [r4 y hy]
        exact fun hh => c hh.symm
      · intro r hr
        simp only [List.head?_cons, Option.mem_def, Option.some.injEq] at hr
        rw [← hr]
      · rw [List.map_cons, List.sum_cons, r5]
        show runEnd buf (buf pos) L (pos + 1) - pos + _ = _
        omega
      · have e := drop_run buf L pos _ (buf pos) (by omega) b d
        rw [e, ← r6]
        rfl
    · have e : pos = L := by omega
      refine ⟨[], ?_, by simp, List.chain'_nil, by simp, by simp [e], ?_⟩
      · rw [encodeRuns, if_neg hp]
        rfl
      · rw [e, List.drop_of_length_le (by simp [Mem.toList])]
        rfl

theorem encodeBlock_eq (sorted : Mem) (L : Nat) (hL : 1 ≤ L) :
    encodeBlock sorted L
      = encodeRuns (sorted.set L ((sorted (L - 1)) ^^^ 0xff)) L (L + 1) 0 := by
  rw [encodeRuns, if_pos (by omega)]
  rfl

theorem encodeBlock_spec (sorted : Mem) (L : Nat) (hL : 1 ≤ L) :
    ∃ runs : List (Nat × Nat),
      encodeBlock sorted L = runs.map (fun r => Item.run r.1 r.2) ∧
      (∀ r ∈ runs, 1 ≤ r.2) ∧
      List.Chain' (fun a b : Nat × Nat => a.1 ≠ b.1) runs ∧
      (runs.map Prod.snd).sum = L ∧
      expandRuns runs = sorted.toList L := by
  have hs : (sorted.set L ((sorted (L - 1)) ^^^ 0xff)) L
      ≠ (sorted.set L ((sorted (L - 1)) ^^^ 0xff)) (L - 1) := by
    rw [Mem.set_same, Mem.set_other _ _ _ _ (by omega)]
    exact xor_ff_ne _
  obtain ⟨runs, r1, r2, r3, _, r5, r6⟩ := encodeRuns_spec _ L hs (L + 1) 0 (by omega) (by omega)
  refine ⟨runs, ?_, r2, r3, r5, ?_⟩
  · rw [encodeBlock_eq sorted L hL, r1]
  · rw [r6, List.drop_zero]
    apply Mem.toList_congr
    intro i hi
    exact Mem.set_other _ _ _ _ (by omega)

/-- C19: in `writeszipblock` on a block of length `L ≥ 1` the (symbol, run-length) pairs
handed to the coder are the maximal runs of the sorted block: every length is at least 1,
neighbouring pairs carry different symbols, the lengths sum to `L`, and expanding the pairs
in order gives the sorted block `block[0..L)`. -/
theorem runs_are_maximal_runs_of_sorted_block (co : Collab) (order recordsize L : Nat)
    (buffer : Mem) (hL : 1 ≤ L) :
    ∃ runs : List (Nat × Nat),
      writeszipblock co order recordsize L buffer =
        [Item.byte 1] ++ writeuint3 (szipSorted co order recordsize L buffer).2 ++
          [Item.byte (order &&& 0xff)] ++ runs.map (fun r => Item.run r.1 r.2) ∧
      (∀ r ∈ runs, 1 ≤ r.2) ∧
      List.Chain' (fun a b : Nat × Nat => a.1 ≠ b.1) runs ∧
      (runs.map Prod.snd).sum = L ∧
      expandRuns runs = (szipSorted co order recordsize L buffer).1.toList L := by
  obtain ⟨runs, r1, r2, r3, r4, r5⟩ :=
    encodeBlock_spec (szipSorted co order recordsize L buffer).1 L hL
  exact ⟨runs, by rw [writeszipblock_eq, r1], r2, r3, r4, r5⟩

/-- Witness for C19 on a six-byte block with order 3 and record size 1. -/
theorem runs_are_maximal_runs_of_sorted_block_witness :
    ∃ runs : List (Nat × Nat),
      writeszipblock ⟨fun l _ => l, fun l _ => l, fun l => (l, 0)⟩ 3 1 6
          (Mem.ofList [3, 1, 4, 1, 5, 9]) =
        [Item.byte 1] ++ writeuint3 (szipSorted ⟨fun l _ => l, fun l _ => l, fun l => (l, 0)⟩
          3 1 6 (Mem.ofList [3, 1, 4, 1, 5, 9])).2 ++
          [Item.byte (3 &&& 0xff)] ++ runs.map (fun r => Item.run r.1 r.2) ∧
      (∀ r ∈ runs, 1 ≤ r.2) ∧
      List.Chain' (fun a b : Nat × Nat => a.1 ≠ b.1) runs ∧
      (runs.map Prod.snd).sum = 6 ∧
      expandRuns runs = (szipSorted ⟨fun l _ => l, fun l _ => l, fun l => (l, 0)⟩
        3 1 6 (Mem.ofList [3, 1, 4, 1, 5, 9])).1.toList 6 :=
  runs_are_maximal_runs_of_sorted_block ⟨fun l _ => l, fun l _ => l, fun l => (l, 0)⟩ 3 1 6
    (Mem.ofList [3, 1, 4, 1, 5, 9]) (by decide)

theorem zeros_sorted (i : Nat) (hi : i < 16) :
    (sz_srt_mem (Mem.ofList (List.replicate 16 0)) 16 6).inb i = 0 := by
  have hp := sz_srt_perm (List.replicate 16 0) 6 (by decide) (by decide) (by decide) (by decide)
  have hlen : (List.replicate 16 0).length = 16 := rfl
  rw [sz_srt_fst, hlen] at hp
  have hm : (sz_srt_mem (Mem.ofList (List.replicate 16 0)) 16 6).inb i
      ∈ (sz_srt_mem (Mem.ofList (List.replicate 16 0)) 16 6).inb.toList 16 := by
    apply List.mem_iff_getElem?.mpr
    exact ⟨i, toList_getElem? _ _ _ hi⟩
  exact List.eq_of_mem_replicate (hp.mem_iff.mp hm)

theorem zeros_indexlast :
    (sz_srt_mem (Mem.ofList (List.replicate 16 0)) 16 6).indexlast = 15 := by
  rw [(sz_srt_mem_spec (Mem.ofList (List.replicate 16 0)) 16 6 (by decide) (by decide)
    (ofList_lt (List.replicate 16 0) (by decide)) (by decide)).2]
  decide

theorem encodeBlock_zeros (S : Mem) (hS : ∀ i, i < 16 → S i = 0) :
    encodeBlock S 16 = [Item.run 0 16] := by
  have hb : ∀ i, i < 16 → (S.set 16 ((S (16 - 1)) ^^^ 0xff)) i = 0 := by
    intro i hi
    rw [Mem.set_other _ _ _ _ (by omega)]
    exact hS i hi
  have h16 : (S.set 16 ((S (16 - 1)) ^^^ 0xff)) 16 ≠ 0 := by
    rw [Mem.set_same, hS 15 (by decide)]
    decide
  have key := runEnd_spec (S.set 16 ((S (16 - 1)) ^^^ 0xff)) 0 16 1 16 (by decide)
    (by decide) h16
  have he : runEnd (S.set 16 ((S (16 - 1)) ^^^ 0xff)) 0 16 1 = 16 := by
    obtain ⟨a, b, c, _⟩ := key
    by_contra hne
    exact c (hb _ (by omega))
  unfold encodeBlock
  dsimp only
  rw [hb 0 (by decide), he]
  simp [encodeRuns]

theorem compress_zeros (co : Collab) :
    compressit co 32768 6 1 (List.replicate 16 0) =
      [Item.byte 0x53, Item.byte 0x5a, Item.byte 0x0a, Item.byte 0x04, Item.byte 1,
       Item.byte 12, Item.byte 0x42, Item.byte 0x48, Item.byte 0, Item.byte 0, Item.byte 16,
       Item.byte 0, Item.byte 1, Item.byte 0, Item.byte 0, Item.byte 15, Item.byte 6,
       Item.run 0 16] := by
  have ht : (List.replicate 16 0).take 32768 = List.replicate 16 0 := by decide
  have hd : (List.replicate 16 0).drop 32768 = ([] : List Nat) := by decide
  have hs : szipSorted co 6 1 16 (Mem.ofList (List.replicate 16 0))
      = ((sz_srt_mem (Mem.ofList (List.replicate 16 0)) 16 6).inb,
         (sz_srt_mem (Mem.ofList (List.replicate 16 0)) 16 6).indexlast) := by
    unfold szipSorted
    rw [if_neg (by decide), if_neg (by decide), if_neg (by decide), if_neg (by decide)]
  have hw : writeszipblock co 6 1 16 (Mem.ofList (List.replicate 16 0))
      = [Item.byte 1, Item.byte 0, Item.byte 0, Item.byte 15, Item.byte 6, Item.run 0 16] := by
    rw [writeszipblock_eq, hs]
    dsimp only
    rw [zeros_indexlast, encodeBlock_zeros _ zeros_sorted]
    rfl
  unfold compressit
  have hl : (List.replicate 16 0).length + 1 = 16 + 1 := rfl
  rw [hl, compressLoop_step co 32768 6 1 16 (List.replicate 16 0) (by rw [ht]; decide), ht, hd]
  have hlen : (List.replicate 16 0).length = 16 := rfl
  rw [hlen, if_neg (by decide), hw]
  have hnil : compressLoop co 32768 6 1 16 [] = [] := by
    rw [compressLoop]
    simp
  rw [hnil]
  rfl

/-- C13 (amended): compressing the 16-byte input of `00` bytes at the default order 6 (block
size 32768, record size 1) produces one szip block, kind byte 1, since 16 exceeds
`max(order, 5) = 6`: the stream is the global header, the directory of length 16, kind 1,
`indexlast` 15, order 6 and the single run (0, 16). -/
theorem sixteen_zeros_give_szip_block (co : Collab) :
    compressit co 32768 6 1 (List.replicate 16 0) =
      writeglobalheader ++ (writeblockdir 16).1 ++
        ([Item.byte 1] ++ writeuint3 15 ++ [Item.byte 6] ++ [Item.run 0 16]) ∧
    ¬ (16 ≤ max 6 5) := by
  refine ⟨?_, by decide⟩
  rw [compress_zeros co]
  rfl

/-- C13 as stated fails: the kind byte of the block that `compressit` writes for 16 bytes of
`00` at order 6 (the byte after the 6-byte header and the 6-byte directory) is 1, not 0; the
record reorder and the order-0 sort, which this run does not reach, are set to stand-ins. -/
theorem sixteen_zeros_not_stored :
    (compressit ⟨fun l _ => l, fun l _ => l, fun l => (l, 0)⟩ 32768 6 1
      (List.replicate 16 0))[12]? = some (Item.byte 1) ∧
    (compressit ⟨fun l _ => l, fun l _ => l, fun l => (l, 0)⟩ 32768 6 1
      (List.replicate 16 0))[12]? ≠ some (Item.byte 0) := by
  rw [compress_zeros ⟨fun l _ => l, fun l _ => l, fun l => (l, 0)⟩]
  constructor
  · rfl
  · decide

theorem fill_const (ch start n : Nat) (buf : Mem) (k : Nat) :
    (forUp (fun i (m : Mem) => m.set i ch) start n buf) k
      = if start ≤ k ∧ k < start + n then ch else buf k := by
  induction n with
  | zero =>
    rw [forUp_zero, if_neg (by omega)]
  | succ n ih =>
    rw [forUp_succ, Mem.set_apply, ih]
    by_cases h : k = start + n
    · rw [if_pos h, if_pos (by omega)]
    · rw [if_neg h]
      by_cases h2 : start ≤ k ∧ k < start + n
      · rw [if_pos h2, if_pos (by omega)]
      · rw [if_neg h2, if_neg (by omega)]

theorem decodeRun_ok (s s1 : DecState) (h : decodeRun s = Except.ok s1) :
    ∃ ch len rest, s.inp = Item.run ch len :: rest ∧ len ≤ s.bytesleft ∧
      s1.tmp = s.tmp + len ∧ s1.bytesleft = s.bytesleft - len ∧ s1.inp = rest ∧
      s1.buffer = forUp (fun i (m : Mem) => m.set i (ch % 256)) s.tmp len s.buffer := by
  unfold decodeRun at h
  split at h
  · rename_i ch len rest hinp
    split_ifs at h with hc
    injection h with h
    subst h
    exact ⟨ch, len, rest, hinp, by omega, rfl, rfl, rfl, rfl⟩
  · exact absurd h (by simp)

theorem decodeRun_frame (s s1 : DecState) (L : Nat) (hL : s.tmp + s.bytesleft = L)
    (h : decodeRun s = Except.ok s1) :
    s1.tmp + s1.bytesleft = L ∧ s.tmp ≤ s1.tmp ∧
    ∀ i, (i < s.tmp ∨ s1.tmp ≤ i) → s1.buffer i = s.buffer i := by
  obtain ⟨ch, len, rest, _, h2, h3, h4, _, h6⟩ := decodeRun_ok s s1 h
  refine ⟨by omega, by omega, ?_⟩
  intro i hi
  rw [h6, fill_const, if_neg (by omega)]

theorem decodeLoop_frame : ∀ (fuel : Nat) (s s2 : DecState) (L : Nat),
    s.tmp + s.bytesleft = L → decodeLoop fuel s = Except.ok s2 →
    s2.tmp = L ∧ s2.bytesleft = 0 ∧ ∀ i, (i < s.tmp ∨ L ≤ i) → s2.buffer i = s.buffer i := by
  intro fuel
  induction fuel with
  | zero =>
    intro s s2 L hL h
    unfold decodeLoop at h
    split_ifs at h with hc
    injection h with h
    subst h
    exact ⟨by omega, hc, fun _ _ => rfl⟩
  | succ fuel ih =>
    intro s s2 L hL h
    rw [decodeLoop] at h
    split_ifs at h with hc
    · injection h with h
      subst h
      exact ⟨by omega, hc, fun _ _ => rfl⟩
    · split at h
      · exact absurd h (by simp)
      · rename_i s1 hs1
        obtain ⟨a, b, c⟩ := decodeRun_frame s s1 L hL hs1
        obtain ⟨d, e, f⟩ := ih s1 s2 L a h
        refine ⟨d, e, ?_⟩
        intro i hi
        rw [f i (by omega), c i (by omega)]

/-- C20: in the run-decoding loops of `readszipblock`, with `tmp` bytes of the block of
length `L` written and `bytesleft = L - tmp` missing, a decoded pair whose run length exceeds
`bytesleft` ends with the corrupt-input error and writes nothing; a pair that fits fills
exactly `buffer[tmp .. tmp + len)` with the low 8 bits of `ch`; so one decoded run and the
whole loop leave every cell outside `buffer[0..L)`, and every cell already written,
unchanged. -/
theorem decoded_run_never_overruns (s : DecState) (L : Nat) (hL : s.tmp + s.bytesleft = L) :
    (∀ ch len rest, s.inp = Item.run ch len :: rest → s.bytesleft < len →
      decodeRun s = Except.error SzError.corrupt) ∧
    (∀ ch len rest, s.inp = Item.run ch len :: rest → len ≤ s.bytesleft →
      ∃ s1, decodeRun s = Except.ok s1 ∧ s1.tmp = s.tmp + len ∧ s1.tmp ≤ L ∧
        (∀ i, s.tmp ≤ i → i < s.tmp + len → s1.buffer i = ch % 256) ∧
        ∀ i, (i < s.tmp ∨ s.tmp + len ≤ i) → s1.buffer i = s.buffer i) ∧
    (∀ s1, decodeRun s = Except.ok s1 → s1.tmp + s1.bytesleft = L ∧
      ∀ i, (i < s.tmp ∨ L ≤ i) → s1.buffer i = s.buffer i) ∧
    (∀ fuel s2, decodeLoop fuel s = Except.ok s2 → s2.tmp = L ∧ s2.bytesleft = 0 ∧
      ∀ i, (i < s.tmp ∨ L ≤ i) → s2.buffer i = s.buffer i) := by
  refine ⟨?_, ?_, ?_, ?_⟩
  · intro ch len rest hinp hlen
    unfold decodeRun
    rw [hinp]
    exact if_pos hlen
  · intro ch len rest hinp hlen
    refine ⟨{ tmp := s.tmp + len
              bytesleft := s.bytesleft - len
              charcount := s.charcount.set ch (s.charcount ch + len)
              buffer := forUp (fun i (m : Mem) => m.set i (ch % 256)) s.tmp len s.buffer
              inp := rest }, ?_, ?_⟩
    · unfold decodeRun
      rw [hinp]
      exact if_neg (by omega)
    · refine ⟨rfl, ?_, ?_, ?_⟩
      · show s.tmp + len ≤ L
        omega
      · intro i h1 h2
        show (forUp (fun i (m : Mem) => m.set i (ch % 256)) s.tmp len s.buffer) i = ch % 256
        rw [fill_const, if_pos ⟨h1, h2⟩]
      · intro i hi
        show (forUp (fun i (m : Mem) => m.set i (ch % 256)) s.tmp len s.buffer) i = s.buffer i
        rw [fill_const, if_neg (by omega)]
  · intro s1 h
    obtain ⟨a, b, c⟩ := decodeRun_frame s s1 L hL h
    exact ⟨a, fun i hi => c i (by omega)⟩
  · intro fuel s2 h
    exact decodeLoop_frame fuel s s2 L hL h

/-- Witness for C20: a run of 5 bytes when 4 are missing, at the start of a block. -/
theorem decoded_run_never_overruns_witness :
    decodeRun ⟨0, 4, Mem.zero, Mem.zero, [Item.run 7 5]⟩ = Except.error SzError.corrupt :=
  (decoded_run_never_overruns ⟨0, 4, Mem.zero, Mem.zero, [Item.run 7 5]⟩ 4 rfl).1 7 5 []
    rfl (by decide)

theorem isdigit_iff (c : Char) : isdigit c = true ↔ 48 ≤ c.toNat ∧ c.toNat ≤ 57 := by
  unfold isdigit
  exact decide_eq_true_iff

theorem digits_foldl_ge (ds : List Char) (hd : ∀ c ∈ ds, isdigit c = true) :
    ∀ j, j ≤ ds.foldl (fun j c => 10 * j + c.toNat - 48) j := by
  induction ds with
  | nil => intro j; exact Nat.le_refl _
  | cons c ds ih =>
    intro j
    have hc := (isdigit_iff c).mp (hd c (List.mem_cons_self _ _))
    have h := ih (fun x hx => hd x (List.mem_cons_of_mem _ hx)) (10 * j + c.toNat - 48)
    rw [List.foldl_cons]
    omega

theorem readnumLoop_digits (ds rest : List Char) (hd : ∀ c ∈ ds, isdigit c = true)
    (hr : ∀ c ∈ rest.head?, isdigit c = false) :
    ∀ j, ds.foldl (fun j c => 10 * j + c.toNat - 48) j + 48 < 2147483648 →
      readnumLoop (ds ++ rest) j
        = Except.ok (ds.foldl (fun j c => 10 * j + c.toNat - 48) j, rest) := by
  induction ds with
  | nil =>
    intro j _
    cases rest with
    | nil => rfl
    | cons c r =>
      have hc := hr c (by simp)
      simp [readnumLoop, hc]
  | cons c ds ih =>
    intro j hj
    have hc := hd c (List.mem_cons_self _ _)
    have hc2 := (isdigit_iff c).mp hc
    have hds : ∀ x ∈ ds, isdigit x = true := fun x hx => hd x (List.mem_cons_of_mem _ hx)
    rw [List.foldl_cons] at hj ⊢
    have hge := digits_foldl_ge ds hds (10 * j + c.toNat - 48)
    rw [List.cons_append, readnumLoop, if_pos hc, if_pos (by omega)]
    exact ih hds _ hj

theorem readnum_digits (ds rest : List Char) (min max : Nat)
    (hd : ∀ c ∈ ds, isdigit c = true) (hr : ∀ c ∈ rest.head?, isdigit c = false)
    (hv : digitsVal ds + 48 < 2147483648) :
    readnum (ds ++ rest) min max
      = if digitsVal ds < min ∨ digitsVal ds > max then Except.error OptStop.usage
        else Except.ok (digitsVal ds, rest) := by
  unfold readnum
  rw [readnumLoop_digits ds rest hd hr 0 hv]
  rfl

theorem blocksize_align (n : Nat) (h1 : 1 ≤ n) (h2 : n ≤ 41) :
    (((if (n * 100000) % 4294967296 < 32768 then 32768 else (n * 100000) % 4294967296)
        + 0x7fff) % 4294967296 &&& 0x7FFF8000) % 32768 = 0 ∧
    100000 * n ≤ (((if (n * 100000) % 4294967296 < 32768 then 32768
        else (n * 100000) % 4294967296) + 0x7fff) % 4294967296 &&& 0x7FFF8000) ∧
    (((if (n * 100000) % 4294967296 < 32768 then 32768 else (n * 100000) % 4294967296)
        + 0x7fff) % 4294967296 &&& 0x7FFF8000) < 100000 * n + 32768 := by
  interval_cases n <;> decide

/-- C17: for a decimal number `n` behind `-b` (within the range of `int`), with
`1 ≤ n ≤ 41` the option sets `blocksize` to the smallest multiple of 32768 that is at least
`100000 * n`, hence at least 32768, and leaves the other parameters; for `n` outside 1..41
(also for no digits, `n = 0`) the option ends in `usage()`. -/
theorem option_b_aligns_blocksize (ds rest : List Char) (p : Params)
    (hd : ∀ c ∈ ds, isdigit c = true) (hr : ∀ c ∈ rest.head?, isdigit c = false)
    (hv : digitsVal ds + 48 < 2147483648) :
    (1 ≤ digitsVal ds ∧ digitsVal ds ≤ 41 →
      ∃ bs, optionStep 'b' (ds ++ rest) p = Except.ok ({ p with blocksize := bs }, rest) ∧
        bs % 32768 = 0 ∧ 100000 * digitsVal ds ≤ bs ∧ bs < 100000 * digitsVal ds + 32768 ∧
        32768 ≤ bs) ∧
    (¬ (1 ≤ digitsVal ds ∧ digitsVal ds ≤ 41) →
      optionStep 'b' (ds ++ rest) p = Except.error OptStop.usage) := by
  have hn := readnum_digits ds rest 1 41 hd hr hv
  have hstep : optionStep 'b' (ds ++ rest) p =
      match readnum (ds ++ rest) 1 41 with
      | Except.error e => Except.error e
      | Except.ok (j, rest) =>
        Except.ok ({ p with blocksize :=
          (((if (j * 100000) % 4294967296 < 32768 then 32768 else (j * 100000) % 4294967296)
            + 0x7fff) % 4294967296) &&& 0x7FFF8000 }, rest) := by
    unfold optionStep
    rw [if_neg (by decide), if_neg (by decide), if_pos rfl]
  constructor
  · intro h
    rw [if_neg (by omega)] at hn
    obtain ⟨a, b, c⟩ := blocksize_align (digitsVal ds) h.1 h.2
    refine ⟨_, ?_, a, b, c, by omega⟩
    rw [hstep, hn]
  · intro h
    rw [if_pos (by omega)] at hn
    rw [hstep, hn]

/-- Witness for C17: the option `-b17` at the start values gives the block size 1703936. -/
theorem option_b_aligns_blocksize_witness :
    ∃ bs, optionStep 'b' (['1', '7'] ++ []) Params.start
        = Except.ok ({ Params.start with blocksize := bs }, []) ∧
      bs % 32768 = 0 ∧ 100000 * digitsVal ['1', '7'] ≤ bs ∧
      bs < 100000 * digitsVal ['1', '7'] + 32768 ∧ 32768 ≤ bs :=
  (option_b_aligns_blocksize ['1', '7'] [] Params.start (by decide) (by decide)
    (by decide)).1 (by decide)

/-- C18 fails on `-r128`: the argument text `r128` is accepted, since `readnum` is called
with the range 1..255, and from the start values (record size 1, incremental flag clear) it
sets `recordsize` to 128: bit 7, the incremental flag, is now set and the record width
`recordsize & 0x7f` is 0. For a number above 255, as in `r256`, the option ends in
`usage()`. -/
theorem option_r_accepts_128 :
    parseOptions 4 ['r', '1', '2', '8'] Params.start
      = Except.ok { Params.start with recordsize := 128 } ∧
    Params.start.recordsize &&& 0x80 = 0 ∧
    (128 : Nat) &&& 0x80 ≠ 0 ∧ (128 : Nat) &&& 0x7f = 0 ∧
    parseOptions 4 ['r', '2', '5', '6'] Params.start = Except.error OptStop.usage := by
  refine ⟨?_, by decide, by decide, by decide, ?_⟩
  · rfl
  · rfl

/-- C27: for a block of bytes of length `L > 5` (with `L + 4` within the 24 bits of a
pointer slot of `sz_srt`), the sorted block written by `sz_srt_o4` is byte for byte the
sorted block written by `sz_srt` with order 4. -/
theorem sz_srt_o4_block_eq_sz_srt_order4 (block : List Nat) (hbytes : ∀ b ∈ block, b < 256)
    (hL : 5 < block.length) (hbig : block.length + 4 ≤ 16777216) :
    (sz_srt_o4 block).1 = (sz_srt block 4).1 := by
  have h1 := sz_srt_o4_mem_spec (Mem.ofList block) block.length (by omega) (by omega)
    (ofList_lt block hbytes)
  have h2 := sz_srt_mem_spec (Mem.ofList block) block.length 4 (by omega) (by omega)
    (ofList_lt block hbytes) hbig
  rw [sz_srt_o4_fst, sz_srt_fst, toList_eq_sorted _ _ _ 4 h1.1, toList_eq_sorted _ _ _ 4 h2.1]

/-- Witness for C27 on the block 3,1,4,1,5,9. -/
theorem sz_srt_o4_block_eq_sz_srt_order4_witness :
    (sz_srt_o4 [3, 1, 4, 1, 5, 9]).1 = (sz_srt [3, 1, 4, 1, 5, 9] 4).1 :=
  sz_srt_o4_block_eq_sz_srt_order4 [3, 1, 4, 1, 5, 9] (by decide) (by decide) (by decide)

theorem passesDone_inv (inb : Mem) (L n : Nat) (hn : 3 ≤ n) (hnL : n < L)
    (hB : ∀ i, i < L → inb i < 256) (hbig : L + n ≤ 16777216) :
    ∀ m, m ≤ n - 3 → SortInv inb L n (n - 1 - m) (passesDone inb L n m) := by
  intro m
  induction m with
  | zero =>
    intro _
    exact seed_sortinv inb L n hn hnL hB hbig
  | succ m ih =>
    intro hm
    have h := ih (by omega)
    have e : n - 1 - m = (n - 2 - m) + 1 := by omega
    rw [e] at h
    have e2 : n - 1 - (m + 1) = n - 2 - m := by omega
    rw [e2]
    exact incsortorder_spec inb L n (n - 2 - m) _ hn hnL hB hbig (by omega) h

theorem passesDone_forDown (inb : Mem) (L n : Nat) :
    ∀ m, m ≤ n - 3 →
      forDown (fun k s => incsortorder (k + 2) L s) (n - 3 - m) (passesDone inb L n m)
        = forDown (fun k s => incsortorder (k + 2) L s) (n - 3)
            (sortorder2 PtrIndex.empty inb L n) := by
  intro m
  induction m with
  | zero => intro _; rfl
  | succ m ih =>
    intro hm
    rw [← ih (by omega)]
    have e : n - 3 - m = (n - 3 - (m + 1)) + 1 := by omega
    rw [e, forDown_succ]
    have e2 : n - 3 - (m + 1) + 2 = n - 2 - m := by omega
    rw [e2]
    rfl

/-- C28: in `sz_srt` on a block of bytes with `3 ≤ order < L`, after `sortorder2` and after
each call of `incsortorder` (state `passesDone m`, `m = 0 .. order - 3`; `finishsort` runs on
the last of these states), the slot numbered `indexlast` of the pointer index holds the
pointer `L - 1`, the one stored for the last position of the block. -/
theorem indexlast_slot_holds_last_position (inb : Mem) (L order m : Nat) (h3 : 3 ≤ order)
    (hlt : order < L) (hB : ∀ i, i < L → inb i < 256) (hbig : L + order ≤ 16777216)
    (hm : m ≤ order - 3) :
    getptr (passesDone inb L order m).p (passesDone inb L order m).indexlast = L - 1 ∧
    (passesDone inb L order m).indexlast < L ∧
    sz_srt_mem inb L order = finishsort L (passesDone inb L order (order - 3)) := by
  have inv := passesDone_inv inb L order h3 hlt hB hbig m hm
  refine ⟨?_, ?_, ?_⟩
  · rw [inv.last, inv.ptr (L - 1) (by omega)]
    unfold qptr
    rw [if_neg (by omega)]
  · rw [inv.last]
    exact rk_lt _ L (L - 1) (by omega)
  · have h := passesDone_forDown inb L order (order - 3) (Nat.le_refl _)
    rw [Nat.sub_self] at h
    unfold sz_srt_mem
    dsimp only
    rw [← h]
    rfl

/-- Witness for C28 on a six-byte block with order 4 after one call of `incsortorder`. -/
theorem indexlast_slot_holds_last_position_witness :
    getptr (passesDone (Mem.ofList [3, 1, 4, 1, 5, 9]) 6 4 1).p
      (passesDone (Mem.ofList [3, 1, 4, 1, 5, 9]) 6 4 1).indexlast = 6 - 1 ∧
    (passesDone (Mem.ofList [3, 1, 4, 1, 5, 9]) 6 4 1).indexlast < 6 ∧
    sz_srt_mem (Mem.ofList [3, 1, 4, 1, 5, 9]) 6 4
      = finishsort 6 (passesDone (Mem.ofList [3, 1, 4, 1, 5, 9]) 6 4 (4 - 3)) :=
  indexlast_slot_holds_last_position (Mem.ofList [3, 1, 4, 1, 5, 9]) 6 4 1 (by decide)
    (by decide) (ofList_lt [3, 1, 4, 1, 5, 9] (by decide)) (by decide) (by decide)

theorem readglobalheader_header (rest : List Item) :
    readglobalheader (writeglobalheader ++ rest) = Except.ok rest := by
  simp [readglobalheader, writeglobalheader, getchar, vmayor, vminor]

theorem decompress_one_stored (co : Collab) (recordsize : Nat) (data : List Nat)
    (hL : data.length ≤ 4128768) :
    decompressit co recordsize (writeglobalheader ++ (writeblockdir data.length).1 ++
        writestorblock (writeblockdir data.length).2 data.length (Mem.ofList data))
      = Except.ok (data ++ data) := by
  have hw : writestorblock (writeblockdir data.length).2 data.length (Mem.ofList data)
      = Item.byte 0 :: (data.map Item.byte ++ writeuint3 (6 + 4 + data.length) ++ []) := by
    unfold writestorblock
    rw [Mem.toList_ofList, Nat.mod_eq_of_lt (by show 6 + 4 + data.length < 4294967296; omega)]
    simp [writeblockdir]
  have hrd := readstorblock_on_tail (6 + 1) data Mem.zero (6 + 4 + data.length) []
    (by omega)
  rw [if_neg (by omega)] at hrd
  unfold decompressit
  rw [List.append_assoc, readglobalheader_header]
  simp only [List.length_append]
  rw [decompressLoop, readblockdir_writeblockdir data.length _ (by omega)]
  simp only [hw, getchar]
  rw [if_pos trivial, hrd]
  simp only
  have hfuel : writeglobalheader.length + ((writeblockdir data.length).1.length
      + (Item.byte 0 :: (data.map Item.byte ++ writeuint3 (6 + 4 + data.length) ++ [])).length)
      = (writeglobalheader.length + ((writeblockdir data.length).1.length
      + (data.map Item.byte ++ writeuint3 (6 + 4 + data.length) ++ ([] : List Item)).length))
        + 1 := by
    simp only [List.length_cons]
    omega
  rw [hfuel, decompressLoop]
  simp only [readblockdir, getchar, List.nil_append, fill_loop, if_true]
  rw [if_neg (by decide)]

/-- C30 fails for every stream of one stored block: on the global header, the directory of
length `L` and the stored block of the `L` bytes `data`, `decompressit` writes `data` twice,
`2 * L` bytes, where the directory gives `L`: `readstorblock` writes the block and the write
at the end of the loop of `decompressit` writes the buffer again. -/
theorem decompress_writes_twice_the_directory_length (co : Collab) (recordsize : Nat)
    (data : List Nat) (hL : data.length ≤ 4128768) (hne : data ≠ []) :
    (∀ out, decompressit co recordsize (writeglobalheader ++ (writeblockdir data.length).1 ++
        writestorblock (writeblockdir data.length).2 data.length (Mem.ofList data))
      = Except.ok out → out = data ++ data ∧ out.length = 2 * data.length ∧
        out.length ≠ data.length) ∧
    ∃ out, decompressit co recordsize (writeglobalheader ++ (writeblockdir data.length).1 ++
        writestorblock (writeblockdir data.length).2 data.length (Mem.ofList data))
      = Except.ok out := by
  have h := decompress_one_stored co recordsize data hL
  have hpos : 0 < data.length := List.length_pos.mpr hne
  refine ⟨?_, _, h⟩
  intro out ho
  rw [h] at ho
  injection ho with ho
  subst ho
  refine ⟨rfl, ?_, ?_⟩
  · rw [List.length_append]
    omega
  · rw [List.length_append]
    omega

/-- Witness for the failure of C30: the stored block of the bytes 1, 2, 3. -/
theorem decompress_writes_twice_the_directory_length_witness :
    ∃ out, decompressit ⟨fun l _ => l, fun l _ => l, fun l => (l, 0)⟩ 1
        (writeglobalheader ++ (writeblockdir [1, 2, 3].length).1 ++
          writestorblock (writeblockdir [1, 2, 3].length).2 [1, 2, 3].length
            (Mem.ofList [1, 2, 3]))
      = Except.ok out :=
  (decompress_writes_twice_the_directory_length ⟨fun l _ => l, fun l _ => l, fun l => (l, 0)⟩ 1
    [1, 2, 3] (by decide) (by decide)).2

theorem swap_loop (x : Option Nat) (start n : Nat) :
    forUp (fun _ (f : Option Nat × Option Nat) => (f.2, f.1)) start n (x, x) = (x, x) := by
  induction n with
  | zero => rfl
  | succ n ih => rw [forUp_succ, ih]

/-- C24 fails: the scratch buffers are allocated by the first call only and never grown. After
a call of `sz_unsrt` with length `L1`, a second call with any length `L2` still has a table
of `L1 + 1` entries and flag bitmaps of `(L1 + 8) >> 3` bytes, and after a call of
`sz_srt_o4` with length `L1` the arrays `context` and `symbols` keep `L1` entries. With
`L1 = 6` and `L2 = 8` the second call has 7 table entries where 9 are used, 1 flag byte where
2 are used, and 6 entries of `context` and `symbols` where 8 are used. -/
theorem scratch_buffers_keep_first_size (L1 L2 o1 o2 : Nat) :
    unsrtAlloc L2 o2 (unsrtAlloc L1 o1 UnsrtScratch.fresh)
      = ⟨some (L1 + 1), some ((L1 + 8) >>> 3), some ((L1 + 8) >>> 3)⟩ ∧
    o4Alloc L2 (o4Alloc L1 ⟨none, none⟩) = ⟨some L1, some L1⟩ ∧
    unsrtAlloc 8 3 (unsrtAlloc 6 3 UnsrtScratch.fresh) = ⟨some 7, some 1, some 1⟩ ∧
    7 < 8 + 1 ∧ 1 < (8 + 8) >>> 3 ∧
    o4Alloc 8 (o4Alloc 6 ⟨none, none⟩) = ⟨some 6, some 6⟩ ∧ 6 < 8 := by
  have h1 : unsrtAlloc L1 o1 UnsrtScratch.fresh
      = ⟨some (L1 + 1), some ((L1 + 8) >>> 3), some ((L1 + 8) >>> 3)⟩ := by
    simp only [unsrtAlloc, UnsrtScratch.fresh, swap_loop]
  have h2 : ∀ a b, unsrtAlloc L2 o2 ⟨some a, some b, some b⟩ = ⟨some a, some b, some b⟩ := by
    intro a b
    simp only [unsrtAlloc, swap_loop]
  refine ⟨by rw [h1, h2], rfl, ?_, by decide, by decide, rfl, by decide⟩
  rfl

/-- To set up `context` for `indexlast`, `sortorder2` reads `in[length - offset]` and
`in[length - offset - 1]` with `offset = order`; for `3 ≤ order ≤ length` the second index
lies in `[0, length + order)` exactly when `order < length`, and for `length = order` it is
`0xffffffff`, the `uint4` value of `-1`. -/
theorem sortorder2_last_context_read (length order : Nat) (h3 : 3 ≤ order)
    (hle : order ≤ length) (hbig : length + order < 4294967296) :
    (lastContextIndex length order).1 = length - order ∧
    ((lastContextIndex length order).2 < length + order ↔ order < length) ∧
    (length = order → (lastContextIndex length order).2 = 4294967295) ∧
    (order < length → (lastContextIndex length order).2 = length - order - 1) := by
  have e1 : u32sub length order = length - order := u32sub_eq _ _ hle (by omega)
  unfold lastContextIndex
  rw [e1]
  refine ⟨rfl, ?_, ?_, ?_⟩
  · by_cases h : order < length
    · rw [u32sub_eq _ _ (by omega) (by omega)]
      exact ⟨fun _ => h, fun _ => by omega⟩
    · have e : length - order = 0 := by omega
      rw [e]
      exact ⟨fun hh => absurd hh (by unfold u32sub; omega), fun hh => absurd hh h⟩
  · intro h
    have e : length - order = 0 := by omega
    rw [e]
    rfl
  · intro h
    exact u32sub_eq _ _ (by omega) (by omega)

/-- The second index of the last context at `length = order = 3`. -/
theorem sortorder2_last_context_read_witness :
    (lastContextIndex 3 3).2 = 4294967295 ∧ ¬ (lastContextIndex 3 3).2 < 3 + 3 :=
  ⟨(sortorder2_last_context_read 3 3 (by decide) (by decide) (by decide)).2.2.1 rfl,
   fun h => absurd ((sortorder2_last_context_read 3 3 (by decide) (by decide)
     (by decide)).2.1.mp h) (by decide)⟩

theorem bw_step (B base : Mem) (f m : Nat) (st : BWState) (hm : m ≠ f)
    (inv : BWInv B base f m st) : BWInv B base f (m + 1) (bwStep B m st) := by
  constructor
  · show st.counts.set (B m) (st.counts (B m) + 1) = _
    funext c
    rw [Mem.set_apply, inv.counts, cnt_succ]
    dsimp only
    by_cases hc : c = B m
    · subst hc
      split_ifs <;> omega
    · have hc2 : ¬ B m = c := fun hh => hc hh.symm
      split_ifs <;> omega
  · intro i hi
    show (st.transvec.set m (st.counts (B m))) i = _
    rw [Mem.set_apply]
    by_cases him : i = m
    · rw [if_pos him, him, inv.counts]
      unfold bwSlot
      rw [if_neg hm]
      dsimp only
      split_ifs <;> omega
    · rw [if_neg him]
      exact inv.tv i (by omega)

theorem bw_skip (B base : Mem) (f : Nat) (st : BWState) (inv : BWInv B base f f st) :
    BWInv B base f (f + 1) st := by
  constructor
  · rw [inv.counts]
    funext c
    rw [cnt_succ]
    split_ifs <;> omega
  · intro i hi
    exact inv.tv i (by omega)

theorem bwLoops_spec (B base : Mem) (L f : Nat) (hf : f < L) (i : Nat) (hi : i < L) :
    (forUp (fun i s => if i ≠ f then bwStep B i s else s) f (L - f)
      (forUp (bwStep B) 0 f (bwStep B f ⟨base, Mem.zero⟩))).transvec i = bwSlot B base f i := by
  have h0 : BWInv B base f 0 (bwStep B f ⟨base, Mem.zero⟩) := by
    constructor
    · show base.set (B f) (base (B f) + 1) = _
      funext c
      rw [Mem.set_apply, cnt_zero]
      by_cases hc : c = B f
      · subst hc
        rw [if_pos rfl, if_pos ⟨Nat.zero_le _, rfl⟩]
      · rw [if_neg hc, if_neg (fun hh => hc hh.2.symm)]
        rfl
    · intro k hk
      have e : k = f := by omega
      rw [e]
      show (Mem.zero.set f (base (B f))) f = _
      rw [Mem.set_same]
      unfold bwSlot
      rw [if_pos rfl]
      rfl
  have h1 := forUp_inv (bwStep B) (fun m st => BWInv B base f m st) 0 f _ h0
    (fun m st hm inv => by
      rw [Nat.zero_add]
      exact bw_step B base f m st (by omega) inv)
  have h2 := forUp_inv (fun i s => if i ≠ f then bwStep B i s else s)
    (fun m st => BWInv B base f (f + m) st) f (L - f) _ h1
    (fun m st hm inv => by
      dsimp only at inv ⊢
      by_cases hz : f + m = f
      · rw [if_neg (by simpa using hz)]
        have e : m = 0 := by omega
        subst e
        exact bw_skip B base f st inv
      · rw [if_pos hz]
        exact bw_step B base f (f + m) st hz inv)
  exact h2.tv i (by omega)

theorem bwTransvec_spec (block : List Nat) (f : Nat) (hbytes : ∀ b ∈ block, b < 256)
    (hlen : block.length < 4294967296) (hf : f < block.length) (i : Nat)
    (hi : i < block.length) :
    bwTransvec (Mem.ofList block) block.length f (byteCounts block) i
      = cnt block.length (fun j => (Mem.ofList block) j < (Mem.ofList block) i)
        + (if i = f then 0
          else cnt i (fun j => (Mem.ofList block) j = (Mem.ofList block) i)
            + (if i < f ∧ (Mem.ofList block) f = (Mem.ofList block) i then 1 else 0)) := by
  unfold bwTransvec
  rw [bwLoops_spec _ _ _ f hf i hi]
  unfold bwSlot
  rw [sumReverse_byteCounts block hbytes hlen _ (ofList_lt block hbytes i hi)]

/-- C23 (amended): in `sz_unsrt_BW` on a block of bytes with its byte counts and
`indexfirst < L`, the slot of position `indexfirst` is assigned first and the other positions
follow in increasing `i`, each by `trans[i] = Counts[in[i]]++`: so
`trans[indexfirst]` is the number of bytes smaller than `in[indexfirst]`, and for
`i ≠ indexfirst`, `trans[i]` is the number of bytes smaller than `in[i]` plus the number of
positions `j < i` with `in[j] = in[i]`, plus 1 if `i < indexfirst` and
`in[indexfirst] = in[i]`. -/
theorem bw_transvec_counts_indexfirst_first (block : List Nat) (indexfirst i : Nat)
    (hbytes : ∀ b ∈ block, b < 256) (hlen : block.length < 4294967296)
    (hf : indexfirst < block.length) (hi : i < block.length) :
    (bwTransvec (Mem.ofList block) block.length indexfirst (byteCounts block) indexfirst
      = cnt block.length (fun j => (Mem.ofList block) j < (Mem.ofList block) indexfirst)) ∧
    (i ≠ indexfirst →
      bwTransvec (Mem.ofList block) block.length indexfirst (byteCounts block) i
        = cnt block.length (fun j => (Mem.ofList block) j < (Mem.ofList block) i)
          + cnt i (fun j => (Mem.ofList block) j = (Mem.ofList block) i)
          + (if i < indexfirst ∧ (Mem.ofList block) indexfirst = (Mem.ofList block) i
             then 1 else 0)) := by
  constructor
  · rw [bwTransvec_spec block indexfirst hbytes hlen hf indexfirst hf, if_pos rfl]
    rfl
  · intro hne
    rw [bwTransvec_spec block indexfirst hbytes hlen hf i hi, if_neg hne, Nat.add_assoc]

/-- Witness for C23 (amended): the block 5,5 with `indexfirst = 1`, at position 0. -/
theorem bw_transvec_counts_indexfirst_first_witness :
    (bwTransvec (Mem.ofList [5, 5]) [5, 5].length 1 (byteCounts [5, 5]) 1
      = cnt [5, 5].length (fun j => (Mem.ofList [5, 5]) j < (Mem.ofList [5, 5]) 1)) ∧
    (0 ≠ 1 →
      bwTransvec (Mem.ofList [5, 5]) [5, 5].length 1 (byteCounts [5, 5]) 0
        = cnt [5, 5].length (fun j => (Mem.ofList [5, 5]) j < (Mem.ofList [5, 5]) 0)
          + cnt 0 (fun j => (Mem.ofList [5, 5]) j = (Mem.ofList [5, 5]) 0)
          + (if 0 < 1 ∧ (Mem.ofList [5, 5]) 1 = (Mem.ofList [5, 5]) 0 then 1 else 0)) :=
  bw_transvec_counts_indexfirst_first [5, 5] 1 0 (by decide) (by decide) (by decide)
    (by decide)

/-- C23 as stated fails: for the block 5,5 with `indexfirst = 1`, `trans[0]` is 1, while the
number of bytes smaller than `in[0]` plus the number of earlier positions holding `in[0]`
is 0; position 1 took the slot 0 before the loop reached position 0. -/
theorem bw_transvec_not_in_position_order :
    bwTransvec (Mem.ofList [5, 5]) 2 1 (byteCounts [5, 5]) 0 = 1 ∧
    bwTransvec (Mem.ofList [5, 5]) 2 1 (byteCounts [5, 5]) 1 = 0 ∧
    cnt 2 (fun j => (Mem.ofList [5, 5]) j < (Mem.ofList [5, 5]) 0)
      + cnt 0 (fun j => (Mem.ofList [5, 5]) j = (Mem.ofList [5, 5]) 0) = 0 ∧
    bwTransvec (Mem.ofList [5, 5]) 2 1 (byteCounts [5, 5]) 0
      ≠ cnt 2 (fun j => (Mem.ofList [5, 5]) j < (Mem.ofList [5, 5]) 0)
        + cnt 0 (fun j => (Mem.ofList [5, 5]) j = (Mem.ofList [5, 5]) 0) := by
  have h0 := bwTransvec_spec [5, 5] 1 (by decide) (by decide) (by decide) 0 (by decide)
  have h1 := bwTransvec_spec [5, 5] 1 (by decide) (by decide) (by decide) 1 (by decide)
  have e0 : bwTransvec (Mem.ofList [5, 5]) 2 1 (byteCounts [5, 5]) 0 = 1 := by
    rw [show (2 : Nat) = [5, 5].length from rfl, h0]
    decide
  have e1 : bwTransvec (Mem.ofList [5, 5]) 2 1 (byteCounts [5, 5]) 1 = 0 := by
    rw [show (2 : Nat) = [5, 5].length from rfl, h1]
    decide
  refine ⟨e0, e1, by decide, ?_⟩
  rw [e0]
  decide

theorem cnt_fill (f g : Nat → Nat) (a len v c : Nat)
    (hlow : ∀ i, i < a → g i = f i) (hrun : ∀ i, a ≤ i → i < a + len → g i = v) :
    cnt (a + len) (fun i => g i = c) = cnt a (fun i => f i = c) + if v = c then len else 0 := by
  induction len with
  | zero =>
    rw [Nat.add_zero]
    have e : cnt a (fun i => g i = c) = cnt a (fun i => f i = c) :=
      cnt_congr a _ _ (fun i hi => by rw [hlow i hi])
    rw [e]
    split_ifs <;> rfl
  | succ len ih =>
    have h := ih (fun i h1 h2 => hrun i h1 (by omega))
    rw [← Nat.add_assoc, cnt_succ, h, hrun (a + len) (by omega) (by omega)]
    split_ifs <;> omega

theorem toList_count (m : Mem) (c : Nat) : ∀ n, (m.toList n).count c = cnt n (fun i => m i = c) := by
  intro n
  induction n with
  | zero => simp [Mem.toList, cnt_zero]
  | succ n ih =>
    rw [toList_succ, List.count_append, ih, cnt_succ]
    by_cases h : m n = c
    · rw [if_pos h, h]
      simp
    · rw [if_neg h, Nat.add_zero, Nat.add_right_eq_self]
      exact List.count_eq_zero.mpr (by simp; exact fun hh => h hh.symm)

theorem sum_cnt_eq (f : Nat → Nat) (L : Nat) : ∀ N,
    Finset.sum (Finset.range N) (fun c => cnt L (fun i => f i = c)) = cnt L (fun i => f i < N) := by
  intro N
  induction N with
  | zero =>
    rw [Finset.sum_range_zero]
    exact (cnt_false L _ (fun i _ h => by omega)).symm
  | succ N ih =>
    rw [Finset.sum_range_succ, ih, cnt_le_split]

theorem charInv_step (s s1 : DecState) (inv : CharInv s) (h : decodeRun s = Except.ok s1) :
    CharInv s1 := by
  obtain ⟨ch, len, rest, h1, _, h3, _, h5, h6⟩ := decodeRun_ok s s1 h
  have hch : ch < 256 := inv.sym ch len (by rw [h1]; exact List.mem_cons_self _ _)
  have hcc : s1.charcount = s.charcount.set ch (s.charcount ch + len) := by
    unfold decodeRun at h
    rw [h1] at h
    dsimp only at h
    split_ifs at h
    injection h with h
    rw [← h]
  have hmod : ch % 256 = ch := Nat.mod_eq_of_lt hch
  have hlow : ∀ i, i < s.tmp → s1.buffer i = s.buffer i := by
    intro i hi
    rw [h6, fill_const, if_neg (by omega)]
  have hrun : ∀ i, s.tmp ≤ i → i < s.tmp + len → s1.buffer i = ch := by
    intro i hi1 hi2
    rw [h6, fill_const, if_pos ⟨hi1, hi2⟩, hmod]
  constructor
  · intro c
    rw [h3, cnt_fill s.buffer s1.buffer s.tmp len ch c hlow hrun, hcc, Mem.set_apply,
      ← inv.count c]
    by_cases hc : c = ch
    · rw [if_pos hc, if_pos hc.symm, hc]
    · rw [if_neg hc, if_neg (fun hh => hc hh.symm)]
      rfl
  · intro i hi
    by_cases hlt : i < s.tmp
    · rw [hlow i hlt]
      exact inv.bytes i hlt
    · rw [hrun i (by omega) (by omega)]
      exact hch
  · intro c l hm
    rw [h5] at hm
    exact inv.sym c l (by rw [h1]; exact List.mem_cons_of_mem _ hm)

theorem charInv_loop : ∀ (fuel : Nat) (s s2 : DecState), CharInv s →
    decodeLoop fuel s = Except.ok s2 → CharInv s2 := by
  intro fuel
  induction fuel with
  | zero =>
    intro s s2 inv h
    unfold decodeLoop at h
    split_ifs at h
    injection h with h
    rw [← h]
    exact inv
  | succ fuel ih =>
    intro s s2 inv h
    rw [decodeLoop] at h
    split_ifs at h
    · injection h with h
      rw [← h]
      exact inv
    · split at h
      · exact absurd h (by simp)
      · rename_i s1 hs1
        exact ih s1 s2 (charInv_step s s1 inv hs1) h

/-- C21: when the run-decoding loops of `readszipblock` complete on a block of length `L`
(the decoded symbols being bytes), `charcount[c]` is the number of occurrences of `c` in the
decoded `buffer[0..L)` for every `c`, and the `ALPHABETSIZE` entries of `charcount` sum to
`L`. -/
theorem charcount_counts_decoded_bytes (L : Nat) (buffer : Mem) (inp : List Item)
    (s : DecState) (hsym : ∀ it ∈ inp, Item.symbol it < 256)
    (h : decodeRuns L buffer inp = Except.ok s) :
    (∀ c, s.charcount c = (s.buffer.toList L).count c) ∧
    Finset.sum (Finset.range ALPHABETSIZE) s.charcount = L := by
  unfold decodeRuns at h
  split at h
  · exact absurd h (by simp)
  · rename_i s0 hs0
    have inv0 : CharInv ⟨0, L, Mem.zero, buffer, inp⟩ :=
      ⟨fun c => (by rw [cnt_zero]; rfl), fun i hi => (by cases hi),
        fun ch len hm => hsym _ hm⟩
    have inv1 := charInv_step _ s0 inv0 hs0
    have inv := charInv_loop _ s0 s inv1 h
    have hfr := decodeRun_frame _ s0 L (by simp) hs0
    have hfin := decodeLoop_frame _ s0 s L hfr.1 h
    have hc : ∀ c, s.charcount c = cnt L (fun i => s.buffer i = c) := by
      intro c
      rw [inv.count c, hfin.1]
    refine ⟨fun c => by rw [hc c, toList_count], ?_⟩
    have e : s.charcount = fun c => cnt L (fun i => s.buffer i = c) := funext hc
    rw [e, sum_cnt_eq]
    apply cnt_true
    intro i hi
    exact inv.bytes i (by rw [hfin.1]; exact hi)

/-- Witness for C21: the runs (7, 2), (3, 1) decoded into a block of length 3. -/
theorem charcount_counts_decoded_bytes_witness :
    (∀ c, ((Mem.zero.set 7 (Mem.zero 7 + 2)).set 3 ((Mem.zero.set 7 (Mem.zero 7 + 2)) 3 + 1)) c
      = ((forUp (fun i (m : Mem) => m.set i (3 % 256)) 2 1
          (forUp (fun i (m : Mem) => m.set i (7 % 256)) 0 2 Mem.zero)).toList 3).count c) ∧
    Finset.sum (Finset.range ALPHABETSIZE)
      ((Mem.zero.set 7 (Mem.zero 7 + 2)).set 3 ((Mem.zero.set 7 (Mem.zero 7 + 2)) 3 + 1)) = 3 :=
  charcount_counts_decoded_bytes 3 Mem.zero [Item.run 7 2, Item.run 3 1]
    ⟨3, 0, (Mem.zero.set 7 (Mem.zero 7 + 2)).set 3 ((Mem.zero.set 7 (Mem.zero 7 + 2)) 3 + 1),
      forUp (fun i (m : Mem) => m.set i (3 % 256)) 2 1
        (forUp (fun i (m : Mem) => m.set i (7 % 256)) 0 2 Mem.zero), []⟩
    (by decide) rfl

theorem keyByte_wrap (B : Nat → Nat) (L t i : Nat) (ht : t < L) (hi : i + 1 ≤ L) :
    keyByte B L t i = B (wrap L t (1 + i)) := by
  unfold keyByte wrap
  congr 1
  split_ifs with h
  · have e : t + L - (i + 1) = (t - (1 + i)) + L := by omega
    rw [e, Nat.add_mod_right, Nat.mod_eq_of_lt (by omega)]
  · rw [Nat.mod_eq_of_lt (by omega)]
    omega

theorem ctxKey_compare (B : Nat → Nat) (L a b : Nat) (ha : a < L) (hb : b < L)
    (hB : ∀ i, i < L → B i < 256) : ∀ n, n ≤ L →
    (ctxKey B L n a < ctxKey B L n b ↔ keyLess B L n a b) ∧
    (ctxKey B L n a = ctxKey B L n b ↔ keyEq B L n a b) := by
  intro n
  induction n with
  | zero =>
    intro _
    constructor
    · constructor
      · intro h
        exact absurd h (Nat.lt_irrefl _)
      · rintro ⟨j, hj, _⟩
        omega
    · exact ⟨fun _ i hi => by omega, fun _ => rfl⟩
  | succ n ih =>
    intro hn
    obtain ⟨ih1, ih2⟩ := ih (by omega)
    have e : ∀ t, ctxKey B L (n + 1) t = ctxKey B L n t * 256 + B (wrap L t (1 + n)) :=
      fun _ => rfl
    have da := hB (wrap L a (1 + n)) (wrap_lt L a _ ha (by omega))
    have db := hB (wrap L b (1 + n)) (wrap_lt L b _ hb (by omega))
    have ka := keyByte_wrap B L a n ha hn
    have kb := keyByte_wrap B L b n hb hn
    rw [e a, e b]
    constructor
    · rw [lex_lt_iff 256 _ _ _ _ da db, ih1, ih2, ← ka, ← kb]
      constructor
      · rintro (⟨j, hj, h1, h2⟩ | ⟨h1, h2⟩)
        · exact ⟨j, by omega, h1, h2⟩
        · exact ⟨n, by omega, h1, h2⟩
      · rintro ⟨j, hj, h1, h2⟩
        by_cases hjn : j < n
        · exact Or.inl ⟨j, hjn, h1, h2⟩
        · have ej : j = n := by omega
          subst ej
          exact Or.inr ⟨h1, h2⟩
    · rw [← ka, ← kb]
      constructor
      · intro h
        have h1 : ctxKey B L n a = ctxKey B L n b := by
          rw [ka, kb] at h
          omega
        have h2 : keyByte B L a n = keyByte B L b n := by
          rw [ka, kb] at h ⊢
          omega
        intro i hi
        by_cases hin : i < n
        · exact ih2.mp h1 i hin
        · have ei : i = n := by omega
          rw [ei]
          exact h2
      · intro h
        have h1 := ih2.mpr (fun i hi => h i (by omega))
        rw [h1, h n (by omega)]

/-- C29: for a block `B` of bytes of length `L` and `3 ≤ order < L`, the block after `sz_srt`
is the sequence of the symbols `B[t]`, `t = 0..L-1`, stably sorted by the key
`(B[t-1], B[t-2], .., B[t-order])`, indices mod `L`, `B[t-1]` most significant: it is the
image under `B` of an arrangement `σ` of the positions `0..L-1` in which every earlier
position has the smaller key, or an equal key and the smaller position. -/
theorem sz_srt_is_stable_sort_by_key (block : List Nat) (order : Nat)
    (hbytes : ∀ b ∈ block, b < 256) (h3 : 3 ≤ order) (hlt : order < block.length)
    (hbig : block.length + order ≤ 16777216) :
    ∃ σ : List Nat, σ.Perm (List.range block.length) ∧
      σ.Pairwise (fun a b => keyLess (Mem.ofList block) block.length order a b ∨
        (keyEq (Mem.ofList block) block.length order a b ∧ a < b)) ∧
      (sz_srt block order).1 = σ.map (Mem.ofList block) := by
  haveI := ctxBefore_total (Mem.ofList block) block.length order
  haveI := ctxBefore_trans (Mem.ofList block) block.length order
  have hperm := List.perm_insertionSort (ctxBefore (Mem.ofList block) block.length order)
    (List.range block.length)
  have hsorted : List.Pairwise (ctxBefore (Mem.ofList block) block.length order)
      ((List.range block.length).insertionSort
        (ctxBefore (Mem.ofList block) block.length order)) :=
    List.sorted_insertionSort (ctxBefore (Mem.ofList block) block.length order)
      (List.range block.length)
  have hnodup : List.Pairwise (fun a b => a ≠ b) ((List.range block.length).insertionSort
      (ctxBefore (Mem.ofList block) block.length order)) :=
    hperm.nodup_iff.mpr (List.nodup_range _)
  have h := sz_srt_mem_spec (Mem.ofList block) block.length order h3 hlt
    (ofList_lt block hbytes) hbig
  refine ⟨_, hperm, ?_, ?_⟩
  · refine List.Pairwise.imp_of_mem ?_ (hsorted.and hnodup)
    intro a b ha hb hab
    have ha2 : a < block.length := List.mem_range.mp (hperm.mem_iff.mp ha)
    have hb2 : b < block.length := List.mem_range.mp (hperm.mem_iff.mp hb)
    obtain ⟨c1, c2⟩ := ctxKey_compare (Mem.ofList block) block.length a b ha2 hb2
      (ofList_lt block hbytes) order (by omega)
    rcases hab.1 with hk | ⟨hk, hle⟩
    · exact Or.inl (c1.mp hk)
    · exact Or.inr ⟨c2.mp hk, lt_of_le_of_ne hle hab.2⟩
  · rw [sz_srt_fst]
    exact toList_eq_sorted _ _ _ _ h.1

/-- Witness for C29 on the block 3,1,4,1,5,9 with order 3. -/
theorem sz_srt_is_stable_sort_by_key_witness :
    ∃ σ : List Nat, σ.Perm (List.range [3, 1, 4, 1, 5, 9].length) ∧
      σ.Pairwise (fun a b =>
        keyLess (Mem.ofList [3, 1, 4, 1, 5, 9]) [3, 1, 4, 1, 5, 9].length 3 a b ∨
        (keyEq (Mem.ofList [3, 1, 4, 1, 5, 9]) [3, 1, 4, 1, 5, 9].length 3 a b ∧ a < b)) ∧
      (sz_srt [3, 1, 4, 1, 5, 9] 3).1 = σ.map (Mem.ofList [3, 1, 4, 1, 5, 9]) :=
  sz_srt_is_stable_sort_by_key [3, 1, 4, 1, 5, 9] 3 (by decide) (by decide) (by decide)
    (by decide)

theorem rleCount_spec (pixel : Nat) : ∀ (rest : List Nat) (c0 : Nat), c0 ≤ 64 →
    c0 ≤ rleCount pixel rest c0 ∧ rleCount pixel rest c0 ≤ 64 ∧
    rleCount pixel rest c0 - c0 ≤ rest.length ∧
    rest.take (rleCount pixel rest c0 - c0)
      = List.replicate (rleCount pixel rest c0 - c0) pixel := by
  intro rest
  induction rest with
  | nil =>
    intro c0 h
    simp [rleCount, h]
  | cons b rest ih =>
    intro c0 h
    rw [rleCount]
    by_cases hc : b = pixel ∧ c0 < 64
    · rw [if_pos hc]
      obtain ⟨h1, h2, h3, h4⟩ := ih (c0 + 1) (by omega)
      refine ⟨by omega, h2, by simp only [List.length_cons]; omega, ?_⟩
      have e : rleCount pixel rest (c0 + 1) - c0 = (rleCount pixel rest (c0 + 1) - (c0 + 1)) + 1 := by
        omega
      rw [e, List.take_succ_cons, h4, hc.1, List.replicate_succ]
    · rw [if_neg hc]
      simp [h]

theorem and63_lt (p : Nat) : p &&& 0x3F < 64 :=
  Nat.lt_of_le_of_lt Nat.and_le_right (by decide)

theorem rle_bits (k : Nat) (hk : k < 64) :
    (0x40 ||| k) &&& 0xC0 = 0x40 ∧ (0x40 ||| k) &&& 0x3F = k ∧
    (0x80 ||| k) &&& 0xC0 = 0x80 ∧ (0x80 ||| k) &&& 0x3F = k := by
  interval_cases k <;> decide

theorem opaque_bits (p : Nat) (hp : p < 256) (h : p &&& 0xC0 = 0xC0) :
    0xC0 ||| (p &&& 0x3F) = p := by
  interval_cases p <;> first | rfl | exact absurd h (by decide)

theorem decodeRLE_transparent (cmd : Nat) (rest : List Nat) (h : cmd &&& 0xC0 = 0x40) :
    decodeRLE (cmd :: rest)
      = List.replicate (if cmd &&& 0x3F = 0 then 1 else (cmd &&& 0x3F) + 1) 0 ++
        decodeRLE rest := by
  cases rest with
  | nil => simp [decodeRLE, h]
  | cons l r => simp [decodeRLE, h]

theorem decodeRLE_run (cmd literal : Nat) (rest : List Nat) (h : cmd &&& 0xC0 = 0x80)
    (hl : literal &&& 0xC0 = 0xC0) :
    decodeRLE (cmd :: literal :: rest)
      = List.replicate ((cmd &&& 0x3F) + 1) literal ++ decodeRLE rest := by
  simp [decodeRLE, h, hl]

theorem decodeRLE_literal (cmd : Nat) (rest : List Nat) (h : cmd &&& 0xC0 = 0x80)
    (hl : ∀ l ∈ rest.head?, l &&& 0xC0 ≠ 0xC0) :
    decodeRLE (cmd :: rest) = (0xC0 ||| (cmd &&& 0x3F)) :: decodeRLE rest := by
  cases rest with
  | nil => simp [decodeRLE, h]
  | cons l r =>
    have hl2 := hl l (by simp)
    simp [decodeRLE, h, hl2]

theorem rleCommand_head (pixel count : Nat) (hc : 1 ≤ count) (hc2 : count ≤ 64) :
    ∃ cmd tail, rleCommand pixel count = cmd :: tail ∧ cmd &&& 0xC0 ≠ 0xC0 := by
  have hm : (count - 1) % 256 = count - 1 := Nat.mod_eq_of_lt (by omega)
  have b1 := rle_bits (count - 1) (by omega)
  have b2 := rle_bits (pixel &&& 0x3F) (and63_lt pixel)
  unfold rleCommand
  rw [hm]
  split_ifs
  · exact ⟨_, _, rfl, by decide⟩
  · exact ⟨_, _, rfl, by rw [b1.1]; decide⟩
  · exact ⟨_, _, rfl, by rw [b2.2.2.1]; decide⟩
  · exact ⟨_, _, rfl, by rw [b1.2.2.1]; decide⟩

theorem encodeRLELoop_head (fuel : Nat) (x : List Nat) :
    ∀ b ∈ (encodeRLELoop fuel x).head?, b &&& 0xC0 ≠ 0xC0 := by
  intro b hb
  cases fuel with
  | zero => simp [encodeRLELoop] at hb
  | succ fuel =>
    cases x with
    | nil => simp [encodeRLELoop] at hb
    | cons pixel rest =>
      obtain ⟨h1, h2, _, _⟩ := rleCount_spec pixel rest 1 (by decide)
      obtain ⟨cmd, tail, e, hcmd⟩ := rleCommand_head pixel (rleCount pixel rest 1) h1 h2
      rw [encodeRLELoop, e] at hb
      simp only [List.cons_append, List.head?_cons, Option.mem_def, Option.some.injEq] at hb
      rw [← hb]
      exact hcmd

/-- One run of the encoder is decoded to the run, when the pixel is transparent `00` or an
opaque byte with both top bits set. -/
theorem decode_command (pixel count : Nat) (E : List Nat) (hc : 1 ≤ count) (hc2 : count ≤ 64)
    (hv : pixel = 0 ∨ (pixel < 256 ∧ pixel &&& 0xC0 = 0xC0))
    (hE : ∀ l ∈ E.head?, l &&& 0xC0 ≠ 0xC0) :
    decodeRLE (rleCommand pixel count ++ E) = List.replicate count pixel ++ decodeRLE E := by
  have hm : (count - 1) % 256 = count - 1 := Nat.mod_eq_of_lt (by omega)
  have b1 := rle_bits (count - 1) (by omega)
  have b2 := rle_bits (pixel &&& 0x3F) (and63_lt pixel)
  have b0 := rle_bits 0 (by decide)
  unfold rleCommand
  rw [hm]
  rcases hv with hz | ⟨hp, ho⟩
  · subst hz
    rw [if_pos (by decide)]
    by_cases h1 : count = 1
    · rw [if_pos h1, h1]
      rw [List.singleton_append, decodeRLE_transparent _ _ (by decide)]
      rfl
    · rw [if_neg h1, List.singleton_append, decodeRLE_transparent _ _ b1.1, b1.2.1,
        if_neg (by omega)]
      have e : count - 1 + 1 = count := by omega
      rw [e]
  · rw [if_neg (by rw [ho]; decide)]
    by_cases h1 : count = 1
    · rw [if_pos h1, h1, List.singleton_append, decodeRLE_literal _ _ b2.2.2.1 hE, b2.2.2.2,
        opaque_bits pixel hp ho]
      rfl
    · rw [if_neg h1, opaque_bits pixel hp ho]
      show decodeRLE ((0x80 ||| (count - 1)) :: pixel :: E) = _
      rw [decodeRLE_run _ _ _ b1.2.2.1 ho, b1.2.2.2]
      have e : count - 1 + 1 = count := by omega
      rw [e]

theorem decode_encodeLoop : ∀ (fuel : Nat) (x : List Nat), x.length ≤ fuel →
    (∀ b ∈ x, b = 0 ∨ (b < 256 ∧ b &&& 0xC0 = 0xC0)) →
    decodeRLE (encodeRLELoop fuel x) = x := by
  intro fuel
  induction fuel with
  | zero =>
    intro x hx _
    have e : x = [] := List.length_eq_zero.mp (by omega)
    subst e
    rfl
  | succ fuel ih =>
    intro x hx hv
    cases x with
    | nil => rfl
    | cons pixel rest =>
      obtain ⟨h1, h2, h3, h4⟩ := rleCount_spec pixel rest 1 (by decide)
      rw [encodeRLELoop, decode_command pixel _ _ h1 h2 (hv pixel (List.mem_cons_self _ _))
        (encodeRLELoop_head _ _)]
      rw [ih (rest.drop (rleCount pixel rest 1 - 1))
        (by simp only [List.length_drop, List.length_cons] at hx ⊢; omega)
        (fun b hb => hv b (List.mem_cons_of_mem _ (List.mem_of_mem_drop hb)))]
      have e : rleCount pixel rest 1 = (rleCount pixel rest 1 - 1) + 1 := by omega
      rw [e, List.replicate_succ, List.cons_append, ← h4]
      have e2 : rleCount pixel rest 1 - 1 + 1 - 1 = rleCount pixel rest 1 - 1 := by omega
      rw [e2, List.take_append_drop]

/-- C26: for every pixel sequence `x` in which each byte is `00` (transparent) or a byte
with its top two bits `11` (opaque), `decodeRLE (encodeRLE x) = x`. -/
theorem decodeRLE_encodeRLE (x : List Nat)
    (hv : ∀ b ∈ x, b = 0 ∨ (b < 256 ∧ b &&& 0xC0 = 0xC0)) :
    decodeRLE (encodeRLE x) = x :=
  decode_encodeLoop x.length x (Nat.le_refl _) hv

/-- Witness for C26: two transparent pixels, three equal opaque ones, a single opaque one
and a single transparent one. -/
theorem decodeRLE_encodeRLE_witness :
    decodeRLE (encodeRLE [0, 0, 0xC5, 0xC5, 0xC5, 0xC1, 0]) = [0, 0, 0xC5, 0xC5, 0xC5, 0xC1, 0] :=
  decodeRLE_encodeRLE [0, 0, 0xC5, 0xC5, 0xC5, 0xC1, 0] (by decide)

/-- The run-decoding loops are the first part of `readszipblock`: an error of the loops is
the error of `readszipblock`. -/
theorem readszipblock_decodeRuns (co : Collab) (recordsize buflen : Nat) (buffer : Mem)
    (inp : List Item) (e : SzError)
    (h : decodeRuns buflen buffer (getcharU (readuint3 inp).2).2 = Except.error e) :
    readszipblock co recordsize buflen buffer inp = Except.error e := by
  unfold decodeRuns at h
  unfold readszipblock
  dsimp only
  generalize decodeRun ⟨0, buflen, Mem.zero, buffer, (getcharU (readuint3 inp).2).2⟩ = r at h ⊢
  cases r with
  | error e1 =>
    have h2 : e1 = e := by
      injection h
    rw [h2]
  | ok s0 =>
    have h2 : decodeLoop s0.inp.length s0 = Except.error e := h
    simp only [h2]

theorem cnt_single (L f : Nat) (hf : f < L) (P : Prop) [Decidable P] :
    cnt L (fun j => j = f ∧ P) = if P then 1 else 0 := by
  by_cases hP : P
  · rw [if_pos hP]
    have e1 : cnt L (fun j => j = f ∧ P) = cnt L (fun j => j < f + 1 ∧ j = f) :=
      cnt_congr L _ _ (fun j _ => by constructor <;> intro h <;> [exact ⟨by omega, h.1⟩; exact ⟨h.2, hP⟩])
    rw [e1, cnt_prefix L (f + 1) (by omega) (fun j => j = f), cnt_succ, if_pos rfl,
      cnt_false f _ (fun j hj => by omega)]
  · rw [if_neg hP]
    exact cnt_false L _ (fun j _ h => hP h.2)

theorem bwTurn_lt (L f j : Nat) (hj : j < L) : bwTurn f j < L + 1 := by
  unfold bwTurn
  split_ifs <;> omega

theorem bwTurn_inj (f a b : Nat) (h : bwTurn f a = bwTurn f b) : a = b := by
  unfold bwTurn at h
  split_ifs at h <;> omega

/-- The slot of `sz_unsrt_BW` for position `i` is the rank of `i` when the positions are
ordered by symbol, ties by the turn in which they are handled. -/
theorem bw_rank (B : Nat → Nat) (L f i : Nat) (hf : f < L) (hi : i < L) :
    cnt L (fun j => B j < B i)
      + (if i = f then 0
         else cnt i (fun j => B j = B i) + (if i < f ∧ B f = B i then 1 else 0))
      = rk (fun j => B j * (L + 1) + bwTurn f j) L i := by
  unfold rk
  have e1 : cnt L (fun j => B j * (L + 1) + bwTurn f j < B i * (L + 1) + bwTurn f i)
      = cnt L (fun j => B j < B i ∨ (B j = B i ∧ bwTurn f j < bwTurn f i)) :=
    cnt_congr L _ _ (fun j hj =>
      lex_lt_iff (L + 1) (B j) (B i) _ _ (bwTurn_lt L f j hj) (bwTurn_lt L f i hi))
  rw [e1, cnt_or L _ _ (fun j _ h1 h2 => by omega)]
  congr 1
  by_cases hif : i = f
  · rw [if_pos hif]
    exact (cnt_false L _ (fun j _ h => by
      have := h.2
      unfold bwTurn at this
      rw [if_pos hif] at this
      omega)).symm
  · rw [if_neg hif]
    have e2 : cnt L (fun j => B j = B i ∧ bwTurn f j < bwTurn f i)
        = cnt L (fun j => (j < i ∧ B j = B i) ∨ (j = f ∧ (i < f ∧ B f = B i))) := by
      apply cnt_congr
      intro j _
      unfold bwTurn
      rw [if_neg hif]
      by_cases hjf : j = f
      · subst hjf
        rw [if_pos rfl]
        constructor
        · intro h
          by_cases hlt : j < i
          · exact Or.inl ⟨hlt, h.1⟩
          · exact Or.inr ⟨rfl, by omega, h.1⟩
        · rintro (h | h)
          · exact ⟨h.2, by omega⟩
          · exact ⟨h.2.2, by omega⟩
      · rw [if_neg hjf]
        constructor
        · intro h
          exact Or.inl ⟨by omega, h.1⟩
        · rintro (h | h)
          · exact ⟨h.2, by omega⟩
          · exact absurd h.1 hjf
    rw [e2, cnt_or L _ _ (fun j _ h1 h2 => by omega), cnt_prefix L i (by omega),
      cnt_single L f hf]

theorem bw_key_inj (B : Nat → Nat) (L f a b : Nat) (ha : a < L) (hb : b < L)
    (h : B a * (L + 1) + bwTurn f a = B b * (L + 1) + bwTurn f b) : a = b := by
  have h1 := lex_lt_iff (L + 1) (B a) (B b) _ _ (bwTurn_lt L f a ha) (bwTurn_lt L f b hb)
  have h2 := lex_lt_iff (L + 1) (B b) (B a) _ _ (bwTurn_lt L f b hb) (bwTurn_lt L f a ha)
  apply bwTurn_inj f
  by_contra hne
  rcases Nat.lt_trichotomy (B a) (B b) with h3 | h3 | h3
  · have := h1.mpr (Or.inl h3)
    omega
  · rcases Nat.lt_trichotomy (bwTurn f a) (bwTurn f b) with h4 | h4 | h4
    · have := h1.mpr (Or.inr ⟨h3, h4⟩)
      omega
    · exact hne h4
    · have := h2.mpr (Or.inr ⟨h3.symm, h4⟩)
      omega
  · have := h2.mpr (Or.inl h3)
    omega

theorem bwTransvec_rank (block : List Nat) (f : Nat) (hbytes : ∀ b ∈ block, b < 256)
    (hlen : block.length < 4294967296) (hf : f < block.length) (i : Nat)
    (hi : i < block.length) :
    bwTransvec (Mem.ofList block) block.length f (byteCounts block) i
      = rk (fun j => (Mem.ofList block) j * (block.length + 1) + bwTurn f j)
          block.length i := by
  rw [bwTransvec_spec block f hbytes hlen hf i hi]
  exact bw_rank (Mem.ofList block) block.length f i hf hi

/-- C31: for a block of bytes of length `L` with its byte counts and `indexfirst < L`, the
transform vector built by `sz_unsrt_BW` is a permutation of `[0, L)`. -/
theorem bw_transvec_is_permutation (block : List Nat) (indexfirst : Nat)
    (hbytes : ∀ b ∈ block, b < 256) (hlen : block.length < 4294967296)
    (hf : indexfirst < block.length) :
    ((bwTransvec (Mem.ofList block) block.length indexfirst (byteCounts block)).toList
      block.length).Perm (List.range block.length) := by
  apply range_map_perm
  · intro i hi
    rw [bwTransvec_rank block indexfirst hbytes hlen hf i hi]
    exact rk_lt _ _ i hi
  · intro a b ha hb h
    rw [bwTransvec_rank block indexfirst hbytes hlen hf a ha,
      bwTransvec_rank block indexfirst hbytes hlen hf b hb] at h
    exact rk_inj _ _ a b ha hb
      (fun x y hx hy hxy => bw_key_inj (Mem.ofList block) block.length indexfirst x y hx hy hxy)
      h

/-- Witness for C31 on the block a,b,a,b with `indexfirst = 0`. -/
theorem bw_transvec_is_permutation_witness :
    ((bwTransvec (Mem.ofList [97, 98, 97, 98]) [97, 98, 97, 98].length 0
      (byteCounts [97, 98, 97, 98])).toList [97, 98, 97, 98].length).Perm
      (List.range [97, 98, 97, 98].length) :=
  bw_transvec_is_permutation [97, 98, 97, 98] 0 (by decide) (by decide) (by decide)

theorem bw_walk_fixed (tv inb : Mem) (h : tv 0 = 0) : ∀ n (l : List Nat),
    forUp (fun _ (s : Nat × List Nat) => (tv s.1, s.2 ++ [inb s.1])) 0 n (0, l)
      = (0, l ++ List.replicate n (inb 0)) := by
  intro n
  induction n with
  | zero => intro l; simp [forUp_zero]
  | succ n ih =>
    intro l
    rw [forUp_succ, ih]
    simp only [h, List.append_assoc, Prod.mk.injEq, true_and, List.append_cancel_left_eq]
    exact (List.replicate_succ' n (inb 0)).symm

/-- C32: `sz_unsrt_BW` on the block a,b,a,b (97,98,97,98) with its byte counts and
`indexfirst = 0` passes its final cyclic check and returns a,a,a,a, which is no permutation
of the block: `transvec[0] = 0`, so the walk stays on position 0 and `ic` equals
`indexfirst` after the `L` steps without the other positions being visited. -/
theorem bw_cyclic_check_accepts_short_cycle :
    bwTransvec (Mem.ofList [97, 98, 97, 98]) 4 0 (byteCounts [97, 98, 97, 98]) 0 = 0 ∧
    sz_unsrt_BW (Mem.ofList [97, 98, 97, 98]) 4 0 (byteCounts [97, 98, 97, 98])
      = Except.ok [97, 97, 97, 97] ∧
    ¬ List.Perm [97, 97, 97, 97] [97, 98, 97, 98] := by
  have h0 : bwTransvec (Mem.ofList [97, 98, 97, 98]) 4 0 (byteCounts [97, 98, 97, 98]) 0
      = 0 := by
    have h := bwTransvec_spec [97, 98, 97, 98] 0 (by decide) (by decide) (by decide) 0
      (by decide)
    rw [show (4 : Nat) = [97, 98, 97, 98].length from rfl, h]
    decide
  refine ⟨h0, ?_, by decide⟩
  unfold sz_unsrt_BW
  dsimp only
  rw [bw_walk_fixed _ _ h0 4 []]
  rfl

theorem optionStep_b (inp : List Char) (p : Params) (j : Nat) (rest : List Char)
    (h : readnum inp 1 41 = Except.ok (j, rest)) :
    optionStep 'b' inp p = Except.ok ({ p with blocksize :=
      (((if (j * 100000) % 4294967296 < 32768 then 32768 else (j * 100000) % 4294967296)
        + 0x7fff) % 4294967296) &&& 0x7FFF8000 }, rest) := by
  unfold optionStep
  rw [if_neg (by decide), if_neg (by decide), if_pos rfl, h]

/-- C38: for `-b` followed by digits of a value `n` in 1..41 the block size set is at most
4128768, so `blocksize + 255` is below `0x800000`; hence every block length up to the
block size is read back from the 3-byte directory field, every pointer up to
`L + order - 2` with `order ≤ 255` is read back from its slot by `getptr` after `setptr`,
and every table value up to `L` has the `INDIRECT` bit clear. -/
theorem option_b_blocksize_fits_24_bits (ds rest : List Char) (p : Params)
    (hd : ∀ c ∈ ds, isdigit c = true) (hr : ∀ c ∈ rest.head?, isdigit c = false)
    (hn : 1 ≤ digitsVal ds ∧ digitsVal ds ≤ 41) :
    ∃ bs, optionStep 'b' (ds ++ rest) p = Except.ok ({ p with blocksize := bs }, rest) ∧
      bs ≤ 4128768 ∧ bs + 255 < INDIRECT ∧
      (∀ L, L ≤ bs → ∀ tail, readuint3 (writeuint3 L ++ tail) = (L, tail)) ∧
      (∀ L order ptr, L ≤ bs → order ≤ 255 → ptr + 2 ≤ L + order →
        ∀ (q : PtrIndex) (i : Nat), getptr (setptr q i ptr) i = ptr) ∧
      (∀ L v, L ≤ bs → v ≤ L → v &&& INDIRECT = 0) := by
  have hv : digitsVal ds + 48 < 2147483648 := by omega
  have hnum := readnum_digits ds rest 1 41 hd hr hv
  rw [if_neg (by omega)] at hnum
  obtain ⟨a, b, c⟩ := blocksize_align (digitsVal ds) hn.1 hn.2
  refine ⟨_, optionStep_b (ds ++ rest) p (digitsVal ds) rest hnum, ?_⟩
  generalize (((if (digitsVal ds * 100000) % 4294967296 < 32768 then 32768
      else (digitsVal ds * 100000) % 4294967296) + 0x7fff) % 4294967296
        &&& 0x7FFF8000) = bs at a b c
  have hbs : bs ≤ 4128768 := by omega
  have hI : INDIRECT = 8388608 := rfl
  refine ⟨hbs, by rw [hI]; omega, ?_, ?_, ?_⟩
  · intro L hL tail
    exact readuint3_writeuint3 L (by omega) tail
  · intro L order ptr hL ho hp q i
    rw [getptr_setptr q i ptr i (by omega), if_pos rfl]
  · intro L v hL hvL
    exact direct_test v (by omega)

/-- Witness for C38: the option `-b41`, the largest block size. -/
theorem option_b_blocksize_fits_24_bits_witness :
    ∃ bs, optionStep 'b' (['4', '1'] ++ []) Params.start
        = Except.ok ({ Params.start with blocksize := bs }, []) ∧
      bs ≤ 4128768 ∧ bs + 255 < INDIRECT ∧
      (∀ L, L ≤ bs → ∀ tail, readuint3 (writeuint3 L ++ tail) = (L, tail)) ∧
      (∀ L order ptr, L ≤ bs → order ≤ 255 → ptr + 2 ≤ L + order →
        ∀ (q : PtrIndex) (i : Nat), getptr (setptr q i ptr) i = ptr) ∧
      (∀ L v, L ≤ bs → v ≤ L → v &&& INDIRECT = 0) :=
  option_b_blocksize_fits_24_bits ['4', '1'] [] Params.start (by decide) (by decide)
    (by decide)

theorem literal_bits (k : Nat) (hk : k < 64) : (0xC0 ||| k) &&& 0xC0 = 0xC0 := by
  interval_cases k <;> decide

theorem top_bits (c : Nat) :
    c &&& 0xC0 = 0x00 ∨ c &&& 0xC0 = 0x40 ∨ c &&& 0xC0 = 0x80 ∨ c &&& 0xC0 = 0xC0 := by
  have h1 : c &&& 0xC0 ≤ 0xC0 := Nat.and_le_right
  have h2 : (c &&& 0xC0) &&& 0xC0 = c &&& 0xC0 := by
    rw [Nat.and_assoc, Nat.and_self]
  have key : ∀ v, v ≤ 0xC0 → v &&& 0xC0 = v → v = 0x00 ∨ v = 0x40 ∨ v = 0x80 ∨ v = 0xC0 := by
    intro v hv
    interval_cases v <;> decide
  exact key _ h1 h2

theorem decodeRLEStop_transparent (cmd : Nat) (rest : List Nat) (h : cmd &&& 0xC0 = 0x40) :
    decodeRLEStop (cmd :: rest) = (decodeRLEStop rest).map (fun p => p + 1) := by
  cases rest with
  | nil => simp [decodeRLEStop, h]
  | cons l r => simp [decodeRLEStop, h]

theorem decodeRLEStop_run (cmd literal : Nat) (rest : List Nat) (h : cmd &&& 0xC0 = 0x80)
    (hl : literal &&& 0xC0 = 0xC0) :
    decodeRLEStop (cmd :: literal :: rest) = (decodeRLEStop rest).map (fun p => p + 2) := by
  simp [decodeRLEStop, h, hl]

theorem decodeRLEStop_literal (cmd : Nat) (rest : List Nat) (h : cmd &&& 0xC0 = 0x80)
    (hl : ∀ l ∈ rest.head?, l &&& 0xC0 ≠ 0xC0) :
    decodeRLEStop (cmd :: rest) = (decodeRLEStop rest).map (fun p => p + 1) := by
  cases rest with
  | nil => simp [decodeRLEStop, h]
  | cons l r =>
    have hl2 := hl l (by simp)
    simp [decodeRLEStop, h, hl2]

theorem decodeRLEStop_invalid (cmd : Nat) (rest : List Nat) (h1 : cmd &&& 0xC0 ≠ 0x40)
    (h2 : cmd &&& 0xC0 ≠ 0x80) : decodeRLEStop (cmd :: rest) = some 0 := by
  cases rest with
  | nil => simp [decodeRLEStop, h1, h2]
  | cons l r => simp [decodeRLEStop, h1, h2]

theorem decodeRLE_invalid (cmd : Nat) (rest : List Nat) (h1 : cmd &&& 0xC0 ≠ 0x40)
    (h2 : cmd &&& 0xC0 ≠ 0x80) : decodeRLE (cmd :: rest) = [] := by
  cases rest with
  | nil => simp [decodeRLE, h1, h2]
  | cons l r => simp [decodeRLE, h1, h2]

/-- One run of the encoder is decoded to the run of the round-trip pixel. -/
theorem decode_command_any (pixel count : Nat) (E : List Nat) (hc : 1 ≤ count)
    (hc2 : count ≤ 64) (hE : ∀ l ∈ E.head?, l &&& 0xC0 ≠ 0xC0) :
    decodeRLE (rleCommand pixel count ++ E)
      = List.replicate count (rleRoundTripPixel pixel) ++ decodeRLE E := by
  have hm : (count - 1) % 256 = count - 1 := Nat.mod_eq_of_lt (by omega)
  have b1 := rle_bits (count - 1) (by omega)
  have b2 := rle_bits (pixel &&& 0x3F) (and63_lt pixel)
  have b3 := literal_bits (pixel &&& 0x3F) (and63_lt pixel)
  have e : count - 1 + 1 = count := by omega
  unfold rleCommand rleRoundTripPixel
  rw [hm]
  by_cases ht : pixel &&& 0xC0 = 0
  · rw [if_pos ht, if_pos ht]
    by_cases h1 : count = 1
    · rw [if_pos h1, h1, List.singleton_append, decodeRLE_transparent _ _ (by decide)]
      rfl
    · rw [if_neg h1, List.singleton_append, decodeRLE_transparent _ _ b1.1, b1.2.1,
        if_neg (by omega), e]
  · rw [if_neg ht, if_neg ht]
    by_cases h1 : count = 1
    · rw [if_pos h1, h1, List.singleton_append, decodeRLE_literal _ _ b2.2.2.1 hE, b2.2.2.2]
      rfl
    · rw [if_neg h1]
      show decodeRLE ((0x80 ||| (count - 1)) :: (0xC0 ||| (pixel &&& 0x3F)) :: E) = _
      rw [decodeRLE_run _ _ _ b1.2.2.1 b3, b1.2.2.2, e]

/-- After one run of the encoder the decoder is at a command again: an invalid command is
met behind the run only if one is met in what follows. -/
theorem stop_command_any (pixel count : Nat) (E : List Nat) (hc : 1 ≤ count)
    (hc2 : count ≤ 64) (hE : ∀ l ∈ E.head?, l &&& 0xC0 ≠ 0xC0)
    (hn : decodeRLEStop E = none) :
    decodeRLEStop (rleCommand pixel count ++ E) = none := by
  have hm : (count - 1) % 256 = count - 1 := Nat.mod_eq_of_lt (by omega)
  have b1 := rle_bits (count - 1) (by omega)
  have b2 := rle_bits (pixel &&& 0x3F) (and63_lt pixel)
  have b3 := literal_bits (pixel &&& 0x3F) (and63_lt pixel)
  unfold rleCommand
  rw [hm]
  by_cases ht : pixel &&& 0xC0 = 0
  · rw [if_pos ht]
    by_cases h1 : count = 1
    · rw [if_pos h1, List.singleton_append, decodeRLEStop_transparent _ _ (by decide), hn]
      rfl
    · rw [if_neg h1, List.singleton_append, decodeRLEStop_transparent _ _ b1.1, hn]
      rfl
  · rw [if_neg ht]
    by_cases h1 : count = 1
    · rw [if_pos h1, List.singleton_append, decodeRLEStop_literal _ _ b2.2.2.1 hE, hn]
      rfl
    · rw [if_neg h1]
      show decodeRLEStop ((0x80 ||| (count - 1)) :: (0xC0 ||| (pixel &&& 0x3F)) :: E) = _
      rw [decodeRLEStop_run _ _ _ b1.2.2.1 b3, hn]
      rfl

theorem decode_encodeLoop_any : ∀ (fuel : Nat) (x : List Nat), x.length ≤ fuel →
    decodeRLE (encodeRLELoop fuel x) = x.map rleRoundTripPixel := by
  intro fuel
  induction fuel with
  | zero =>
    intro x hx
    have e : x = [] := List.length_eq_zero.mp (by omega)
    subst e
    rfl
  | succ fuel ih =>
    intro x hx
    cases x with
    | nil => rfl
    | cons pixel rest =>
      obtain ⟨h1, h2, h3, h4⟩ := rleCount_spec pixel rest 1 (by decide)
      rw [encodeRLELoop, decode_command_any pixel _ _ h1 h2 (encodeRLELoop_head _ _)]
      rw [ih (rest.drop (rleCount pixel rest 1 - 1))
        (by simp only [List.length_drop, List.length_cons] at hx ⊢; omega)]
      have e : rest = List.replicate (rleCount pixel rest 1 - 1) pixel ++
          rest.drop (rleCount pixel rest 1 - 1) := by
        rw [← h4]
        exact (List.take_append_drop _ _).symm
      have e2 : rleCount pixel rest 1 = (rleCount pixel rest 1 - 1) + 1 := by omega
      conv_rhs => rw [e]
      rw [List.map_cons, List.map_append, List.map_replicate, ← List.cons_append,
        ← List.replicate_succ, ← e2]

theorem stop_encodeLoop : ∀ (fuel : Nat) (x : List Nat),
    decodeRLEStop (encodeRLELoop fuel x) = none := by
  intro fuel
  induction fuel with
  | zero =>
    intro x
    rfl
  | succ fuel ih =>
    intro x
    cases x with
    | nil => rfl
    | cons pixel rest =>
      obtain ⟨h1, h2, _, _⟩ := rleCount_spec pixel rest 1 (by decide)
      rw [encodeRLELoop]
      exact stop_command_any pixel _ _ h1 h2 (encodeRLELoop_head _ _) (ih _)

/-- C34: for every pixel sequence `x`, `decodeRLE (encodeRLE x)` is `x` with each pixel
replaced by `0x00` when its top two bits are `00` and by `0xC0 | (pixel & 0x3F)` otherwise,
so it has the length of `x`; and `decodeRLE` meets no invalid command on `encodeRLE x`. -/
theorem decodeRLE_encodeRLE_pixelwise (x : List Nat) :
    decodeRLE (encodeRLE x) = x.map rleRoundTripPixel ∧
    (decodeRLE (encodeRLE x)).length = x.length ∧
    (∀ i, i < x.length →
      (decodeRLE (encodeRLE x)).getD i 0
        = if x.getD i 0 &&& 0xC0 = 0 then 0x00 else 0xC0 ||| (x.getD i 0 &&& 0x3F)) ∧
    decodeRLEStop (encodeRLE x) = none := by
  have h := decode_encodeLoop_any x.length x (Nat.le_refl _)
  refine ⟨h, ?_, ?_, stop_encodeLoop _ _⟩
  · unfold encodeRLE
    rw [h, List.length_map]
  · intro i hi
    unfold encodeRLE
    rw [h, List.getD_eq_getElem _ _ (by rw [List.length_map]; exact hi), List.getElem_map,
      List.getD_eq_getElem _ _ hi]
    rfl

theorem rleCommand_length (pixel count : Nat) :
    (rleCommand pixel count).length = if count = 1 ∨ pixel &&& 0xC0 = 0 then 1 else 2 := by
  unfold rleCommand
  by_cases ht : pixel &&& 0xC0 = 0
  · rw [if_pos ht, if_pos (Or.inr ht)]
    split_ifs <;> rfl
  · rw [if_neg ht]
    by_cases h1 : count = 1
    · rw [if_pos h1, if_pos (Or.inl h1)]
      rfl
    · rw [if_neg h1, if_neg (by rintro (h | h) <;> contradiction)]
      rfl

theorem encodeLoop_runs : ∀ (fuel : Nat) (x : List Nat), x.length ≤ fuel →
    ∃ runs : List (Nat × Nat),
      encodeRLELoop fuel x = (runs.map (fun r => rleCommand r.1 r.2)).flatten ∧
      expandRuns runs = x ∧ ∀ r ∈ runs, 1 ≤ r.2 ∧ r.2 ≤ 64 := by
  intro fuel
  induction fuel with
  | zero =>
    intro x hx
    have e : x = [] := List.length_eq_zero.mp (by omega)
    subst e
    exact ⟨[], rfl, rfl, fun r hr => by cases hr⟩
  | succ fuel ih =>
    intro x hx
    cases x with
    | nil => exact ⟨[], rfl, rfl, fun r hr => by cases hr⟩
    | cons pixel rest =>
      obtain ⟨h1, h2, h3, h4⟩ := rleCount_spec pixel rest 1 (by decide)
      obtain ⟨runs, r1, r2, r3⟩ := ih (rest.drop (rleCount pixel rest 1 - 1))
        (by simp only [List.length_drop, List.length_cons] at hx ⊢; omega)
      refine ⟨(pixel, rleCount pixel rest 1) :: runs, ?_, ?_, ?_⟩
      · rw [encodeRLELoop, r1]
        rfl
      · have e2 : rleCount pixel rest 1 = (rleCount pixel rest 1 - 1) + 1 := by omega
        unfold expandRuns at r2 ⊢
        rw [List.map_cons, List.flatten_cons, r2]
        show List.replicate (rleCount pixel rest 1) pixel ++ _ = _
        rw [e2, List.replicate_succ, List.cons_append]
        have e3 : rleCount pixel rest 1 - 1 + 1 - 1 = rleCount pixel rest 1 - 1 := by omega
        rw [e3, ← h4, List.take_append_drop]
      · intro r hr
        rcases List.mem_cons.mp hr with h | h
        · rw [h]
          exact ⟨h1, h2⟩
        · exact r3 r h

theorem expandRuns_length (runs : List (Nat × Nat)) :
    (expandRuns runs).length = (runs.map (fun r => r.2)).sum := by
  induction runs with
  | nil => rfl
  | cons r rs ih =>
    unfold expandRuns at ih ⊢
    rw [List.map_cons, List.flatten_cons, List.length_append, ih, List.length_replicate,
      List.map_cons, List.sum_cons]

theorem commands_length_le (runs : List (Nat × Nat)) (h : ∀ r ∈ runs, 1 ≤ r.2) :
    ((runs.map (fun r => rleCommand r.1 r.2)).flatten).length
      ≤ (runs.map (fun r => r.2)).sum := by
  induction runs with
  | nil => exact Nat.le_refl _
  | cons r rs ih =>
    have h1 := h r (List.mem_cons_self _ _)
    have h2 := ih (fun q hq => h q (List.mem_cons_of_mem _ hq))
    have h3 := rleCommand_length r.1 r.2
    rw [List.map_cons, List.flatten_cons, List.length_append, List.map_cons, List.sum_cons]
    split_ifs at h3 with hc <;> omega

/-- C35: for every pixel sequence `x`, `encodeRLE x` is no longer than `x`: it is the
sequence of the commands of runs that expand to `x`, each run covers between 1 and 64
pixels and costs one byte when it is a single pixel or transparent and two bytes
otherwise, and the run counts sum to the length of `x`. -/
theorem encodeRLE_no_longer_than_input (x : List Nat) :
    (encodeRLE x).length ≤ x.length ∧
    ∃ runs : List (Nat × Nat),
      encodeRLE x = (runs.map (fun r => rleCommand r.1 r.2)).flatten ∧
      expandRuns runs = x ∧
      (∀ r ∈ runs, 1 ≤ r.2 ∧ r.2 ≤ 64 ∧
        (rleCommand r.1 r.2).length = if r.2 = 1 ∨ r.1 &&& 0xC0 = 0 then 1 else 2) ∧
      (runs.map (fun r => r.2)).sum = x.length := by
  obtain ⟨runs, r1, r2, r3⟩ := encodeLoop_runs x.length x (Nat.le_refl _)
  have hs : (runs.map (fun r => r.2)).sum = x.length := by
    rw [← expandRuns_length, r2]
  have hl : (encodeRLE x).length ≤ x.length := by
    unfold encodeRLE
    rw [r1, ← hs]
    exact commands_length_le runs (fun r hr => (r3 r hr).1)
  exact ⟨hl, runs, r1, r2,
    fun r hr => ⟨(r3 r hr).1, (r3 r hr).2, rleCommand_length r.1 r.2⟩, hs⟩

theorem head_take (rest : List Nat) (q : Nat) :
    ∀ l ∈ (rest.take q).head?, l ∈ rest.head? := by
  intro l hl
  cases q with
  | zero => simp at hl
  | succ q =>
    cases rest with
    | nil => simp at hl
    | cons a r => simpa using hl

theorem decodeRLEStop_spec : ∀ (n : Nat) (input : List Nat), input.length ≤ n →
    ∀ p, decodeRLEStop input = some p →
      p < input.length ∧
      (input.getD p 0 &&& 0xC0 = 0x00 ∨ input.getD p 0 &&& 0xC0 = 0xC0) ∧
      decodeRLEStop (input.take p) = none ∧
      decodeRLE input = decodeRLE (input.take p) := by
  intro n
  induction n with
  | zero =>
    intro input hn p hp
    have e : input = [] := List.length_eq_zero.mp (by omega)
    subst e
    simp [decodeRLEStop] at hp
  | succ n ih =>
    intro input hn p hp
    cases input with
    | nil => simp [decodeRLEStop] at hp
    | cons cmd rest =>
      have hrest : rest.length ≤ n := by
        simp only [List.length_cons] at hn
        omega
      by_cases h40 : cmd &&& 0xC0 = 0x40
      · rw [decodeRLEStop_transparent _ _ h40] at hp
        obtain ⟨q, hq, hqp⟩ := Option.map_eq_some'.mp hp
        subst hqp
        obtain ⟨a, b, c, d⟩ := ih rest hrest q hq
        refine ⟨by simp only [List.length_cons]; omega, by simpa using b, ?_, ?_⟩
        · rw [List.take_succ_cons, decodeRLEStop_transparent _ _ h40, c]
          rfl
        · rw [List.take_succ_cons, decodeRLE_transparent _ _ h40,
            decodeRLE_transparent _ _ h40, d]
      · by_cases h80 : cmd &&& 0xC0 = 0x80
        · by_cases hl : ∀ l ∈ rest.head?, l &&& 0xC0 ≠ 0xC0
          · rw [decodeRLEStop_literal _ _ h80 hl] at hp
            obtain ⟨q, hq, hqp⟩ := Option.map_eq_some'.mp hp
            subst hqp
            obtain ⟨a, b, c, d⟩ := ih rest hrest q hq
            have hl2 : ∀ l ∈ (rest.take q).head?, l &&& 0xC0 ≠ 0xC0 :=
              fun l h => hl l (head_take rest q l h)
            refine ⟨by simp only [List.length_cons]; omega, by simpa using b, ?_, ?_⟩
            · rw [List.take_succ_cons, decodeRLEStop_literal _ _ h80 hl2, c]
              rfl
            · rw [List.take_succ_cons, decodeRLE_literal _ _ h80 hl,
                decodeRLE_literal _ _ h80 hl2, d]
          · cases rest with
            | nil => exact absurd (fun l h => by simp at h) hl
            | cons literal rest2 =>
              have hlit : literal &&& 0xC0 = 0xC0 := by
                by_contra hc
                exact hl (fun l h => by
                  simp only [List.head?_cons, Option.mem_def, Option.some.injEq] at h
                  rw [← h]
                  exact hc)
              have hrest2 : rest2.length ≤ n := by
                simp only [List.length_cons] at hrest
                omega
              rw [decodeRLEStop_run _ _ _ h80 hlit] at hp
              obtain ⟨q, hq, hqp⟩ := Option.map_eq_some'.mp hp
              subst hqp
              obtain ⟨a, b, c, d⟩ := ih rest2 hrest2 q hq
              refine ⟨by simp only [List.length_cons]; omega, by simpa using b, ?_, ?_⟩
              · rw [List.take_succ_cons, List.take_succ_cons,
                  decodeRLEStop_run _ _ _ h80 hlit, c]
                rfl
              · rw [List.take_succ_cons, List.take_succ_cons, decodeRLE_run _ _ _ h80 hlit,
                  decodeRLE_run _ _ _ h80 hlit, d]
        · rw [decodeRLEStop_invalid _ _ h40 h80] at hp
          have hp0 : p = 0 := by
            injection hp with hp
            exact hp.symm
          subst hp0
          refine ⟨by simp, ?_, rfl, ?_⟩
          · have ht := top_bits cmd
            simp only [List.getD_cons_zero]
            rcases ht with h | h | h | h
            · exact Or.inl h
            · exact absurd h h40
            · exact absurd h h80
            · exact Or.inr h
          · rw [decodeRLE_invalid _ _ h40 h80]
            rfl

/-- The bits that `makeorder2` sets in a cleared bitmap: the values of the cursors `ct[c]`
at the start and after each advance of `j` to `counts[c2]`. -/
theorem makeorder2_bits (S counts : Mem) (L : Nat)
    (hc : ∀ c, c < 256 → counts c = cnt L (fun s => S s < c)) (p : Nat) :
    bitSet (makeorder2 Mem.zero S counts) p ↔
      ∃ c c2, c < 256 ∧ c2 ≤ 255 ∧ p = counts c + cnt (counts c2) (fun s => S s = c) := by
  have hc0 : counts 0 = 0 := by
    rw [hc 0 (by norm_num)]
    exact cnt_false L _ (fun _ _ hh => by omega)
  have hinit : O2Inv S counts 0
      ⟨0, counts, forUp (fun i f => setbit f (counts i)) 0 ALPHABETSIZE Mem.zero⟩ := by
    constructor
    · exact hc0.symm
    · funext c
      rw [hc0, cnt_zero]
      rfl
    · intro p
      dsimp only
      rw [setbits_loop]
      constructor
      · rintro (hh | ⟨c, h1, h2⟩)
        · exact absurd hh (bitSet_zero p)
        · refine ⟨c, 0, h1, Nat.le_refl _, ?_⟩
          rw [hc0, cnt_zero]
          exact h2
      · rintro ⟨c, c2, h1, h2, h3⟩
        right
        have e : c2 = 0 := by omega
        subst e
        rw [hc0, cnt_zero] at h3
        exact ⟨c, h1, h3⟩
  have hfin := forUp_inv (fun i (s : O2Flags) =>
      ({ j := if s.j < counts (i + 1) then counts (i + 1) else s.j
         ct := forUp (fun j (ct : Mem) => ct.set (S j) (ct (S j) + 1)) s.j
           (counts (i + 1) - s.j) s.ct
         flags := forUp (fun k f => setbit f
           ((forUp (fun j (ct : Mem) => ct.set (S j) (ct (S j) + 1)) s.j
             (counts (i + 1) - s.j) s.ct) k)) 0 ALPHABETSIZE s.flags } : O2Flags))
    (fun i st => O2Inv S counts i st) 0 (ALPHABETSIZE - 1) _ hinit
    (fun m st hm hp => by
      rw [Nat.zero_add]
      exact o2_step S counts L m st hc hm hp)
  unfold makeorder2
  exact hfin.flags p

/-- A cursor of symbol `c` that has passed `m ≤ L` slots stays within the block. -/
theorem cursor_le (S counts : Mem) (L : Nat)
    (hc : ∀ c, c < 256 → counts c = cnt L (fun s => S s < c)) (c m : Nat) (hc1 : c < 256)
    (hm : m ≤ L) : counts c + cnt m (fun s => S s = c) ≤ L := by
  have h1 := cnt_prefix_le L m hm (fun s => S s = c)
  have h2 := cnt_le_split L S c
  have h3 := cnt_le L (fun s => S s < c + 1)
  rw [hc c hc1]
  omega

/-- The cursor of the symbol of slot `m < L`, before that slot is passed, is below `L`. -/
theorem cursor_lt (S counts : Mem) (L : Nat)
    (hc : ∀ c, c < 256 → counts c = cnt L (fun s => S s < c)) (m : Nat)
    (hS : S m < 256) (hm : m < L) : counts (S m) + cnt m (fun s => S s = S m) < L := by
  have h1 : cnt m (fun s => S s = S m) < cnt L (fun s => S s = S m) := by
    rw [← cnt_prefix L m (by omega) (fun s => S s = S m)]
    exact cnt_lt L _ _ (fun i _ h => h.2) m hm rfl (fun h => by omega)
  have h2 := cnt_le_split L S (S m)
  have h3 := cnt_le L (fun s => S s < S m + 1)
  rw [hc (S m) hS]
  omega

/-- The bits that `increaseorder` adds to `outflags` are cursor values below `L`. -/
theorem increaseorder_bits (S counts inflags out0 : Mem) (L : Nat)
    (hc : ∀ c, c < 256 → counts c = cnt L (fun s => S s < c))
    (hS : ∀ s, s < L → S s < 256) (p : Nat)
    (hp : bitSet (increaseorder inflags out0 S counts L) p) : bitSet out0 p ∨ p < L := by
  have hfin := forUp_inv (fun i (s : IncState) =>
      ({ contextstart := if getbit inflags i ≠ 0 then i else s.contextstart
         ct := s.ct.set (S i) (s.ct (S i) + 1)
         lastseen := if s.lastseen (S i) ≠ (if getbit inflags i ≠ 0 then i else s.contextstart)
           then s.lastseen.set (S i) (if getbit inflags i ≠ 0 then i else s.contextstart)
           else s.lastseen
         outflags := if s.lastseen (S i) ≠ (if getbit inflags i ≠ 0 then i else s.contextstart)
           then setbit s.outflags (s.ct (S i)) else s.outflags } : IncState))
    (fun m st => st.ct = (fun c => counts c + cnt m (fun s => S s = c)) ∧
      ∀ q, bitSet st.outflags q → bitSet out0 q ∨ q < L) 0 L
    ⟨0, counts, fun _ => 0xffffffff, out0⟩
    ⟨by funext c; rw [cnt_zero]; rfl, fun q hq => Or.inl hq⟩
    (fun m st hm inv => by
      rw [Nat.zero_add]
      obtain ⟨i1, i2⟩ := inv
      constructor
      · show st.ct.set (S m) (st.ct (S m) + 1) = _
        funext c
        rw [Mem.set_apply, i1, cnt_succ]
        by_cases hcm : c = S m
        · subst hcm
          rw [if_pos rfl, if_pos rfl]
          rfl
        · rw [if_neg hcm, if_neg (fun hh => hcm hh.symm)]
          rfl
      · intro q hq
        have hq2 : bitSet (if st.lastseen (S m) ≠
            (if getbit inflags m ≠ 0 then m else st.contextstart)
            then setbit st.outflags (st.ct (S m)) else st.outflags) q := hq
        by_cases hseen : st.lastseen (S m) ≠
            (if getbit inflags m ≠ 0 then m else st.contextstart)
        · rw [if_pos hseen] at hq2
          rcases (bitSet_setbit _ _ _).mp hq2 with h | h
          · right
            rw [h, i1]
            exact cursor_lt S counts L hc m (hS m hm) hm
          · exact i2 q h
        · rw [if_neg hseen] at hq2
          exact i2 q hq2)
  exact hfin.2 p hp

theorem flag_byte_in_bitmap (L p : Nat) (hp : p ≤ L) : p >>> 3 < (L + 8) >>> 3 := by
  rw [Nat.shiftRight_eq_div_pow, Nat.shiftRight_eq_div_pow]
  norm_num
  omega

/-- C37, as far as it holds: with `counts` the start offsets that `sz_unsrt` sums from the
byte histogram of a block of length `L`, every bit that `makeorder2` sets is at most `L`
and every bit that `increaseorder` adds is below `L`, so the bytes touched lie inside the
`(L + 8) >> 3` bytes of the bitmap, also over the turns of the loop of `sz_unsrt` that
swaps the two bitmaps; the bit `L` itself is set by `makeorder2` when the byte 255 does not
occur in the block. -/
theorem flag_bits_at_most_length (block : List Nat) (hbytes : ∀ b ∈ block, b < 256)
    (hlen : block.length < 4294967296) :
    (∀ p, bitSet (makeorder2 Mem.zero (Mem.ofList block)
        (sumReverse ALPHABETSIZE block.length (byteCounts block))) p →
      p ≤ block.length ∧ p >>> 3 < (block.length + 8) >>> 3) ∧
    (∀ (inflags outflags : Mem) (p : Nat),
      bitSet (increaseorder inflags outflags (Mem.ofList block)
        (sumReverse ALPHABETSIZE block.length (byteCounts block)) block.length) p →
      bitSet outflags p ∨ (p < block.length ∧ p >>> 3 < (block.length + 8) >>> 3)) ∧
    (∀ n p,
      bitSet (forUp (fun _ (f : Mem × Mem) =>
          (increaseorder f.1 f.2 (Mem.ofList block)
            (sumReverse ALPHABETSIZE block.length (byteCounts block)) block.length, f.1))
        2 n (makeorder2 Mem.zero (Mem.ofList block)
          (sumReverse ALPHABETSIZE block.length (byteCounts block)), Mem.zero)).1 p ∨
      bitSet (forUp (fun _ (f : Mem × Mem) =>
          (increaseorder f.1 f.2 (Mem.ofList block)
            (sumReverse ALPHABETSIZE block.length (byteCounts block)) block.length, f.1))
        2 n (makeorder2 Mem.zero (Mem.ofList block)
          (sumReverse ALPHABETSIZE block.length (byteCounts block)), Mem.zero)).2 p →
      p ≤ block.length) ∧
    (block.count 255 = 0 →
      bitSet (makeorder2 Mem.zero (Mem.ofList block)
        (sumReverse ALPHABETSIZE block.length (byteCounts block))) block.length) := by
  have hc : ∀ c, c < 256 → (sumReverse ALPHABETSIZE block.length (byteCounts block)) c
      = cnt block.length (fun s => (Mem.ofList block) s < c) :=
    fun c h => sumReverse_byteCounts block hbytes hlen c h
  have hS := ofList_lt block hbytes
  generalize sumReverse ALPHABETSIZE block.length (byteCounts block) = counts at hc
  have hc0 : counts 0 = 0 := by
    rw [hc 0 (by norm_num)]
    exact cnt_false _ _ (fun _ _ hh => by omega)
  have hmo : ∀ p, bitSet (makeorder2 Mem.zero (Mem.ofList block) counts) p →
      p ≤ block.length := by
    intro p hp
    obtain ⟨c, c2, h1, h2, h3⟩ := (makeorder2_bits _ counts block.length hc p).mp hp
    rw [h3]
    refine cursor_le _ counts block.length hc c _ h1 ?_
    rw [hc c2 (by omega)]
    exact cnt_le _ _
  refine ⟨fun p hp => ⟨hmo p hp, flag_byte_in_bitmap _ p (hmo p hp)⟩, ?_, ?_, ?_⟩
  · intro inflags outflags p hp
    rcases increaseorder_bits _ counts inflags outflags block.length hc hS p hp with h | h
    · exact Or.inl h
    · exact Or.inr ⟨h, flag_byte_in_bitmap _ p (by omega)⟩
  · intro n
    induction n with
    | zero =>
      intro p hp
      rw [forUp_zero] at hp
      dsimp only at hp
      rcases hp with h | h
      · exact hmo p h
      · exact absurd h (bitSet_zero p)
    | succ n ih =>
      intro p hp
      rw [forUp_succ] at hp
      dsimp only at hp
      rcases hp with h | h
      · rcases increaseorder_bits _ counts _ _ block.length hc hS p h with h2 | h2
        · exact ih p (Or.inr h2)
        · omega
      · exact ih p (Or.inl h)
  · intro h255
    rw [makeorder2_bits _ counts block.length hc]
    refine ⟨255, 0, by norm_num, by norm_num, ?_⟩
    rw [hc0, cnt_zero, hc 255 (by norm_num), Nat.add_zero]
    refine (cnt_true _ _ (fun i hi => ?_)).symm
    have h1 := hS i hi
    have h2 : (Mem.ofList block) i ≠ 255 := by
      intro hh
      have hm : (255 : Nat) ∈ block := by
        rw [← hh]
        simp only [Mem.ofList, List.getD_eq_getElem _ _ hi]
        exact List.getElem_mem _
      exact absurd h255 (Nat.pos_iff_ne_zero.mp (List.count_pos_iff.mpr hm))
    omega

/-- Witness for C37: the block 1, 0, 2, 0, 1, 1, in which the byte 255 does not occur. -/
theorem flag_bits_at_most_length_witness :
    (∀ p, bitSet (makeorder2 Mem.zero (Mem.ofList [1, 0, 2, 0, 1, 1])
        (sumReverse ALPHABETSIZE [1, 0, 2, 0, 1, 1].length (byteCounts [1, 0, 2, 0, 1, 1]))) p →
      p ≤ [1, 0, 2, 0, 1, 1].length ∧ p >>> 3 < ([1, 0, 2, 0, 1, 1].length + 8) >>> 3) ∧
    (∀ (inflags outflags : Mem) (p : Nat),
      bitSet (increaseorder inflags outflags (Mem.ofList [1, 0, 2, 0, 1, 1])
        (sumReverse ALPHABETSIZE [1, 0, 2, 0, 1, 1].length (byteCounts [1, 0, 2, 0, 1, 1]))
        [1, 0, 2, 0, 1, 1].length) p →
      bitSet outflags p ∨
        (p < [1, 0, 2, 0, 1, 1].length ∧ p >>> 3 < ([1, 0, 2, 0, 1, 1].length + 8) >>> 3)) ∧
    (∀ n p,
      bitSet (forUp (fun _ (f : Mem × Mem) =>
          (increaseorder f.1 f.2 (Mem.ofList [1, 0, 2, 0, 1, 1])
            (sumReverse ALPHABETSIZE [1, 0, 2, 0, 1, 1].length (byteCounts [1, 0, 2, 0, 1, 1]))
            [1, 0, 2, 0, 1, 1].length, f.1))
        2 n (makeorder2 Mem.zero (Mem.ofList [1, 0, 2, 0, 1, 1])
          (sumReverse ALPHABETSIZE [1, 0, 2, 0, 1, 1].length (byteCounts [1, 0, 2, 0, 1, 1])),
          Mem.zero)).1 p ∨
      bitSet (forUp (fun _ (f : Mem × Mem) =>
          (increaseorder f.1 f.2 (Mem.ofList [1, 0, 2, 0, 1, 1])
            (sumReverse ALPHABETSIZE [1, 0, 2, 0, 1, 1].length (byteCounts [1, 0, 2, 0, 1, 1]))
            [1, 0, 2, 0, 1, 1].length, f.1))
        2 n (makeorder2 Mem.zero (Mem.ofList [1, 0, 2, 0, 1, 1])
          (sumReverse ALPHABETSIZE [1, 0, 2, 0, 1, 1].length (byteCounts [1, 0, 2, 0, 1, 1])),
          Mem.zero)).2 p →
      p ≤ [1, 0, 2, 0, 1, 1].length) ∧
    ([1, 0, 2, 0, 1, 1].count 255 = 0 →
      bitSet (makeorder2 Mem.zero (Mem.ofList [1, 0, 2, 0, 1, 1])
        (sumReverse ALPHABETSIZE [1, 0, 2, 0, 1, 1].length (byteCounts [1, 0, 2, 0, 1, 1])))
        [1, 0, 2, 0, 1, 1].length) :=
  flag_bits_at_most_length [1, 0, 2, 0, 1, 1] (by decide) (by decide)

/-- Counterexample to C37 as stated: for the block of six bytes 0xFF all start offsets are
0, `makeorder2` passes only the index 0 to `setbit`, and the bit 6 = `L` stays clear. -/
theorem makeorder2_leaves_bit_L_clear :
    ¬ bitSet (makeorder2 Mem.zero (Mem.ofList [255, 255, 255, 255, 255, 255])
      (sumReverse ALPHABETSIZE 6 (byteCounts [255, 255, 255, 255, 255, 255]))) 6 := by
  have hc : ∀ c, c < 256 →
      (sumReverse ALPHABETSIZE 6 (byteCounts [255, 255, 255, 255, 255, 255])) c
        = cnt 6 (fun s => (Mem.ofList [255, 255, 255, 255, 255, 255]) s < c) :=
    fun c h => sumReverse_byteCounts [255, 255, 255, 255, 255, 255] (by decide) (by decide) c h
  have hS : ∀ i, i < 6 → (Mem.ofList [255, 255, 255, 255, 255, 255]) i = 255 := by
    intro i hi
    interval_cases i <;> rfl
  have hz : ∀ c, c < 256 →
      (sumReverse ALPHABETSIZE 6 (byteCounts [255, 255, 255, 255, 255, 255])) c = 0 := by
    intro c h
    rw [hc c h]
    exact cnt_false _ _ (fun i hi => by rw [hS i hi]; omega)
  intro hbit
  obtain ⟨c, c2, h1, h2, h3⟩ := (makeorder2_bits _ _ 6 hc 6).mp hbit
  rw [hz c h1, hz c2 (by omega), cnt_zero] at h3
  omega

theorem sortorder2_index_lt (length order : Nat) (h3 : 3 ≤ order) (hlt : order < length)
    (hbig : length + order ≤ 16777216) :
    ∀ k ∈ sortorder2_index length order, k < length + order := by
  intro k hk
  simp only [sortorder2_index, lastContextIndex, List.mem_append, List.mem_cons,
    List.mem_singleton, List.mem_range, List.mem_map, List.mem_flatten, List.not_mem_nil,
    or_false] at hk
  unfold u32sub at hk
  rcases hk with (((h | h) | h | h) | ⟨l, ⟨i, hi, hl⟩, hkl⟩) | ⟨i, hi, h⟩
  · omega
  · omega
  · omega
  · omega
  · rw [← hl] at hkl
    simp only [List.mem_cons, List.mem_singleton, List.not_mem_nil, or_false] at hkl
    rcases hkl with h | h | h <;> omega
  · omega

theorem passSlots_lt (indexlast length : Nat) (h : indexlast < length) :
    ∀ i ∈ passSlots indexlast length, i < length := by
  intro i hi
  simp only [passSlots, List.mem_append, List.mem_range, List.mem_map] at hi
  rcases hi with h1 | ⟨k, hk, h1⟩ <;> omega

/-- Every slot of the index of a sort pass holds the pointer of some position, which lies
between `order - 1` and `length + order - 2`. -/
theorem slot_pointer_range (inb : Mem) (L n j : Nat) (st : SortState) (hn : 3 ≤ n)
    (hnL : n < L) (inv : SortInv inb L n j st) (i : Nat) (hi : i < L) :
    n - 1 ≤ getptr st.p i ∧ getptr st.p i + 2 ≤ L + n := by
  obtain ⟨t, ht, hr⟩ := rk_surj (tkey inb L n j) L
    (fun a b ha hb h => tkey_inj inb L n j a b ha hb h) i hi
  have hp := inv.ptr t ht
  rw [hr] at hp
  rw [hp]
  unfold qptr
  split_ifs <;> omega

theorem indexlast_lt (inb : Mem) (L n j : Nat) (st : SortState) (hL : 0 < L)
    (inv : SortInv inb L n j st) : st.indexlast < L := by
  rw [inv.last]
  exact rk_lt _ L (L - 1) (by omega)

theorem incsortorder_index_lt (inb : Mem) (L n j offset : Nat) (st : SortState)
    (hn : 3 ≤ n) (hnL : n < L) (hbig : L + n ≤ 16777216) (ho : offset ≤ n - 2)
    (inv : SortInv inb L n j st) :
    ∀ k ∈ incsortorder_index offset L st, k < L + n := by
  intro k hk
  simp only [incsortorder_index, List.mem_map] at hk
  obtain ⟨i, hi, h⟩ := hk
  have hiL := passSlots_lt _ L (indexlast_lt inb L n j st (by omega) inv) i hi
  obtain ⟨a, b⟩ := slot_pointer_range inb L n j st hn hnL inv i hiL
  rw [u32sub_eq _ _ (by omega) (by omega)] at h
  omega

theorem finishsort_index_lt (inb : Mem) (L n j : Nat) (st : SortState)
    (hn : 3 ≤ n) (hnL : n < L) (hbig : L + n ≤ 16777216)
    (inv : SortInv inb L n j st) :
    ∀ k ∈ finishsort_index L st, k < L + n := by
  intro k hk
  simp only [finishsort_index, List.mem_append, List.mem_flatten, List.mem_map,
    List.mem_range] at hk
  rcases hk with ⟨l, ⟨i, hi, hl⟩, hkl⟩ | h
  · have hiL := passSlots_lt _ L (indexlast_lt inb L n j st (by omega) inv) i hi
    obtain ⟨a, b⟩ := slot_pointer_range inb L n j st hn hnL inv i hiL
    rw [← hl, u32sub_eq _ _ (by omega) (by omega)] at hkl
    simp only [List.mem_cons, List.mem_singleton, List.not_mem_nil, or_false] at hkl
    rcases hkl with h | h <;> omega
  · omega

/-- C25, as far as it holds: for a block of bytes with `3 ≤ order < length` (the calls that
`szip.c` makes) and `length + order ≤ 2^24` (pointers fit their slots), every index at
which `sz_srt` reads or writes the block buffer, in `sortorder2`, in every call of
`incsortorder` and in `finishsort`, lies in `[0, length + order)`; the states of the passes
are those of `sz_srt`. -/
theorem sz_srt_buffer_indices_in_range (inb : Mem) (length order : Nat) (h3 : 3 ≤ order)
    (hlt : order < length) (hB : ∀ i, i < length → inb i < 256)
    (hbig : length + order ≤ 16777216) :
    (∀ k ∈ sz_srt_index inb length order, k < length + order) ∧
    sz_srt_mem inb length order
      = finishsort length (passesDone inb length order (order - 3)) := by
  constructor
  · intro k hk
    simp only [sz_srt_index, List.mem_append, List.mem_flatten, List.mem_map,
      List.mem_range] at hk
    rcases hk with (h | ⟨l, ⟨m, hm, hl⟩, hkl⟩) | h
    · exact sortorder2_index_lt length order h3 hlt hbig k h
    · rw [← hl] at hkl
      exact incsortorder_index_lt inb length order _ _ _ h3 hlt hbig (by omega)
        (passesDone_inv inb length order h3 hlt hB hbig m (by omega)) k hkl
    · exact finishsort_index_lt inb length order _ _ h3 hlt hbig
        (passesDone_inv inb length order h3 hlt hB hbig (order - 3) (Nat.le_refl _)) k h
  · have h := passesDone_forDown inb length order (order - 3) (Nat.le_refl _)
    rw [Nat.sub_self] at h
    show finishsort length (forDown (fun k s => incsortorder (k + 2) length s) (order - 3)
      (sortorder2 PtrIndex.empty inb length order)) = _
    rw [← h]
    rfl

/-- Witness for C25: the block 0, 1, 2, 3, 4, 5 sorted with order 3. -/
theorem sz_srt_buffer_indices_in_range_witness :
    (∀ k ∈ sz_srt_index (Mem.ofList [0, 1, 2, 3, 4, 5]) 6 3, k < 6 + 3) ∧
    sz_srt_mem (Mem.ofList [0, 1, 2, 3, 4, 5]) 6 3
      = finishsort 6 (passesDone (Mem.ofList [0, 1, 2, 3, 4, 5]) 6 3 (3 - 3)) :=
  sz_srt_buffer_indices_in_range (Mem.ofList [0, 1, 2, 3, 4, 5]) 6 3 (by decide)
    (by decide) (by decide) (by decide)

/-- Counterexample to C25 as stated: for `length = order = 3`, which the documented
precondition `length >= order` admits, `sortorder2` reads `in[length - offset - 1]` at the
`uint4` index `0xffffffff`, outside `[0, length + order) = [0, 6)`. -/
theorem sz_srt_index_out_of_range_at_length_eq_order :
    4294967295 ∈ sz_srt_index (Mem.ofList [1, 2, 3]) 3 3 ∧ ¬ (4294967295 < 3 + 3) := by
  refine ⟨?_, by decide⟩
  unfold sz_srt_index
  refine List.mem_append_left _ (List.mem_append_left _ ?_)
  decide

theorem RLECmd.bytes_head (c : RLECmd) (h : RLECmd.valid c = true) :
    ∃ b tl, RLECmd.bytes c = b :: tl ∧ b &&& 0xC0 ≠ 0xC0 := by
  cases c with
  | transparent cmd =>
    simp only [RLECmd.valid, decide_eq_true_eq] at h
    exact ⟨cmd, [], rfl, by rw [h]; decide⟩
  | run cmd lit =>
    simp only [RLECmd.valid, decide_eq_true_eq] at h
    exact ⟨cmd, [lit], rfl, by rw [h.1]; decide⟩
  | literal cmd =>
    simp only [RLECmd.valid, decide_eq_true_eq] at h
    exact ⟨cmd, [], rfl, by rw [h]; decide⟩

theorem RLEParse.tail (X : RLECmd) (cmds : List RLECmd) (rest : List Nat)
    (h : RLEParse (X :: cmds) rest) : RLEParse cmds rest := by
  obtain ⟨h1, h2, h3⟩ := h
  refine ⟨fun c hc => h1 c (List.mem_cons_of_mem _ hc), ?_, h3⟩
  intro c hc
  cases cmds with
  | nil => simp at hc
  | cons a l =>
    rw [List.getLast?_cons_cons] at h2
    exact h2 c hc

theorem RLEParse.cons (X : RLECmd) (cmds : List RLECmd) (rest : List Nat)
    (hX : RLECmd.valid X = true)
    (hlit : RLECmd.isLiteral X = true → cmds = [] → ∀ b ∈ rest.head?, b &&& 0xC0 ≠ 0xC0)
    (h : RLEParse cmds rest) : RLEParse (X :: cmds) rest := by
  obtain ⟨h1, h2, h3⟩ := h
  refine ⟨?_, ?_, h3⟩
  · intro c hc
    rcases List.mem_cons.mp hc with e | e
    · rw [e]
      exact hX
    · exact h1 c e
  · intro c hc
    cases cmds with
    | nil =>
      simp only [List.getLast?_singleton, Option.mem_def, Option.some.injEq] at hc
      rw [← hc]
      exact fun hl => hlit hl rfl
    | cons a l =>
      rw [List.getLast?_cons_cons] at hc
      exact h2 c hc

/-- What follows an opaque literal pixel in a parse does not start with a byte with top
bits `11`. -/
theorem RLEParse.after_literal (cmd : Nat) (cmds : List RLECmd) (rest : List Nat)
    (h : RLEParse (RLECmd.literal cmd :: cmds) rest) :
    ∀ l ∈ ((cmds.map RLECmd.bytes).flatten ++ rest).head?, l &&& 0xC0 ≠ 0xC0 := by
  cases cmds with
  | nil =>
    intro l hl
    simp only [List.map_nil, List.flatten_nil, List.nil_append] at hl
    exact h.2.1 (RLECmd.literal cmd) (by simp) rfl l hl
  | cons Y l2 =>
    obtain ⟨b, tl, e, hb⟩ := RLECmd.bytes_head Y (h.1 Y (by simp))
    intro l hl
    rw [List.map_cons, List.flatten_cons, e] at hl
    simp only [List.cons_append, List.head?_cons, Option.mem_def, Option.some.injEq] at hl
    rw [← hl]
    exact hb

/-- On a parsed input `decodeRLE` returns the pixels of the commands, and the invalid
command, if any, is met right behind them. -/
theorem decodeRLE_of_parse : ∀ (cmds : List RLECmd) (rest : List Nat), RLEParse cmds rest →
    decodeRLE ((cmds.map RLECmd.bytes).flatten ++ rest) = (cmds.map RLECmd.pixels).flatten ∧
    decodeRLEStop ((cmds.map RLECmd.bytes).flatten ++ rest)
      = if rest = [] then none else some ((cmds.map RLECmd.bytes).flatten).length := by
  intro cmds
  induction cmds with
  | nil =>
    intro rest h
    cases rest with
    | nil => exact ⟨rfl, rfl⟩
    | cons b r =>
      have hb := h.2.2 b (by simp)
      have h40 : b &&& 0xC0 ≠ 0x40 := by
        rcases hb with e | e <;> rw [e] <;> decide
      have h80 : b &&& 0xC0 ≠ 0x80 := by
        rcases hb with e | e <;> rw [e] <;> decide
      simp only [List.map_nil, List.flatten_nil, List.nil_append, List.length_nil]
      rw [decodeRLE_invalid _ _ h40 h80, decodeRLEStop_invalid _ _ h40 h80,
        if_neg (List.cons_ne_nil _ _)]
      exact ⟨rfl, rfl⟩
  | cons X cmds ih =>
    intro rest h
    obtain ⟨ih1, ih2⟩ := ih rest (RLEParse.tail X cmds rest h)
    have hX := h.1 X (List.mem_cons_self _ _)
    cases X with
    | transparent cmd =>
      simp only [RLECmd.valid, decide_eq_true_eq] at hX
      simp only [List.map_cons, List.flatten_cons, RLECmd.bytes, RLECmd.pixels,
        List.cons_append, List.nil_append, List.length_cons]
      rw [decodeRLE_transparent _ _ hX, decodeRLEStop_transparent _ _ hX, ih1, ih2]
      refine ⟨rfl, ?_⟩
      by_cases hr : rest = []
      · rw [if_pos hr, if_pos hr]
        rfl
      · rw [if_neg hr, if_neg hr]
        rfl
    | run cmd lit =>
      simp only [RLECmd.valid, decide_eq_true_eq] at hX
      simp only [List.map_cons, List.flatten_cons, RLECmd.bytes, RLECmd.pixels,
        List.cons_append, List.nil_append, List.length_cons]
      rw [decodeRLE_run _ _ _ hX.1 hX.2, decodeRLEStop_run _ _ _ hX.1 hX.2, ih1, ih2]
      refine ⟨rfl, ?_⟩
      by_cases hr : rest = []
      · rw [if_pos hr, if_pos hr]
        rfl
      · rw [if_neg hr, if_neg hr]
        rfl
    | literal cmd =>
      have hl := RLEParse.after_literal cmd cmds rest h
      simp only [RLECmd.valid, decide_eq_true_eq] at hX
      simp only [List.map_cons, List.flatten_cons, RLECmd.bytes, RLECmd.pixels,
        List.cons_append, List.nil_append, List.length_cons]
      rw [decodeRLE_literal _ _ hX hl, decodeRLEStop_literal _ _ hX hl, ih1, ih2]
      refine ⟨rfl, ?_⟩
      by_cases hr : rest = []
      · rw [if_pos hr, if_pos hr]
        rfl
      · rw [if_neg hr, if_neg hr]
        rfl

/-- Every input has a parse: the commands up to the first invalid command or the end. -/
theorem parse_exists : ∀ (n : Nat) (input : List Nat), input.length ≤ n →
    ∃ cmds rest, input = (cmds.map RLECmd.bytes).flatten ++ rest ∧ RLEParse cmds rest := by
  intro n
  induction n with
  | zero =>
    intro input hn
    have e : input = [] := List.length_eq_zero.mp (by omega)
    subst e
    exact ⟨[], [], rfl, by decide⟩
  | succ n ih =>
    intro input hn
    cases input with
    | nil => exact ⟨[], [], rfl, by decide⟩
    | cons cmd tl =>
      have htl : tl.length ≤ n := by
        simp only [List.length_cons] at hn
        omega
      by_cases h40 : cmd &&& 0xC0 = 0x40
      · obtain ⟨cmds, rest, e, hp⟩ := ih tl htl
        refine ⟨RLECmd.transparent cmd :: cmds, rest, ?_, ?_⟩
        · rw [List.map_cons, List.flatten_cons, List.append_assoc, ← e]
          rfl
        · exact RLEParse.cons _ cmds rest (by simp [RLECmd.valid, h40])
            (fun hl => by simp [RLECmd.isLiteral] at hl) hp
      · by_cases h80 : cmd &&& 0xC0 = 0x80
        · by_cases hl : ∀ l ∈ tl.head?, l &&& 0xC0 ≠ 0xC0
          · obtain ⟨cmds, rest, e, hp⟩ := ih tl htl
            refine ⟨RLECmd.literal cmd :: cmds, rest, ?_, ?_⟩
            · rw [List.map_cons, List.flatten_cons, List.append_assoc, ← e]
              rfl
            · refine RLEParse.cons _ cmds rest (by simp [RLECmd.valid, h80]) ?_ hp
              intro _ hc
              rw [hc] at e
              simp only [List.map_nil, List.flatten_nil, List.nil_append] at e
              rw [← e]
              exact hl
          · cases tl with
            | nil => exact absurd (fun l h => by simp at h) hl
            | cons literal tl2 =>
              have hlit : literal &&& 0xC0 = 0xC0 := by
                by_contra hc
                exact hl (fun l h => by
                  simp only [List.head?_cons, Option.mem_def, Option.some.injEq] at h
                  rw [← h]
                  exact hc)
              have htl2 : tl2.length ≤ n := by
                simp only [List.length_cons] at htl
                omega
              obtain ⟨cmds, rest, e, hp⟩ := ih tl2 htl2
              refine ⟨RLECmd.run cmd literal :: cmds, rest, ?_, ?_⟩
              · rw [List.map_cons, List.flatten_cons, List.append_assoc, ← e]
                rfl
              · exact RLEParse.cons _ cmds rest (by simp [RLECmd.valid, h80, hlit])
                  (fun hl => by simp [RLECmd.isLiteral] at hl) hp
        · refine ⟨[], cmd :: tl, rfl, ?_, ?_, ?_⟩
          · intro c hc
            cases hc
          · intro c hc
            simp at hc
          · intro b hb
            simp only [List.head?_cons, Option.mem_def, Option.some.injEq] at hb
            rw [← hb]
            rcases top_bits cmd with h | h | h | h
            · exact Or.inl h
            · exact absurd h h40
            · exact absurd h h80
            · exact Or.inr h

/-- C36: every input splits into commands that `decodeRLE` accepts, followed by `rest`,
which is empty or starts, where a command byte is expected, with a byte whose top two
bits are `00` or `11`; and for every such split `decodeRLE` returns exactly the pixels of
the commands before `rest`, taking its invalid-command return at the first byte of `rest`
when `rest` is not empty and consuming the whole input when it is. -/
theorem decodeRLE_stops_at_first_invalid_command (input : List Nat) :
    (∃ cmds rest, input = (cmds.map RLECmd.bytes).flatten ++ rest ∧ RLEParse cmds rest) ∧
    (∀ cmds rest, input = (cmds.map RLECmd.bytes).flatten ++ rest → RLEParse cmds rest →
      decodeRLE input = (cmds.map RLECmd.pixels).flatten ∧
      decodeRLEStop input
        = if rest = [] then none else some ((cmds.map RLECmd.bytes).flatten).length) := by
  refine ⟨parse_exists input.length input (Nat.le_refl _), ?_⟩
  intro cmds rest e hp
  rw [e]
  exact decodeRLE_of_parse cmds rest hp

/-- Witness for C36: on `41 85 C7 83 05 80` the decoder reads a transparent run of 2, an
opaque run of 6 pixels `C7` and the literal pixel `C3`, and stops at the byte `05` of
index 4. -/
theorem decodeRLE_stops_at_first_invalid_command_witness :
    decodeRLE [0x41, 0x85, 0xC7, 0x83, 0x05, 0x80]
      = [0, 0, 0xC7, 0xC7, 0xC7, 0xC7, 0xC7, 0xC7, 0xC3] ∧
    decodeRLEStop [0x41, 0x85, 0xC7, 0x83, 0x05, 0x80] = some 4 :=
  (decodeRLE_stops_at_first_invalid_command [0x41, 0x85, 0xC7, 0x83, 0x05, 0x80]).2
    [RLECmd.transparent 0x41, RLECmd.run 0x85 0xC7, RLECmd.literal 0x83] [0x05, 0x80]
    rfl (by decide)

end Szip
